import Mathlib

/-!
# server_client_hierarchy: node lifecycle, hierarchy and queue processor

A shallow embedding of `node.go` and `queueprocessor.go`.

* Nodes are identified by a natural number (the identity of the `*Node`
  pointer returned by `GetNode`); the heap is a map from identities to
  `Node` records.
* A single-threaded call chain is modelled by `exec`, a fuel-indexed
  interpreter of the mutually recursive methods `Stop`, `AddClient`,
  `RemoveClient`, `removeAllClients` and `setServer`.  `sync.Mutex` is not
  re-entrant: locking a mutex the chain already holds never returns, which
  is the result `Res.deadlock`.
* A task is a function that honours the stop request: it runs until it
  receives on its stop channel and then returns.  Only the number of live
  task goroutines of a node is recorded.
-/

namespace SCH

/-! ## Constants and data model (node.go, lines 10-71) -/

def STATE_STOPPED : Nat := 0
def STATE_STARTING : Nat := 1
def STATE_RUNNING : Nat := 2
def STATE_STOPPING : Nat := 3

/-- A chunk of work; the payload is never interpreted. -/
abbrev Chunk := Nat

/-- The chunk handlers that occur in the program: the method value `n.Output`
installed by `input`, the closure installed by `Output` that feeds every client
of `n`, and handlers supplied by the caller, which are identified by a number
and whose invocations are recorded. -/
inductive Handler where
  | output (n : Nat)
  | fanout (n : Nat)
  | custom (h : Nat)
deriving DecidableEq, Repr

/-- The record `QueueProcessor` of queueprocessor.go.  `queue` is the FIFO
buffer (`none` until the first `Put`), `wg` the counter of the wait group. -/
structure QueueProcessor where
  queue : Option (List Chunk) := none
  chunkHandler : Option Handler := none
  wg : Nat := 0
  isProcessing : Bool := false
deriving DecidableEq, Repr

/-- The record `Node` of node.go.  `clientAddRemoveMutex` is `true` while the
mutex is held, `task` says whether a task is set, `taskLive` counts the
goroutines started by `Start` whose task has not returned yet. -/
structure Node where
  Ctx : Option Nat := none
  clientAddRemoveMutex : Bool := false
  server : Option Nat := none
  Clients : List Nat := []
  task : Bool := false
  taskStopCommandChannel : Bool := false
  taskLive : Nat := 0
  iQueue : Option QueueProcessor := none
  iChunkHandler : Option Handler := none
  oQueue : Option QueueProcessor := none
  oChunkHandler : Option Handler := none
  isPrincipallyClient : Bool := false
  state : Nat := 0
  removeAllClientsInProgress : Bool := false
deriving DecidableEq, Repr

/-- The names passed to `Trigger`. -/
inductive Event where
  | start
  | stop
deriving DecidableEq, Repr

/-- The heap of nodes together with what the program did to its environment:
the events triggered, the task goroutines spawned, the invocations of
caller-supplied handlers and the calls `state.Store` (node, value replaced,
value stored), each in order of occurrence. -/
structure World where
  nodes : Nat → Node
  events : List (Nat × Event) := []
  spawned : List Nat := []
  handled : List (Nat × Chunk) := []
  stores : List (Nat × Nat × Nat) := []

/-- Outcome of a call chain: it returned with world `w`; or it blocks for ever
in `Lock` on the mutex of node `n`, which the chain itself holds, or in the
send on the stop channel of node `n`, which no task receives from (`w` is the
world at that point); or the bound on nesting was reached. -/
inductive Res where
  | ok (w : World)
  | deadlock (n : Nat) (w : World)
  | hang (n : Nat) (w : World)
  | outOfFuel

/-- Sequencing of call chains: a chain that does not return stops there. -/
def Res.bind (r : Res) (f : World → Res) : Res :=
  match r with
  | Res.ok w => f w
  | Res.deadlock n w => Res.deadlock n w
  | Res.hang n w => Res.hang n w
  | Res.outOfFuel => Res.outOfFuel

/-- The world a chain returned with, if it returned. -/
def Res.world? (r : Res) : Option World :=
  match r with
  | Res.ok w => some w
  | _ => none

/-- Whether the chain returned. -/
def Res.returns (r : Res) : Bool :=
  match r with
  | Res.ok _ => true
  | _ => false

/-- Replace the record of node `n`. -/
def World.set (w : World) (n : Nat) (nd : Node) : World :=
  { w with nodes := Function.update w.nodes n nd }

/-- Apply `f` to the record of node `n`. -/
def World.modify (w : World) (n : Nat) (f : Node → Node) : World :=
  w.set n (f (w.nodes n))

/-- The call `n.Trigger(e)`. -/
def Trigger (n : Nat) (e : Event) (w : World) : World :=
  { w with events := w.events ++ [(n, e)] }

/-- The call `n.state.Store(x)`. -/
def store (n : Nat) (x : Nat) (w : World) : World :=
  { (w.modify n (fun d => { d with state := x })) with
    stores := w.stores ++ [(n, (w.nodes n).state, x)] }

def Node.IsRunning (nd : Node) : Bool := nd.state == STATE_RUNNING
def Node.isStopped (nd : Node) : Bool := nd.state == STATE_STOPPED
def Node.IsStopping (nd : Node) : Bool := nd.state == STATE_STOPPING

/-! ## Queue processor as used by a node (queueprocessor.go, lines 18-30) -/

/-- The body of `Put` up to the point where the worker is spawned: nothing
without a handler, otherwise the buffer is created on demand, the wait group
is incremented and the chunk is appended. -/
def QueueProcessor.Put (q : QueueProcessor) (chunk : Chunk) : QueueProcessor :=
  match q.chunkHandler with
  | none => q
  | some _ =>
    { q with queue := some ((q.queue.getD []) ++ [chunk]), wg := q.wg + 1 }

/-- The chunks waiting in the buffer. -/
def QueueProcessor.pending (q : QueueProcessor) : List Chunk := q.queue.getD []

/-! ## Chunk routing (node.go, lines 85-121) -/

/-- The method `input`. -/
def input (n : Nat) (chunk : Chunk) (w : World) : World :=
  let nd := w.nodes n
  if nd.IsRunning then
    let nd1 : Node :=
      match nd.iQueue with
      | none =>
        let nd2 : Node :=
          match nd.iChunkHandler with
          | none => { nd with iChunkHandler := some (Handler.output n) }
          | some _ => nd
        { nd2 with iQueue := some { chunkHandler := nd2.iChunkHandler } }
      | some _ => nd
    match nd1.iQueue with
    | some q => w.set n { nd1 with iQueue := some (q.Put chunk) }
    | none => w.set n nd1
  else w

/-- The method `Output`. -/
def Output (n : Nat) (chunk : Chunk) (w : World) : World :=
  let nd := w.nodes n
  if nd.IsRunning then
    let nd1 : Node :=
      if nd.oQueue.isNone && (!nd.isPrincipallyClient || nd.oChunkHandler.isSome) then
        let nd2 : Node :=
          match nd.oChunkHandler with
          | none => { nd with oChunkHandler := some (Handler.fanout n) }
          | some _ => nd
        { nd2 with oQueue := some { chunkHandler := nd2.oChunkHandler } }
      else nd
    match nd1.oQueue with
    | some q => w.set n { nd1 with oQueue := some (q.Put chunk) }
    | none => w.set n nd1
  else w

/-- The node record after `Output` has bound a new output queue to handler `h`
and enqueued `chunk` on it. -/
def Node.firstOutput (nd : Node) (h : Handler) (chunk : Chunk) : Node :=
  { nd with oChunkHandler := some h, oQueue := some { queue := some [chunk], wg := 1, chunkHandler := some h } }

/-- The method `SetOChunkHandler` (node.go, lines 80-82). -/
def SetOChunkHandler (n : Nat) (h : Option Handler) (w : World) : World :=
  w.modify n (fun d => { d with oChunkHandler := h })


/-- One invocation of a chunk handler. -/
def Handler.call (h : Handler) (chunk : Chunk) (w : World) : World :=
  match h with
  | Handler.output n => Output n chunk w
  | Handler.fanout n => (w.nodes n).Clients.foldl (fun acc cl => input cl chunk acc) w
  | Handler.custom k => { w with handled := w.handled ++ [(k, chunk)] }

/-! ## Draining the queues (queueprocessor.go, lines 32-45; node.go, lines 271-283) -/

/-- The input (`false`) or output (`true`) queue of a node record. -/
def Node.getQ (o : Bool) (nd : Node) : Option QueueProcessor :=
  if o then nd.oQueue else nd.iQueue

/-- Store the input (`false`) or output (`true`) queue of a node record. -/
def Node.setQ (o : Bool) (nd : Node) (q : Option QueueProcessor) : Node :=
  if o then { nd with oQueue := q } else { nd with iQueue := q }

/-- One iteration of the worker loop of `processChunks` on a queue of node
`n`: the head of the buffer is taken out, the handler is invoked on it and the
wait group is decremented.  `none` when the buffer is empty. -/
def workerStep (n : Nat) (o : Bool) (w : World) : Option World :=
  match (w.nodes n).getQ o with
  | none => none
  | some q =>
    match q.queue with
    | none => none
    | some [] => none
    | some (x :: rest) =>
      let w1 := w.modify n (fun nd => nd.setQ o (some { q with queue := some rest, isProcessing := true }))
      let w2 :=
        match q.chunkHandler with
        | some h => h.call x w1
        | none => w1
      some (w2.modify n (fun nd =>
        nd.setQ o ((nd.getQ o).map (fun q2 => { q2 with wg := q2.wg - 1, isProcessing := false }))))

/-- The call `Wait` on a queue of node `n`, together with the worker it waits
for: it returns once the buffer is empty. -/
def waitQ : Nat → Nat → Bool → World → Res
  | 0, _, _, _ => Res.outOfFuel
  | fuel + 1, n, o, w =>
    match workerStep n o w with
    | none => Res.ok w
    | some w1 => waitQ fuel n o w1

/-- The method `flushQueues`. -/
def flushQueues : Nat → Nat → World → Res
  | 0, _, _ => Res.outOfFuel
  | fuel + 1, n, w =>
    let r1 :=
      match (w.nodes n).iQueue with
      | some _ => (waitQ fuel n false w).bind (fun w1 => Res.ok (w1.modify n (fun nd => { nd with iQueue := none })))
      | none => Res.ok w
    let r2 := r1.bind (fun w1 =>
      match (w1.nodes n).oQueue with
      | some _ => (waitQ fuel n true w1).bind (fun w2 => Res.ok (w2.modify n (fun nd => { nd with oQueue := none })))
      | none => Res.ok w1)
    r2.bind (fun w2 =>
      (w2.nodes n).Clients.foldl (fun acc cl => acc.bind (flushQueues fuel cl)) (Res.ok w2))

/-! ## Lifecycle and hierarchy (node.go, lines 128-138 and 166-269) -/

/-- The method `Start`. -/
def Start (n : Nat) (w : World) : World :=
  let nd := w.nodes n
  if nd.isStopped then
    let w1 := store n STATE_STARTING w
    let w2 : World :=
      if nd.task then
        { (w1.modify n (fun d => { d with taskStopCommandChannel := true, taskLive := d.taskLive + 1 })) with
          spawned := w1.spawned ++ [n] }
      else w1
    let w3 := store n STATE_RUNNING w2
    Trigger n Event.start w3
  else w

/-- The method `SetContext`. -/
def SetContext (n : Nat) (ctx : Option Nat) (w : World) : World :=
  w.modify n (fun d => { d with Ctx := ctx })

/-- The call `clientAddRemoveMutex.Lock()` of node `n`, continued by `k`. -/
def lock (n : Nat) (w : World) (k : World → Res) : Res :=
  if (w.nodes n).clientAddRemoveMutex then Res.deadlock n w
  else k (w.modify n (fun d => { d with clientAddRemoveMutex := true }))

/-- The deferred call `clientAddRemoveMutex.Unlock()` of node `n`. -/
def unlock (n : Nat) (w : World) : World :=
  w.modify n (fun d => { d with clientAddRemoveMutex := false })

/-- The methods that call each other. -/
inductive Call where
  | Stop (n : Nat)
  | AddClient (n c : Nat)
  | RemoveClient (n c : Nat)
  | removeAllClients (n : Nat)
  | setServer (n : Nat) (server : Option Nat)
deriving DecidableEq, Repr

/-- A call chain started by one method call, with a bound on the depth of
nested calls. -/
def exec : Nat → Call → World → Res
  | 0, _, _ => Res.outOfFuel
  | fuel + 1, Call.Stop n, w =>
    if (w.nodes n).IsRunning then
      let w1 := store n STATE_STOPPING w
      let r1 : Res :=
        if (w1.nodes n).task then
          if (w1.nodes n).taskStopCommandChannel && decide (0 < (w1.nodes n).taskLive) then
            Res.ok (w1.modify n (fun d => { d with taskLive := d.taskLive - 1 }))
          else Res.hang n w1
        else Res.ok w1
      ((r1.bind (flushQueues fuel n)).bind (exec fuel (Call.removeAllClients n))).bind (fun w4 =>
        let r5 : Res :=
          match (w4.nodes n).server with
          | some s => exec fuel (Call.RemoveClient s n) w4
          | none => Res.ok w4
        r5.bind (fun w5 =>
          Res.ok (Trigger n Event.stop (store n STATE_STOPPED w5))))
    else Res.ok w
  | fuel + 1, Call.AddClient n c, w =>
    lock n w (fun w1 =>
      let w2 := w1.modify n (fun d => { d with Clients := d.Clients ++ [c] })
      let w3 :=
        match (w2.nodes n).Ctx with
        | some ctx => SetContext c (some ctx) w2
        | none => w2
      (exec fuel (Call.setServer c (some n)) w3).bind (fun w4 =>
        let w5 := if !(w4.nodes n).isPrincipallyClient then Start n w4 else w4
        Res.ok (unlock n w5)))
  | fuel + 1, Call.RemoveClient n c, w =>
    if !(w.nodes n).removeAllClientsInProgress then
      lock n w (fun w1 =>
        let idx := (w1.nodes n).Clients.indexOf c
        if idx < (w1.nodes n).Clients.length then
          let w2 := w1.modify n (fun d => { d with Clients := d.Clients.eraseIdx idx })
          (exec fuel (Call.setServer c none) w2).bind (fun w3 =>
            let r4 : Res :=
              if (w3.nodes n).Clients.length == 0 && !(w3.nodes n).isPrincipallyClient then
                exec fuel (Call.Stop n) w3
              else Res.ok w3
            r4.bind (fun w4 => Res.ok (unlock n w4)))
        else Res.ok (unlock n w1))
    else Res.ok w
  | fuel + 1, Call.removeAllClients n, w =>
    if 0 < (w.nodes n).Clients.length then
      let w1 := w.modify n (fun d => { d with removeAllClientsInProgress := true })
      lock n w1 (fun w2 =>
        let r3 := (w2.nodes n).Clients.foldl
          (fun acc client => acc.bind (exec fuel (Call.setServer client none))) (Res.ok w2)
        r3.bind (fun w3 =>
          let w4 := w3.modify n (fun d => { d with Clients := [] })
          let r5 : Res :=
            if !(w4.nodes n).isPrincipallyClient then exec fuel (Call.Stop n) w4 else Res.ok w4
          r5.bind (fun w5 =>
            Res.ok (unlock n (w5.modify n (fun d => { d with removeAllClientsInProgress := false }))))))
    else Res.ok w
  | fuel + 1, Call.setServer n server, w =>
    let r1 : Res :=
      match server with
      | none => exec fuel (Call.removeAllClients n) w
      | some _ => Res.ok w
    r1.bind (fun w1 =>
      let w2 := w1.modify n (fun d => { d with server := server })
      match (w2.nodes n).server with
      | none => exec fuel (Call.Stop n) w2
      | some _ => Res.ok (Start n w2))

/-! ## Public operations and runs -/

/-- The operations a caller or a worker performs on nodes: the public methods,
`input`, and one iteration of the worker of a queue. -/
inductive Op where
  | Start (n : Nat)
  | Stop (n : Nat)
  | AddClient (n c : Nat)
  | RemoveClient (n c : Nat)
  | input (n : Nat) (chunk : Chunk)
  | Output (n : Nat) (chunk : Chunk)
  | worker (n : Nat) (o : Bool)
deriving DecidableEq, Repr

/-- Perform one operation, with nesting bound `fuel`. -/
def Op.run (fuel : Nat) (op : Op) (w : World) : Res :=
  match op with
  | Op.Start n => Res.ok (SCH.Start n w)
  | Op.Stop n => exec fuel (Call.Stop n) w
  | Op.AddClient n c => exec fuel (Call.AddClient n c) w
  | Op.RemoveClient n c => exec fuel (Call.RemoveClient n c) w
  | Op.input n chunk => Res.ok (SCH.input n chunk w)
  | Op.Output n chunk => Res.ok (SCH.Output n chunk w)
  | Op.worker n o => Res.ok ((workerStep n o w).getD w)

/-- Perform operations one after the other. -/
def runOps (fuel : Nat) (ops : List Op) (w : World) : Res :=
  ops.foldl (fun acc op => acc.bind (Op.run fuel op)) (Res.ok w)

/-! ## Predicates used in the statements -/

/-- The property `Q` holds of the world the chain returned with or is blocked in. -/
def Res.All (r : Res) (Q : World → Prop) : Prop :=
  match r with
  | Res.ok w => Q w
  | Res.deadlock _ w => Q w
  | Res.hang _ w => Q w
  | Res.outOfFuel => True

/-- The fields of a node record other than its queues and chunk handlers. -/
def Node.life (nd : Node) : Node :=
  { nd with iQueue := none, oQueue := none, iChunkHandler := none, oChunkHandler := none }

/-- The two worlds differ at most in queues, chunk handlers and the record of
handler invocations. -/
def SameLife (w w2 : World) : Prop :=
  (∀ m, (w2.nodes m).life = (w.nodes m).life) ∧ w2.events = w.events ∧
    w2.spawned = w.spawned ∧ w2.stores = w.stores

/-- A recorded `state.Store` is one of the four steps of the state machine. -/
def allowedStore (t : Nat × Nat × Nat) : Prop :=
  (t.2.1 = STATE_STOPPED ∧ t.2.2 = STATE_STARTING) ∨
  (t.2.1 = STATE_STARTING ∧ t.2.2 = STATE_RUNNING) ∨
  (t.2.1 = STATE_RUNNING ∧ t.2.2 = STATE_STOPPING) ∨
  (t.2.1 = STATE_STOPPING ∧ t.2.2 = STATE_STOPPED)

/-- From `w` to `w2` only allowed stores were made, and a node that is
Stopping in `w` is still Stopping in `w2`. -/
def StoresOK (w w2 : World) : Prop :=
  (∃ l, w2.stores = w.stores ++ l ∧ ∀ t ∈ l, allowedStore t) ∧
    ∀ m, (w.nodes m).state = STATE_STOPPING → (w2.nodes m).state = STATE_STOPPING

/-! ## Relations between the worlds before and after a detach or a stop -/

/-- The fields of a node record that hierarchy and lifecycle invariants read. -/
def Node.tv (nd : Node) : Bool × Option Nat × Nat × List Nat × Bool × Bool :=
  (nd.isPrincipallyClient, nd.server, nd.state, nd.Clients, nd.removeAllClientsInProgress,
    nd.clientAddRemoveMutex)

/-- How `Stop`, `RemoveClient`, `removeAllClients` and `setServer(nil)` may
change one node record between call and return: the policy flag is kept; the
server is kept or cleared; the state is kept or goes from Running to Stopped; a
client-only node that went from Running to Stopped has no server; a client-only
node whose server was cleared is not Running; a server-like node that went from
Running to Stopped has no clients; no client is gained; a bulk detach that was
not in progress is not in progress; the mutex is as it was. -/
def TearsAt (a b : Node) : Prop :=
  b.isPrincipallyClient = a.isPrincipallyClient ∧
  (b.server = a.server ∨ b.server = none) ∧
  (b.state = a.state ∨ (a.state = STATE_RUNNING ∧ b.state = STATE_STOPPED)) ∧
  (a.isPrincipallyClient = true → a.state = STATE_RUNNING → b.state = STATE_STOPPED →
    b.server = none) ∧
  (a.isPrincipallyClient = true → a.server ≠ none → b.server = none →
    b.state ≠ STATE_RUNNING) ∧
  (a.isPrincipallyClient = false → a.state = STATE_RUNNING → b.state = STATE_STOPPED →
    b.Clients = []) ∧
  (∀ x ∈ b.Clients, x ∈ a.Clients) ∧
  (a.removeAllClientsInProgress = false → b.removeAllClientsInProgress = false) ∧
  b.clientAddRemoveMutex = a.clientAddRemoveMutex

/-- A node that left a `Clients` list has no server. -/
def Dropped (w w2 : World) : Prop :=
  ∀ p x, x ∈ (w.nodes p).Clients → x ∉ (w2.nodes p).Clients → (w2.nodes x).server = none

/-- The relation between the worlds at call and at return of `Stop`,
`RemoveClient`, `removeAllClients` and `setServer(nil)`. -/
def Tears (w w2 : World) : Prop :=
  (∀ m, TearsAt (w.nodes m) (w2.nodes m)) ∧ Dropped w w2

/-- The calls that only detach and stop. -/
def Call.tears (c : Call) : Prop :=
  match c with
  | Call.AddClient _ _ => False
  | Call.setServer _ (some _) => False
  | _ => True

/-- What holds whenever `Stop` is called on a client-only node: its server, if
it has one, lists it and is not in a bulk detach. -/
def Call.pre (c : Call) (w : World) : Prop :=
  match c with
  | Call.Stop n => (w.nodes n).isPrincipallyClient = true → ∀ p, (w.nodes n).server = some p →
      n ∈ (w.nodes p).Clients ∧ (w.nodes p).removeAllClientsInProgress = false
  | _ => True

/-- What a call has established when it returns: after `Stop` the node is not
Running; after `setServer(nil)` the server is cleared; after `RemoveClient` of a
listed client, outside a bulk detach, that client has no server; after
`removeAllClients` the list of clients is empty. -/
def Call.post (c : Call) (w w2 : World) : Prop :=
  match c with
  | Call.Stop n => (w2.nodes n).state ≠ STATE_RUNNING
  | Call.setServer n none => (w2.nodes n).server = none
  | Call.RemoveClient p c =>
    c ∈ (w.nodes p).Clients → (w.nodes p).removeAllClientsInProgress = false →
      (w2.nodes c).server = none
  | Call.removeAllClients n => (w2.nodes n).Clients = []
  | _ => True

/-- The list of clients of a node whose mutex is held is the same in `w2` as
in `w`, and the mutex is still held. -/
def Held (w w2 : World) : Prop :=
  ∀ p, (w.nodes p).clientAddRemoveMutex = true →
    (w2.nodes p).Clients = (w.nodes p).Clients ∧ (w2.nodes p).clientAddRemoveMutex = true


/-- From `w` to `w2` no node became Running, and the events triggered are
"stop" events of nodes that were Running in `w`. -/
def EventsOK (w w2 : World) : Prop :=
  (∀ m, (w2.nodes m).state = STATE_RUNNING → (w.nodes m).state = STATE_RUNNING) ∧
  ∃ l, w2.events = w.events ++ l ∧
    ∀ e ∈ l, e.2 = Event.stop ∧ (w.nodes e.1).state = STATE_RUNNING


/-- Every queue of a node that is Stopped or Stopping is nil, except the
queues `X` says are still to be flushed. -/
def Flushed (X : Nat → Bool → Prop) (w : World) : Prop :=
  ∀ m o, ¬ X m o →
    ((w.nodes m).state = STATE_STOPPED ∨ (w.nodes m).state = STATE_STOPPING) →
    (w.nodes m).getQ o = none


/-- From `w` to `w2` every list of clients lost entries at most, every server
reference was kept or cleared, and a node whose server reference was cleared is
no longer listed by that server, the nodes in `ex` excepted. -/
def Unlist (ex : Nat → Prop) (w w2 : World) : Prop :=
  (∀ p, (w2.nodes p).Clients.Sublist (w.nodes p).Clients) ∧
  (∀ m, (w2.nodes m).server = (w.nodes m).server ∨ (w2.nodes m).server = none) ∧
  (∀ y p, ¬ ex y → (w.nodes y).server = some p → (w2.nodes y).server = none →
    y ∉ (w2.nodes p).Clients)

/-- A listed client has the listing node as server, or none. -/
def WeakListed (w : World) : Prop :=
  ∀ p x, x ∈ (w.nodes p).Clients → (w.nodes x).server = some p ∨ (w.nodes x).server = none

/-- No node lists a client twice. -/
def NodupAll (w : World) : Prop := ∀ p, (w.nodes p).Clients.Nodup

/-- A listed client has the listing node as server. -/
def Listed (w : World) : Prop :=
  ∀ p x, x ∈ (w.nodes p).Clients → (w.nodes x).server = some p

/-- The node whose server reference the call clears while a caller may still
list it: the receiver of `setServer(nil)`. -/
def Call.exempt (c : Call) : Nat → Prop :=
  match c with
  | Call.setServer n none => fun y => y = n
  | _ => fun _ => False

/-- Every `AddClient(n, c)` of the run is made when `c` has no server. -/
def AttachesDetached (fuel : Nat) : List Op → World → Prop
  | [], _ => True
  | op :: t, w =>
    (∀ n c, op = Op.AddClient n c → (w.nodes c).server = none) ∧
    ∀ w1, Op.run fuel op w = Res.ok w1 → AttachesDetached fuel t w1


/-- The property `Q` holds of the world the chain returned with, if it returned. -/
def Res.Ok (r : Res) (Q : World → Prop) : Prop :=
  ∀ w, r = Res.ok w → Q w

/-- Every node is as `NewNode` leaves it, up to the configuration the caller
assigns before use (policy flag, task, chunk handlers, context). -/
def Fresh (w : World) : Prop :=
  ∀ m, (w.nodes m).state = STATE_STOPPED ∧ (w.nodes m).server = none ∧
    (w.nodes m).Clients = [] ∧ (w.nodes m).clientAddRemoveMutex = false ∧
    (w.nodes m).removeAllClientsInProgress = false

/-- What holds between public operations in every run from fresh nodes: no
mutex is held and no bulk detach is in progress; every node is Stopped or
Running; a node is listed by its server; a server-like node that is Stopped has
no clients. -/
def AtRest (w : World) : Prop :=
  (∀ m, (w.nodes m).clientAddRemoveMutex = false ∧
    (w.nodes m).removeAllClientsInProgress = false ∧
    ((w.nodes m).state = STATE_STOPPED ∨ (w.nodes m).state = STATE_RUNNING)) ∧
  (∀ m p, (w.nodes m).server = some p → m ∈ (w.nodes p).Clients) ∧
  (∀ m, (w.nodes m).isPrincipallyClient = false → (w.nodes m).state = STATE_STOPPED →
    (w.nodes m).Clients = [])

/-- Every client-only node is Running exactly when it has a server. -/
def Tracks (w : World) : Prop :=
  ∀ m, (w.nodes m).isPrincipallyClient = true →
    ((w.nodes m).state = STATE_RUNNING ↔ (w.nodes m).server ≠ none)

/-! ## The queue processor with its goroutines (queueprocessor.go, lines 18-45)

One caller performs `Put x1; ...; Put xn; Wait`; every `go q.processChunks()`
adds a worker.  A step of the system is one step of the caller, of a worker
that waits for the mutex `m`, or of the worker that holds it.  The handler
records the chunks it is invoked on. -/

/-- Where the caller is: between calls, inside `Put` after `wg.Add(1)`, inside
`Put` after `queue.Put(chunk)`, blocked in `Wait`, or back from `Wait`. -/
inductive MainPC where
  | idle
  | added (x : Chunk)
  | enqueued (x : Chunk)
  | waiting
  | returned
deriving DecidableEq, Repr

/-- Where the worker that holds the mutex is in `processChunks`: after `Lock`,
at the loop test, after `Get` returned `x`, after the handler returned, after
the loop, and after `isProcessing = false` (about to unlock). -/
inductive WorkerPC where
  | locked
  | loop
  | got (x : Chunk)
  | called
  | exiting
  | unlocking
deriving DecidableEq, Repr

/-- A queue processor, its caller and its workers.  `m` is the worker holding
the mutex, if any; `spawned` counts the workers blocked in `Lock`; `handled`
lists the handler invocations. -/
structure QPState where
  q : QueueProcessor
  m : Option WorkerPC := none
  spawned : Nat := 0
  handled : List Chunk := []
  main : MainPC := MainPC.idle
  todo : List Chunk := []
deriving DecidableEq, Repr

/-- The thread that takes the next step. -/
inductive QPAct where
  | main
  | lock
  | worker
deriving DecidableEq, Repr

/-- One step of the caller. -/
def qpMainStep (s : QPState) : Option QPState :=
  match s.main with
  | MainPC.idle =>
    match s.todo with
    | [] => some { s with main := MainPC.waiting }
    | x :: rest =>
      match s.q.chunkHandler with
      | none => some { s with todo := rest }
      | some _ =>
        some { s with
          q := { s.q with queue := some (s.q.queue.getD []), wg := s.q.wg + 1 },
          main := MainPC.added x, todo := rest }
  | MainPC.added x =>
    some { s with q := { s.q with queue := some (s.q.queue.getD [] ++ [x]) },
                  main := MainPC.enqueued x }
  | MainPC.enqueued _ =>
    if !s.q.isProcessing then some { s with spawned := s.spawned + 1, main := MainPC.idle }
    else some { s with main := MainPC.idle }
  | MainPC.waiting => if s.q.wg = 0 then some { s with main := MainPC.returned } else none
  | MainPC.returned => none

/-- A waiting worker acquires the mutex. -/
def qpLockStep (s : QPState) : Option QPState :=
  match s.m, s.spawned with
  | none, k + 1 => some { s with m := some WorkerPC.locked, spawned := k }
  | _, _ => none

/-- One step of the worker that holds the mutex. -/
def qpWorkerStep (s : QPState) : Option QPState :=
  match s.m with
  | none => none
  | some WorkerPC.locked =>
    some { s with q := { s.q with isProcessing := true }, m := some WorkerPC.loop }
  | some WorkerPC.loop =>
    match s.q.queue.getD [] with
    | [] => some { s with m := some WorkerPC.exiting }
    | x :: rest => some { s with q := { s.q with queue := some rest }, m := some (WorkerPC.got x) }
  | some (WorkerPC.got x) =>
    some { s with handled := s.handled ++ [x], m := some WorkerPC.called }
  | some WorkerPC.called =>
    some { s with q := { s.q with wg := s.q.wg - 1 }, m := some WorkerPC.loop }
  | some WorkerPC.exiting =>
    some { s with q := { s.q with isProcessing := false }, m := some WorkerPC.unlocking }
  | some WorkerPC.unlocking => some { s with m := none }

/-- One step of the system; `none` when the chosen thread is blocked or does
not exist. -/
def qpStep (a : QPAct) (s : QPState) : Option QPState :=
  match a with
  | QPAct.main => qpMainStep s
  | QPAct.lock => qpLockStep s
  | QPAct.worker => qpWorkerStep s

/-- The steps of a schedule, one after the other. -/
def qpRun (sched : List QPAct) (s : QPState) : Option QPState :=
  sched.foldl (fun acc a => acc.bind (qpStep a)) (some s)

/-- A new queue processor with handler `h` whose caller is about to put `xs`
and then wait. -/
def qpInit (h : Handler) (xs : List Chunk) : QPState :=
  { q := { chunkHandler := some h }, todo := xs }

/-- The schedule in which every chunk is handled before the next `Put`. -/
def qpEager : Nat → List QPAct
  | 0 => [QPAct.main, QPAct.main]
  | n + 1 =>
    [QPAct.main, QPAct.main, QPAct.main, QPAct.lock] ++ List.replicate 7 QPAct.worker ++ qpEager n

/-- The chunk the caller has counted in `wg` but not yet enqueued. -/
def MainPC.pendingChunk (p : MainPC) : List Chunk :=
  match p with
  | MainPC.added x => [x]
  | _ => []

/-- The chunk a worker has taken out of the buffer and not yet handled. -/
def inflight (m : Option WorkerPC) : List Chunk :=
  match m with
  | some (WorkerPC.got x) => [x]
  | _ => []

/-- The number of chunks taken out of the buffer whose `wg.Done()` is due. -/
def undone (m : Option WorkerPC) : Nat :=
  match m with
  | some (WorkerPC.got _) => 1
  | some WorkerPC.called => 1
  | _ => 0

/-- The invariant of the system for the chunks `xs`. -/
def QPInv (xs : List Chunk) (s : QPState) : Prop :=
  s.q.chunkHandler.isSome = true ∧
  s.handled ++ inflight s.m ++ s.q.queue.getD [] ++ s.main.pendingChunk ++ s.todo = xs ∧
  s.q.wg = (s.q.queue.getD []).length + undone s.m + s.main.pendingChunk.length ∧
  ((s.main = MainPC.waiting ∨ s.main = MainPC.returned) → s.todo = []) ∧
  (s.main = MainPC.returned → s.q.wg = 0)


/-- An interleaving for the puts of `TestQP`: three puts, then the first worker
takes the mutex and the first chunk, then four more puts, then the worker
drains the buffer and leaves, then `Wait`. -/
def qpTestSchedule : List QPAct :=
  List.replicate 9 QPAct.main ++ [QPAct.lock, QPAct.worker, QPAct.worker] ++
    List.replicate 12 QPAct.main ++ List.replicate 23 QPAct.worker ++ [QPAct.main, QPAct.main]

/-- The state `qpTestSchedule` ends in: two of the three workers that were
spawned still wait for the mutex. -/
def qpTestFinal : QPState :=
  { q := { queue := some [], chunkHandler := some (Handler.custom 0) }, spawned := 2,
    handled := [5, 2, 1, 1, 1, 1, 1], main := MainPC.returned }

/-- An interleaving of `Put x; Put y; Wait` with the worker: the worker
handles `x` and finds the buffer empty; the caller then puts `y` and, reading
`isProcessing` still true, starts no worker; the worker clears `isProcessing`,
unlocks and ends; the caller enters `Wait`. -/
def qpStrandSchedule : List QPAct :=
  [QPAct.main, QPAct.main, QPAct.main, QPAct.lock] ++ List.replicate 5 QPAct.worker ++
    [QPAct.main, QPAct.main, QPAct.main, QPAct.worker, QPAct.worker, QPAct.main]

/-- The state `qpStrandSchedule` ends in: `y` is in the buffer, the wait group
counts 1, no worker holds or waits for the mutex, the caller is in `Wait`. -/
def qpStranded (h : Handler) (x y : Chunk) : QPState :=
  { q := { queue := some [y], chunkHandler := some h, wg := 1 }, handled := [x], main := MainPC.waiting }


/-! ## Well-formed trees of nodes -/

/-- Node `m` is `c` or a descendant of `c` along the `Clients` lists. -/
inductive Sub (w : World) (c : Nat) : Nat → Prop where
  | self : Sub w c c
  | child {p m : Nat} : Sub w c p → m ∈ (w.nodes p).Clients → Sub w c m

/-- Node `a` is `p` or an ancestor of `p` along the `server` references. -/
inductive Anc (w : World) (p : Nat) : Nat → Prop where
  | self : Anc w p p
  | parent {a g : Nat} : Anc w p a → (w.nodes a).server = some g → Anc w p g

/-- Every child has a smaller rank than its parent: the `Clients` lists have
no cycle. -/
def Ranked (w : World) (rk : Nat → Nat) : Prop :=
  ∀ m, ∀ k ∈ (w.nodes m).Clients, rk k < rk m

/-- A node at rest: its mutex is free, no bulk detach is in progress, it is
Stopped or Running, and when it is Running with a task, the goroutine of that
task is live and the stop channels exist. -/
def Node.calm (nd : Node) : Prop :=
  nd.clientAddRemoveMutex = false ∧ nd.removeAllClientsInProgress = false ∧
  (nd.state = STATE_STOPPED ∨ nd.state = STATE_RUNNING) ∧
  (nd.state = STATE_RUNNING → nd.task = true →
    nd.taskStopCommandChannel = true ∧ 0 < nd.taskLive)

/-- The subtree of `c` is at rest, and each of its nodes is the `server` of
each of its clients, none of which it lists twice. -/
def DownPre (w : World) (c : Nat) : Prop :=
  ∀ m, Sub w c m → (w.nodes m).calm ∧ (w.nodes m).Clients.Nodup ∧
    ∀ k ∈ (w.nodes m).Clients, (w.nodes k).server = some m

/-- A well-formed forest at rest: every node is at rest, lists no client
twice, is the `server` of each of its clients and a client of its `server`,
and ranks decrease from parent to child. -/
def WF (w : World) (rk : Nat → Nat) : Prop :=
  Ranked w rk ∧ ∀ m, (w.nodes m).calm ∧ (w.nodes m).Clients.Nodup ∧
    (∀ k ∈ (w.nodes m).Clients, (w.nodes k).server = some m) ∧
    (∀ g, (w.nodes m).server = some g → m ∈ (w.nodes g).Clients)

/-- No chunk waits in any queue. -/
def Quiet (w : World) : Prop :=
  ∀ m o q, (w.nodes m).getQ o = some q → q.queue.getD [] = []

/-- What `Stop`, reached through a detach, leaves of a node record, queues and
handlers apart: Stopped, without server and clients, its task told to stop. -/
def Node.torn (nd : Node) : Node :=
  { nd.life with
    state := STATE_STOPPED, server := none, Clients := [],
    taskLive := if nd.state = STATE_RUNNING ∧ nd.task = true then nd.taskLive - 1
                else nd.taskLive }

/-- The chain returned in a world satisfying `post`; it is not blocked; and
the bound on nesting was not reached if `enough` holds. -/
def Res.Sat (r : Res) (post : World → Prop) (enough : Prop) : Prop :=
  match r with
  | Res.ok w => post w
  | Res.deadlock _ _ => False
  | Res.hang _ _ => False
  | Res.outOfFuel => ¬ enough


/-- The record of a node, queues and handlers apart, when `Stop` has told its
task to stop. -/
def Node.stopping (nd : Node) : Node :=
  { nd.life with
    state := STATE_STOPPING,
    taskLive := if nd.task = true then nd.taskLive - 1 else nd.taskLive }

/-- The record of a node, queues and handlers apart, when `Stop` has stopped
it without detaching it. -/
def Node.stopped (nd : Node) : Node :=
  { nd.life with
    state := STATE_STOPPED,
    taskLive := if nd.task = true then nd.taskLive - 1 else nd.taskLive }

/-- World `w2` differs from `w` in the record of node `c` only, which is `nd`,
queues and handlers apart. -/
def OnlyAt (w : World) (c : Nat) (nd : Node) (w2 : World) : Prop :=
  (w2.nodes c).life = nd ∧ (∀ m, m ≠ c → (w2.nodes m).life = (w.nodes m).life) ∧
    (Quiet w → Quiet w2)


/-- World `w2` is `w` with the subtree of `c` torn down: every node of the
subtree is Stopped without server and clients, every other node is as it was,
queues and handlers apart. -/
def TornSub (w : World) (c : Nat) (w2 : World) : Prop :=
  (∀ m, Sub w c m → (w2.nodes m).life = (w.nodes m).torn) ∧
  (∀ m, ¬ Sub w c m → (w2.nodes m).life = (w.nodes m).life) ∧ (Quiet w → Quiet w2)

/-- World `w2` is `w` with the subtrees of the nodes `ks` torn down. -/
def TornSubs (w : World) (ks : List Nat) (w2 : World) : Prop :=
  (∀ m, (∃ c ∈ ks, Sub w c m) → (w2.nodes m).life = (w.nodes m).torn) ∧
  (∀ m, (¬ ∃ c ∈ ks, Sub w c m) → (w2.nodes m).life = (w.nodes m).life) ∧ (Quiet w → Quiet w2)


/-- What `removeAllClients` leaves of a node record, queues and handlers
apart: nothing changes without clients; otherwise the clients are gone and a
server-like node that was Running is Stopped. -/
def Node.emptied (nd : Node) : Node :=
  if nd.Clients = [] then nd.life
  else if nd.isPrincipallyClient = false ∧ nd.state = STATE_RUNNING then
    { nd.stopped with Clients := [] }
  else { nd.life with Clients := [] }

/-- World `w2` is `w` after `c.removeAllClients()`: the subtrees of the clients
of `c` are torn down, `c` is emptied, every other node is as it was. -/
def EmptiedSub (w : World) (c : Nat) (w2 : World) : Prop :=
  (w2.nodes c).life = (w.nodes c).emptied ∧
  (∀ m, Sub w c m → m ≠ c → (w2.nodes m).life = (w.nodes m).torn) ∧
  (∀ m, ¬ Sub w c m → (w2.nodes m).life = (w.nodes m).life) ∧ (Quiet w → Quiet w2)


/-- Detaching `c` empties its server `p` and makes it stop: `c` is the only
client of `p`, and `p` is server-like and Running. -/
def Emptied (w : World) (c p : Nat) : Prop :=
  (w.nodes c).server = some p ∧ (w.nodes p).Clients.erase c = [] ∧
    (w.nodes p).isPrincipallyClient = false ∧ (w.nodes p).state = STATE_RUNNING

/-- The ancestors of `c` that stop when `c` is detached, from the server of `c`
upward: each is emptied by the departure of the one before. -/
inductive CascadeOf (w : World) : Nat → List Nat → Prop where
  | stop {c : Nat} : (∀ p, ¬ Emptied w c p) → CascadeOf w c []
  | step {c p : Nat} {l : List Nat} : Emptied w c p → CascadeOf w p l → CascadeOf w c (p :: l)

/-- What a detach leaves of the record of the detached node, queues and
handlers apart: a Running node is torn down, any other only loses its server. -/
def Node.detached (nd : Node) : Node :=
  if nd.state = STATE_RUNNING then nd.torn else { nd.life with server := none }

/-- The record of a node that lost the client `c`, queues and handlers apart. -/
def Node.without (nd : Node) (c : Nat) : Node :=
  { nd.life with Clients := nd.Clients.erase c }

/-- World `w2` is `w` after the client `c` has been detached from its server and
the ancestors `l` have stopped in cascade: `c` is detached, the nodes of `l` are
torn down, the server of the last stopped node lost that client, and every
other node is as it was. -/
def DetachedUp (w : World) (c : Nat) (l : List Nat) (w2 : World) : Prop :=
  (w2.nodes c).life = (w.nodes c).detached ∧
  (∀ a ∈ l, (w2.nodes a).life = (w.nodes a).torn) ∧
  (∀ m, m ≠ c → m ∉ l →
    ((w.nodes (l.getLastD c)).server = some m →
      (w2.nodes m).life = (w.nodes m).without (l.getLastD c)) ∧
    ((w.nodes (l.getLastD c)).server ≠ some m → (w2.nodes m).life = (w.nodes m).life)) ∧
  (Quiet w → Quiet w2)

/-- The node `p` and its ancestors are at rest, each of them is listed in the
`Clients` of its `server`, which has a greater rank, and no rank exceeds `R`. -/
def UpCalm (w : World) (rk : Nat → Nat) (R : Nat) (p : Nat) : Prop :=
  ∀ a, Anc w p a → (w.nodes a).calm ∧ rk a ≤ R ∧
    ∀ g, (w.nodes a).server = some g → a ∈ (w.nodes g).Clients ∧ rk a < rk g


/-- What `RemoveClient(p, c)` has done when it reaches the test on the number
of clients left: it holds the mutex of `p`, `c` is erased from the clients of
`p` and detached. -/
def DetachedFrom (w : World) (p c : Nat) (w2 : World) : Prop :=
  (w2.nodes c).life = (w.nodes c).detached ∧
  (w2.nodes p).life = { (w.nodes p).without c with clientAddRemoveMutex := true } ∧
  (∀ m, m ≠ c → m ≠ p → (w2.nodes m).life = (w.nodes m).life) ∧ (Quiet w → Quiet w2)


/-- Node `c` can run a bulk detach: its mutex is free, no bulk detach of it is
in progress, its task (if it is Running) can be stopped, it lists no client
twice, and each client refers to it and heads a subtree at rest. -/
def DownRoot (w : World) (c : Nat) : Prop :=
  (w.nodes c).clientAddRemoveMutex = false ∧ (w.nodes c).removeAllClientsInProgress = false ∧
  ((w.nodes c).state = STATE_RUNNING → (w.nodes c).task = true →
    (w.nodes c).taskStopCommandChannel = true ∧ 0 < (w.nodes c).taskLive) ∧
  (w.nodes c).Clients.Nodup ∧
  ∀ k ∈ (w.nodes c).Clients, (w.nodes k).server = some c ∧ DownPre w k


/-- World `w2` is `w` after `n.Stop()` on a Running node: `n` and its subtree
are torn down, the ancestors `l` have stopped in cascade, the server of the
last stopped node lost that client, and every other node is as it was. -/
def StoppedTop (w : World) (n : Nat) (l : List Nat) (w2 : World) : Prop :=
  (∀ m, Sub w n m → (w2.nodes m).life = (w.nodes m).torn) ∧
  (∀ a ∈ l, (w2.nodes a).life = (w.nodes a).torn) ∧
  (∀ m, ¬ Sub w n m → m ∉ l →
    ((w.nodes (l.getLastD n)).server = some m →
      (w2.nodes m).life = (w.nodes m).without (l.getLastD n)) ∧
    ((w.nodes (l.getLastD n)).server ≠ some m → (w2.nodes m).life = (w.nodes m).life)) ∧
  (Quiet w → Quiet w2)


/-! ## Chunks on their way through a chain of nodes -/

/-- The chunks waiting in the input (`false`) or output (`true`) queue of a
node record; none when the queue does not exist. -/
def Node.pend (o : Bool) (nd : Node) : List Chunk :=
  match nd.getQ o with
  | some q => q.pending
  | none => []

/-- Node `n` is Running and carries chunks by default on the input side (no
input handler, or the forwarding one `input` installs) and by `oh` on the
output side (`oh` is its handler, or none is set and `oh` is the fan-out one of
a server-like node); its queues, where they exist, are bound to these handlers
and hold `pi` and `po`. -/
def PNode (n : Nat) (nd : Node) (oh : Handler) (pi po : List Chunk) : Prop :=
  nd.state = STATE_RUNNING ∧
  (nd.iChunkHandler = none ∨ nd.iChunkHandler = some (Handler.output n)) ∧
  (∀ q, nd.iQueue = some q → q.chunkHandler = some (Handler.output n)) ∧
  ((nd.oChunkHandler = none ∧ nd.isPrincipallyClient = false ∧ oh = Handler.fanout n) ∨
    nd.oChunkHandler = some oh) ∧
  (∀ q, nd.oQueue = some q → q.chunkHandler = some oh) ∧
  nd.pend false = pi ∧ nd.pend true = po

/-- The chunks on their way in a chain S → S2 → C, queue by queue. -/
structure InFlight where
  si : List Chunk := []
  so : List Chunk := []
  s2i : List Chunk := []
  s2o : List Chunk := []
  ci : List Chunk := []
  co : List Chunk := []

/-- The chunks on their way, those nearest to the handler of C first. -/
def InFlight.all (f : InFlight) : List Chunk :=
  f.co ++ f.ci ++ f.s2o ++ f.s2i ++ f.so ++ f.si

/-- World `w` holds the chain `s` → `s2` → `c`: `s` and `s2` are server-like
and fan out to their one client, `c` is client-only with the caller's output
handler `h`, the three carry the chunks `f`, and no chunk waits elsewhere. -/
def Pipe (s s2 c h : Nat) (f : InFlight) (w : World) : Prop :=
  s ≠ s2 ∧ s ≠ c ∧ s2 ≠ c ∧
  PNode s (w.nodes s) (Handler.fanout s) f.si f.so ∧ (w.nodes s).Clients = [s2] ∧
  (w.nodes s).isPrincipallyClient = false ∧
  PNode s2 (w.nodes s2) (Handler.fanout s2) f.s2i f.s2o ∧ (w.nodes s2).Clients = [c] ∧
  (w.nodes s2).isPrincipallyClient = false ∧
  PNode c (w.nodes c) (Handler.custom h) f.ci f.co ∧
  (w.nodes c).isPrincipallyClient = true ∧
  (∀ m, m ≠ s → m ≠ s2 → m ≠ c → ∀ o, (w.nodes m).pend o = [])

/-- The operations of a run that feeds the chain at `s`, through `input` or
through `Output` as `viaOutput` says, while the queue workers run. -/
def Op.feeds (s : Nat) (viaOutput : Bool) (op : Op) : Prop :=
  match op with
  | Op.input n _ => n = s ∧ viaOutput = false
  | Op.Output n _ => n = s ∧ viaOutput = true
  | Op.worker _ _ => True
  | _ => False

/-- The chunk an operation pushes. -/
def Op.pushed (op : Op) : Option Chunk :=
  match op with
  | Op.input _ x => some x
  | Op.Output _ x => some x
  | _ => none

/-- What one operation of a feeding run does to the chunks on their way in the
chain `s` → `s2` → `c`, and the chunks it delivers to the handler of `c`. -/
def InFlight.step (s s2 c : Nat) (op : Op) (f : InFlight) : InFlight × List Chunk :=
  match op with
  | Op.input _ x => ({ f with si := f.si ++ [x] }, [])
  | Op.Output _ x => ({ f with so := f.so ++ [x] }, [])
  | Op.worker n o =>
    if n = s then
      if o then
        match f.so with
        | [] => (f, [])
        | x :: r => ({ f with so := r, s2i := f.s2i ++ [x] }, [])
      else
        match f.si with
        | [] => (f, [])
        | x :: r => ({ f with si := r, so := f.so ++ [x] }, [])
    else if n = s2 then
      if o then
        match f.s2o with
        | [] => (f, [])
        | x :: r => ({ f with s2o := r, ci := f.ci ++ [x] }, [])
      else
        match f.s2i with
        | [] => (f, [])
        | x :: r => ({ f with s2i := r, s2o := f.s2o ++ [x] }, [])
    else if n = c then
      if o then
        match f.co with
        | [] => (f, [])
        | x :: r => ({ f with co := r }, [x])
      else
        match f.ci with
        | [] => (f, [])
        | x :: r => ({ f with ci := r, co := f.co ++ [x] }, [])
    else (f, [])
  | _ => (f, [])


/-- The run that pushes one chunk at `s` and lets it travel to the handler of
`c` before the next one is pushed. -/
def eagerFeed (s s2 c : Nat) (viaOutput : Bool) : List Chunk → List Op
  | [] => []
  | x :: xs =>
    [if viaOutput then Op.Output s x else Op.input s x, Op.worker s false, Op.worker s true,
      Op.worker s2 false, Op.worker s2 true, Op.worker c false, Op.worker c true] ++
      eagerFeed s s2 c viaOutput xs


/-! ## Worlds used as concrete inputs -/

/-- A freshly constructed node as `newTestServerNode` of node_test.go makes
it: server-like, with a task that returns when told to stop. -/
def newTestServerNode : Node := { task := true }

/-- A freshly constructed node as `newTestClientNode` of node_test.go makes
it: client-only, without a task. -/
def newTestClientNode : Node := { isPrincipallyClient := true }

/-- Run calls one after the other, each with nesting bound `fuel`. -/
def runCalls (fuel : Nat) (cs : List Call) (w : World) : Res :=
  cs.foldl (fun acc c => acc.bind (exec fuel c)) (Res.ok w)

/-- The world a result carries; the given world when the bound was reached. -/
def Res.getD (r : Res) (w0 : World) : World :=
  match r with
  | Res.ok w => w
  | Res.deadlock _ w => w
  | Res.hang _ w => w
  | Res.outOfFuel => w0

/-- Fresh test server nodes everywhere. -/
def freshServers : World := { nodes := fun _ => newTestServerNode }

/-- Fresh test client nodes everywhere. -/
def freshClients : World := { nodes := fun _ => newTestClientNode }


/-- Fresh test server nodes, except for node 2, a fresh test client node. -/
def freshLeafClient : World :=
  { nodes := fun i => if i = 2 then newTestClientNode else newTestServerNode }

/-- A fresh test server node 0 after `Start(); Output(5)` and then
`SetOChunkHandler` with the caller's handler 7. -/
def rehandledServer : World :=
  SetOChunkHandler 0 (some (Handler.custom 7)) (Output 0 5 (Start 0 freshServers))

/-- A fresh test client node 0 after `SetOChunkHandler` with the caller's
handler 7, `Start(); Output(5)` and then `SetOChunkHandler(nil)`. -/
def unhandledClient : World :=
  SetOChunkHandler 0 none
    (Output 0 5 (Start 0 (SetOChunkHandler 0 (some (Handler.custom 7)) freshClients)))


/-- Fresh test server nodes, node 0 holding the context 7. -/
def ctxRoot : World :=
  { nodes := fun i => if i = 0 then { newTestServerNode with Ctx := some 7 } else newTestServerNode }


/-- The chain 0 → 1 → 2 of test server nodes, built by `AddClient`. -/
def chainABC : World :=
  (runCalls 3 [Call.AddClient 0 1, Call.AddClient 1 2] freshServers).getD freshServers

/-- The chain 0 → 1 → 2 whose leaf is a test client node, built by `AddClient`. -/
def chainLeafClient : World :=
  (runCalls 3 [Call.AddClient 0 1, Call.AddClient 1 2] freshLeafClient).getD freshLeafClient

/-- The ranks 2, 1, 0 for the nodes 0, 1, 2 of a chain 0 → 1 → 2. -/
def chainRank (i : Nat) : Nat := 2 - i


/-- Node 0 with the two clients 1 and 2, all test server nodes, built by
`AddClient` as in `TestBasicHierarchy`. -/
def twoClients : World :=
  (runCalls 3 [Call.AddClient 0 1, Call.AddClient 0 2] freshServers).getD freshServers

/-- The rank 1 for node 0 and 0 for every other node. -/
def starRank (i : Nat) : Nat := if i = 0 then 1 else 0


/-- What a feeding run does to the chunks on their way, and the chunks it
delivers to the handler of `c`, in order. -/
def InFlight.run (s s2 c : Nat) : List Op → InFlight → InFlight × List Chunk
  | [], f => (f, [])
  | op :: t, f =>
    ((InFlight.run s s2 c t (f.step s s2 c op).1).1,
      (f.step s s2 c op).2 ++ (InFlight.run s s2 c t (f.step s s2 c op).1).2)


/-- The chain 0 → 1 → 2 of `Test3LevelChunkPassFromServerToClient`: two test
server nodes and a test client node whose output handler is the caller's
handler 0. -/
def pipeChain : World := SetOChunkHandler 2 (some (Handler.custom 0)) chainLeafClient


/-- Fresh test server nodes after `AddClient(0, 1)` has been called twice. -/
def attachedTwice : World :=
  (runOps 3 [Op.AddClient 0 1, Op.AddClient 0 1] freshServers).getD freshServers

/-- Node 0 with the clients 1 and 2 at the point where `removeAllClients` of
node 0 has set `removeAllClientsInProgress` and locked the mutex, before it
detaches the first client. -/
def bulkDetaching : World :=
  (twoClients.modify 0 (fun d => { d with removeAllClientsInProgress := true })).modify 0
    (fun d => { d with clientAddRemoveMutex := true })

/-- Node 0 with the clients 1 and 2 while a call holds the mutex of node 0. -/
def lockedTwoClients : World :=
  twoClients.modify 0 (fun d => { d with clientAddRemoveMutex := true })

/-- The chain of `pipeChain` after the chunk 5 has travelled from `input` of
node 0 to the handler 0 of node 2 and `SetOChunkHandler` has then given node 2
the caller's handler 3. -/
def staleChain : World :=
  SetOChunkHandler 2 (some (Handler.custom 3))
    ((runOps 0 (eagerFeed 0 1 2 false [5]) pipeChain).getD pipeChain)



/-! ## Theorems -/

/-! ### Reading a world after an update -/

@[simp] theorem World.set_nodes (w : World) (n : Nat) (nd : Node) (m : Nat) :
    (w.set n nd).nodes m = if m = n then nd else w.nodes m := by
  simp [World.set, Function.update_apply]

@[simp] theorem World.set_events (w : World) (n : Nat) (nd : Node) :
    (w.set n nd).events = w.events := rfl

@[simp] theorem World.set_spawned (w : World) (n : Nat) (nd : Node) :
    (w.set n nd).spawned = w.spawned := rfl

@[simp] theorem World.set_handled (w : World) (n : Nat) (nd : Node) :
    (w.set n nd).handled = w.handled := rfl

@[simp] theorem World.set_stores (w : World) (n : Nat) (nd : Node) :
    (w.set n nd).stores = w.stores := rfl

@[simp] theorem World.modify_nodes (w : World) (n : Nat) (f : Node → Node) (m : Nat) :
    (w.modify n f).nodes m = if m = n then f (w.nodes n) else w.nodes m := by
  simp [World.modify]

@[simp] theorem World.modify_events (w : World) (n : Nat) (f : Node → Node) :
    (w.modify n f).events = w.events := rfl

@[simp] theorem World.modify_spawned (w : World) (n : Nat) (f : Node → Node) :
    (w.modify n f).spawned = w.spawned := rfl

@[simp] theorem World.modify_handled (w : World) (n : Nat) (f : Node → Node) :
    (w.modify n f).handled = w.handled := rfl

@[simp] theorem World.modify_stores (w : World) (n : Nat) (f : Node → Node) :
    (w.modify n f).stores = w.stores := rfl

theorem World.ext_iff2 (w w2 : World) :
    w = w2 ↔ w.nodes = w2.nodes ∧ w.events = w2.events ∧ w.spawned = w2.spawned ∧
      w.handled = w2.handled ∧ w.stores = w2.stores := by
  cases w; cases w2; simp

theorem World.set_self (w : World) (n : Nat) : w.set n (w.nodes n) = w := by
  simp [World.set]

@[simp] theorem Trigger_nodes (n : Nat) (e : Event) (w : World) :
    (Trigger n e w).nodes = w.nodes := rfl

@[simp] theorem Trigger_stores (n : Nat) (e : Event) (w : World) :
    (Trigger n e w).stores = w.stores := rfl

@[simp] theorem Trigger_events (n : Nat) (e : Event) (w : World) :
    (Trigger n e w).events = w.events ++ [(n, e)] := rfl

@[simp] theorem store_nodes (n x : Nat) (w : World) (m : Nat) :
    (store n x w).nodes m = if m = n then { w.nodes n with state := x } else w.nodes m := by
  simp [store]

@[simp] theorem store_stores (n x : Nat) (w : World) :
    (store n x w).stores = w.stores ++ [(n, (w.nodes n).state, x)] := rfl

@[simp] theorem store_events (n x : Nat) (w : World) : (store n x w).events = w.events := rfl

@[simp] theorem store_spawned (n x : Nat) (w : World) : (store n x w).spawned = w.spawned := rfl

@[simp] theorem unlock_nodes (n : Nat) (w : World) (m : Nat) :
    (unlock n w).nodes m =
      if m = n then { w.nodes n with clientAddRemoveMutex := false } else w.nodes m := by
  simp [unlock]

@[simp] theorem unlock_stores (n : Nat) (w : World) : (unlock n w).stores = w.stores := rfl

@[simp] theorem unlock_events (n : Nat) (w : World) : (unlock n w).events = w.events := rfl

@[simp] theorem SetContext_nodes (n : Nat) (c : Option Nat) (w : World) (m : Nat) :
    (SetContext n c w).nodes m = if m = n then { w.nodes n with Ctx := c } else w.nodes m := by
  simp [SetContext]

@[simp] theorem SetContext_stores (n : Nat) (c : Option Nat) (w : World) :
    (SetContext n c w).stores = w.stores := rfl

@[simp] theorem Res.bind_ok (w : World) (f : World → Res) : (Res.ok w).bind f = f w := rfl

@[simp] theorem Res.bind_deadlock (n : Nat) (w : World) (f : World → Res) :
    (Res.deadlock n w).bind f = Res.deadlock n w := rfl

@[simp] theorem Res.bind_hang (n : Nat) (w : World) (f : World → Res) :
    (Res.hang n w).bind f = Res.hang n w := rfl

@[simp] theorem Res.bind_outOfFuel (f : World → Res) : Res.outOfFuel.bind f = Res.outOfFuel := rfl

theorem Res.bind_eq_ok {r : Res} {f : World → Res} {w2 : World} (h : r.bind f = Res.ok w2) :
    ∃ w1, r = Res.ok w1 ∧ f w1 = Res.ok w2 := by
  cases r <;> simp at h
  exact ⟨_, rfl, h⟩

/-! ### Chunk routing leaves lifecycle and hierarchy alone -/

theorem SameLife.reflL (w : World) : SameLife w w := ⟨fun _ => rfl, rfl, rfl, rfl⟩

theorem SameLife.transL {w w1 w2 : World} (h1 : SameLife w w1) (h2 : SameLife w1 w2) :
    SameLife w w2 :=
  ⟨fun m => (h2.1 m).trans (h1.1 m), h2.2.1.trans h1.2.1, h2.2.2.1.trans h1.2.2.1,
    h2.2.2.2.trans h1.2.2.2⟩

theorem SameLife.set {w : World} {n : Nat} {nd : Node} (h : nd.life = (w.nodes n).life) :
    SameLife w (w.set n nd) := by
  refine ⟨fun m => ?_, rfl, rfl, rfl⟩
  by_cases hm : m = n
  · subst hm; simp [h]
  · simp [hm]

theorem SameLife.modifyL {w : World} {n : Nat} {f : Node → Node}
    (h : (f (w.nodes n)).life = (w.nodes n).life) : SameLife w (w.modify n f) :=
  SameLife.set h

theorem input_sameLife (n : Nat) (chunk : Chunk) (w : World) : SameLife w (input n chunk w) := by
  unfold input
  simp only []
  split
  · split <;> apply SameLife.set <;> (split <;> (try split)) <;> simp_all [Node.life]
  · exact SameLife.reflL w

theorem Output_sameLife (n : Nat) (chunk : Chunk) (w : World) : SameLife w (Output n chunk w) := by
  unfold Output
  simp only []
  split
  · split <;> apply SameLife.set <;> (split <;> (try split)) <;> simp_all [Node.life]
  · exact SameLife.reflL w

theorem foldl_input_sameLife (l : List Nat) (chunk : Chunk) (w : World) :
    SameLife w (l.foldl (fun acc cl => input cl chunk acc) w) := by
  induction l generalizing w with
  | nil => exact SameLife.reflL w
  | cons a t ih => exact (input_sameLife a chunk w).transL (ih _)

theorem Handler.call_sameLife (h : Handler) (chunk : Chunk) (w : World) :
    SameLife w (h.call chunk w) := by
  cases h with
  | output n => exact Output_sameLife n chunk w
  | fanout n => exact foldl_input_sameLife _ chunk w
  | custom k => exact ⟨fun _ => rfl, rfl, rfl, rfl⟩

theorem Node.setQ_life (o : Bool) (nd : Node) (q : Option QueueProcessor) :
    (nd.setQ o q).life = nd.life := by
  cases o <;> simp [Node.setQ, Node.life]

theorem SameLife.modify_setQ {w w2 : World} (h : SameLife w w2) (n : Nat) (o : Bool)
    (g : Node → Option QueueProcessor) :
    SameLife w (w2.modify n (fun nd => nd.setQ o (g nd))) :=
  h.transL (SameLife.modifyL (Node.setQ_life _ _ _))

theorem workerStep_sameLife {n : Nat} {o : Bool} {w w1 : World}
    (h : workerStep n o w = some w1) : SameLife w w1 := by
  unfold workerStep at h
  split at h
  · simp at h
  · split at h
    · simp at h
    · simp at h
    · simp only [Option.some.injEq] at h
      subst h
      refine SameLife.modify_setQ ?_ n o _
      split
      · exact (SameLife.modify_setQ (SameLife.reflL w) n o _).transL (Handler.call_sameLife _ _ _)
      · exact SameLife.modify_setQ (SameLife.reflL w) n o _

theorem Res.All.mono {r : Res} {P Q : World → Prop} (h : r.All P) (hPQ : ∀ w, P w → Q w) :
    r.All Q := by
  cases r <;> simp_all [Res.All]

theorem Res.All.bind {r : Res} {f : World → Res} {P Q : World → Prop} (h : r.All P)
    (hstuck : ∀ w, P w → Q w) (hf : ∀ w, P w → (f w).All Q) : (r.bind f).All Q := by
  cases r <;> simp_all [Res.All, Res.bind]

theorem Res.All.of_ok {r : Res} {Q : World → Prop} {w : World} (h : r.All Q) (hr : r = Res.ok w) :
    Q w := by
  subst hr; exact h

theorem waitQ_sameLife (fuel n : Nat) (o : Bool) (w : World) :
    (waitQ fuel n o w).All (SameLife w) := by
  induction fuel generalizing w with
  | zero => simp [waitQ, Res.All]
  | succ k ih =>
    unfold waitQ
    split
    · exact SameLife.reflL w
    · rename_i w1 h1
      exact (ih w1).mono (fun _ h => (workerStep_sameLife h1).transL h)

theorem foldl_bind_all {α : Type} (g : α → World → Res) (R : World → World → Prop)
    (htrans : ∀ a b c, R a b → R b c → R a c)
    (hg : ∀ a w, (g a w).All (R w)) (l : List α) (r : Res) (w : World) (hr : r.All (R w)) :
    (l.foldl (fun acc a => acc.bind (g a)) r).All (R w) := by
  induction l generalizing r with
  | nil => exact hr
  | cons a t ih =>
    apply ih
    exact hr.bind (fun _ h => h) (fun w1 h1 => (hg a w1).mono (fun _ h => htrans _ _ _ h1 h))

theorem flushQueues_sameLife (fuel n : Nat) (w : World) :
    (flushQueues fuel n w).All (SameLife w) := by
  induction fuel generalizing n w with
  | zero => simp [flushQueues, Res.All]
  | succ k ih =>
    unfold flushQueues
    simp only []
    have hI : ∀ w0 : World, (match (w0.nodes n).iQueue with
        | some _ => (waitQ k n false w0).bind
            (fun w1 => Res.ok (w1.modify n (fun nd => { nd with iQueue := none })))
        | none => Res.ok w0).All (SameLife w0) := by
      intro w0
      split
      · exact (waitQ_sameLife k n false w0).bind (fun _ h => h)
          (fun w1 h1 => h1.transL (SameLife.modifyL (by simp [Node.life])))
      · exact SameLife.reflL w0
    have hO : ∀ w0 : World, (match (w0.nodes n).oQueue with
        | some _ => (waitQ k n true w0).bind
            (fun w1 => Res.ok (w1.modify n (fun nd => { nd with oQueue := none })))
        | none => Res.ok w0).All (SameLife w0) := by
      intro w0
      split
      · exact (waitQ_sameLife k n true w0).bind (fun _ h => h)
          (fun w1 h1 => h1.transL (SameLife.modifyL (by simp [Node.life])))
      · exact SameLife.reflL w0
    refine Res.All.bind (P := SameLife w) ?_ (fun _ h => h) ?_
    · exact (hI w).bind (fun _ h => h) (fun w1 h1 => (hO w1).mono (fun _ h => h1.transL h))
    · intro w2 h2
      refine (foldl_bind_all (fun cl => flushQueues k cl) SameLife
        (fun _ _ _ => SameLife.transL) (fun a w0 => ih a w0) _ (Res.ok w2) w2
        (SameLife.reflL w2)).mono ?_
      exact fun _ h => h2.transL h

/-! ### Every store is a step of the state machine -/

theorem Node.life_state (nd : Node) : nd.life.state = nd.state := rfl

theorem SameLife.state {w w2 : World} (h : SameLife w w2) (m : Nat) :
    (w2.nodes m).state = (w.nodes m).state := by
  have := congrArg Node.state (h.1 m)
  simpa [Node.life_state] using this

theorem StoresOK.reflS (w : World) : StoresOK w w :=
  ⟨⟨[], by simp, by simp⟩, fun _ h => h⟩

theorem StoresOK.transS {w w1 w2 : World} (h1 : StoresOK w w1) (h2 : StoresOK w1 w2) :
    StoresOK w w2 := by
  obtain ⟨⟨l1, e1, a1⟩, s1⟩ := h1
  obtain ⟨⟨l2, e2, a2⟩, s2⟩ := h2
  refine ⟨⟨l1 ++ l2, by rw [e2, e1, List.append_assoc], ?_⟩, fun m h => s2 m (s1 m h)⟩
  intro t ht
  rcases List.mem_append.1 ht with h | h
  · exact a1 t h
  · exact a2 t h

theorem StoresOK.of_sameLife {w w2 : World} (h : SameLife w w2) : StoresOK w w2 :=
  ⟨⟨[], by simp [h.2.2.2], by simp⟩, fun m hm => by rw [h.state m]; exact hm⟩

theorem StoresOK.modifyS (w : World) (n : Nat) (f : Node → Node)
    (hf : (f (w.nodes n)).state = (w.nodes n).state) : StoresOK w (w.modify n f) := by
  refine ⟨⟨[], by simp, by simp⟩, fun m hm => ?_⟩
  by_cases h : m = n
  · subst h; simp [hf, hm]
  · simp [h, hm]

theorem StoresOK.all_trans {r : Res} {w w1 : World} (h1 : StoresOK w w1)
    (hr : r.All (StoresOK w1)) : r.All (StoresOK w) :=
  hr.mono (fun _ h => h1.transS h)

theorem StoresOK.store {w : World} {n x : Nat} (ha : allowedStore (n, (w.nodes n).state, x))
    (hs : (w.nodes n).state ≠ STATE_STOPPING) : StoresOK w (store n x w) := by
  refine ⟨⟨[(n, (w.nodes n).state, x)], by simp, by simpa using ha⟩, fun m hm => ?_⟩
  have h : m ≠ n := fun h => hs (h ▸ hm)
  simp [h, hm]

theorem StoresOK.trigger (w : World) (n : Nat) (e : Event) : StoresOK w (Trigger n e w) :=
  ⟨⟨[], by simp, by simp⟩, fun _ h => h⟩

theorem Start_storesOK (n : Nat) (w : World) : StoresOK w (Start n w) := by
  unfold Start
  simp only []
  split
  · rename_i hs
    have hs0 : (w.nodes n).state = STATE_STOPPED := by simpa [Node.isStopped] using hs
    have h1 : StoresOK w (SCH.store n STATE_STARTING w) :=
      StoresOK.store (Or.inl ⟨hs0, rfl⟩) (by rw [hs0]; decide)
    refine StoresOK.transS ?_ (StoresOK.trigger _ _ _)
    refine h1.transS ?_
    split
    · have h2 : StoresOK (SCH.store n STATE_STARTING w)
          { (SCH.store n STATE_STARTING w).modify n
              (fun d => { d with taskStopCommandChannel := true, taskLive := d.taskLive + 1 }) with
            spawned := (SCH.store n STATE_STARTING w).spawned ++ [n] } :=
        ⟨⟨[], by simp, by simp⟩, fun m hm => by
          by_cases h : m = n
          · subst h; simpa using hm
          · simpa [h] using hm⟩
      refine h2.transS (StoresOK.store (Or.inr (Or.inl ⟨?_, rfl⟩)) ?_)
      · simp
      · simp [STATE_STARTING, STATE_STOPPING]
    · refine StoresOK.store (Or.inr (Or.inl ⟨?_, rfl⟩)) ?_
      · simp
      · simp [STATE_STARTING, STATE_STOPPING]
  · exact StoresOK.reflS w

theorem lock_all {n : Nat} {w : World} {k : World → Res} {Q : World → Prop} (hd : Q w)
    (hk : (k (w.modify n (fun d => { d with clientAddRemoveMutex := true }))).All Q) :
    (lock n w k).All Q := by
  unfold lock
  split
  · exact hd
  · exact hk

theorem stop_final_storesOK {w w5 : World} {n : Nat}
    (hrun : (w.nodes n).state = STATE_RUNNING)
    (h : StoresOK (store n STATE_STOPPING w) w5) :
    StoresOK w (Trigger n Event.stop (store n STATE_STOPPED w5)) := by
  have h1 : StoresOK w (store n STATE_STOPPING w) :=
    StoresOK.store (Or.inr (Or.inr (Or.inl ⟨hrun, rfl⟩))) (by rw [hrun]; decide)
  have h5 : (w5.nodes n).state = STATE_STOPPING := h.2 n (by simp)
  obtain ⟨⟨l, el, al⟩, sl⟩ := h1.transS h
  refine ⟨⟨l ++ [(n, STATE_STOPPING, STATE_STOPPED)], ?_, ?_⟩, fun m hm => ?_⟩
  · simp [el, h5]
  · intro t ht
    rcases List.mem_append.1 ht with h | h
    · exact al t h
    · simp at h; subst h; exact Or.inr (Or.inr (Or.inr ⟨rfl, rfl⟩))
  · have hmn : m ≠ n := fun e => by
      rw [e, hrun] at hm; exact absurd hm (by decide)
    simpa [hmn] using sl m hm

theorem exec_storesOK (fuel : Nat) (call : Call) (w : World) :
    (exec fuel call w).All (StoresOK w) := by
  induction fuel generalizing call w with
  | zero => simp [exec, Res.All]
  | succ k ih =>
    cases call with
    | Stop n =>
      simp only [exec]
      split
      · rename_i hr
        have hrun : (w.nodes n).state = STATE_RUNNING := by simpa [Node.IsRunning] using hr
        have h1 : StoresOK w (store n STATE_STOPPING w) :=
          StoresOK.store (Or.inr (Or.inr (Or.inl ⟨hrun, rfl⟩))) (by rw [hrun]; decide)
        refine Res.All.bind (P := StoresOK (store n STATE_STOPPING w)) ?_
          (fun _ h => h1.transS h) ?_
        · refine Res.All.bind (P := StoresOK (store n STATE_STOPPING w)) ?_ (fun _ h => h) ?_
          · refine Res.All.bind (P := StoresOK (store n STATE_STOPPING w)) ?_ (fun _ h => h) ?_
            · split
              · split
                · exact StoresOK.modifyS _ _ _ (by simp)
                · exact StoresOK.reflS _
              · exact StoresOK.reflS _
            · intro w2 h2
              exact StoresOK.all_trans h2
                ((flushQueues_sameLife k n w2).mono (fun _ h => StoresOK.of_sameLife h))
          · intro w3 h3
            exact StoresOK.all_trans h3 (ih _ w3)
        · intro w4 h4
          refine Res.All.bind (P := StoresOK (store n STATE_STOPPING w)) ?_
            (fun _ h => h1.transS h) ?_
          · split
            · exact StoresOK.all_trans h4 (ih _ w4)
            · exact h4
          · intro w5 h5
            exact stop_final_storesOK hrun h5
      · exact StoresOK.reflS w
    | AddClient n c =>
      simp only [exec]
      refine lock_all (StoresOK.reflS w) ?_
      have h1 : StoresOK w (w.modify n (fun d => { d with clientAddRemoveMutex := true })) :=
        StoresOK.modifyS _ _ _ rfl
      have h2 := h1.transS (StoresOK.modifyS (w.modify n (fun d => { d with clientAddRemoveMutex := true }))
        n (fun d => { d with Clients := d.Clients ++ [c] }) rfl)
      refine Res.All.bind (P := StoresOK w) ?_ (fun _ h => h) ?_
      · split
        · refine StoresOK.all_trans (h2.transS ?_) (ih _ _)
          exact StoresOK.modifyS _ _ _ rfl
        · exact StoresOK.all_trans h2 (ih _ _)
      · intro w4 h4
        refine StoresOK.transS ?_ (StoresOK.modifyS _ _ _ rfl)
        split
        · exact h4.transS (Start_storesOK _ _)
        · exact h4
    | RemoveClient n c =>
      simp only [exec]
      split
      · refine lock_all (StoresOK.reflS w) ?_
        have h1 : StoresOK w (w.modify n (fun d => { d with clientAddRemoveMutex := true })) :=
          StoresOK.modifyS _ _ _ rfl
        split
        · refine Res.All.bind (P := StoresOK w) ?_ (fun _ h => h) ?_
          · refine StoresOK.all_trans (h1.transS ?_) (ih _ _)
            exact StoresOK.modifyS _ _ _ rfl
          · intro w3 h3
            refine Res.All.bind (P := StoresOK w) ?_ (fun _ h => h) ?_
            · split
              · exact StoresOK.all_trans h3 (ih _ _)
              · exact h3
            · intro w4 h4
              exact h4.transS (StoresOK.modifyS _ _ _ rfl)
        · exact h1.transS (StoresOK.modifyS _ _ _ rfl)
      · exact StoresOK.reflS w
    | removeAllClients n =>
      simp only [exec]
      split
      · have h1 : StoresOK w (w.modify n (fun d => { d with removeAllClientsInProgress := true })) :=
          StoresOK.modifyS _ _ _ rfl
        refine lock_all h1 ?_
        have h2 := h1.transS (StoresOK.modifyS
          (w.modify n (fun d => { d with removeAllClientsInProgress := true }))
          n (fun d => { d with clientAddRemoveMutex := true }) rfl)
        refine Res.All.bind (P := StoresOK w) ?_ (fun _ h => h) ?_
        · refine StoresOK.all_trans h2 ?_
          exact foldl_bind_all (fun client => exec k (Call.setServer client none)) StoresOK
            (fun _ _ _ => StoresOK.transS) (fun a w0 => ih _ w0) _ (Res.ok _) _ (StoresOK.reflS _)
        · intro w3 h3
          have h4 := h3.transS (StoresOK.modifyS w3 n (fun d => { d with Clients := [] }) rfl)
          refine Res.All.bind (P := StoresOK w) ?_ (fun _ h => h) ?_
          · split
            · exact StoresOK.all_trans h4 (ih _ _)
            · exact h4
          · intro w5 h5
            exact (h5.transS (StoresOK.modifyS _ _ _ rfl)).transS (StoresOK.modifyS _ _ _ rfl)
      · exact StoresOK.reflS w
    | setServer n server =>
      simp only [exec]
      refine Res.All.bind (P := StoresOK w) ?_ (fun _ h => h) ?_
      · split
        · exact ih _ _
        · exact StoresOK.reflS w
      · intro w1 h1
        have h2 := h1.transS (StoresOK.modifyS w1 n (fun d => { d with server := server }) rfl)
        split
        · exact StoresOK.all_trans h2 (ih _ _)
        · exact h2.transS (Start_storesOK _ _)

/-! ### Runs of operations, and calls that change nothing -/

theorem Op.run_storesOK (fuel : Nat) (op : Op) (w : World) :
    (Op.run fuel op w).All (StoresOK w) := by
  cases op with
  | Start n => exact Start_storesOK n w
  | Stop n => exact exec_storesOK _ _ _
  | AddClient n c => exact exec_storesOK _ _ _
  | RemoveClient n c => exact exec_storesOK _ _ _
  | input n chunk => exact StoresOK.of_sameLife (input_sameLife n chunk w)
  | Output n chunk => exact StoresOK.of_sameLife (Output_sameLife n chunk w)
  | worker n o =>
    show StoresOK w ((workerStep n o w).getD w)
    cases h : workerStep n o w with
    | none => exact StoresOK.reflS w
    | some w1 => exact StoresOK.of_sameLife (workerStep_sameLife h)

theorem runOps_storesOK (fuel : Nat) (ops : List Op) (w : World) :
    (runOps fuel ops w).All (StoresOK w) :=
  foldl_bind_all (fun op => Op.run fuel op) StoresOK (fun _ _ _ => StoresOK.transS)
    (fun op w0 => Op.run_storesOK fuel op w0) ops (Res.ok w) w (StoresOK.reflS w)

theorem Start_of_not_stopped {n : Nat} {w : World} (h : (w.nodes n).state ≠ STATE_STOPPED) :
    Start n w = w := by
  unfold Start
  simp [Node.isStopped, h]

theorem Stop_of_not_running (fuel : Nat) {n : Nat} {w : World}
    (h : (w.nodes n).state ≠ STATE_RUNNING) : exec (fuel + 1) (Call.Stop n) w = Res.ok w := by
  simp [exec, Node.IsRunning, h]

theorem Start_state_of_stopped {n : Nat} {w : World} (h : (w.nodes n).state = STATE_STOPPED) :
    ((Start n w).nodes n).state = STATE_RUNNING := by
  unfold Start
  simp [Node.isStopped, h]

theorem Stop_state_ne_running {fuel n : Nat} {w w1 : World}
    (h : exec fuel (Call.Stop n) w = Res.ok w1) : (w1.nodes n).state ≠ STATE_RUNNING := by
  cases fuel with
  | zero => simp [exec] at h
  | succ k =>
    simp only [exec] at h
    split at h
    · obtain ⟨w4, _, h4⟩ := Res.bind_eq_ok h
      obtain ⟨w5, _, h5⟩ := Res.bind_eq_ok h4
      simp only [Res.ok.injEq] at h5
      subst h5
      simp [STATE_STOPPED, STATE_RUNNING]
    · rename_i hr
      simp only [Res.ok.injEq] at h
      subst h
      simpa [Node.IsRunning] using hr

/-! ### The queue processor: order of handling -/

theorem qpInit_inv (h : Handler) (xs : List Chunk) : QPInv xs (qpInit h xs) := by
  simp [QPInv, qpInit, inflight, undone, MainPC.pendingChunk]

theorem qpMainStep_inv {xs : List Chunk} {s s2 : QPState} (hi : QPInv xs s)
    (hs : qpMainStep s = some s2) : QPInv xs s2 := by
  obtain ⟨hh, hl, hw, ht, hr⟩ := hi
  unfold qpMainStep at hs
  split at hs
  · rename_i hm
    split at hs
    · rename_i htodo
      simp only [Option.some.injEq] at hs
      subst hs
      simp_all [QPInv, MainPC.pendingChunk]
    · rename_i x rest htodo
      split at hs
      · rename_i hnone
        simp [hnone] at hh
      · simp only [Option.some.injEq] at hs
        subst hs
        simp_all [QPInv, MainPC.pendingChunk]
  · rename_i x hm
    simp only [Option.some.injEq] at hs
    subst hs
    simp_all [QPInv, MainPC.pendingChunk]
    omega
  · rename_i x hm
    split at hs <;>
    · simp only [Option.some.injEq] at hs
      subst hs
      simp_all [QPInv, MainPC.pendingChunk]
  · rename_i hm
    split at hs
    · rename_i hz
      simp only [Option.some.injEq] at hs
      subst hs
      simp_all [QPInv, MainPC.pendingChunk]
    · simp at hs
  · simp at hs

theorem qpLockStep_inv {xs : List Chunk} {s s2 : QPState} (hi : QPInv xs s)
    (hs : qpLockStep s = some s2) : QPInv xs s2 := by
  obtain ⟨hh, hl, hw, ht, hr⟩ := hi
  unfold qpLockStep at hs
  split at hs
  · rename_i hm hk
    simp only [Option.some.injEq] at hs
    subst hs
    simp_all [QPInv, inflight, undone]
  · simp at hs

theorem qpWorkerStep_inv {xs : List Chunk} {s s2 : QPState} (hi : QPInv xs s)
    (hs : qpWorkerStep s = some s2) : QPInv xs s2 := by
  obtain ⟨hh, hl, hw, ht, hr⟩ := hi
  unfold qpWorkerStep at hs
  split at hs
  · simp at hs
  · rename_i hm
    simp only [Option.some.injEq] at hs
    subst hs
    simp_all [QPInv, inflight, undone]
  · rename_i hm
    split at hs
    · rename_i hq
      simp only [Option.some.injEq] at hs
      subst hs
      simp_all [QPInv, inflight, undone]
    · rename_i x rest hq
      simp only [Option.some.injEq] at hs
      subst hs
      simp_all [QPInv, inflight, undone]
  · rename_i x hm
    simp only [Option.some.injEq] at hs
    subst hs
    simp_all [QPInv, inflight, undone]
  · rename_i hm
    simp only [Option.some.injEq] at hs
    subst hs
    simp_all [QPInv, inflight, undone]
  · rename_i hm
    simp only [Option.some.injEq] at hs
    subst hs
    simp_all [QPInv, inflight, undone]
  · rename_i hm
    simp only [Option.some.injEq] at hs
    subst hs
    simp_all [QPInv, inflight, undone]

theorem qpStep_inv {xs : List Chunk} {a : QPAct} {s s2 : QPState} (hi : QPInv xs s)
    (hs : qpStep a s = some s2) : QPInv xs s2 := by
  cases a with
  | main => exact qpMainStep_inv hi hs
  | lock => exact qpLockStep_inv hi hs
  | worker => exact qpWorkerStep_inv hi hs

theorem qpRun_inv {xs : List Chunk} (sched : List QPAct) {s s2 : QPState} (hi : QPInv xs s)
    (hs : qpRun sched s = some s2) : QPInv xs s2 := by
  induction sched generalizing s with
  | nil =>
    simp [qpRun] at hs
    subst hs; exact hi
  | cons a t ih =>
    simp only [qpRun, List.foldl_cons, Option.some_bind] at hs
    cases h1 : qpStep a s with
    | none =>
      rw [h1] at hs
      have : ∀ l : List QPAct, l.foldl (fun acc a => acc.bind (qpStep a)) none = none := by
        intro l; induction l with
        | nil => rfl
        | cons b u ihu => simpa using ihu
      rw [this] at hs; simp at hs
    | some s1 =>
      rw [h1] at hs
      exact ih (qpStep_inv hi h1) hs

theorem QPInv.returned {xs : List Chunk} {s : QPState} (hi : QPInv xs s)
    (hm : s.main = MainPC.returned) : s.handled = xs ∧ s.q.wg = 0 ∧ s.q.queue.getD [] = [] := by
  obtain ⟨hh, hl, hw, ht, hr⟩ := hi
  have hz := hr hm
  have htodo := ht (Or.inr hm)
  rw [hz] at hw
  have hq : s.q.queue.getD [] = [] := List.length_eq_zero.1 (by omega)
  have hu : undone s.m = 0 := by omega
  have hin : inflight s.m = [] := by
    cases hsm : s.m with
    | none => rfl
    | some pc =>
      rw [hsm] at hu
      cases pc <;> simp [undone] at hu <;> simp [inflight]
  refine ⟨?_, hz, hq⟩
  simpa [hq, hin, htodo, hm, MainPC.pendingChunk] using hl

theorem qpRun_none (l : List QPAct) :
    l.foldl (fun acc a => acc.bind (qpStep a)) none = none := by
  induction l with
  | nil => rfl
  | cons b u ih => simpa using ih

theorem qpRun_cons (a : QPAct) (l : List QPAct) (s : QPState) :
    qpRun (a :: l) s = (qpStep a s).bind (qpRun l) := by
  simp only [qpRun, List.foldl_cons, Option.some_bind]
  cases qpStep a s with
  | none => simpa using qpRun_none l
  | some s1 => rfl

theorem qpRun_append (l1 l2 : List QPAct) (s : QPState) :
    qpRun (l1 ++ l2) s = (qpRun l1 s).bind (qpRun l2) := by
  induction l1 generalizing s with
  | nil => simp [qpRun]
  | cons a t ih =>
    rw [List.cons_append, qpRun_cons, qpRun_cons]
    cases qpStep a s with
    | none => rfl
    | some s1 => simpa using ih s1

/-- The state between two calls of the caller when every chunk put so far has
been handled and the worker has gone. -/
theorem qpEager_item (h : Handler) (q0 : Option (List Chunk)) (hq : q0.getD [] = [])
    (hd : List Chunk) (x : Chunk) (rest : List Chunk) :
    qpRun ([QPAct.main, QPAct.main, QPAct.main, QPAct.lock] ++ List.replicate 7 QPAct.worker)
        { q := { queue := q0, chunkHandler := some h }, handled := hd, todo := x :: rest } =
      some { q := { queue := some [], chunkHandler := some h }, handled := hd ++ [x],
             todo := rest } := by
  simp [qpRun, qpStep, qpMainStep, qpLockStep, qpWorkerStep, hq, List.replicate]

theorem qpEager_returns (h : Handler) (q0 : Option (List Chunk)) (hq : q0.getD [] = [])
    (hd xs : List Chunk) :
    qpRun (qpEager xs.length)
        { q := { queue := q0, chunkHandler := some h }, handled := hd, todo := xs } =
      some { q := { queue := q0, chunkHandler := some h }, handled := hd ++ xs,
             main := MainPC.returned, todo := [] } ∨
    qpRun (qpEager xs.length)
        { q := { queue := q0, chunkHandler := some h }, handled := hd, todo := xs } =
      some { q := { queue := some [], chunkHandler := some h }, handled := hd ++ xs,
             main := MainPC.returned, todo := [] } := by
  induction xs generalizing q0 hd with
  | nil =>
    left
    simp [qpEager, qpRun, qpStep, qpMainStep]
  | cons x rest ih =>
    right
    rw [List.length_cons, qpEager, qpRun_append, qpEager_item h q0 hq hd x rest]
    simp only [Option.some_bind]
    rcases ih (some []) rfl (hd ++ [x]) with h1 | h1 <;> simpa using h1

/-! ### Chains that return -/

theorem Res.Sat.monoS {r : Res} {P Q : World → Prop} {e e2 : Prop} (h : r.Sat P e)
    (hPQ : ∀ w, P w → Q w) (he : e2 → e) : r.Sat Q e2 := by
  cases r with
  | ok w => exact hPQ w h
  | deadlock n w => exact h
  | hang n w => exact h
  | outOfFuel => exact fun h2 => h (he h2)

theorem Res.Sat.bindS {r : Res} {f : World → Res} {P Q : World → Prop} {e d : Prop}
    (h : r.Sat P d) (he : e → d) (hf : ∀ w, P w → (f w).Sat Q e) : (r.bind f).Sat Q e := by
  cases r with
  | ok w => exact hf w h
  | deadlock n w => exact h
  | hang n w => exact h
  | outOfFuel => exact fun h2 => h (he h2)

theorem Res.Sat.ok {w : World} {P : World → Prop} {e : Prop} (h : P w) : (Res.ok w).Sat P e := h

theorem foldl_bind_sat {α : Type} (g : α → World → Res) (Inv : World → Prop) (e : Prop)
    (l : List α) (hstep : ∀ a ∈ l, ∀ w0, Inv w0 → (g a w0).Sat Inv e) (r : Res)
    (hr : r.Sat Inv e) : (l.foldl (fun acc a => acc.bind (g a)) r).Sat Inv e := by
  induction l generalizing r with
  | nil => exact hr
  | cons a t ih =>
    apply ih (fun b hb => hstep b (List.mem_cons_of_mem _ hb))
    exact hr.bindS (fun h => h) (fun w0 h0 => hstep a (List.mem_cons_self _ _) w0 h0)

theorem SameLife.clients {w w2 : World} (h : SameLife w w2) (m : Nat) :
    (w2.nodes m).Clients = (w.nodes m).Clients := by
  have := congrArg Node.Clients (h.1 m)
  simpa [Node.life] using this

theorem SameLife.ranked {w w2 : World} {rk : Nat → Nat} (h : SameLife w w2) (hr : Ranked w rk) :
    Ranked w2 rk := by
  intro m k hk
  rw [h.clients m] at hk
  exact hr m k hk

theorem workerStep_quiet {w : World} (hq : Quiet w) (n : Nat) (o : Bool) :
    workerStep n o w = none := by
  unfold workerStep
  split
  · rfl
  · rename_i q hq1
    have := hq n o q hq1
    split
    · rfl
    · rfl
    · rename_i x rest hx
      simp [hx] at this

theorem waitQ_cases (fuel n : Nat) (o : Bool) (w : World) :
    (∃ w2, waitQ fuel n o w = Res.ok w2) ∨ waitQ fuel n o w = Res.outOfFuel := by
  induction fuel generalizing w with
  | zero => right; rfl
  | succ k ih =>
    unfold waitQ
    split
    · exact Or.inl ⟨w, rfl⟩
    · exact ih _

theorem waitQ_sat (fuel n : Nat) (o : Bool) (w : World) :
    (waitQ fuel n o w).Sat (fun w2 => SameLife w w2 ∧ (Quiet w → w2 = w)) (Quiet w ∧ 1 ≤ fuel) := by
  have h1 := waitQ_sameLife fuel n o w
  cases fuel with
  | zero => simp [waitQ, Res.Sat]
  | succ k =>
    by_cases hq : Quiet w
    · simp [waitQ, workerStep_quiet hq, Res.Sat, SameLife.reflL]
    · rcases waitQ_cases (k + 1) n o w with ⟨w2, h2⟩ | h2
      · rw [h2] at h1 ⊢
        exact ⟨h1, fun h => absurd h hq⟩
      · rw [h2]
        exact fun h => hq h.1

theorem Quiet.clearI {w : World} (h : Quiet w) (n : Nat) :
    Quiet (w.modify n (fun nd => { nd with iQueue := none })) := by
  intro m o q hq
  by_cases hm : m = n
  · subst hm
    cases o
    · simp [Node.getQ] at hq
    · exact h m true q (by simpa [Node.getQ] using hq)
  · exact h m o q (by simpa [hm] using hq)

theorem Quiet.clearO {w : World} (h : Quiet w) (n : Nat) :
    Quiet (w.modify n (fun nd => { nd with oQueue := none })) := by
  intro m o q hq
  by_cases hm : m = n
  · subst hm
    cases o
    · exact h m false q (by simpa [Node.getQ] using hq)
    · simp [Node.getQ] at hq
  · exact h m o q (by simpa [hm] using hq)

theorem flushQueues_sat (rk : Nat → Nat) (fuel n : Nat) (w : World) (hr : Ranked w rk) :
    (flushQueues fuel n w).Sat (fun w2 => SameLife w w2 ∧ (Quiet w → Quiet w2))
      (Quiet w ∧ rk n + 2 ≤ fuel) := by
  induction fuel generalizing n w with
  | zero => simp [flushQueues, Res.Sat]
  | succ k ih =>
    unfold flushQueues
    simp only []
    have hI : ∀ w0 : World, (match (w0.nodes n).iQueue with
        | some _ => (waitQ k n false w0).bind
            (fun w1 => Res.ok (w1.modify n (fun nd => { nd with iQueue := none })))
        | none => Res.ok w0).Sat (fun w2 => SameLife w0 w2 ∧ (Quiet w0 → Quiet w2))
          (Quiet w0 ∧ 1 ≤ k) := by
      intro w0
      split
      · refine (waitQ_sat k n false w0).bindS (fun h => h) (fun w1 h1 => ?_)
        refine ⟨h1.1.transL (SameLife.modifyL (by simp [Node.life])), fun hq => ?_⟩
        rw [h1.2 hq]
        exact hq.clearI n
      · exact ⟨SameLife.reflL w0, fun h => h⟩
    have hO : ∀ w0 : World, (match (w0.nodes n).oQueue with
        | some _ => (waitQ k n true w0).bind
            (fun w1 => Res.ok (w1.modify n (fun nd => { nd with oQueue := none })))
        | none => Res.ok w0).Sat (fun w2 => SameLife w0 w2 ∧ (Quiet w0 → Quiet w2))
          (Quiet w0 ∧ 1 ≤ k) := by
      intro w0
      split
      · refine (waitQ_sat k n true w0).bindS (fun h => h) (fun w1 h1 => ?_)
        refine ⟨h1.1.transL (SameLife.modifyL (by simp [Node.life])), fun hq => ?_⟩
        rw [h1.2 hq]
        exact hq.clearO n
      · exact ⟨SameLife.reflL w0, fun h => h⟩
    refine Res.Sat.bindS (P := fun w2 => SameLife w w2 ∧ (Quiet w → Quiet w2))
      (d := Quiet w ∧ 1 ≤ k) ?_ (fun h => ⟨h.1, by omega⟩) ?_
    · refine (hI w).bindS (fun h => h) (fun w1 h1 => ?_)
      exact (hO w1).monoS (fun w2 h2 => ⟨h1.1.transL h2.1, fun hq => h2.2 (h1.2 hq)⟩)
        (fun h => ⟨h1.2 h.1, h.2⟩)
    · intro w2 h2
      refine foldl_bind_sat (fun cl => flushQueues k cl)
        (fun w3 => SameLife w w3 ∧ (Quiet w → Quiet w3)) _ _ ?_ (Res.ok w2) h2
      intro a ha w0 h0
      refine (ih a w0 (h0.1.ranked hr)).monoS
        (fun w3 h3 => ⟨h0.1.transL h3.1, fun hq => h3.2 (h0.2 hq)⟩) ?_
      intro ⟨hq, hf⟩
      have hlt : rk a < rk n := hr n a (by rw [← h2.1.clients n]; exact ha)
      exact ⟨h0.2 hq, by omega⟩

theorem flushQueues_leaf (fuel n : Nat) (w : World) (hcl : (w.nodes n).Clients = []) :
    (flushQueues fuel n w).Sat (fun w2 => SameLife w w2 ∧ (Quiet w → Quiet w2))
      (Quiet w ∧ 2 ≤ fuel) := by
  cases fuel with
  | zero => simp [flushQueues, Res.Sat]
  | succ k =>
    unfold flushQueues
    simp only []
    have hI : ∀ w0 : World, (match (w0.nodes n).iQueue with
        | some _ => (waitQ k n false w0).bind
            (fun w1 => Res.ok (w1.modify n (fun nd => { nd with iQueue := none })))
        | none => Res.ok w0).Sat (fun w2 => SameLife w0 w2 ∧ (Quiet w0 → Quiet w2))
          (Quiet w0 ∧ 1 ≤ k) := by
      intro w0
      split
      · refine (waitQ_sat k n false w0).bindS (fun h => h) (fun w1 h1 => ?_)
        refine ⟨h1.1.transL (SameLife.modifyL (by simp [Node.life])), fun hq => ?_⟩
        rw [h1.2 hq]
        exact hq.clearI n
      · exact ⟨SameLife.reflL w0, fun h => h⟩
    have hO : ∀ w0 : World, (match (w0.nodes n).oQueue with
        | some _ => (waitQ k n true w0).bind
            (fun w1 => Res.ok (w1.modify n (fun nd => { nd with oQueue := none })))
        | none => Res.ok w0).Sat (fun w2 => SameLife w0 w2 ∧ (Quiet w0 → Quiet w2))
          (Quiet w0 ∧ 1 ≤ k) := by
      intro w0
      split
      · refine (waitQ_sat k n true w0).bindS (fun h => h) (fun w1 h1 => ?_)
        refine ⟨h1.1.transL (SameLife.modifyL (by simp [Node.life])), fun hq => ?_⟩
        rw [h1.2 hq]
        exact hq.clearO n
      · exact ⟨SameLife.reflL w0, fun h => h⟩
    refine Res.Sat.bindS (P := fun w2 => SameLife w w2 ∧ (Quiet w → Quiet w2))
      (d := Quiet w ∧ 1 ≤ k) ?_ (fun h => ⟨h.1, by omega⟩) ?_
    · refine (hI w).bindS (fun h => h) (fun w1 h1 => ?_)
      exact (hO w1).monoS (fun w2 h2 => ⟨h1.1.transL h2.1, fun hq => h2.2 (h1.2 hq)⟩)
        (fun h => ⟨h1.2 h.1, h.2⟩)
    · intro w2 h2
      rw [h2.1.clients n, hcl]
      exact h2

theorem SameLife.life {w w2 : World} (h : SameLife w w2) (m : Nat) :
    (w2.nodes m).life = (w.nodes m).life := h.1 m

theorem life_modify (w : World) (n : Nat) (f : Node → Node) (m : Nat) :
    ((w.modify n f).nodes m).life = if m = n then (f (w.nodes n)).life else (w.nodes m).life := by
  by_cases h : m = n <;> simp [h]

theorem Quiet.of_getQ {w w2 : World} (h : Quiet w)
    (hq : ∀ m o, (w2.nodes m).getQ o = (w.nodes m).getQ o) : Quiet w2 := by
  intro m o q hq2
  exact h m o q (by rw [← hq m o]; exact hq2)

theorem Quiet.modifyQ {w : World} (h : Quiet w) (n : Nat) (f : Node → Node)
    (hf : ∀ o, (f (w.nodes n)).getQ o = (w.nodes n).getQ o) : Quiet (w.modify n f) := by
  refine h.of_getQ (fun m o => ?_)
  by_cases hm : m = n
  · subst hm; simp [hf]
  · simp [hm]

theorem Quiet.storeQ {w : World} (h : Quiet w) (n x : Nat) : Quiet (store n x w) := by
  refine h.of_getQ (fun m o => ?_)
  by_cases hm : m = n
  · subst hm; cases o <;> simp [Node.getQ]
  · simp [hm]

theorem Quiet.triggerQ {w : World} (h : Quiet w) (n : Nat) (e : Event) : Quiet (Trigger n e w) :=
  h.of_getQ (fun _ _ => rfl)

/-! ### Stopping a node without clients -/

theorem OnlyAt.clients_of_ne {w w2 : World} {c : Nat} {nd : Node} (h : OnlyAt w c nd w2)
    {m : Nat} (hm : m ≠ c) : (w2.nodes m).Clients = (w.nodes m).Clients := by
  have := congrArg Node.Clients (h.2.1 m hm)
  simpa [Node.life] using this

theorem OnlyAt.sameLife {w w1 w2 : World} {c : Nat} {nd : Node} (h : OnlyAt w c nd w1)
    (h2 : SameLife w1 w2) (hq : Quiet w1 → Quiet w2) : OnlyAt w c nd w2 :=
  ⟨(h2.life c).trans h.1, fun m hm => (h2.life m).trans (h.2.1 m hm), fun q => hq (h.2.2 q)⟩

theorem removeAllClients_nil (k n : Nat) (w : World) (hcl : (w.nodes n).Clients = []) :
    exec (k + 1) (Call.removeAllClients n) w = Res.ok w := by
  simp [exec, hcl]

theorem stop_handshake (c : Nat) (w : World)
    (htask : (w.nodes c).task = true →
      (w.nodes c).taskStopCommandChannel = true ∧ 0 < (w.nodes c).taskLive) :
    ∃ w1, (if ((store c STATE_STOPPING w).nodes c).task then
          if ((store c STATE_STOPPING w).nodes c).taskStopCommandChannel &&
              decide (0 < ((store c STATE_STOPPING w).nodes c).taskLive) then
            Res.ok ((store c STATE_STOPPING w).modify c
              (fun d => { d with taskLive := d.taskLive - 1 }))
          else Res.hang c (store c STATE_STOPPING w)
        else Res.ok (store c STATE_STOPPING w)) = Res.ok w1 ∧
      OnlyAt w c (w.nodes c).stopping w1 := by
  by_cases ht : (w.nodes c).task = true
  · obtain ⟨h1, h2⟩ := htask ht
    refine ⟨(store c STATE_STOPPING w).modify c (fun d => { d with taskLive := d.taskLive - 1 }),
      by simp [ht, h1, h2], ?_, ?_, ?_⟩
    · simp [Node.life, Node.stopping, ht]
    · intro m hm; simp [hm]
    · intro hq
      refine (hq.storeQ c STATE_STOPPING).modifyQ c _ (fun o => ?_)
      cases o <;> simp [Node.getQ]
  · refine ⟨store c STATE_STOPPING w, by simp [ht], ?_, ?_, ?_⟩
    · simp [Node.life, Node.stopping, ht]
    · intro m hm; simp [hm]
    · exact fun hq => hq.storeQ c STATE_STOPPING

theorem stop_begin (k c : Nat) (w : World) (hcl : (w.nodes c).Clients = [])
    (htask : (w.nodes c).task = true →
      (w.nodes c).taskStopCommandChannel = true ∧ 0 < (w.nodes c).taskLive) :
    (((if ((store c STATE_STOPPING w).nodes c).task then
          if ((store c STATE_STOPPING w).nodes c).taskStopCommandChannel &&
              decide (0 < ((store c STATE_STOPPING w).nodes c).taskLive) then
            Res.ok ((store c STATE_STOPPING w).modify c
              (fun d => { d with taskLive := d.taskLive - 1 }))
          else Res.hang c (store c STATE_STOPPING w)
        else Res.ok (store c STATE_STOPPING w)).bind (flushQueues k c)).bind
      (exec k (Call.removeAllClients c))).Sat (OnlyAt w c (w.nodes c).stopping)
      (Quiet w ∧ 2 ≤ k) := by
  obtain ⟨w1, e1, h1⟩ := stop_handshake c w htask
  rw [e1, Res.bind_ok]
  have hcl1 : (w1.nodes c).Clients = [] := by
    have := congrArg Node.Clients h1.1
    simpa [Node.life, Node.stopping, hcl] using this
  refine (flushQueues_leaf k c w1 hcl1).bindS (fun h => ⟨h1.2.2 h.1, h.2⟩) (fun w2 h2 => ?_)
  cases k with
  | zero => simp [exec, Res.Sat]
  | succ j =>
    rw [removeAllClients_nil j c w2 (by rw [h2.1.clients c]; exact hcl1)]
    exact h1.sameLife h2.1 h2.2

theorem Node.life_ext_fields {a b : Node} (h : a.life = b) :
    a.state = b.state ∧ a.server = b.server ∧ a.Clients = b.Clients ∧
    a.clientAddRemoveMutex = b.clientAddRemoveMutex ∧
    a.removeAllClientsInProgress = b.removeAllClientsInProgress ∧
    a.isPrincipallyClient = b.isPrincipallyClient ∧ a.task = b.task ∧
    a.taskStopCommandChannel = b.taskStopCommandChannel ∧ a.taskLive = b.taskLive ∧
    a.Ctx = b.Ctx := by
  subst h
  simp [Node.life]

theorem OnlyAt.stopped_of_stopping {w w4 : World} {c : Nat}
    (h4 : OnlyAt w c (w.nodes c).stopping w4) :
    OnlyAt w c (w.nodes c).stopped (Trigger c Event.stop (store c STATE_STOPPED w4)) := by
  refine ⟨?_, fun m hm => ?_, fun hq => ((h4.2.2 hq).storeQ c STATE_STOPPED).triggerQ c _⟩
  · have := h4.1
    simp only [Trigger_nodes, store_nodes, if_true]
    simp only [Node.life, Node.stopping, Node.stopped] at this ⊢
    simp only [Node.mk.injEq] at this ⊢
    simp_all
  · simpa [hm] using h4.2.1 m hm

theorem stop_leaf_guarded (fuel c : Nat) (w : World)
    (hrun : (w.nodes c).state = STATE_RUNNING) (hcl : (w.nodes c).Clients = [])
    (htask : (w.nodes c).task = true →
      (w.nodes c).taskStopCommandChannel = true ∧ 0 < (w.nodes c).taskLive)
    (hsrv : ∀ s, (w.nodes c).server = some s → (w.nodes s).removeAllClientsInProgress = true) :
    (exec fuel (Call.Stop c) w).Sat (OnlyAt w c (w.nodes c).stopped) (Quiet w ∧ 3 ≤ fuel) := by
  cases fuel with
  | zero => simp [exec, Res.Sat]
  | succ k =>
    simp only [exec]
    rw [if_pos (by simp [Node.IsRunning, hrun])]
    refine Res.Sat.bindS (stop_begin k c w hcl htask) (fun h => ⟨h.1, by omega⟩) (fun w4 h4 => ?_)
    have hf := Node.life_ext_fields h4.1
    have hs4 : (w4.nodes c).server = (w.nodes c).server := by
      simpa [Node.stopping, Node.life] using hf.2.1
    cases hs : (w.nodes c).server with
    | none =>
      rw [hs] at hs4
      simp only [hs4, Res.bind_ok]
      exact h4.stopped_of_stopping
    | some s =>
      rw [hs] at hs4
      simp only [hs4]
      have hip : (w4.nodes s).removeAllClientsInProgress = true := by
        by_cases hsc : s = c
        · subst hsc
          have := hf.2.2.2.2.1
          simp only [Node.stopping, Node.life] at this
          rw [this]; exact hsrv s hs
        · have := (Node.life_ext_fields (h4.2.1 s hsc)).2.2.2.2.1
          simp only [Node.life] at this
          rw [this]; exact hsrv s hs
      cases k with
      | zero => exact fun h => by omega
      | succ j =>
        simp only [exec, hip, Bool.not_true, Bool.false_eq_true, if_false, Res.bind_ok]
        exact h4.stopped_of_stopping

/-! ### Subtrees -/

theorem Sub.rank {w : World} {rk : Nat → Nat} (hr : Ranked w rk) {c m : Nat} (h : Sub w c m) :
    rk m ≤ rk c := by
  induction h with
  | self => exact le_refl _
  | child _ hm ih => exact le_of_lt (lt_of_lt_of_le (hr _ _ hm) ih)

theorem Sub.append {w : World} {c p m : Nat} (h1 : Sub w c p) (h2 : Sub w p m) : Sub w c m := by
  induction h2 with
  | self => exact h1
  | child _ hm ih => exact Sub.child ih hm

theorem Sub.parent {w : World} {c m : Nat} (h : Sub w c m) (hne : m ≠ c) :
    ∃ p, Sub w c p ∧ m ∈ (w.nodes p).Clients := by
  cases h with
  | self => exact absurd rfl hne
  | child hp hm => exact ⟨_, hp, hm⟩

theorem Sub.of_child {w : World} {c k m : Nat} (hk : k ∈ (w.nodes c).Clients) (h : Sub w k m) :
    Sub w c m :=
  (Sub.child Sub.self hk).append h

theorem Sub.cases_root {w : World} {c m : Nat} (h : Sub w c m) :
    m = c ∨ ∃ k ∈ (w.nodes c).Clients, Sub w k m := by
  induction h with
  | self => exact Or.inl rfl
  | child hp hm ih =>
    rcases ih with h | ⟨k, hk, hs⟩
    · subst h; exact Or.inr ⟨_, hm, Sub.self⟩
    · exact Or.inr ⟨k, hk, Sub.child hs hm⟩

theorem Sub.congrS {w w2 : World} {c m : Nat}
    (hc : ∀ p, Sub w c p → (w2.nodes p).Clients = (w.nodes p).Clients) (h : Sub w c m) :
    Sub w2 c m := by
  induction h with
  | self => exact Sub.self
  | child hp hm ih => exact Sub.child ih (by rw [hc _ hp]; exact hm)

theorem Sub.congr_rev {w w2 : World} {c m : Nat}
    (hc : ∀ p, Sub w c p → (w2.nodes p).Clients = (w.nodes p).Clients) (h : Sub w2 c m) :
    Sub w c m := by
  induction h with
  | self => exact Sub.self
  | child hp hm ih => exact Sub.child ih (by rw [← hc _ ih]; exact hm)

theorem DownPre.sub {w : World} {c k : Nat} (h : DownPre w c) (hk : Sub w c k) : DownPre w k :=
  fun m hm => h m (hk.append hm)

theorem Sub.nil {w : World} {c m : Nat} (hcl : (w.nodes c).Clients = []) (h : Sub w c m) :
    m = c := by
  rcases h.cases_root with h | ⟨k, hk, _⟩
  · exact h
  · rw [hcl] at hk; simp at hk

/-- The subtrees of two different clients of one server have no node in common. -/
theorem Sub.disjoint {w : World} {rk : Nat → Nat} (hr : Ranked w rk) {n c1 c2 : Nat}
    (hd1 : DownPre w c1) (hd2 : DownPre w c2)
    (hs1 : (w.nodes c1).server = some n) (hs2 : (w.nodes c2).server = some n)
    (hr1 : rk c1 < rk n) (hr2 : rk c2 < rk n) (hne : c1 ≠ c2) {m : Nat}
    (h1 : Sub w c1 m) (h2 : Sub w c2 m) : False := by
  induction h1 with
  | self =>
    obtain ⟨p, hp, hm⟩ := h2.parent hne
    have := (hd2 p hp).2.2 c1 hm
    rw [hs1] at this
    have hpn : n = p := by simpa using this
    subst hpn
    have := hp.rank hr
    omega
  | @child p m hp hm ih =>
    have hsm : (w.nodes m).server = some p := (hd1 p hp).2.2 m hm
    by_cases hmc : m = c2
    · subst hmc
      rw [hs2] at hsm
      have hpn : n = p := by simpa using hsm
      subst hpn
      have := hp.rank hr
      omega
    · obtain ⟨p2, hp2, hm2⟩ := h2.parent hmc
      have hsm2 : (w.nodes m).server = some p2 := (hd2 p2 hp2).2.2 m hm2
      rw [hsm] at hsm2
      have : p = p2 := by simpa using hsm2
      subst this
      exact ih hp2

/-! ### Tearing down a subtree -/

theorem Node.torn_congr {a b : Node} (h : a.life = b.life) : a.torn = b.torn := by
  have hf := Node.life_ext_fields h
  simp only [Node.torn, h]
  have h1 : a.state = b.state := hf.1
  have h2 : a.task = b.task := hf.2.2.2.2.2.2.1
  have h3 : a.taskLive = b.taskLive := hf.2.2.2.2.2.2.2.2.1
  rw [h1, h2, h3]

theorem Node.clients_of_life {a b : Node} (h : a.life = b.life) : a.Clients = b.Clients :=
  (Node.life_ext_fields h).2.2.1

theorem Node.server_of_life {a b : Node} (h : a.life = b.life) : a.server = b.server :=
  (Node.life_ext_fields h).2.1

theorem Node.state_of_life {a b : Node} (h : a.life = b.life) : a.state = b.state :=
  (Node.life_ext_fields h).1

theorem Node.inProgress_of_life {a b : Node} (h : a.life = b.life) :
    a.removeAllClientsInProgress = b.removeAllClientsInProgress :=
  (Node.life_ext_fields h).2.2.2.2.1

theorem Node.mutex_of_life {a b : Node} (h : a.life = b.life) :
    a.clientAddRemoveMutex = b.clientAddRemoveMutex :=
  (Node.life_ext_fields h).2.2.2.1

theorem Node.isPC_of_life {a b : Node} (h : a.life = b.life) :
    a.isPrincipallyClient = b.isPrincipallyClient :=
  (Node.life_ext_fields h).2.2.2.2.2.1

theorem Node.calm_of_life {a b : Node} (h : a.life = b.life) (hb : b.calm) : a.calm := by
  have hf := Node.life_ext_fields h
  obtain ⟨h1, h2, h3, h4, h5, h6, h7, h8, h9, h10⟩ := hf
  simp only [Node.life] at h1 h2 h3 h4 h5 h6 h7 h8 h9 h10
  unfold Node.calm at hb ⊢
  rw [h1, h4, h5, h7, h8, h9]
  exact hb

theorem Node.torn_clients (a : Node) : a.torn.Clients = [] := rfl

theorem Node.torn_server (a : Node) : a.torn.server = none := rfl

theorem Node.torn_state (a : Node) : a.torn.state = STATE_STOPPED := rfl

theorem Node.clients_of_life_eq {a b : Node} (h : a.life = b) : a.Clients = b.Clients :=
  (Node.life_ext_fields h).2.2.1

theorem TornSub.rankedT {w w1 : World} {c : Nat} {rk : Nat → Nat} (h : TornSub w c w1)
    (hr : Ranked w rk) : Ranked w1 rk := by
  intro m k hk
  by_cases hm : Sub w c m
  · rw [Node.clients_of_life_eq (h.1 m hm)] at hk
    simp [Node.torn_clients] at hk
  · rw [Node.clients_of_life (h.2.1 m hm)] at hk
    exact hr m k hk

theorem TornSub.sub_iff {w w1 : World} {c c2 : Nat} (h : TornSub w c w1)
    (hdis : ∀ m, Sub w c2 m → ¬ Sub w c m) (m : Nat) : Sub w1 c2 m ↔ Sub w c2 m :=
  ⟨Sub.congr_rev (fun p hp => Node.clients_of_life (h.2.1 p (hdis p hp))),
   Sub.congrS (fun p hp => Node.clients_of_life (h.2.1 p (hdis p hp)))⟩

theorem TornSub.downPre {w w1 : World} {c c2 : Nat} (h : TornSub w c w1)
    (hdis : ∀ m, Sub w c2 m → ¬ Sub w c m) (hd : DownPre w c2) : DownPre w1 c2 := by
  intro m hm
  have hm0 : Sub w c2 m := (h.sub_iff hdis m).1 hm
  have hl := h.2.1 m (hdis m hm0)
  obtain ⟨h1, h2, h3⟩ := hd m hm0
  refine ⟨Node.calm_of_life hl h1, by rw [Node.clients_of_life hl]; exact h2, ?_⟩
  intro k hk
  rw [Node.clients_of_life hl] at hk
  have hk0 : Sub w c2 k := Sub.child hm0 hk
  rw [Node.server_of_life (h.2.1 k (hdis k hk0))]
  exact h3 k hk

theorem foldl_bind_start {α : Type} (g : α → World → Res) (t : List α) (r : Res) :
    t.foldl (fun acc a => acc.bind (g a)) r =
      r.bind (fun w1 => t.foldl (fun acc a => acc.bind (g a)) (Res.ok w1)) := by
  induction t generalizing r with
  | nil => cases r <;> rfl
  | cons a u ih =>
    simp only [List.foldl_cons]
    rw [ih (r.bind (g a))]
    cases r with
    | ok w => simp only [Res.bind_ok]; exact (ih (g a w)).symm
    | deadlock n w => rfl
    | hang n w => rfl
    | outOfFuel => rfl

theorem DownPre.not_sub_of_inProgress {w : World} {c n : Nat} (hd : DownPre w c)
    (hn : (w.nodes n).removeAllClientsInProgress = true) : ¬ Sub w c n := by
  intro h
  have := (hd n h).1.2.1
  rw [hn] at this
  exact absurd this (by decide)

theorem teardown_loop (rk : Nat → Nat) (k n : Nat)
    (ih : ∀ c w0, Ranked w0 rk → DownPre w0 c →
      (∀ s, (w0.nodes c).server = some s → (w0.nodes s).removeAllClientsInProgress = true) →
      (exec k (Call.setServer c none) w0).Sat (TornSub w0 c) (Quiet w0 ∧ 2 * rk c + 5 ≤ k))
    (ks : List Nat) (w : World) (hr : Ranked w rk)
    (hks : ∀ c ∈ ks, DownPre w c ∧ (w.nodes c).server = some n ∧ rk c < rk n)
    (hn : (w.nodes n).removeAllClientsInProgress = true) (hnd : ks.Nodup) :
    (ks.foldl (fun acc client => acc.bind (exec k (Call.setServer client none)))
      (Res.ok w)).Sat (TornSubs w ks) (Quiet w ∧ 2 * rk n + 3 ≤ k) := by
  induction ks generalizing w with
  | nil =>
    exact ⟨fun m ⟨c, hc, _⟩ => absurd hc (List.not_mem_nil _), fun _ _ => rfl, fun h => h⟩
  | cons c t iht =>
    simp only [List.foldl_cons, Res.bind_ok]
    rw [foldl_bind_start]
    obtain ⟨hdc, hsc, hrc⟩ := hks c (List.mem_cons_self _ _)
    have hgc : ∀ s, (w.nodes c).server = some s →
        (w.nodes s).removeAllClientsInProgress = true := by
      intro s hs
      rw [hsc] at hs
      have : n = s := by simpa using hs
      subst this; exact hn
    refine (ih c w hr hdc hgc).bindS (fun h => ⟨h.1, by omega⟩) (fun w1 h1 => ?_)
    have hdis : ∀ c2 ∈ t, ∀ m, Sub w c2 m → ¬ Sub w c m := by
      intro c2 hc2 m h2 h1'
      obtain ⟨hd2, hs2, hr2⟩ := hks c2 (List.mem_cons_of_mem _ hc2)
      have hne : c ≠ c2 := by
        intro e; subst e
        exact (List.nodup_cons.1 hnd).1 hc2
      exact Sub.disjoint hr hdc hd2 hsc hs2 hrc hr2 hne h1' h2
    have hks1 : ∀ c2 ∈ t, DownPre w1 c2 ∧ (w1.nodes c2).server = some n ∧ rk c2 < rk n := by
      intro c2 hc2
      obtain ⟨hd2, hs2, hr2⟩ := hks c2 (List.mem_cons_of_mem _ hc2)
      refine ⟨h1.downPre (hdis c2 hc2) hd2, ?_, hr2⟩
      rw [Node.server_of_life (h1.2.1 c2 (hdis c2 hc2 c2 Sub.self))]
      exact hs2
    have hn1 : (w1.nodes n).removeAllClientsInProgress = true := by
      rw [Node.inProgress_of_life (h1.2.1 n (hdc.not_sub_of_inProgress hn))]
      exact hn
    refine (iht w1 (h1.rankedT hr) hks1 hn1 (List.nodup_cons.1 hnd).2).monoS ?_
      (fun h => ⟨h1.2.2 h.1, h.2⟩)
    intro w2 h2
    refine ⟨?_, ?_, fun hq => h2.2.2 (h1.2.2 hq)⟩
    · rintro m ⟨c', hc', hsub⟩
      rcases List.mem_cons.1 hc' with e | hc2
      · subst e
        have hnot : ¬ ∃ c2 ∈ t, Sub w1 c2 m := by
          rintro ⟨c2, hc2, hs2⟩
          exact hdis c2 hc2 m ((h1.sub_iff (hdis c2 hc2) m).1 hs2) hsub
        rw [h2.2.1 m hnot]
        exact h1.1 m hsub
      · have hs1 : Sub w1 c' m := (h1.sub_iff (hdis c' hc2) m).2 hsub
        rw [h2.1 m ⟨c', hc2, hs1⟩]
        exact Node.torn_congr (h1.2.1 m (hdis c' hc2 m hsub))
    · intro m hm
      have hnot : ¬ ∃ c2 ∈ t, Sub w1 c2 m := by
        rintro ⟨c2, hc2, hs2⟩
        exact hm ⟨c2, List.mem_cons_of_mem _ hc2, (h1.sub_iff (hdis c2 hc2) m).1 hs2⟩
      rw [h2.2.1 m hnot]
      exact h1.2.1 m (fun hs => hm ⟨c, List.mem_cons_self _ _, hs⟩)

theorem Sub.iff_of_agree {w w2 : World} {c : Nat}
    (h : ∀ m, Sub w c m → (w2.nodes m).life = (w.nodes m).life) (m : Nat) :
    Sub w2 c m ↔ Sub w c m :=
  ⟨Sub.congr_rev (fun p hp => Node.clients_of_life (h p hp)),
   Sub.congrS (fun p hp => Node.clients_of_life (h p hp))⟩

theorem DownPre.congrD {w w2 : World} {c : Nat} (hd : DownPre w c)
    (h : ∀ m, Sub w c m → (w2.nodes m).life = (w.nodes m).life) : DownPre w2 c := by
  intro m hm
  have hm0 : Sub w c m := (Sub.iff_of_agree h m).1 hm
  obtain ⟨h1, h2, h3⟩ := hd m hm0
  refine ⟨Node.calm_of_life (h m hm0) h1, by rw [Node.clients_of_life (h m hm0)]; exact h2, ?_⟩
  intro k hk
  rw [Node.clients_of_life (h m hm0)] at hk
  rw [Node.server_of_life (h k (Sub.child hm0 hk))]
  exact h3 k hk

theorem Ranked.congrR {w w2 : World} {rk : Nat → Nat} (hr : Ranked w rk)
    (h : ∀ m, (w2.nodes m).Clients = (w.nodes m).Clients ∨ (w2.nodes m).Clients = []) :
    Ranked w2 rk := by
  intro m k hk
  rcases h m with e | e
  · rw [e] at hk; exact hr m k hk
  · rw [e] at hk; simp at hk

theorem Sub.ne_of_child {w : World} {rk : Nat → Nat} (hr : Ranked w rk) {c k m : Nat}
    (hk : k ∈ (w.nodes c).Clients) (h : Sub w k m) : m ≠ c := by
  intro e
  subst e
  have h1 := h.rank hr
  have h2 := hr _ _ hk
  omega

theorem DownPre.root {w : World} {c : Nat} (hd : DownPre w c) : DownRoot w c := by
  obtain ⟨⟨hmx, hip, _, htk⟩, hnd, hch⟩ := hd c Sub.self
  exact ⟨hmx, hip, htk, hnd, fun k hk => ⟨hch k hk, hd.sub (Sub.child Sub.self hk)⟩⟩

theorem removeAllClients_sat (rk : Nat → Nat) (j c : Nat)
    (ih : ∀ c w0, Ranked w0 rk → DownPre w0 c →
      (∀ s, (w0.nodes c).server = some s → (w0.nodes s).removeAllClientsInProgress = true) →
      (exec j (Call.setServer c none) w0).Sat (TornSub w0 c) (Quiet w0 ∧ 2 * rk c + 5 ≤ j))
    (w : World) (hr : Ranked w rk) (hd : DownRoot w c)
    (hg : (w.nodes c).state = STATE_RUNNING → ∀ s, (w.nodes c).server = some s →
      (w.nodes s).removeAllClientsInProgress = true) :
    (exec (j + 1) (Call.removeAllClients c) w).Sat (EmptiedSub w c)
      (Quiet w ∧ 2 * rk c + 3 ≤ j) := by
  obtain ⟨hmx, hip, htk, hnd, hkids⟩ := hd
  have hch : ∀ k ∈ (w.nodes c).Clients, (w.nodes k).server = some c := fun k hk => (hkids k hk).1
  have hnotsub : ∀ s, (w.nodes s).removeAllClientsInProgress = true → ¬ Sub w c s := by
    intro s hs hsub
    rcases hsub.cases_root with e | ⟨k, hk, hsk⟩
    · rw [e, hip] at hs; exact absurd hs (by decide)
    · exact (hkids k hk).2.not_sub_of_inProgress hs hsk
  simp only [exec]
  by_cases hcl : (w.nodes c).Clients = []
  · rw [if_neg (by simp [hcl])]
    refine ⟨by simp [Node.emptied, hcl], fun m hm hne => absurd (hm.nil hcl) hne,
      fun _ _ => rfl, fun h => h⟩
  · rw [if_pos (by simpa [List.length_pos] using hcl)]
    unfold lock
    rw [if_neg (by simp [hmx])]
    -- the world in which the loop starts
    generalize hw2 : ((w.modify c (fun d => { d with removeAllClientsInProgress := true })).modify c
      (fun d => { d with clientAddRemoveMutex := true })) = w2
    have h2c : w2.nodes c =
        { w.nodes c with removeAllClientsInProgress := true, clientAddRemoveMutex := true } := by
      subst hw2; simp
    have h2o : ∀ m, m ≠ c → w2.nodes m = w.nodes m := by
      intro m hm; subst hw2; simp [hm]
    have h2q : Quiet w → Quiet w2 := by
      intro hq; subst hw2
      exact (hq.modifyQ c _ (fun o => by cases o <;> rfl)).modifyQ c _ (fun o => by cases o <;> rfl)
    have h2cl : (w2.nodes c).Clients = (w.nodes c).Clients := by rw [h2c]
    have hr2 : Ranked w2 rk := hr.congrR (fun m => by
      by_cases hm : m = c
      · subst hm; exact Or.inl h2cl
      · rw [h2o m hm]; exact Or.inl rfl)
    have hagree : ∀ k ∈ (w.nodes c).Clients, ∀ m, Sub w k m →
        (w2.nodes m).life = (w.nodes m).life := by
      intro k hk m hm
      rw [h2o m (Sub.ne_of_child hr hk hm)]
    have hks : ∀ k ∈ (w2.nodes c).Clients,
        DownPre w2 k ∧ (w2.nodes k).server = some c ∧ rk k < rk c := by
      intro k hk
      rw [h2cl] at hk
      refine ⟨((hkids k hk).2.congrD (hagree k hk)), ?_, hr c k hk⟩
      rw [h2o k (Sub.ne_of_child hr hk Sub.self)]
      exact hch k hk
    have hn2 : (w2.nodes c).removeAllClientsInProgress = true := by rw [h2c]
    have hloop := teardown_loop rk j c ih (w2.nodes c).Clients w2 hr2 hks hn2
      (by rw [h2cl]; exact hnd)
    refine hloop.bindS (fun h => ⟨h2q h.1, by omega⟩) (fun w3 h3 => ?_)
    rw [h2cl] at h3
    -- which nodes the loop has torn down
    have hsubs : ∀ m, (∃ k ∈ (w.nodes c).Clients, Sub w2 k m) ↔ (Sub w c m ∧ m ≠ c) := by
      intro m
      constructor
      · rintro ⟨k, hk, hs⟩
        have hs0 : Sub w k m := (Sub.iff_of_agree (hagree k hk) m).1 hs
        exact ⟨Sub.of_child hk hs0, Sub.ne_of_child hr hk hs0⟩
      · rintro ⟨hs, hne⟩
        rcases hs.cases_root with e | ⟨k, hk, hs0⟩
        · exact absurd e hne
        · exact ⟨k, hk, (Sub.iff_of_agree (hagree k hk) m).2 hs0⟩
    have h3c : (w3.nodes c).life = (w2.nodes c).life :=
      h3.2.1 c (fun h => ((hsubs c).1 h).2 rfl)
    have h3in : ∀ m, Sub w c m → m ≠ c → (w3.nodes m).life = (w.nodes m).torn := by
      intro m hs hne
      rw [h3.1 m ((hsubs m).2 ⟨hs, hne⟩), h2o m hne]
    have h3out : ∀ m, ¬ Sub w c m → (w3.nodes m).life = (w.nodes m).life := by
      intro m hs
      have hne : m ≠ c := fun e => hs (e ▸ Sub.self)
      rw [h3.2.1 m (fun h => hs ((hsubs m).1 h).1), h2o m hne]
    generalize hw4 : w3.modify c (fun d => { d with Clients := [] }) = w4
    have h4c : (w4.nodes c).life = { (w2.nodes c).life with Clients := [] } := by
      subst hw4
      simp only [World.modify_nodes, if_true]
      rw [← h3c]
      rfl
    have h4o : ∀ m, m ≠ c → w4.nodes m = w3.nodes m := by
      intro m hm; subst hw4; simp [hm]
    have h4q : Quiet w3 → Quiet w4 := by
      intro hq; subst hw4
      exact hq.modifyQ c _ (fun o => by cases o <;> rfl)
    have h4c2 : (w4.nodes c).life =
        { (w.nodes c).life with
          Clients := [], removeAllClientsInProgress := true, clientAddRemoveMutex := true } := by
      rw [h4c, h2c]; rfl
    have h4f := Node.life_ext_fields h4c2
    have hfin : ∀ (w5 : World) (x : Node), (w5.nodes c).life = x →
        (∀ m, m ≠ c → (w5.nodes m).life = (w4.nodes m).life) → (Quiet w4 → Quiet w5) →
        { x with removeAllClientsInProgress := false, clientAddRemoveMutex := false } =
          (w.nodes c).emptied →
        EmptiedSub w c
          (unlock c (w5.modify c (fun d => { d with removeAllClientsInProgress := false }))) := by
      intro w5 x h5c h5o h5q hx
      refine ⟨?_, ?_, ?_, ?_⟩
      · rw [← hx, ← h5c]
        simp [Node.life]
      · intro m hs hne
        simp only [unlock_nodes, World.modify_nodes, if_neg hne]
        rw [h5o m hne, h4o m hne]
        exact h3in m hs hne
      · intro m hs
        have hne : m ≠ c := fun e => hs (e ▸ Sub.self)
        simp only [unlock_nodes, World.modify_nodes, if_neg hne]
        rw [h5o m hne, h4o m hne]
        exact h3out m hs
      · intro hq
        have h5 := h5q (h4q (h3.2.2 (h2q hq)))
        exact (h5.modifyQ c _ (fun o => by cases o <;> rfl)).modifyQ c _
          (fun o => by cases o <;> rfl)
    have hpc4 : (w4.nodes c).isPrincipallyClient = (w.nodes c).isPrincipallyClient :=
      h4f.2.2.2.2.2.1
    have hst4 : (w4.nodes c).state = (w.nodes c).state := h4f.1
    have hcl4 : (w4.nodes c).Clients = [] := h4f.2.2.1
    have hsv4 : (w4.nodes c).server = (w.nodes c).server := h4f.2.1
    have htk4 : (w4.nodes c).task = (w.nodes c).task := h4f.2.2.2.2.2.2.1
    have hch4 : (w4.nodes c).taskStopCommandChannel = (w.nodes c).taskStopCommandChannel :=
      h4f.2.2.2.2.2.2.2.1
    have hlv4 : (w4.nodes c).taskLive = (w.nodes c).taskLive := h4f.2.2.2.2.2.2.2.2.1
    have hip4 : (w4.nodes c).removeAllClientsInProgress = true := h4f.2.2.2.2.1
    cases hpc : (w.nodes c).isPrincipallyClient with
    | false =>
      rw [if_pos (by simp [hpc4, hpc])]
      by_cases hrun : (w.nodes c).state = STATE_RUNNING
      · have hsrv4 : ∀ s, (w4.nodes c).server = some s →
            (w4.nodes s).removeAllClientsInProgress = true := by
          intro s hs
          rw [hsv4] at hs
          by_cases hsc : s = c
          · subst hsc; exact hip4
          · rw [h4o s hsc,
              Node.inProgress_of_life (h3out s (hnotsub s (hg hrun s hs)))]
            exact hg hrun s hs
        have hsl := stop_leaf_guarded j c w4 (by rw [hst4]; exact hrun) hcl4
          (by rw [htk4, hch4, hlv4]; exact htk hrun) hsrv4
        refine hsl.bindS (fun h => ⟨h4q (h3.2.2 (h2q h.1)), by omega⟩) (fun w5 h5 => ?_)
        refine hfin w5 _ h5.1 h5.2.1 h5.2.2 ?_
        simp only [Node.emptied, if_neg hcl, hpc, hrun, and_self, if_true]
        simp only [Node.stopped, h4c2, htk4]
        simp only [Node.life, hlv4, hip, hmx]
      · cases j with
        | zero => exact fun h => by omega
        | succ i =>
          rw [Stop_of_not_running i (by rw [hst4]; exact hrun), Res.bind_ok]
          refine hfin w4 _ rfl (fun _ _ => rfl) (fun h => h) ?_
          simp only [Node.emptied, if_neg hcl, hpc, hrun, and_false, if_false]
          rw [h4c2]
          simp only [Node.life, hip, hmx]
    | true =>
      rw [if_neg (by simp [hpc4, hpc]), Res.bind_ok]
      refine hfin w4 _ rfl (fun _ _ => rfl) (fun h => h) ?_
      simp only [Node.emptied, if_neg hcl, hpc, Bool.true_eq_false, false_and, if_false]
      rw [h4c2]
      simp only [Node.life, hip, hmx]

theorem Node.emptied_cases (nd : Node) (hst : nd.state = STATE_STOPPED ∨ nd.state = STATE_RUNNING) :
    ((nd.emptied.state = STATE_RUNNING ∧ nd.emptied.Clients = [] ∧
        (nd.emptied.task = true → nd.state = STATE_RUNNING → nd.task = true) ∧
        nd.state = STATE_RUNNING ∧ nd.emptied.task = nd.task ∧
        nd.emptied.taskStopCommandChannel = nd.taskStopCommandChannel ∧
        nd.emptied.taskLive = nd.taskLive ∧
        ({ ({ nd.emptied with server := none } : Node).life with
            state := STATE_STOPPED,
            taskLive := if nd.emptied.task = true then nd.emptied.taskLive - 1
                        else nd.emptied.taskLive } : Node) = nd.torn) ∨
      (nd.emptied.state ≠ STATE_RUNNING ∧
        ({ nd.emptied with server := none } : Node).life = nd.torn)) := by
  unfold Node.emptied
  by_cases hcl : nd.Clients = []
  · rw [if_pos hcl]
    rcases hst with h | h
    · right
      refine ⟨by simp [Node.life, h, STATE_STOPPED, STATE_RUNNING], ?_⟩
      simp [Node.life, Node.torn, h, hcl, STATE_STOPPED, STATE_RUNNING]
    · left
      refine ⟨by simp [Node.life, h], by simp [Node.life, hcl], fun _ _ => by simp_all [Node.life],
        h, rfl, rfl, rfl, ?_⟩
      simp [Node.life, Node.torn, h, hcl]
  · rw [if_neg hcl]
    by_cases hc : nd.isPrincipallyClient = false ∧ nd.state = STATE_RUNNING
    · rw [if_pos hc]
      right
      refine ⟨by simp [Node.stopped, STATE_STOPPED, STATE_RUNNING], ?_⟩
      simp [Node.life, Node.torn, Node.stopped, hc.2]
    · rw [if_neg hc]
      rcases hst with h | h
      · right
        refine ⟨by simp [Node.life, h, STATE_STOPPED, STATE_RUNNING], ?_⟩
        simp [Node.life, Node.torn, h, STATE_STOPPED, STATE_RUNNING]
      · left
        refine ⟨by simp [Node.life, h], by simp [Node.life], fun _ _ => by simp_all [Node.life],
          h, rfl, rfl, rfl, ?_⟩
        simp [Node.life, Node.torn, h]

/-- `c.setServer(nil)`, called while the server of `c` (if any) is in a bulk
detach, tears down the subtree of `c` and returns. -/
theorem teardown (rk : Nat → Nat) (fuel : Nat) :
    ∀ c w, Ranked w rk → DownPre w c →
      (∀ s, (w.nodes c).server = some s → (w.nodes s).removeAllClientsInProgress = true) →
      (exec fuel (Call.setServer c none) w).Sat (TornSub w c) (Quiet w ∧ 2 * rk c + 5 ≤ fuel) := by
  induction fuel using Nat.strong_induction_on with
  | _ fuel ih =>
    intro c w hr hd hg
    cases fuel with
    | zero => simp [exec, Res.Sat]
    | succ k =>
      simp only [exec]
      cases k with
      | zero => exact fun h => by omega
      | succ j =>
        have hR := removeAllClients_sat rk j c (ih j (by omega)) w hr hd.root (fun _ => hg)
        refine hR.bindS (fun h => ⟨h.1, by omega⟩) (fun w1 h1 => ?_)
        generalize hw2 : w1.modify c (fun d => { d with server := none }) = w2
        have h2c : (w2.nodes c).life =
            ({ (w.nodes c).emptied with server := none } : Node).life := by
          subst hw2
          simp only [World.modify_nodes, if_true]
          rw [← h1.1]
          simp [Node.life]
        have h2s : (w2.nodes c).server = none := by subst hw2; simp
        have h2o : ∀ m, m ≠ c → w2.nodes m = w1.nodes m := by
          intro m hm; subst hw2; simp [hm]
        have h2q : Quiet w1 → Quiet w2 := by
          intro hq; subst hw2
          exact hq.modifyQ c _ (fun o => by cases o <;> rfl)
        simp only [h2s]
        have hf := Node.life_ext_fields h2c
        have t1 : (w2.nodes c).task = (w.nodes c).emptied.task := hf.2.2.2.2.2.2.1
        have t2 : (w2.nodes c).taskStopCommandChannel =
            (w.nodes c).emptied.taskStopCommandChannel := hf.2.2.2.2.2.2.2.1
        have t3 : (w2.nodes c).taskLive = (w.nodes c).emptied.taskLive :=
          hf.2.2.2.2.2.2.2.2.1
        have hin : ∀ m, Sub w c m → m ≠ c → (w2.nodes m).life = (w.nodes m).torn := by
          intro m hs hne; rw [h2o m hne]; exact h1.2.1 m hs hne
        have hout : ∀ m, ¬ Sub w c m → (w2.nodes m).life = (w.nodes m).life := by
          intro m hs
          rw [h2o m (fun e => hs (e ▸ Sub.self))]; exact h1.2.2.1 m hs
        rcases Node.emptied_cases (w.nodes c) (hd c Sub.self).1.2.2.1 with
          ⟨e1, e2, _, e4, e5, e6, e7, e8⟩ | ⟨e1, e2⟩
        · have hsl := stop_leaf_guarded (j + 1) c w2 (by rw [hf.1]; exact e1)
            (by rw [hf.2.2.1]; exact e2)
            (by
              rw [t1, t2, t3, e5, e6, e7]
              exact (hd c Sub.self).1.2.2.2 e4)
            (by intro s hs; rw [h2s] at hs; exact absurd hs (by simp))
          refine hsl.monoS ?_ (fun h => ⟨h2q (h1.2.2.2 h.1), by omega⟩)
          intro w3 h3
          refine ⟨?_, ?_, fun hq => h3.2.2 (h2q (h1.2.2.2 hq))⟩
          · intro m hs
            by_cases hmc : m = c
            · subst hmc
              rw [h3.1, ← e8]
              simp only [Node.stopped, h2c]
              rw [t1, t3]
            · rw [h3.2.1 m hmc]; exact hin m hs hmc
          · intro m hs
            rw [h3.2.1 m (fun e => hs (e ▸ Sub.self))]; exact hout m hs
        · rw [Stop_of_not_running j (by rw [hf.1]; exact e1)]
          refine ⟨?_, hout, fun hq => h2q (h1.2.2.2 hq)⟩
          intro m hs
          by_cases hmc : m = c
          · subst hmc
            rw [h2c]; exact e2
          · exact hin m hs hmc

/-! ### Detaching a node without clients, and the cascade upward -/

theorem detach_leaf (fuel c : Nat) (w : World) (hcc : (w.nodes c).Clients = [])
    (hct : (w.nodes c).state = STATE_RUNNING → (w.nodes c).task = true →
      (w.nodes c).taskStopCommandChannel = true ∧ 0 < (w.nodes c).taskLive) :
    (exec fuel (Call.setServer c none) w).Sat (OnlyAt w c (w.nodes c).detached)
      (Quiet w ∧ 4 ≤ fuel) := by
  cases fuel with
  | zero => simp [exec, Res.Sat]
  | succ k =>
    simp only [exec]
    cases k with
    | zero => exact fun h => by omega
    | succ j =>
      rw [removeAllClients_nil j c w hcc, Res.bind_ok]
      generalize hw2 : w.modify c (fun d => { d with server := none }) = w2
      have h2c : w2.nodes c = { w.nodes c with server := none } := by subst hw2; simp
      have h2o : ∀ m, m ≠ c → w2.nodes m = w.nodes m := by
        intro m hm; subst hw2; simp [hm]
      have h2q : Quiet w → Quiet w2 := by
        intro hq; subst hw2
        exact hq.modifyQ c _ (fun o => by cases o <;> rfl)
      have h2s : (w2.nodes c).server = none := by rw [h2c]
      simp only [h2s]
      by_cases hrun : (w.nodes c).state = STATE_RUNNING
      · have hsl := stop_leaf_guarded (j + 1) c w2 (by rw [h2c]; exact hrun)
          (by rw [h2c]; exact hcc) (by rw [h2c]; exact hct hrun)
          (by intro s hs; rw [h2s] at hs; exact absurd hs (by simp))
        refine hsl.monoS ?_ (fun h => ⟨h2q h.1, by omega⟩)
        intro w3 h3
        refine ⟨?_, fun m hm => ?_, fun hq => h3.2.2 (h2q hq)⟩
        · rw [h3.1, h2c]
          simp [Node.detached, hrun, Node.torn, Node.stopped, Node.life, hcc]
        · rw [h3.2.1 m hm, h2o m hm]
      · rw [Stop_of_not_running j (by rw [h2c]; exact hrun)]
        refine ⟨?_, fun m hm => by rw [h2o m hm], h2q⟩
        rw [h2c]
        simp [Node.detached, hrun, Node.life]

theorem Anc.rankA {w : World} {rk : Nat → Nat} {R p : Nat} (hU : UpCalm w rk R p) {a : Nat}
    (h : Anc w p a) : rk p ≤ rk a := by
  induction h with
  | self => exact le_refl _
  | parent ha hs ih => exact le_of_lt (lt_of_le_of_lt ih ((hU _ ha).2.2 _ hs).2)

theorem Anc.appendA {w : World} {p a b : Nat} (h1 : Anc w p a) (h2 : Anc w a b) : Anc w p b := by
  induction h2 with
  | self => exact h1
  | parent _ hs ih => exact Anc.parent ih hs

theorem UpCalm.up {w : World} {rk : Nat → Nat} {R p g : Nat} (hU : UpCalm w rk R p)
    (hs : (w.nodes p).server = some g) : UpCalm w rk R g :=
  fun a ha => hU a ((Anc.parent Anc.self hs).appendA ha)

theorem UpCalm.congrU {w w2 : World} {rk : Nat → Nat} {R g : Nat} (hU : UpCalm w rk R g)
    (hag : ∀ a, rk g ≤ rk a → (w2.nodes a).life = (w.nodes a).life) : UpCalm w2 rk R g := by
  have hanc : ∀ a, Anc w2 g a → Anc w g a := by
    intro a ha
    induction ha with
    | self => exact Anc.self
    | parent _ hs ih =>
      exact Anc.parent ih (by rw [← Node.server_of_life (hag _ (Anc.rankA hU ih))]; exact hs)
  intro a ha2
  have ha := hanc a ha2
  have hl := hag a (Anc.rankA hU ha)
  obtain ⟨h1, h2, h3⟩ := hU a ha
  refine ⟨Node.calm_of_life hl h1, h2, ?_⟩
  intro t ht
  rw [Node.server_of_life hl] at ht
  obtain ⟨h4, h5⟩ := h3 t ht
  have hlt := hag t (le_trans (Anc.rankA hU ha) (le_of_lt h5))
  exact ⟨by rw [Node.clients_of_life hlt]; exact h4, h5⟩

theorem Emptied.congrE {w w2 : World} {x t : Nat}
    (hs : (w2.nodes x).server = (w.nodes x).server)
    (ht : (w2.nodes t).life = (w.nodes t).life) (h : Emptied w x t) : Emptied w2 x t := by
  obtain ⟨h1, h2, h3, h4⟩ := h
  exact ⟨by rw [hs]; exact h1, by rw [Node.clients_of_life ht]; exact h2,
    by rw [Node.isPC_of_life ht]; exact h3, by rw [Node.state_of_life ht]; exact h4⟩

theorem CascadeOf.congrC {w w2 : World} {rk : Nat → Nat} {R : Nat} {x : Nat} {l : List Nat}
    (h : CascadeOf w x l) (hU : UpCalm w rk R x)
    (hs : (w2.nodes x).server = (w.nodes x).server)
    (hag : ∀ a, rk x < rk a → (w2.nodes a).life = (w.nodes a).life) : CascadeOf w2 x l := by
  induction h with
  | @stop x hno =>
    refine CascadeOf.stop (fun t ht => hno t ?_)
    have hst : (w.nodes x).server = some t := by rw [← hs]; exact ht.1
    have hlt := ((hU x Anc.self).2.2 t hst).2
    exact Emptied.congrE hs.symm (hag t hlt).symm ht
  | @step x t l he _ ih =>
    have hlt := ((hU x Anc.self).2.2 t he.1).2
    refine CascadeOf.step (Emptied.congrE hs (hag t hlt) he) ?_
    exact ih (hU.up he.1) (Node.server_of_life (hag t hlt))
      (fun a ha => hag a (lt_trans hlt ha))

theorem cascade_exists (w : World) (rk : Nat → Nat) (R : Nat) :
    ∀ (n x : Nat), R - rk x ≤ n → UpCalm w rk R x → ∃ l, CascadeOf w x l := by
  intro n
  induction n with
  | zero =>
    intro x hx hU
    refine ⟨[], CascadeOf.stop (fun t ht => ?_)⟩
    have h1 := ((hU x Anc.self).2.2 t ht.1).2
    have h2 := (hU t (Anc.parent Anc.self ht.1)).2.1
    omega
  | succ n ih =>
    intro x hx hU
    by_cases he : ∃ t, Emptied w x t
    · obtain ⟨t, ht⟩ := he
      have h1 := ((hU x Anc.self).2.2 t ht.1).2
      obtain ⟨l, hl⟩ := ih t (by omega) (hU.up ht.1)
      exact ⟨t :: l, CascadeOf.step ht hl⟩
    · exact ⟨[], CascadeOf.stop (fun t ht => he ⟨t, ht⟩)⟩

theorem CascadeOf.mem_rank {w : World} {rk : Nat → Nat} {R : Nat} {x : Nat} {l : List Nat}
    (h : CascadeOf w x l) (hU : UpCalm w rk R x) : ∀ a ∈ l, rk x < rk a ∧ Anc w x a := by
  induction h with
  | stop _ => intro a ha; simp at ha
  | @step x t l he _ ih =>
    have hlt := ((hU x Anc.self).2.2 t he.1).2
    intro a ha
    rcases List.mem_cons.1 ha with e | ha
    · subst e; exact ⟨hlt, Anc.parent Anc.self he.1⟩
    · obtain ⟨h1, h2⟩ := ih (hU.up he.1) a ha
      exact ⟨lt_trans hlt h1, (Anc.parent Anc.self he.1).appendA h2⟩

theorem removeClient_front (k p c : Nat) (w : World) (Q : World → Prop) (e : Prop)
    (hne : c ≠ p) (hmem : c ∈ (w.nodes p).Clients)
    (hmx : (w.nodes p).clientAddRemoveMutex = false)
    (hip : (w.nodes p).removeAllClientsInProgress = false)
    (hcc : (w.nodes c).Clients = [])
    (hct : (w.nodes c).state = STATE_RUNNING → (w.nodes c).task = true →
      (w.nodes c).taskStopCommandChannel = true ∧ 0 < (w.nodes c).taskLive)
    (he : e → Quiet w ∧ 4 ≤ k)
    (hcont : ∀ w3, DetachedFrom w p c w3 →
      ((if ((w3.nodes p).Clients.length == 0 && !(w3.nodes p).isPrincipallyClient) = true then
          exec k (Call.Stop p) w3
        else Res.ok w3).bind (fun w4 => Res.ok (unlock p w4))).Sat Q e) :
    (exec (k + 1) (Call.RemoveClient p c) w).Sat Q e := by
  simp only [exec]
  rw [if_pos (by simp [hip])]
  unfold lock
  rw [if_neg (by simp [hmx])]
  simp only [World.modify_nodes, if_true]
  rw [if_pos (by simpa [List.indexOf_lt_length] using hmem)]
  generalize hw2 : (w.modify p (fun d => { d with clientAddRemoveMutex := true })).modify p
    (fun d => { d with Clients := d.Clients.eraseIdx (List.indexOf c (w.nodes p).Clients) }) = w2
  have h2p : w2.nodes p =
      { w.nodes p with clientAddRemoveMutex := true, Clients := (w.nodes p).Clients.erase c } := by
    subst hw2; simp
  have h2o : ∀ m, m ≠ p → w2.nodes m = w.nodes m := by
    intro m hm; subst hw2; simp [hm]
  have h2q : Quiet w → Quiet w2 := by
    intro hq; subst hw2
    exact (hq.modifyQ p _ (fun o => by cases o <;> rfl)).modifyQ p _ (fun o => by cases o <;> rfl)
  have hdl := detach_leaf k c w2 (by rw [h2o c hne]; exact hcc) (by rw [h2o c hne]; exact hct)
  refine hdl.bindS (fun h => ⟨h2q (he h).1, (he h).2⟩) (fun w3 h3 => ?_)
  refine hcont w3 ⟨?_, ?_, ?_, fun hq => h3.2.2 (h2q hq)⟩
  · rw [h3.1, h2o c hne]
  · rw [h3.2.1 p (Ne.symm hne), h2p]
    simp [Node.without, Node.life]
  · intro m hmc hmp
    rw [h3.2.1 m hmc, h2o m hmp]

theorem Node.without_congr {a b : Node} (h : a.life = b.life) (c : Nat) :
    a.without c = b.without c := by
  simp only [Node.without, h, Node.clients_of_life h]

theorem DetachedFrom.fields {w w3 : World} {p c : Nat} (h : DetachedFrom w p c w3) :
    (w3.nodes p).Clients = (w.nodes p).Clients.erase c ∧
    (w3.nodes p).isPrincipallyClient = (w.nodes p).isPrincipallyClient ∧
    (w3.nodes p).state = (w.nodes p).state ∧ (w3.nodes p).server = (w.nodes p).server ∧
    (w3.nodes p).task = (w.nodes p).task ∧
    (w3.nodes p).taskStopCommandChannel = (w.nodes p).taskStopCommandChannel ∧
    (w3.nodes p).taskLive = (w.nodes p).taskLive := by
  have hf := Node.life_ext_fields h.2.1
  exact ⟨hf.2.2.1, hf.2.2.2.2.2.1, hf.1, hf.2.1, hf.2.2.2.2.2.2.1, hf.2.2.2.2.2.2.2.1,
    hf.2.2.2.2.2.2.2.2.1⟩

theorem detach_up_nil (rk : Nat → Nat) (R fuel p c : Nat) (w : World)
    (hs : (w.nodes c).server = some p) (hmem : c ∈ (w.nodes p).Clients) (hrk : rk c < rk p)
    (hcc : (w.nodes c).Clients = [])
    (hct : (w.nodes c).state = STATE_RUNNING → (w.nodes c).task = true →
      (w.nodes c).taskStopCommandChannel = true ∧ 0 < (w.nodes c).taskLive)
    (hU : UpCalm w rk R p) (hno : ∀ t, ¬ Emptied w c t) :
    (exec fuel (Call.RemoveClient p c) w).Sat (DetachedUp w c []) (Quiet w ∧ 5 ≤ fuel) := by
  obtain ⟨⟨hmx, hip, hst, htk⟩, _, _⟩ := hU p Anc.self
  have hne : c ≠ p := fun e => by rw [e] at hrk; exact lt_irrefl _ hrk
  cases fuel with
  | zero => simp [exec, Res.Sat]
  | succ k =>
    refine removeClient_front k p c w _ _ hne hmem hmx hip hcc hct
      (fun h => ⟨h.1, by omega⟩) (fun w3 h3 => ?_)
    obtain ⟨f1, f2, f3, f4, f5, f6, f7⟩ := h3.fields
    have hfinal : DetachedUp w c [] (unlock p w3) := by
      refine ⟨?_, fun a ha => absurd ha (List.not_mem_nil _), ?_, ?_⟩
      · simp only [unlock_nodes, if_neg hne]; exact h3.1
      · intro m hmc _
        simp only [List.getLastD_nil, hs, Option.some.injEq, unlock_nodes]
        constructor
        · intro e; subst e
          simp only [if_true]
          have := h3.2.1
          simp only [Node.life, Node.without] at this ⊢
          simp only [Node.mk.injEq] at this ⊢
          simp_all
        · intro e
          have hmp : m ≠ p := fun h => e (by rw [h])
          simp only [if_neg hmp]
          exact h3.2.2.1 m hmc hmp
      · intro hq
        exact (h3.2.2.2 hq).modifyQ p _ (fun o => by cases o <;> rfl)
    by_cases hcond : ((w3.nodes p).Clients.length == 0 && !(w3.nodes p).isPrincipallyClient) = true
    · rw [if_pos hcond]
      have hnr : (w3.nodes p).state ≠ STATE_RUNNING := by
        intro hr
        refine hno p ⟨hs, ?_, ?_, by rw [← f3]; exact hr⟩
        · rw [← f1]; simp at hcond; exact hcond.1
        · rw [← f2]; simp at hcond; exact hcond.2
      cases k with
      | zero => exact fun h => by omega
      | succ i =>
        rw [Stop_of_not_running i hnr, Res.bind_ok]
        exact hfinal
    · rw [if_neg hcond, Res.bind_ok]
      exact hfinal

theorem detach_up_final {w w5 : World} {p c : Nat} {l : List Nat} (hne : c ≠ p)
    (hpl : p ∉ l) (he : Emptied w c p) (hmx : (w.nodes p).clientAddRemoveMutex = false)
    (G1 : (w5.nodes c).life = (w.nodes c).detached)
    (G2 : (w5.nodes p).life =
      { (w.nodes p).stopping with Clients := [], server := none, clientAddRemoveMutex := true })
    (G3 : ∀ a ∈ l, (w5.nodes a).life = (w.nodes a).torn)
    (G4 : ∀ m, m ≠ c → m ≠ p → m ∉ l →
      ((w.nodes (l.getLastD p)).server = some m →
        (w5.nodes m).life = (w.nodes m).without (l.getLastD p)) ∧
      ((w.nodes (l.getLastD p)).server ≠ some m → (w5.nodes m).life = (w.nodes m).life))
    (G5 : Quiet w → Quiet w5) :
    DetachedUp w c (p :: l) (unlock p (Trigger p Event.stop (store p STATE_STOPPED w5))) := by
  refine ⟨?_, ?_, ?_, ?_⟩
  · simp only [unlock_nodes, Trigger_nodes, store_nodes, if_neg hne]
    exact G1
  · intro a ha
    rcases List.mem_cons.1 ha with e | ha
    · subst e
      simp only [unlock_nodes, Trigger_nodes, store_nodes, if_true]
      have hrun := he.2.2.2
      have := G2
      simp only [Node.life, Node.stopping, Node.torn] at this ⊢
      simp only [Node.mk.injEq] at this ⊢
      simp_all
    · have hap : a ≠ p := fun e => hpl (e ▸ ha)
      simp only [unlock_nodes, Trigger_nodes, store_nodes, if_neg hap]
      exact G3 a ha
  · intro m hmc hml
    have hmp : m ≠ p := fun e => hml (e ▸ List.mem_cons_self _ _)
    have hml2 : m ∉ l := fun h => hml (List.mem_cons_of_mem _ h)
    rw [List.getLastD_cons]
    simp only [unlock_nodes, Trigger_nodes, store_nodes, if_neg hmp]
    exact G4 m hmc hmp hml2
  · intro hq
    exact (((G5 hq).storeQ p STATE_STOPPED).triggerQ p _).modifyQ p _
      (fun o => by cases o <;> rfl)

theorem Node.server_none_eta (x : Node) (h : x.server = none) :
    ({ x with server := none } : Node) = x := by
  cases x; simp_all

/-- `p.RemoveClient(c)` for an attached client `c` without clients of its own
detaches `c`, stops the ancestors `l` that the departure empties, and returns. -/
theorem detach_up (rk : Nat → Nat) (R : Nat) (l : List Nat) :
    ∀ (fuel p c : Nat) (w : World), (w.nodes c).server = some p →
      c ∈ (w.nodes p).Clients → rk c < rk p → (w.nodes c).Clients = [] →
      ((w.nodes c).state = STATE_RUNNING → (w.nodes c).task = true →
        (w.nodes c).taskStopCommandChannel = true ∧ 0 < (w.nodes c).taskLive) →
      UpCalm w rk R p → CascadeOf w c l →
      (exec fuel (Call.RemoveClient p c) w).Sat (DetachedUp w c l)
        (Quiet w ∧ 2 * l.length + 5 ≤ fuel) := by
  induction l with
  | nil =>
    intro fuel p c w hs hmem hrk hcc hct hU hC
    cases hC with
    | stop hno => exact detach_up_nil rk R fuel p c w hs hmem hrk hcc hct hU hno
  | cons q l ih =>
    intro fuel p c w hs hmem hrk hcc hct hU hC
    cases hC with
    | step he hC =>
    have hqp : q = p := by
      have := he.1; rw [hs] at this; simpa using this.symm
    subst hqp
    obtain ⟨⟨hmx, hip, hst, htk⟩, hRq, hupq⟩ := hU q Anc.self
    have hne : c ≠ q := fun e => by rw [e] at hrk; exact lt_irrefl _ hrk
    have hrun : (w.nodes q).state = STATE_RUNNING := he.2.2.2
    cases fuel with
    | zero => simp [exec, Res.Sat]
    | succ k =>
      refine removeClient_front k q c w _ _ hne hmem hmx hip hcc hct
        (fun h => ⟨h.1, by simp only [List.length_cons] at h; omega⟩) (fun w3 h3 => ?_)
      obtain ⟨f1, f2, f3, f4, f5, f6, f7⟩ := h3.fields
      have hcl3 : (w3.nodes q).Clients = [] := by rw [f1]; exact he.2.1
      rw [if_pos (by simp [hcl3, f2, he.2.2.1])]
      cases k with
      | zero => exact fun h => by omega
      | succ i =>
        simp only [exec]
        rw [if_pos (by simp [Node.IsRunning, f3, hrun])]
        refine Res.Sat.bindS (P := fun w6 => DetachedUp w c (q :: l) (unlock q w6)) ?_
          (fun h => h) (fun w6 h6 => h6)
        refine Res.Sat.bindS (stop_begin i q w3 hcl3 (by rw [f5, f6, f7]; exact htk hrun))
          (fun h => ⟨h3.2.2.2 h.1, by simp only [List.length_cons] at h; omega⟩)
          (fun w4 h4 => ?_)
        have h4q : (w4.nodes q).life =
            { (w.nodes q).stopping with Clients := [], clientAddRemoveMutex := true } := by
          rw [h4.1]
          have := h3.2.1
          simp only [Node.stopping, this, f5, f7]
          simp only [Node.life, Node.without, he.2.1]
        have h4f := Node.life_ext_fields h4q
        have h4s : (w4.nodes q).server = (w.nodes q).server := h4f.2.1
        have h4c : (w4.nodes c).life = (w.nodes c).detached := by
          rw [h4.2.1 c hne]; exact h3.1
        have hA : ∀ m, m ≠ c → m ≠ q → (w4.nodes m).life = (w.nodes m).life := by
          intro m hmc hmq
          rw [h4.2.1 m hmq]; exact h3.2.2.1 m hmc hmq
        have h4Q : Quiet w → Quiet w4 := fun hq => h4.2.2 (h3.2.2.2 hq)
        have hmem_l := hC.mem_rank hU
        have hql : q ∉ l := fun h => lt_irrefl _ (hmem_l q h).1
        cases hsq : (w.nodes q).server with
        | none =>
          simp only [h4s, hsq, Res.bind_ok]
          have hl : l = [] := by
            cases hC with
            | stop _ => rfl
            | step he2 _ =>
              have h2 := he2.1
              rw [hsq] at h2
              exact absurd h2 (by simp)
          subst hl
          refine detach_up_final hne hql he hmx h4c ?_ (fun a ha => absurd ha (List.not_mem_nil _))
            ?_ h4Q
          · rw [h4q]
            simp only [Node.stopping, Node.life, hsq]
          · intro m hmc hmq _
            simp only [List.getLastD_nil, hsq]
            exact ⟨fun h => absurd h (by simp), fun _ => hA m hmc hmq⟩
        | some g =>
          simp only [h4s, hsq]
          obtain ⟨hqg, hrg⟩ := hupq g hsq
          have hgc : g ≠ c := fun e => by rw [e] at hrg; omega
          have hgq : g ≠ q := fun e => by rw [e] at hrg; omega
          have hU4 : UpCalm w4 rk R g :=
            (hU.up hsq).congrU (fun a ha =>
              hA a (fun e => by rw [e] at ha; omega) (fun e => by rw [e] at ha; omega))
          have hC4 : CascadeOf w4 q l :=
            hC.congrC hU h4s (fun a ha =>
              hA a (fun e => by rw [e] at ha; omega) (fun e => by rw [e] at ha; omega))
          have hst4 : (w4.nodes q).state = STATE_STOPPING := h4f.1
          have hIH := ih i g q w4 (by rw [h4s]; exact hsq)
            (by rw [Node.clients_of_life (hA g hgc hgq)]; exact hqg) hrg h4f.2.2.1
            (fun h => by rw [hst4] at h; exact absurd h (by decide)) hU4 hC4
          refine hIH.bindS
            (fun h => ⟨h4Q h.1, by simp only [List.length_cons] at h; omega⟩) (fun w5 h5 => ?_)
          have hlast : l.getLastD q = q ∨ l.getLastD q ∈ l := by
            cases l with
            | nil => exact Or.inl rfl
            | cons a t =>
              right
              rw [List.getLastD_cons, ← List.getLast_eq_getLastD a t (List.cons_ne_nil a t)]
              exact List.getLast_mem (List.cons_ne_nil a t)
          have hrl : rk q ≤ rk (l.getLastD q) := by
            rcases hlast with e | h
            · rw [e]
            · exact le_of_lt (hmem_l _ h).1
          have hancl : Anc w q (l.getLastD q) := by
            rcases hlast with e | h
            · rw [e]; exact Anc.self
            · exact (hmem_l _ h).2
          have hsl : (w4.nodes (l.getLastD q)).server = (w.nodes (l.getLastD q)).server := by
            rcases hlast with e | h
            · rw [e]; exact h4s
            · have := (hmem_l _ h).1
              exact Node.server_of_life
                (hA _ (fun e => by rw [e] at this; omega) (fun e => by rw [e] at this; omega))
          have hcl : c ∉ l := fun h => by have := (hmem_l c h).1; omega
          refine detach_up_final hne hql he hmx ?_ ?_ ?_ ?_ (fun hq => h5.2.2.2 (h4Q hq))
          · rw [(h5.2.2.1 c hne hcl).2 ?_]
            · exact h4c
            · rw [hsl]
              intro hsc
              have := ((hU _ hancl).2.2 c hsc).2
              omega
          · rw [h5.1]
            simp only [Node.detached, hst4]
            rw [if_neg (by decide), h4q]
          · intro a ha
            have := (hmem_l a ha).1
            rw [h5.2.1 a ha]
            exact Node.torn_congr
              (hA a (fun e => by rw [e] at this; omega) (fun e => by rw [e] at this; omega))
          · intro m hmc hmq hml
            obtain ⟨k1, k2⟩ := h5.2.2.1 m hmq hml
            rw [hsl] at k1 k2
            refine ⟨fun h => ?_, fun h => ?_⟩
            · rw [k1 h]; exact Node.without_congr (hA m hmc hmq) _
            · rw [k2 h]; exact hA m hmc hmq

/-! ### Stopping a node of a well-formed forest -/

theorem WF.downPreW {w : World} {rk : Nat → Nat} (h : WF w rk) (c : Nat) : DownPre w c :=
  fun m _ => ⟨(h.2 m).1, (h.2 m).2.1, (h.2 m).2.2.1⟩

theorem WF.upCalm {w : World} {rk : Nat → Nat} {R : Nat} (h : WF w rk) (hR : ∀ m, rk m ≤ R)
    (p : Nat) : UpCalm w rk R p :=
  fun a _ => ⟨(h.2 a).1, hR a, fun g hg => ⟨(h.2 a).2.2.2 g hg, h.1 g a ((h.2 a).2.2.2 g hg)⟩⟩

theorem CascadeOf.length_le {w : World} {rk : Nat → Nat} {R : Nat} {x : Nat} {l : List Nat}
    (h : CascadeOf w x l) (hU : UpCalm w rk R x) : l.length + rk x ≤ R := by
  induction h with
  | @stop x _ => simpa using (hU x Anc.self).2.1
  | @step x t l he _ ih =>
    have hlt := ((hU x Anc.self).2.2 t he.1).2
    have := ih (hU.up he.1)
    simp only [List.length_cons]
    omega

theorem CascadeOf.of_no_server {w : World} {x : Nat} {l : List Nat} (h : CascadeOf w x l)
    (hs : (w.nodes x).server = none) : l = [] := by
  cases h with
  | stop _ => rfl
  | step he _ =>
    have h2 := he.1
    rw [hs] at h2
    exact absurd h2 (by simp)

theorem getLastD_mem_or (l : List Nat) (q : Nat) : l.getLastD q = q ∨ l.getLastD q ∈ l := by
  cases l with
  | nil => exact Or.inl rfl
  | cons a t =>
    right
    rw [List.getLastD_cons, ← List.getLast_eq_getLastD a t (List.cons_ne_nil a t)]
    exact List.getLast_mem (List.cons_ne_nil a t)

theorem stop_top (rk : Nat → Nat) (R n : Nat) (l : List Nat) (w : World) (hwf : WF w rk)
    (hR : ∀ m, rk m ≤ R) (hrun : (w.nodes n).state = STATE_RUNNING) (hC : CascadeOf w n l)
    (fuel : Nat) :
    (exec fuel (Call.Stop n) w).Sat (StoppedTop w n l) (Quiet w ∧ 2 * R + 6 ≤ fuel) := by
  obtain ⟨⟨hmx, hip, hst, htk⟩, hnd, hch, hsv⟩ := hwf.2 n
  have hrn : rk n ≤ R := hR n
  have hU : UpCalm w rk R n := hwf.upCalm hR n
  have hll := hC.length_le hU
  have hmem_l := hC.mem_rank hU
  cases fuel with
  | zero => simp [exec, Res.Sat]
  | succ k =>
    simp only [exec]
    rw [if_pos (by simp [Node.IsRunning, hrun])]
    obtain ⟨w1, e1, h1⟩ := stop_handshake n w (htk hrun)
    rw [e1, Res.bind_ok]
    have h1cl : ∀ m, (w1.nodes m).Clients = (w.nodes m).Clients := by
      intro m
      by_cases hm : m = n
      · subst hm
        exact (Node.life_ext_fields h1.1).2.2.1
      · exact Node.clients_of_life (h1.2.1 m hm)
    have hr1 : Ranked w1 rk := hwf.1.congrR (fun m => Or.inl (h1cl m))
    -- the two queue flushes and the bulk detach
    refine Res.Sat.bindS (P := fun w3 => ∃ w2, (SameLife w1 w2 ∧ (Quiet w1 → Quiet w2)) ∧
      EmptiedSub w2 n w3) ?_ (fun h => h) (fun w3 h3 => ?_)
    · refine (flushQueues_sat rk k n w1 hr1).bindS (fun h => ⟨h1.2.2 h.1, by omega⟩)
        (fun w2 h2 => ?_)
      cases k with
      | zero => exact fun h => by omega
      | succ j =>
        have h2l : ∀ m, m ≠ n → (w2.nodes m).life = (w.nodes m).life := fun m hm =>
          (h2.1.life m).trans (h1.2.1 m hm)
        have h2n : (w2.nodes n).life = (w.nodes n).stopping := (h2.1.life n).trans h1.1
        have h2f := Node.life_ext_fields h2n
        have hs2 : (w2.nodes n).state = STATE_STOPPING := h2f.1
        have hroot : DownRoot w2 n := by
          refine ⟨h2f.2.2.2.1.trans hmx, h2f.2.2.2.2.1.trans hip, ?_, ?_, ?_⟩
          · intro h
            rw [hs2] at h
            exact absurd h (by decide)
          · rw [h2f.2.2.1]; exact hnd
          · intro c hc
            rw [h2f.2.2.1] at hc
            have hc' : c ∈ (w.nodes n).Clients := hc
            have hcn : c ≠ n := Sub.ne_of_child hwf.1 hc' Sub.self
            refine ⟨by rw [Node.server_of_life (h2l c hcn)]; exact hch c hc', ?_⟩
            exact (hwf.downPreW c).congrD (fun m hm => h2l m (Sub.ne_of_child hwf.1 hc' hm))
        refine (removeAllClients_sat rk j n (teardown rk j) w2 (h2.1.ranked hr1) hroot ?_).monoS
          (fun w3 h3 => ⟨w2, h2, h3⟩) (fun h => ⟨h2.2 (h1.2.2 h.1), by omega⟩)
        intro h
        rw [hs2] at h
        exact absurd h (by decide)
    · obtain ⟨w2, h2, h3⟩ := h3
      have h2l : ∀ m, m ≠ n → (w2.nodes m).life = (w.nodes m).life := fun m hm =>
        (h2.1.life m).trans (h1.2.1 m hm)
      have h2n : (w2.nodes n).life = (w.nodes n).stopping := (h2.1.life n).trans h1.1
      have h2f := Node.life_ext_fields h2n
      have hs2 : (w2.nodes n).state = STATE_STOPPING := h2f.1
      have h2cl : ∀ m, (w2.nodes m).Clients = (w.nodes m).Clients := fun m =>
        (h2.1.clients m).trans (h1cl m)
      have hsub : ∀ m, Sub w2 n m ↔ Sub w n m := fun m =>
        ⟨Sub.congrS (fun p _ => (h2cl p).symm), Sub.congrS (fun p _ => h2cl p)⟩
      have hnotsub : ∀ a, rk n < rk a → ¬ Sub w n a := fun a ha hs => by
        have := hs.rank hwf.1; omega
      have L3n : (w3.nodes n).life = { (w.nodes n).stopping with Clients := [] } := by
        rw [h3.1]
        unfold Node.emptied
        by_cases hcl : (w2.nodes n).Clients = []
        · rw [if_pos hcl, h2n]
          have : (w.nodes n).Clients = [] := by rw [← h2cl n]; exact hcl
          simp only [Node.stopping, Node.life, this]
        · rw [if_neg hcl, if_neg (by rw [hs2]; simp [STATE_STOPPING, STATE_RUNNING]), h2n]
      have L3in : ∀ m, Sub w n m → m ≠ n → (w3.nodes m).life = (w.nodes m).torn := by
        intro m hs hne
        rw [h3.2.1 m ((hsub m).2 hs) hne]
        exact Node.torn_congr (h2l m hne)
      have L3out : ∀ m, ¬ Sub w n m → (w3.nodes m).life = (w.nodes m).life := by
        intro m hs
        rw [h3.2.2.1 m (fun h => hs ((hsub m).1 h))]
        exact h2l m (fun e => hs (e ▸ Sub.self))
      have Q3 : Quiet w → Quiet w3 := fun hq => h3.2.2.2 (h2.2 (h1.2.2 hq))
      have h3f := Node.life_ext_fields L3n
      have hfinal : ∀ w5 : World,
          (w5.nodes n).life = { (w.nodes n).stopping with Clients := [], server := none } →
          (∀ m, Sub w n m → m ≠ n → (w5.nodes m).life = (w.nodes m).torn) →
          (∀ a ∈ l, (w5.nodes a).life = (w.nodes a).torn) →
          (∀ m, ¬ Sub w n m → m ∉ l →
            ((w.nodes (l.getLastD n)).server = some m →
              (w5.nodes m).life = (w.nodes m).without (l.getLastD n)) ∧
            ((w.nodes (l.getLastD n)).server ≠ some m →
              (w5.nodes m).life = (w.nodes m).life)) →
          (Quiet w → Quiet w5) →
          StoppedTop w n l (Trigger n Event.stop (store n STATE_STOPPED w5)) := by
        intro w5 H1 H2 H3 H4 H5
        refine ⟨?_, ?_, ?_, fun hq => ((H5 hq).storeQ n STATE_STOPPED).triggerQ n _⟩
        · intro m hs
          by_cases hmn : m = n
          · subst hmn
            simp only [Trigger_nodes, store_nodes, if_true]
            have := H1
            simp only [Node.life, Node.stopping, Node.torn] at this ⊢
            simp only [Node.mk.injEq] at this ⊢
            simp_all
          · simp only [Trigger_nodes, store_nodes, if_neg hmn]
            exact H2 m hs hmn
        · intro a ha
          have han : a ≠ n := fun e => by have := (hmem_l a ha).1; rw [e] at this; omega
          simp only [Trigger_nodes, store_nodes, if_neg han]
          exact H3 a ha
        · intro m hs hml
          have hmn : m ≠ n := fun e => hs (e ▸ Sub.self)
          simp only [Trigger_nodes, store_nodes, if_neg hmn]
          exact H4 m hs hml
      have h3s : (w3.nodes n).server = (w.nodes n).server := h3f.2.1
      have hst3 : (w3.nodes n).state = STATE_STOPPING := h3f.1
      cases hsn : (w.nodes n).server with
      | none =>
        simp only [h3s, hsn, Res.bind_ok]
        have hl := hC.of_no_server hsn
        subst hl
        refine hfinal w3 ?_ L3in (fun a ha => absurd ha (List.not_mem_nil _)) ?_ Q3
        · rw [L3n]
          simp only [Node.stopping, Node.life, hsn]
        · intro m hs _
          simp only [List.getLastD_nil, hsn]
          exact ⟨fun h => absurd h (by simp), fun _ => L3out m hs⟩
      | some p =>
        simp only [h3s, hsn]
        have hpn : n ∈ (w.nodes p).Clients := hsv p hsn
        have hrp : rk n < rk p := hwf.1 p n hpn
        have hU3 : UpCalm w3 rk R p :=
          (hwf.upCalm hR p).congrU (fun a ha => L3out a (hnotsub a (by omega)))
        have hC3 : CascadeOf w3 n l :=
          hC.congrC hU h3s (fun a ha => L3out a (hnotsub a ha))
        have hD := detach_up rk R l k p n w3 (by rw [h3s]; exact hsn)
          (by rw [Node.clients_of_life (L3out p (hnotsub p hrp))]; exact hpn) hrp h3f.2.2.1
          (fun h => by rw [hst3] at h; exact absurd h (by decide)) hU3 hC3
        refine hD.bindS (fun h => ⟨Q3 h.1, by omega⟩) (fun w4 h4 => ?_)
        have hrl : rk n ≤ rk (l.getLastD n) := by
          rcases getLastD_mem_or l n with e | h
          · rw [e]
          · exact le_of_lt (hmem_l _ h).1
        have hancl : Anc w n (l.getLastD n) := by
          rcases getLastD_mem_or l n with e | h
          · rw [e]; exact Anc.self
          · exact (hmem_l _ h).2
        have hsl : (w3.nodes (l.getLastD n)).server = (w.nodes (l.getLastD n)).server := by
          rcases getLastD_mem_or l n with e | h
          · rw [e]; exact h3s
          · exact Node.server_of_life (L3out _ (hnotsub _ (hmem_l _ h).1))
        refine hfinal w4 ?_ ?_ ?_ ?_ (fun hq => h4.2.2.2 (Q3 hq))
        · rw [h4.1]
          simp only [Node.detached, hst3]
          rw [if_neg (by decide), L3n]
        · intro m hs hne
          have hml : m ∉ l := fun h => hnotsub m (hmem_l m h).1 hs
          rw [(h4.2.2.1 m hne hml).2 ?_]
          · exact L3in m hs hne
          · rw [hsl]
            intro hsc
            have h1' := ((hU _ hancl).2.2 m hsc).2
            have h2' := hs.rank hwf.1
            omega
        · intro a ha
          rw [h4.2.1 a ha]
          exact Node.torn_congr (L3out a (hnotsub a (hmem_l a ha).1))
        · intro m hs hml
          have hmn : m ≠ n := fun e => hs (e ▸ Sub.self)
          obtain ⟨k1, k2⟩ := h4.2.2.1 m hmn hml
          rw [hsl] at k1 k2
          refine ⟨fun h => ?_, fun h => ?_⟩
          · rw [k1 h]; exact Node.without_congr (L3out m hs) _
          · rw [k2 h]; exact L3out m hs

/-! ### From the specification of a chain to what a caller observes -/

theorem Res.Sat.elim {r : Res} {P : World → Prop} {e : Prop} (h : r.Sat P e) :
    (∀ w2, r = Res.ok w2 → P w2) ∧ (∀ x w2, r ≠ Res.deadlock x w2 ∧ r ≠ Res.hang x w2) ∧
      (e → r.returns = true) := by
  cases r with
  | ok w =>
    refine ⟨fun w2 h2 => ?_, fun _ _ => ⟨by simp, by simp⟩, fun _ => rfl⟩
    cases h2
    exact h
  | deadlock n w => exact absurd h id
  | hang n w => exact absurd h id
  | outOfFuel =>
    exact ⟨fun w2 h2 => Res.noConfusion h2, fun _ _ => ⟨by simp, by simp⟩, fun he => absurd he h⟩

/-! ### The concrete chains are well-formed -/

theorem chainABC_nodes_0 :
    chainABC.nodes 0 =
      { task := true, state := 2, Clients := [1], taskStopCommandChannel := true, taskLive := 1 } :=
  rfl

theorem chainABC_nodes_1 :
    chainABC.nodes 1 =
      { task := true, state := 2, server := some 0, Clients := [2], taskStopCommandChannel := true, taskLive := 1 } :=
  rfl

theorem chainABC_nodes_2 :
    chainABC.nodes 2 =
      { task := true, state := 2, server := some 1, taskStopCommandChannel := true, taskLive := 1 } :=
  rfl

theorem chainABC_nodes_ge (k : Nat) : chainABC.nodes (k + 3) = { task := true } := rfl

theorem chainABC_wf : WF chainABC chainRank := by
  refine ⟨?_, ?_⟩
  · intro m
    match m with
    | 0 => rw [chainABC_nodes_0]; simp [chainRank]
    | 1 => rw [chainABC_nodes_1]; simp [chainRank]
    | 2 => rw [chainABC_nodes_2]; simp
    | k + 3 => rw [chainABC_nodes_ge]; simp
  · intro m
    match m with
    | 0 =>
      rw [chainABC_nodes_0]
      refine ⟨by simp [Node.calm, STATE_RUNNING], by simp, ?_, by simp⟩
      intro k hk
      have : k = 1 := by simpa using hk
      subst this; rfl
    | 1 =>
      rw [chainABC_nodes_1]
      refine ⟨by simp [Node.calm, STATE_RUNNING], by simp, ?_, ?_⟩
      · intro k hk
        have : k = 2 := by simpa using hk
        subst this; rfl
      · intro g hg
        have : g = 0 := by simpa using hg.symm
        subst this; rw [chainABC_nodes_0]; simp
    | 2 =>
      rw [chainABC_nodes_2]
      refine ⟨by simp [Node.calm, STATE_RUNNING], by simp, by simp, ?_⟩
      intro g hg
      have : g = 1 := by simpa using hg.symm
      subst this; rw [chainABC_nodes_1]; simp
    | k + 3 =>
      rw [chainABC_nodes_ge]
      exact ⟨by simp [Node.calm, STATE_STOPPED, STATE_RUNNING], by simp, by simp, by simp⟩

theorem chainABC_quiet : Quiet chainABC := by
  intro m o q hq
  match m with
  | 0 => rw [chainABC_nodes_0] at hq; cases o <;> simp [Node.getQ] at hq
  | 1 => rw [chainABC_nodes_1] at hq; cases o <;> simp [Node.getQ] at hq
  | 2 => rw [chainABC_nodes_2] at hq; cases o <;> simp [Node.getQ] at hq
  | k + 3 => rw [chainABC_nodes_ge] at hq; cases o <;> simp [Node.getQ] at hq

theorem chainRank_le (m : Nat) : chainRank m ≤ 2 := by
  unfold chainRank; omega

/-! ### Attaching a client -/

theorem Start_nodes_of_ne (n : Nat) (w : World) {m : Nat} (h : m ≠ n) :
    (Start n w).nodes m = w.nodes m := by
  unfold Start
  simp only []
  split
  · split <;> simp [h]
  · rfl

theorem Start_fields (n : Nat) (w : World) :
    ((Start n w).nodes n).Clients = (w.nodes n).Clients ∧
    ((Start n w).nodes n).isPrincipallyClient = (w.nodes n).isPrincipallyClient ∧
    ((Start n w).nodes n).clientAddRemoveMutex = (w.nodes n).clientAddRemoveMutex ∧
    ((Start n w).nodes n).server = (w.nodes n).server ∧
    ((w.nodes n).state = STATE_STOPPED ∨ (w.nodes n).state = STATE_RUNNING →
      ((Start n w).nodes n).state = STATE_RUNNING) := by
  unfold Start
  simp only []
  split
  · split <;> simp
  · rename_i h
    refine ⟨rfl, rfl, rfl, rfl, fun hs => hs.resolve_left ?_⟩
    simpa [Node.isStopped] using h

theorem addClient_returns (fuel n c : Nat) (w : World) (hcalm : (w.nodes n).calm)
    (hpc : (w.nodes n).isPrincipallyClient = false) :
    ∃ w2, exec (fuel + 2) (Call.AddClient n c) w = Res.ok w2 ∧
      (w2.nodes n).state = STATE_RUNNING ∧ (w2.nodes n).Clients = (w.nodes n).Clients ++ [c] ∧
      (c ≠ n → (w2.nodes c).server = some n) := by
  obtain ⟨hmx, _, hst, _⟩ := hcalm
  simp only [exec, lock, hmx, Bool.false_eq_true, if_false, Res.bind_ok]
  generalize hw3 : (match
      (((w.modify n (fun d => { d with clientAddRemoveMutex := true })).modify n
        (fun d => { d with Clients := d.Clients ++ [c] })).nodes n).Ctx with
    | some ctx => SetContext c (some ctx)
        ((w.modify n (fun d => { d with clientAddRemoveMutex := true })).modify n
          (fun d => { d with Clients := d.Clients ++ [c] }))
    | none => (w.modify n (fun d => { d with clientAddRemoveMutex := true })).modify n
          (fun d => { d with Clients := d.Clients ++ [c] })) = w3
  have h3 : (w3.nodes n).Clients = (w.nodes n).Clients ++ [c] ∧
      (w3.nodes n).isPrincipallyClient = false ∧ (w3.nodes n).state = (w.nodes n).state := by
    subst hw3
    split
    · by_cases hcn : n = c
      · subst hcn; simp [hpc]
      · simp [hcn, hpc]
    · simp [hpc]
  simp only [World.modify_nodes, if_true, Res.bind_ok]
  generalize hw4 : Start c (w3.modify c (fun d => { d with server := some n })) = w4
  have h4 : (w4.nodes n).Clients = (w.nodes n).Clients ++ [c] ∧
      (w4.nodes n).isPrincipallyClient = false ∧
      ((w4.nodes n).state = STATE_STOPPED ∨ (w4.nodes n).state = STATE_RUNNING) ∧
      (c ≠ n → (w4.nodes c).server = some n) := by
    subst hw4
    by_cases hcn : c = n
    · subst hcn
      obtain ⟨f1, f2, _, _, f5⟩ := Start_fields c (w3.modify c (fun d => { d with server := some c }))
      refine ⟨by rw [f1]; simpa using h3.1, by rw [f2]; simpa using h3.2.1, Or.inr (f5 ?_),
        fun h => absurd rfl h⟩
      simpa [h3.2.2] using hst
    · have hnc : n ≠ c := fun e => hcn e.symm
      rw [Start_nodes_of_ne c _ hnc]
      refine ⟨by simpa [hnc] using h3.1, by simpa [hnc] using h3.2.1,
        by simpa [hnc, h3.2.2] using hst, fun _ => ?_⟩
      rw [(Start_fields c _).2.2.2.1]
      simp
  refine ⟨_, rfl, ?_, ?_, ?_⟩
  · simp only [unlock_nodes, if_true, h4.2.1, Bool.not_false, if_true]
    exact (Start_fields n w4).2.2.2.2 h4.2.2.1
  · simp only [unlock_nodes, if_true, h4.2.1, Bool.not_false, if_true]
    rw [(Start_fields n w4).1]; exact h4.1
  · intro hcn
    simp only [unlock_nodes, if_neg hcn, h4.2.1, Bool.not_false, if_true]
    rw [Start_nodes_of_ne n w4 hcn]
    exact h4.2.2.2 hcn

theorem chainLeafClient_nodes_0 :
    chainLeafClient.nodes 0 =
      { task := true, state := 2, Clients := [1], taskStopCommandChannel := true, taskLive := 1 } :=
  rfl

theorem chainLeafClient_nodes_1 :
    chainLeafClient.nodes 1 =
      { task := true, state := 2, server := some 0, Clients := [2], taskStopCommandChannel := true, taskLive := 1 } :=
  rfl

theorem chainLeafClient_nodes_2 :
    chainLeafClient.nodes 2 = { isPrincipallyClient := true, state := 2, server := some 1 } :=
  rfl

theorem chainLeafClient_nodes_ge (k : Nat) : chainLeafClient.nodes (k + 3) = { task := true } :=
  rfl

theorem chainLeafClient_wf : WF chainLeafClient chainRank := by
  refine ⟨?_, ?_⟩
  · intro m
    match m with
    | 0 => rw [chainLeafClient_nodes_0]; simp [chainRank]
    | 1 => rw [chainLeafClient_nodes_1]; simp [chainRank]
    | 2 => rw [chainLeafClient_nodes_2]; simp
    | k + 3 => rw [chainLeafClient_nodes_ge]; simp
  · intro m
    match m with
    | 0 =>
      rw [chainLeafClient_nodes_0]
      refine ⟨by simp [Node.calm, STATE_RUNNING], by simp, ?_, by simp⟩
      intro k hk
      have : k = 1 := by simpa using hk
      subst this; rfl
    | 1 =>
      rw [chainLeafClient_nodes_1]
      refine ⟨by simp [Node.calm, STATE_RUNNING], by simp, ?_, ?_⟩
      · intro k hk
        have : k = 2 := by simpa using hk
        subst this; rfl
      · intro g hg
        have : g = 0 := by simpa using hg.symm
        subst this; rw [chainLeafClient_nodes_0]; simp
    | 2 =>
      rw [chainLeafClient_nodes_2]
      refine ⟨by simp [Node.calm, STATE_RUNNING], by simp, by simp, ?_⟩
      intro g hg
      have : g = 1 := by simpa using hg.symm
      subst this; rw [chainLeafClient_nodes_1]; simp
    | k + 3 =>
      rw [chainLeafClient_nodes_ge]
      exact ⟨by simp [Node.calm, STATE_STOPPED, STATE_RUNNING], by simp, by simp, by simp⟩

theorem chainLeafClient_quiet : Quiet chainLeafClient := by
  intro m o q hq
  match m with
  | 0 => rw [chainLeafClient_nodes_0] at hq; cases o <;> simp [Node.getQ] at hq
  | 1 => rw [chainLeafClient_nodes_1] at hq; cases o <;> simp [Node.getQ] at hq
  | 2 => rw [chainLeafClient_nodes_2] at hq; cases o <;> simp [Node.getQ] at hq
  | k + 3 => rw [chainLeafClient_nodes_ge] at hq; cases o <;> simp [Node.getQ] at hq

theorem twoClients_nodes_0 :
    twoClients.nodes 0 =
      { task := true, state := 2, Clients := [1, 2], taskStopCommandChannel := true, taskLive := 1 } :=
  rfl

theorem twoClients_nodes_1 :
    twoClients.nodes 1 =
      { task := true, state := 2, server := some 0, taskStopCommandChannel := true, taskLive := 1 } :=
  rfl

theorem twoClients_nodes_2 :
    twoClients.nodes 2 =
      { task := true, state := 2, server := some 0, taskStopCommandChannel := true, taskLive := 1 } :=
  rfl

theorem twoClients_nodes_ge (k : Nat) : twoClients.nodes (k + 3) = { task := true } := rfl

theorem twoClients_wf : WF twoClients starRank := by
  refine ⟨?_, ?_⟩
  · intro m
    match m with
    | 0 => rw [twoClients_nodes_0]; simp [starRank]
    | 1 => rw [twoClients_nodes_1]; simp
    | 2 => rw [twoClients_nodes_2]; simp
    | k + 3 => rw [twoClients_nodes_ge]; simp
  · intro m
    match m with
    | 0 =>
      rw [twoClients_nodes_0]
      refine ⟨by simp [Node.calm, STATE_RUNNING], by simp, ?_, by simp⟩
      intro k hk
      have : k = 1 ∨ k = 2 := by simpa using hk
      rcases this with e | e <;> subst e <;> rfl
    | 1 =>
      rw [twoClients_nodes_1]
      refine ⟨by simp [Node.calm, STATE_RUNNING], by simp, by simp, ?_⟩
      intro g hg
      have : g = 0 := by simpa using hg.symm
      subst this; rw [twoClients_nodes_0]; simp
    | 2 =>
      rw [twoClients_nodes_2]
      refine ⟨by simp [Node.calm, STATE_RUNNING], by simp, by simp, ?_⟩
      intro g hg
      have : g = 0 := by simpa using hg.symm
      subst this; rw [twoClients_nodes_0]; simp
    | k + 3 =>
      rw [twoClients_nodes_ge]
      exact ⟨by simp [Node.calm, STATE_STOPPED, STATE_RUNNING], by simp, by simp, by simp⟩

theorem twoClients_quiet : Quiet twoClients := by
  intro m o q hq
  match m with
  | 0 => rw [twoClients_nodes_0] at hq; cases o <;> simp [Node.getQ] at hq
  | 1 => rw [twoClients_nodes_1] at hq; cases o <;> simp [Node.getQ] at hq
  | 2 => rw [twoClients_nodes_2] at hq; cases o <;> simp [Node.getQ] at hq
  | k + 3 => rw [twoClients_nodes_ge] at hq; cases o <;> simp [Node.getQ] at hq

theorem starRank_le (m : Nat) : starRank m ≤ 1 := by
  unfold starRank; split <;> omega

/-! ### Detaching and stopping: what changes between call and return -/

theorem Res.Ok.bindK {r : Res} {f : World → Res} {P Q : World → Prop} (h : r.Ok P)
    (hf : ∀ w1, P w1 → (f w1).Ok Q) : (r.bind f).Ok Q := by
  intro w2 h2
  obtain ⟨w1, h1, h3⟩ := Res.bind_eq_ok h2
  exact hf w1 (h w1 h1) w2 h3

theorem Res.Ok.pureK {w : World} {Q : World → Prop} (h : Q w) : (Res.ok w).Ok Q := by
  intro w2 h2
  cases h2
  exact h

theorem Res.Ok.monoK {r : Res} {P Q : World → Prop} (h : r.Ok P) (hPQ : ∀ w, P w → Q w) :
    r.Ok Q := fun w hw => hPQ w (h w hw)

theorem Res.Ok.of_all {r : Res} {Q : World → Prop} (h : r.All Q) : r.Ok Q := by
  intro w hw
  subst hw
  exact h

theorem Node.tv_fields {a b : Node} (h : a.tv = b.tv) :
    a.isPrincipallyClient = b.isPrincipallyClient ∧ a.server = b.server ∧ a.state = b.state ∧
    a.Clients = b.Clients ∧ a.removeAllClientsInProgress = b.removeAllClientsInProgress ∧
    a.clientAddRemoveMutex = b.clientAddRemoveMutex := by
  simpa [Node.tv] using h

theorem Node.tv_of_life {a b : Node} (h : a.life = b.life) : a.tv = b.tv := by
  have h1 := Node.life_ext_fields h
  simp only [Node.life] at h1
  simp only [Node.tv]
  rw [h1.1, h1.2.1, h1.2.2.1, h1.2.2.2.1, h1.2.2.2.2.1, h1.2.2.2.2.2.1]

theorem TearsAt.reflN (a : Node) : TearsAt a a :=
  ⟨rfl, Or.inl rfl, Or.inl rfl, fun _ h1 h2 => by rw [h1] at h2; exact absurd h2 (by decide),
    fun _ h1 h2 => absurd h2 h1, fun _ h1 h2 => by rw [h1] at h2; exact absurd h2 (by decide),
    fun _ h => h, fun h => h, rfl⟩

theorem TearsAt.congrN {a a2 b b2 : Node} (ha : a2.tv = a.tv) (hb : b2.tv = b.tv)
    (h : TearsAt a b) : TearsAt a2 b2 := by
  obtain ⟨a1, a3, a4, a5, a6, a7⟩ := Node.tv_fields ha
  obtain ⟨b1, b3, b4, b5, b6, b7⟩ := Node.tv_fields hb
  unfold TearsAt
  rw [a1, a3, a4, a5, a6, a7, b1, b3, b4, b5, b6, b7]
  exact h

theorem TearsAt.transN {a b c : Node} (h1 : TearsAt a b) (h2 : TearsAt b c) : TearsAt a c := by
  obtain ⟨p1, s1, t1, x1, y1, z1, c1, f1, m1⟩ := h1
  obtain ⟨p2, s2, t2, x2, y2, z2, c2, f2, m2⟩ := h2
  have hmono : b.server = none → c.server = none := fun h => by
    rcases s2 with e | e
    · rw [e, h]
    · exact e
  have hnr : b.state ≠ STATE_RUNNING → c.state ≠ STATE_RUNNING := fun h => by
    rcases t2 with e | e
    · rw [e]; exact h
    · exact absurd e.1 h
  refine ⟨p2.trans p1, ?_, ?_, ?_, ?_, ?_, fun x hx => c1 x (c2 x hx), fun h => f2 (f1 h),
    m2.trans m1⟩
  · rcases s2 with e | e
    · rw [e]; exact s1
    · exact Or.inr e
  · rcases t1 with e | e
    · rw [← e]; exact t2
    · rcases t2 with e2 | e2
      · exact Or.inr ⟨e.1, by rw [e2]; exact e.2⟩
      · rw [e.2] at e2; exact absurd e2.1 (by decide)
  · intro hpc hr hs
    rcases t1 with e | e
    · exact x2 (p1.trans hpc) (e.trans hr) hs
    · exact hmono (x1 hpc hr e.2)
  · intro hpc hsv hn
    by_cases hb : b.server = none
    · exact hnr (y1 hpc hsv hb)
    · exact y2 (p1.trans hpc) hb hn
  · intro hpc hr hs
    rcases t1 with e | e
    · exact z2 (p1.trans hpc) (e.trans hr) hs
    · have := z1 hpc hr e.2
      cases hcl : c.Clients with
      | nil => rfl
      | cons x t =>
        have := c2 x (by rw [hcl]; exact List.mem_cons_self _ _)
        simp_all

theorem Tears.reflT (w : World) : Tears w w :=
  ⟨fun _ => TearsAt.reflN _, fun _ _ h1 h2 => absurd h1 h2⟩

theorem Tears.transT {w w2 w3 : World} (h1 : Tears w w2) (h2 : Tears w2 w3) : Tears w w3 := by
  refine ⟨fun m => (h1.1 m).transN (h2.1 m), fun p x hx hn => ?_⟩
  by_cases hm : x ∈ (w2.nodes p).Clients
  · exact h2.2 p x hm hn
  · have := h1.2 p x hx hm
    rcases (h2.1 x).2.1 with e | e
    · rw [e]; exact this
    · exact e

theorem Tears.congrT {w w0 w2 w3 : World} (ha : ∀ m, (w0.nodes m).tv = (w.nodes m).tv)
    (hb : ∀ m, (w3.nodes m).tv = (w2.nodes m).tv) (h : Tears w w2) : Tears w0 w3 := by
  refine ⟨fun m => (h.1 m).congrN (ha m) (hb m), fun p x hx hn => ?_⟩
  rw [(Node.tv_fields (hb x)).2.1]
  rw [(Node.tv_fields (ha p)).2.2.2.1] at hx
  rw [(Node.tv_fields (hb p)).2.2.2.1] at hn
  exact h.2 p x hx hn

theorem SameLife.tv {w w2 : World} (h : SameLife w w2) (m : Nat) :
    (w2.nodes m).tv = (w.nodes m).tv := Node.tv_of_life (h.1 m)

theorem Tears.of_tv {w w2 : World} (h : ∀ m, (w2.nodes m).tv = (w.nodes m).tv) : Tears w w2 :=
  (Tears.reflT w).congrT (fun _ => rfl) h

theorem TearsAt.server_none {a b : Node} (h : TearsAt a b) (ha : a.server = none) :
    b.server = none := by
  rcases h.2.1 with e | e
  · rw [e, ha]
  · exact e

theorem TearsAt.nilN {a b : Node} (h : TearsAt a b) (ha : a.Clients = []) : b.Clients = [] := by
  cases hb : b.Clients with
  | nil => rfl
  | cons x t =>
    have := h.2.2.2.2.2.2.1 x (by rw [hb]; exact List.mem_cons_self _ _)
    rw [ha] at this
    cases this

theorem TearsAt.shrink {a b : Node} (h1 : b.isPrincipallyClient = a.isPrincipallyClient)
    (h2 : b.server = a.server) (h3 : b.state = a.state) (h4 : ∀ x ∈ b.Clients, x ∈ a.Clients)
    (h5 : b.removeAllClientsInProgress = a.removeAllClientsInProgress)
    (h6 : b.clientAddRemoveMutex = a.clientAddRemoveMutex) : TearsAt a b :=
  ⟨h1, Or.inl h2, Or.inl h3,
    fun _ e1 e2 => by rw [h3, e1] at e2; exact absurd e2 (by decide),
    fun _ e1 e2 => by rw [h2] at e2; exact absurd e2 e1,
    fun _ e1 e2 => by rw [h3, e1] at e2; exact absurd e2 (by decide),
    h4, fun e => by rw [h5]; exact e, h6⟩

theorem TearsAt.relock {a a2 b b2 : Node} (h : TearsAt a b)
    (a1 : a2.isPrincipallyClient = a.isPrincipallyClient) (a3 : a2.server = a.server)
    (a4 : a2.state = a.state) (a5 : a2.Clients = a.Clients)
    (b1 : b2.isPrincipallyClient = b.isPrincipallyClient) (b3 : b2.server = b.server)
    (b4 : b2.state = b.state) (b5 : b2.Clients = b.Clients)
    (hf : a2.removeAllClientsInProgress = false → b2.removeAllClientsInProgress = false)
    (hm : b2.clientAddRemoveMutex = a2.clientAddRemoveMutex) : TearsAt a2 b2 := by
  obtain ⟨p1, s1, t1, x1, y1, z1, c1, _, _⟩ := h
  unfold TearsAt
  rw [a1, a3, a4, a5, b1, b3, b4, b5]
  exact ⟨p1, s1, t1, x1, y1, z1, c1, hf, hm⟩

theorem Tears.stop_wrap {w wB wD w2 : World} {n : Nat}
    (hrun : (w.nodes n).state = STATE_RUNNING)
    (hB : ∀ m, (wB.nodes m).tv = ((store n STATE_STOPPING w).nodes m).tv)
    (hBD : Tears wB wD)
    (h2 : ∀ m, (w2.nodes m).tv = ((store n STATE_STOPPED wD).nodes m).tv)
    (hsrv : (w.nodes n).isPrincipallyClient = true → (wD.nodes n).server = none)
    (hcl : (w.nodes n).isPrincipallyClient = false → (wD.nodes n).Clients = []) :
    Tears w w2 := by
  have hBf := fun m => Node.tv_fields (hB m)
  have h2f := fun m => Node.tv_fields (h2 m)
  simp only [store_nodes] at hBf h2f
  refine ⟨fun m => ?_, fun p x hx hn => ?_⟩
  · by_cases hm : m = n
    · subst hm
      have a := hBf m
      have b := h2f m
      simp only [if_true] at a b
      obtain ⟨p1, s1, _, _, _, _, c1, f1, m1⟩ := hBD.1 m
      refine ⟨by rw [b.1, p1, a.1], ?_, Or.inr ⟨hrun, b.2.2.1⟩, fun hpc _ _ => ?_, fun _ _ _ => ?_,
        fun hpc _ _ => ?_, ?_, ?_, by rw [b.2.2.2.2.2, m1, a.2.2.2.2.2]⟩
      · rw [b.2.1, ← a.2.1]; exact s1
      · rw [b.2.1]; exact hsrv hpc
      · rw [b.2.2.1]; decide
      · rw [b.2.2.2.1]; exact hcl hpc
      · rw [b.2.2.2.1, ← a.2.2.2.1]; exact c1
      · rw [b.2.2.2.2.1, ← a.2.2.2.2.1]; exact f1
    · refine (hBD.1 m).congrN ?_ ?_
      · have := hB m; simp only [store_nodes, if_neg hm] at this; exact this.symm
      · have := h2 m; simp only [store_nodes, if_neg hm] at this; exact this
  · have e1 : (wB.nodes p).Clients = (w.nodes p).Clients := by
      have := (hBf p).2.2.2.1
      by_cases hp : p = n
      · subst hp; simpa using this
      · simpa [hp] using this
    have e2 : (w2.nodes p).Clients = (wD.nodes p).Clients := by
      have := (h2f p).2.2.2.1
      by_cases hp : p = n
      · subst hp; simpa using this
      · simpa [hp] using this
    have e3 : (w2.nodes x).server = (wD.nodes x).server := by
      have := (h2f x).2.1
      by_cases hp : x = n
      · subst hp; simpa using this
      · simpa [hp] using this
    rw [e3]
    rw [← e1] at hx
    rw [e2] at hn
    exact hBD.2 p x hx hn

theorem Tears.removeClient_wrap {w wB wD : World} {n c : Nat} (L : List Nat)
    (hmx : (w.nodes n).clientAddRemoveMutex = false)
    (hB : ∀ m, (wB.nodes m).tv =
      ((w.modify n (fun d => { d with clientAddRemoveMutex := true, Clients := L })).nodes m).tv)
    (hL1 : ∀ x ∈ L, x ∈ (w.nodes n).Clients)
    (hL2 : ∀ x ∈ (w.nodes n).Clients, x ∉ L → x = c)
    (hBD : Tears wB wD) (hc : (wD.nodes c).server = none) : Tears w (unlock n wD) := by
  have hBf := fun m => Node.tv_fields (hB m)
  refine ⟨fun m => ?_, fun p x hx hn => ?_⟩
  · by_cases hm : m = n
    · subst hm
      have a := hBf m
      simp only [World.modify_nodes, if_true] at a
      have s1 : TearsAt (w.nodes m) { w.nodes m with Clients := L } :=
        TearsAt.shrink rfl rfl rfl hL1 rfl rfl
      refine s1.transN ?_
      have tB := hBD.1 m
      refine tB.relock a.1.symm a.2.1.symm a.2.2.1.symm a.2.2.2.1.symm ?_ ?_ ?_ ?_ ?_ ?_ <;>
        simp only [unlock_nodes, if_true]
      · intro hf
        exact tB.2.2.2.2.2.2.2.1 (by rw [a.2.2.2.2.1]; exact hf)
      · exact hmx.symm
    · refine (hBD.1 m).congrN ?_ ?_
      · have := hB m; simp only [World.modify_nodes, if_neg hm] at this; exact this.symm
      · simp [hm]
  · have e3 : ((unlock n wD).nodes x).server = (wD.nodes x).server := by
      by_cases hx : x = n
      · subst hx; simp
      · simp [hx]
    have e2 : ((unlock n wD).nodes p).Clients = (wD.nodes p).Clients := by
      by_cases hp : p = n
      · subst hp; simp
      · simp [hp]
    rw [e3]
    rw [e2] at hn
    by_cases hp : p = n
    · subst hp
      have a := (hBf p).2.2.2.1
      simp only [World.modify_nodes, if_true] at a
      by_cases hxL : x ∈ L
      · exact hBD.2 p x (by rw [a]; exact hxL) hn
      · rw [hL2 x hx hxL]; exact hc
    · have a := (hBf p).2.2.2.1
      simp only [World.modify_nodes, if_neg hp] at a
      exact hBD.2 p x (by rw [a]; exact hx) hn

theorem Tears.setServer_wrap {w w1 w3 : World} {n : Nat} (h1 : Tears w w1)
    (h23 : Tears (w1.modify n (fun d => { d with server := none })) w3)
    (hpost : (w3.nodes n).state ≠ STATE_RUNNING) :
    Tears w w3 ∧ (w3.nodes n).server = none := by
  have hsn : (w3.nodes n).server = none := (h23.1 n).server_none (by simp)
  refine ⟨⟨fun m => ?_, fun p x hx hn => ?_⟩, hsn⟩
  · by_cases hm : m = n
    · subst hm
      obtain ⟨p1, s1, t1, x1, y1, z1, c1, f1, m1⟩ := h1.1 m
      obtain ⟨p2, s2, t2, x2, y2, z2, c2, f2, m2⟩ := h23.1 m
      simp only [World.modify_nodes, if_true] at p2 s2 t2 x2 y2 z2 c2 f2 m2
      refine ⟨p2.trans p1, Or.inr hsn, ?_, fun _ _ _ => hsn, fun _ _ _ => hpost, ?_,
        fun x hx => c1 x (c2 x hx), fun h => f2 (f1 h), m2.trans m1⟩
      · rcases t1 with e | e
        · rw [← e]; exact t2
        · rcases t2 with e2 | e2
          · exact Or.inr ⟨e.1, by rw [e2]; exact e.2⟩
          · rw [e.2] at e2; exact absurd e2.1 (by decide)
      · intro hpc hr hs
        rcases t1 with e | e
        · exact z2 (p1.trans hpc) (e.trans hr) hs
        · have hnil := z1 hpc hr e.2
          cases hcl : (w3.nodes m).Clients with
          | nil => rfl
          | cons x t =>
            have hx := c2 x (by rw [hcl]; exact List.mem_cons_self _ _)
            rw [hnil] at hx
            cases hx
    · refine (h1.1 m).transN ?_
      have := h23.1 m
      simp only [World.modify_nodes, if_neg hm] at this
      exact this
  · have hcl : ∀ q, ((w1.modify n (fun d => { d with server := none })).nodes q).Clients =
        (w1.nodes q).Clients := by
      intro q
      by_cases hq : q = n
      · subst hq; simp
      · simp [hq]
    by_cases hm : x ∈ (w1.nodes p).Clients
    · exact h23.2 p x (by rw [hcl]; exact hm) hn
    · have := h1.2 p x hx hm
      refine (h23.1 x).server_none ?_
      by_cases hq : x = n
      · subst hq; simp
      · simp [hq, this]

theorem Tears.removeAll_wrap {w w3 w5 : World} {n : Nat}
    (hmx : (w.nodes n).clientAddRemoveMutex = false)
    (hA3 : Tears ((w.modify n (fun d => { d with removeAllClientsInProgress := true })).modify n
      (fun d => { d with clientAddRemoveMutex := true })) w3)
    (hL : ∀ x ∈ (w.nodes n).Clients, (w3.nodes x).server = none)
    (h35 : Tears (w3.modify n (fun d => { d with Clients := [] })) w5) :
    Tears w (unlock n (w5.modify n (fun d => { d with removeAllClientsInProgress := false }))) ∧
    ((unlock n (w5.modify n
      (fun d => { d with removeAllClientsInProgress := false }))).nodes n).Clients = [] := by
  have hnil : (w5.nodes n).Clients = [] := (h35.1 n).nilN (by simp)
  refine ⟨⟨fun m => ?_, fun p x hx hn => ?_⟩, by simpa using hnil⟩
  · by_cases hm : m = n
    · subst hm
      have tA := hA3.1 m
      have tB := h35.1 m
      simp only [World.modify_nodes, if_true] at tA tB
      have tS : TearsAt (w3.nodes m) { w3.nodes m with Clients := [] } :=
        TearsAt.shrink rfl rfl rfl (fun x hx => by cases hx) rfl rfl
      refine (tA.transN (tS.transN tB)).relock rfl rfl rfl rfl ?_ ?_ ?_ ?_ ?_ ?_ <;>
        simp only [unlock_nodes, World.modify_nodes, if_true]
      · intro _; trivial
      · exact hmx.symm
    · have tA := hA3.1 m
      have tB := h35.1 m
      simp only [World.modify_nodes, if_neg hm] at tA tB
      refine (tA.transN tB).congrN rfl ?_
      simp [hm]
  · have e3 : ∀ q, ((unlock n (w5.modify n
        (fun d => { d with removeAllClientsInProgress := false }))).nodes q).server =
        (w5.nodes q).server := by
      intro q
      by_cases hq : q = n
      · subst hq; simp
      · simp [hq]
    have e2 : ∀ q, ((unlock n (w5.modify n
        (fun d => { d with removeAllClientsInProgress := false }))).nodes q).Clients =
        (w5.nodes q).Clients := by
      intro q
      by_cases hq : q = n
      · subst hq; simp
      · simp [hq]
    have e4 : ∀ q, (w3.nodes q).server = none → (w5.nodes q).server = none := by
      intro q hq
      refine (h35.1 q).server_none ?_
      by_cases hqn : q = n
      · subst hqn; simpa using hq
      · simpa [hqn] using hq
    rw [e3]
    rw [e2] at hn
    by_cases hp : p = n
    · subst hp
      exact e4 x (hL x hx)
    · by_cases hm : x ∈ (w3.nodes p).Clients
      · exact h35.2 p x (by simpa [hp] using hm) hn
      · refine e4 x (hA3.2 p x ?_ hm)
        simpa [hp] using hx

theorem foldl_tears (f : Nat → World → Res)
    (hf : ∀ x w0, (f x w0).Ok (fun w1 => Tears w0 w1 ∧ (w1.nodes x).server = none))
    (wa : World) (l : List Nat) :
    ∀ (r : Res) (done : List Nat),
      r.Ok (fun w1 => Tears wa w1 ∧ ∀ x ∈ done, (w1.nodes x).server = none) →
      (l.foldl (fun acc x => acc.bind (f x)) r).Ok
        (fun w3 => Tears wa w3 ∧ ∀ x ∈ done ++ l, (w3.nodes x).server = none) := by
  induction l with
  | nil => intro r done h; simpa using h
  | cons a t ih =>
    intro r done h
    simp only [List.foldl_cons]
    have := ih (r.bind (f a)) (done ++ [a]) (h.bindK (fun w1 h1 =>
      (hf a w1).monoK (fun w2 h2 => ⟨h1.1.transT h2.1, fun x hx => ?_⟩)))
    · simpa using this
    · rcases List.mem_append.1 hx with hx | hx
      · exact (h2.1.1 x).server_none (h1.2 x hx)
      · rw [List.mem_singleton.1 hx]; exact h2.2

theorem mem_eraseIdx_indexOf {l : List Nat} {c x : Nat} (hx : x ∈ l)
    (hn : x ∉ l.eraseIdx (l.indexOf c)) : x = c := by
  by_contra hne
  rw [List.eraseIdx_indexOf_eq_erase] at hn
  exact hn ((List.mem_erase_of_ne hne).2 hx)

theorem stop_handshake_tv {w1 w2 : World} {n : Nat}
    (h : (if (w1.nodes n).task then
        if (w1.nodes n).taskStopCommandChannel && decide (0 < (w1.nodes n).taskLive) then
          Res.ok (w1.modify n (fun d => { d with taskLive := d.taskLive - 1 }))
        else Res.hang n w1
      else Res.ok w1) = Res.ok w2) (m : Nat) : (w2.nodes m).tv = (w1.nodes m).tv := by
  split at h
  · split at h
    · cases h
      by_cases hm : m = n
      · subst hm; simp [Node.tv]
      · simp [hm]
    · cases h
  · cases h
    rfl

theorem exec_tears (fuel : Nat) : ∀ (call : Call) (w : World), call.tears → call.pre w →
    (exec fuel call w).Ok (fun w2 => Tears w w2 ∧ call.post w w2) := by
  induction fuel with
  | zero =>
    intro call w _ _ w2 h
    simp [exec] at h
  | succ k ih =>
    intro call w hc hpre
    cases call with
    | Stop n =>
      simp only [exec]
      split
      · rename_i hr
        have hrun : (w.nodes n).state = STATE_RUNNING := by simpa [Node.IsRunning] using hr
        intro w6 h
        obtain ⟨w4, h4, h5⟩ := Res.bind_eq_ok h
        obtain ⟨w3, h3, h4b⟩ := Res.bind_eq_ok h4
        obtain ⟨w2, h2, h3b⟩ := Res.bind_eq_ok h3
        obtain ⟨w5, h5a, h5b⟩ := Res.bind_eq_ok h5
        cases h5b
        have e2 := stop_handshake_tv h2
        have e3 : ∀ m, (w3.nodes m).tv = (w2.nodes m).tv := fun m =>
          (Res.Ok.of_all (flushQueues_sameLife k n w2) w3 h3b).tv m
        have t34 := ih (Call.removeAllClients n) w3 trivial trivial w4 h4b
        have t45 : Tears w4 w5 := by
          split at h5a
          · rename_i s _
            exact (ih (Call.RemoveClient s n) w4 trivial trivial w5 h5a).1
          · cases h5a; exact Tears.reflT _
        have eB : ∀ m, (w3.nodes m).tv = ((store n STATE_STOPPING w).nodes m).tv := fun m =>
          (e3 m).trans (e2 m)
        have hsrv : (w.nodes n).isPrincipallyClient = true → (w5.nodes n).server = none := by
          intro hpc
          have e3n : (w3.nodes n).server = (w.nodes n).server := by
            have := (Node.tv_fields (eB n)).2.1
            simpa using this
          split at h5a
          · rename_i s hs
            have hs2 : (w.nodes n).server = some s := by
              rcases (t34.1.1 n).2.1 with e | e
              · rw [← e3n, ← e, hs]
              · rw [e] at hs; cases hs
            obtain ⟨hmem, hfl⟩ := hpre hpc s hs2
            have f3 := Node.tv_fields (eB s)
            have f3c : (w3.nodes s).Clients = (w.nodes s).Clients := by
              rw [f3.2.2.2.1]
              by_cases hsn : s = n
              · subst hsn; simp
              · simp [hsn]
            have f3f : (w3.nodes s).removeAllClientsInProgress =
                (w.nodes s).removeAllClientsInProgress := by
              rw [f3.2.2.2.2.1]
              by_cases hsn : s = n
              · subst hsn; simp
              · simp [hsn]
            refine (ih (Call.RemoveClient s n) w4 trivial trivial w5 h5a).2 ?_ ?_
            · by_contra hn
              have := t34.1.2 s n (by rw [f3c]; exact hmem) hn
              rw [this] at hs
              cases hs
            · exact (t34.1.1 s).2.2.2.2.2.2.2.1 (by rw [f3f]; exact hfl)
          · rename_i hs
            cases h5a
            exact hs
        refine ⟨Tears.stop_wrap hrun eB (t34.1.transT t45) (fun m => rfl) hsrv
          (fun _ => (t45.1 n).nilN t34.2), ?_⟩
        · simp only [Call.post, Trigger_nodes, store_nodes, if_true]
          decide
      · rename_i hr
        intro w2 h
        cases h
        exact ⟨Tears.reflT _, by simpa [Node.IsRunning] using hr⟩
    | AddClient n c => exact absurd hc (by simp [Call.tears])
    | RemoveClient n c =>
      simp only [exec]
      split
      · rename_i hfl
        have hflag : (w.nodes n).removeAllClientsInProgress = false := by simpa using hfl
        unfold lock
        split
        · intro w2 h; cases h
        · rename_i hmx
          have hmx2 : (w.nodes n).clientAddRemoveMutex = false := by simpa using hmx
          simp only [World.modify_nodes, if_true]
          split
          · intro w5 h
            obtain ⟨w3, h3, h4⟩ := Res.bind_eq_ok h
            obtain ⟨w4, h4a, h4b⟩ := Res.bind_eq_ok h4
            cases h4b
            have t3 := ih (Call.setServer c none) _ trivial trivial w3 h3
            have t34 : Tears w3 w4 := by
              split at h4a
              · rename_i hcond
                refine (ih (Call.Stop n) w3 trivial (fun hpc => ?_) w4 h4a).1
                simp [hpc] at hcond
              · cases h4a; exact Tears.reflT _
            have hc4 : (w4.nodes c).server = none := (t34.1 c).server_none t3.2
            refine ⟨Tears.removeClient_wrap
              ((w.nodes n).Clients.eraseIdx ((w.nodes n).Clients.indexOf c)) hmx2 (fun m => ?_)
              (fun x hx => List.mem_of_mem_eraseIdx hx) (fun x hx hn => mem_eraseIdx_indexOf hx hn)
              (t3.1.transT t34) hc4, fun _ _ => ?_⟩
            · by_cases hm : m = n
              · subst hm; simp [Node.tv]
              · simp [hm]
            · by_cases hcn : c = n
              · subst hcn; simpa using hc4
              · simpa [hcn] using hc4
          · rename_i hidx
            intro w2 h
            cases h
            refine ⟨Tears.of_tv (fun m => ?_), fun hmem _ => ?_⟩
            · by_cases hm : m = n
              · subst hm; simp [Node.tv, hmx2]
              · simp [hm]
            · exact absurd (List.indexOf_lt_length.2 hmem) hidx
      · rename_i hfl
        intro w2 h
        cases h
        refine ⟨Tears.reflT _, fun _ hf => ?_⟩
        simp [hf] at hfl
    | removeAllClients n =>
      simp only [exec]
      split
      · unfold lock
        split
        · intro w2 h; cases h
        · rename_i hmx
          have hmx2 : (w.nodes n).clientAddRemoveMutex = false := by simpa using hmx
          intro w6 h
          obtain ⟨w3, h3, h4⟩ := Res.bind_eq_ok h
          obtain ⟨w5, h5a, h5b⟩ := Res.bind_eq_ok h4
          cases h5b
          have hloop := foldl_tears (fun x => exec k (Call.setServer x none))
            (fun x w0 => ih (Call.setServer x none) w0 trivial trivial) _ _ (Res.ok _) []
            (Res.Ok.pureK ⟨Tears.reflT _, fun x hx => by cases hx⟩) w3 h3
          have t35 : Tears (w3.modify n (fun d => { d with Clients := [] })) w5 := by
            split at h5a
            · rename_i hcond
              refine (ih (Call.Stop n) _ trivial (fun hpc => ?_) w5 h5a).1
              simp only [World.modify_nodes, if_true] at hcond hpc
              simp [hpc] at hcond
            · cases h5a; exact Tears.reflT _
          exact Tears.removeAll_wrap hmx2 hloop.1 (fun x hx => hloop.2 x (by simpa using hx)) t35
      · rename_i hlen
        intro w2 h
        cases h
        refine ⟨Tears.reflT _, ?_⟩
        simpa [Call.post] using hlen
    | setServer n server =>
      cases server with
      | some s => exact absurd hc (by simp [Call.tears])
      | none =>
        simp only [exec]
        intro w3 h
        obtain ⟨w1, h1, h2⟩ := Res.bind_eq_ok h
        have t1 := ih (Call.removeAllClients n) w trivial trivial w1 h1
        simp only [World.modify_nodes, if_true] at h2
        have t2 := ih (Call.Stop n) _ trivial (fun _ p hp => by simp at hp) w3 h2
        exact Tears.setServer_wrap t1.1 t2.1 t2.2

/-! ### What holds between public operations -/

theorem AtRest.tearsA {w w2 : World} (h : AtRest w) (t : Tears w w2) : AtRest w2 := by
  obtain ⟨hF, hK, hS⟩ := h
  refine ⟨fun m => ?_, fun m p hs => ?_, fun m hpc hst => ?_⟩
  · obtain ⟨p1, s1, t1, x1, y1, z1, c1, f1, m1⟩ := t.1 m
    obtain ⟨a, b, c⟩ := hF m
    refine ⟨by rw [m1]; exact a, f1 b, ?_⟩
    rcases t1 with e | e
    · rw [e]; exact c
    · exact Or.inl e.2
  · have h1 : (w.nodes m).server = some p := by
      rcases (t.1 m).2.1 with e | e
      · rw [← e]; exact hs
      · rw [e] at hs; cases hs
    by_contra hn
    have := t.2 p m (hK m p h1) hn
    rw [this] at hs
    cases hs
  · obtain ⟨p1, s1, t1, x1, y1, z1, c1, f1, m1⟩ := t.1 m
    rcases t1 with e | e
    · have := hS m (by rw [← p1]; exact hpc) (by rw [← e]; exact hst)
      exact (t.1 m).nilN this
    · exact z1 (by rw [← p1]; exact hpc) e.1 e.2

theorem Tracks.tearsK {w w2 : World} (h : Tracks w) (t : Tears w w2) : Tracks w2 := by
  intro m hpc
  obtain ⟨p1, s1, t1, x1, y1, z1, c1, f1, m1⟩ := t.1 m
  have hpc1 : (w.nodes m).isPrincipallyClient = true := by rw [← p1]; exact hpc
  have hm := h m hpc1
  constructor
  · intro hr hn
    have hr1 : (w.nodes m).state = STATE_RUNNING := by
      rcases t1 with e | e
      · rw [← e]; exact hr
      · rw [e.2] at hr; exact absurd hr (by decide)
    exact y1 hpc1 (hm.1 hr1) hn hr
  · intro hs
    have hs1 : (w.nodes m).server ≠ none := by
      rcases s1 with e | e
      · rw [← e]; exact hs
      · exact absurd e hs
    have hr1 := hm.2 hs1
    rcases t1 with e | e
    · rw [e]; exact hr1
    · exact absurd (x1 hpc1 hr1 e.2) hs

theorem AtRest.pre_stop {w : World} (h : AtRest w) (n : Nat) : (Call.Stop n).pre w :=
  fun _ p hp => ⟨h.2.1 n p hp, (h.1 p).2.1⟩

theorem AtRest.congrA {w w2 : World} (h : AtRest w) (e : ∀ m, (w2.nodes m).tv = (w.nodes m).tv) :
    AtRest w2 := h.tearsA (Tears.of_tv e)

theorem Tracks.congrK {w w2 : World} (h : Tracks w) (e : ∀ m, (w2.nodes m).tv = (w.nodes m).tv) :
    Tracks w2 := h.tearsK (Tears.of_tv e)

theorem Start_tv (n : Nat) (w : World) (m : Nat) :
    ((Start n w).nodes m).tv =
      if m = n ∧ (w.nodes n).state = STATE_STOPPED then
        ((w.nodes n).isPrincipallyClient, (w.nodes n).server, STATE_RUNNING, (w.nodes n).Clients,
          (w.nodes n).removeAllClientsInProgress, (w.nodes n).clientAddRemoveMutex)
      else (w.nodes m).tv := by
  unfold Start
  simp only []
  by_cases hs : (w.nodes n).state = STATE_STOPPED
  · have : (w.nodes n).isStopped = true := by simp [Node.isStopped, hs]
    simp only [this, if_true, hs, and_true]
    by_cases hm : m = n
    · subst hm
      split <;> simp [Node.tv]
    · split <;> simp [hm]
  · have : (w.nodes n).isStopped = false := by simp [Node.isStopped, hs]
    simp [this, hs]

theorem Start_fields2 (n : Nat) (w : World) (m : Nat) :
    ((Start n w).nodes m).isPrincipallyClient = (w.nodes m).isPrincipallyClient ∧
    ((Start n w).nodes m).server = (w.nodes m).server ∧
    ((Start n w).nodes m).Clients = (w.nodes m).Clients ∧
    ((Start n w).nodes m).removeAllClientsInProgress = (w.nodes m).removeAllClientsInProgress ∧
    ((Start n w).nodes m).clientAddRemoveMutex = (w.nodes m).clientAddRemoveMutex ∧
    ((Start n w).nodes m).state =
      if m = n ∧ (w.nodes n).state = STATE_STOPPED then STATE_RUNNING else (w.nodes m).state := by
  have h := Start_tv n w m
  by_cases hc : m = n ∧ (w.nodes n).state = STATE_STOPPED
  · rw [if_pos hc] at h
    rw [if_pos hc]
    obtain ⟨rfl, _⟩ := hc
    simp only [Node.tv, Prod.mk.injEq] at h
    exact ⟨h.1, h.2.1, h.2.2.2.1, h.2.2.2.2.1, h.2.2.2.2.2, h.2.2.1⟩
  · rw [if_neg hc] at h
    rw [if_neg hc]
    have f := Node.tv_fields h
    exact ⟨f.1, f.2.1, f.2.2.2.1, f.2.2.2.2.1, f.2.2.2.2.2, f.2.2.1⟩

theorem Start_isPC (n : Nat) (w : World) (m : Nat) :
    ((Start n w).nodes m).isPrincipallyClient = (w.nodes m).isPrincipallyClient :=
  (Start_fields2 n w m).1

theorem Start_server (n : Nat) (w : World) (m : Nat) :
    ((Start n w).nodes m).server = (w.nodes m).server := (Start_fields2 n w m).2.1

theorem Start_Clients (n : Nat) (w : World) (m : Nat) :
    ((Start n w).nodes m).Clients = (w.nodes m).Clients := (Start_fields2 n w m).2.2.1

theorem Start_flag (n : Nat) (w : World) (m : Nat) :
    ((Start n w).nodes m).removeAllClientsInProgress = (w.nodes m).removeAllClientsInProgress :=
  (Start_fields2 n w m).2.2.2.1

theorem Start_mutex (n : Nat) (w : World) (m : Nat) :
    ((Start n w).nodes m).clientAddRemoveMutex = (w.nodes m).clientAddRemoveMutex :=
  (Start_fields2 n w m).2.2.2.2.1

theorem Start_state (n : Nat) (w : World) (m : Nat) :
    ((Start n w).nodes m).state =
      if m = n ∧ (w.nodes n).state = STATE_STOPPED then STATE_RUNNING else (w.nodes m).state :=
  (Start_fields2 n w m).2.2.2.2.2

theorem addClient_fields {fuel n c : Nat} {w w2 : World}
    (h : exec fuel (Call.AddClient n c) w = Res.ok w2) :
    (w.nodes n).clientAddRemoveMutex = false ∧ ∀ m,
      (w2.nodes m).isPrincipallyClient = (w.nodes m).isPrincipallyClient ∧
      (w2.nodes m).removeAllClientsInProgress = (w.nodes m).removeAllClientsInProgress ∧
      (w2.nodes m).clientAddRemoveMutex = (w.nodes m).clientAddRemoveMutex ∧
      (w2.nodes m).server = (if m = c then some n else (w.nodes m).server) ∧
      (w2.nodes m).Clients = (if m = n then (w.nodes n).Clients ++ [c] else (w.nodes m).Clients) ∧
      (w2.nodes m).state =
        (if (m = c ∨ (m = n ∧ (w.nodes n).isPrincipallyClient = false)) ∧
            (w.nodes m).state = STATE_STOPPED then STATE_RUNNING else (w.nodes m).state) := by
  cases fuel with
  | zero => simp [exec] at h
  | succ k =>
    simp only [exec, lock] at h
    split at h
    · cases h
    · rename_i hmx
      have hmx2 : (w.nodes n).clientAddRemoveMutex = false := by simpa using hmx
      obtain ⟨w4, h4, h5⟩ := Res.bind_eq_ok h
      cases h5
      cases k with
      | zero => simp [exec] at h4
      | succ j =>
        simp only [exec, Res.bind_ok, World.modify_nodes, if_true] at h4
        cases h4
        refine ⟨hmx2, fun m => ?_⟩
        clear h
        have key : ∀ w3 : World, (∀ q, (w3.nodes q).tv = (((w.modify n
            (fun d => { d with clientAddRemoveMutex := true })).modify n
              (fun d => { d with Clients := d.Clients ++ [c] })).nodes q).tv) →
            ∀ w5, w5 = unlock n (if (!((Start c (w3.modify c
                (fun d => { d with server := some n }))).nodes n).isPrincipallyClient) = true
              then Start n (Start c (w3.modify c (fun d => { d with server := some n })))
              else Start c (w3.modify c (fun d => { d with server := some n }))) →
            (w5.nodes m).isPrincipallyClient = (w.nodes m).isPrincipallyClient ∧
            (w5.nodes m).removeAllClientsInProgress = (w.nodes m).removeAllClientsInProgress ∧
            (w5.nodes m).clientAddRemoveMutex = (w.nodes m).clientAddRemoveMutex ∧
            (w5.nodes m).server = (if m = c then some n else (w.nodes m).server) ∧
            (w5.nodes m).Clients =
              (if m = n then (w.nodes n).Clients ++ [c] else (w.nodes m).Clients) ∧
            (w5.nodes m).state =
              (if (m = c ∨ (m = n ∧ (w.nodes n).isPrincipallyClient = false)) ∧
                  (w.nodes m).state = STATE_STOPPED then STATE_RUNNING else (w.nodes m).state) := by
          intro w3 h3 w5 h5
          have f3 : ∀ q, (w3.nodes q).isPrincipallyClient = (w.nodes q).isPrincipallyClient ∧
              (w3.nodes q).server = (w.nodes q).server ∧ (w3.nodes q).state = (w.nodes q).state ∧
              (w3.nodes q).Clients =
                (if q = n then (w.nodes n).Clients ++ [c] else (w.nodes q).Clients) ∧
              (w3.nodes q).removeAllClientsInProgress = (w.nodes q).removeAllClientsInProgress ∧
              (w3.nodes q).clientAddRemoveMutex =
                (if q = n then true else (w.nodes q).clientAddRemoveMutex) := by
            intro q
            have := Node.tv_fields (h3 q)
            by_cases hq : q = n
            · subst hq; simpa using this
            · simpa [hq] using this
          have g : ∀ q, ((w3.modify c (fun d => { d with server := some n })).nodes q).isPrincipallyClient
                = (w.nodes q).isPrincipallyClient ∧
              ((w3.modify c (fun d => { d with server := some n })).nodes q).server =
                (if q = c then some n else (w.nodes q).server) ∧
              ((w3.modify c (fun d => { d with server := some n })).nodes q).state =
                (w.nodes q).state ∧
              ((w3.modify c (fun d => { d with server := some n })).nodes q).Clients =
                (if q = n then (w.nodes n).Clients ++ [c] else (w.nodes q).Clients) ∧
              ((w3.modify c (fun d => { d with server := some n })).nodes q).removeAllClientsInProgress
                = (w.nodes q).removeAllClientsInProgress ∧
              ((w3.modify c (fun d => { d with server := some n })).nodes q).clientAddRemoveMutex =
                (if q = n then true else (w.nodes q).clientAddRemoveMutex) := by
            intro q
            obtain ⟨a1, a2, a3, a4, a5, a6⟩ := f3 q
            by_cases hq : q = c
            · subst hq
              simp only [World.modify_nodes, if_true]
              exact ⟨a1, trivial, a3, a4, a5, a6⟩
            · simp only [World.modify_nodes, if_neg hq]
              exact ⟨a1, a2, a3, a4, a5, a6⟩
          generalize w3.modify c (fun d => { d with server := some n }) = wS at g h5
          subst h5
          have hu : ∀ X : World, ((unlock n X).nodes m).isPrincipallyClient =
                (X.nodes m).isPrincipallyClient ∧
              ((unlock n X).nodes m).removeAllClientsInProgress =
                (X.nodes m).removeAllClientsInProgress ∧
              ((unlock n X).nodes m).clientAddRemoveMutex =
                (if m = n then false else (X.nodes m).clientAddRemoveMutex) ∧
              ((unlock n X).nodes m).server = (X.nodes m).server ∧
              ((unlock n X).nodes m).Clients = (X.nodes m).Clients ∧
              ((unlock n X).nodes m).state = (X.nodes m).state := by
            intro X
            by_cases hmn : m = n
            · subst hmn; simp
            · simp [hmn]
          have hmxm : (if m = n then false else
              (if m = n then true else (w.nodes m).clientAddRemoveMutex)) =
              (w.nodes m).clientAddRemoveMutex := by
            by_cases hmn : m = n
            · subst hmn; simp [hmx2]
            · simp [hmn]
          by_cases hpc : (w.nodes n).isPrincipallyClient = true
          · have e : (!((Start c wS).nodes n).isPrincipallyClient) = false := by
              rw [Start_isPC, (g n).1, hpc]; rfl
            rw [e]
            simp only [Bool.false_eq_true, if_false]
            obtain ⟨u1, u2, u3, u4, u5, u6⟩ := hu (Start c wS)
            rw [u1, u2, u3, u4, u5, u6, Start_isPC, Start_flag, Start_mutex, Start_server,
              Start_Clients, Start_state, (g m).1, (g m).2.1, (g m).2.2.1, (g m).2.2.2.1,
              (g m).2.2.2.2.1, (g m).2.2.2.2.2, (g c).2.2.1, hmxm]
            refine ⟨rfl, rfl, rfl, rfl, rfl, ?_⟩
            by_cases hmc : m = c
            · subst hmc; simp
            · simp [hmc, hpc]
          · have hpc2 : (w.nodes n).isPrincipallyClient = false := by simpa using hpc
            have e : (!((Start c wS).nodes n).isPrincipallyClient) = true := by
              rw [Start_isPC, (g n).1, hpc2]; rfl
            rw [e]
            simp only [if_true]
            obtain ⟨u1, u2, u3, u4, u5, u6⟩ := hu (Start n (Start c wS))
            rw [u1, u2, u3, u4, u5, u6, Start_isPC, Start_flag, Start_mutex, Start_server,
              Start_Clients, Start_state, Start_isPC, Start_flag, Start_mutex, Start_server,
              Start_Clients, Start_state, Start_state, (g m).1, (g m).2.1, (g m).2.2.1,
              (g m).2.2.2.1, (g m).2.2.2.2.1, (g m).2.2.2.2.2, (g c).2.2.1, (g n).2.2.1, hmxm]
            refine ⟨rfl, rfl, rfl, rfl, rfl, ?_⟩
            by_cases hmn : m = n
            · subst hmn
              by_cases hmc : m = c
              · subst hmc
                by_cases hs : (w.nodes m).state = STATE_STOPPED
                · simp [hs, hpc2]
                · simp [hs]
              · simp [hmc, hpc2]
            · by_cases hmc : m = c
              · subst hmc; simp [hmn]
              · simp [hmc, hmn]
        cases hctx : (w.nodes n).Ctx with
        | none =>
          exact key ((w.modify n (fun d => { d with clientAddRemoveMutex := true })).modify n
            (fun d => { d with Clients := d.Clients ++ [c] })) (fun q => rfl) _
            (by simp only [World.modify_nodes, if_true, hctx])
        | some ctx =>
          refine key (SetContext c (some ctx)
            ((w.modify n (fun d => { d with clientAddRemoveMutex := true })).modify n
              (fun d => { d with Clients := d.Clients ++ [c] }))) (fun q => ?_) _
            (by simp only [World.modify_nodes, if_true, hctx])
          by_cases hq : q = c
          · subst hq; simp [Node.tv]
          · simp [hq]

theorem AtRest.addClientA {fuel n c : Nat} {w w2 : World} (h : AtRest w)
    (he : exec fuel (Call.AddClient n c) w = Res.ok w2) : AtRest w2 := by
  obtain ⟨hF, hK, hS⟩ := h
  obtain ⟨_, hf⟩ := addClient_fields he
  refine ⟨fun m => ?_, fun m p hs => ?_, fun m hpc hst => ?_⟩
  · obtain ⟨f1, f2, f3, f4, f5, f6⟩ := hf m
    obtain ⟨a, b, c⟩ := hF m
    refine ⟨by rw [f3]; exact a, by rw [f2]; exact b, ?_⟩
    rw [f6]
    split
    · exact Or.inr rfl
    · exact c
  · rw [(hf m).2.2.2.1] at hs
    rw [(hf p).2.2.2.2.1]
    by_cases hmc : m = c
    · rw [if_pos hmc] at hs
      cases hs
      subst hmc
      simp
    · rw [if_neg hmc] at hs
      have := hK m p hs
      split
      · rename_i hp
        subst hp
        exact List.mem_append_left _ this
      · exact this
  · obtain ⟨f1, f2, f3, f4, f5, f6⟩ := hf m
    rw [f1] at hpc
    rw [f6] at hst
    split at hst
    · exact absurd hst (by decide)
    · rename_i hcond
      have hmn : m ≠ n := by
        intro e
        subst e
        exact hcond ⟨Or.inr ⟨rfl, hpc⟩, hst⟩
      rw [f5, if_neg hmn]
      exact hS m hpc hst

theorem Tracks.addClientK {fuel n c : Nat} {w w2 : World} (hA : AtRest w) (h : Tracks w)
    (he : exec fuel (Call.AddClient n c) w = Res.ok w2) : Tracks w2 := by
  obtain ⟨_, hf⟩ := addClient_fields he
  intro m hpc
  obtain ⟨f1, f2, f3, f4, f5, f6⟩ := hf m
  rw [f1] at hpc
  rw [f4, f6]
  by_cases hmc : m = c
  · subst hmc
    simp only [if_true, true_or, true_and]
    refine ⟨fun _ => by simp, fun _ => ?_⟩
    split
    · rfl
    · rename_i hs
      exact (hA.1 m).2.2.resolve_left hs
  · have hcond : ¬ ((m = c ∨ (m = n ∧ (w.nodes n).isPrincipallyClient = false)) ∧
        (w.nodes m).state = STATE_STOPPED) := by
      rintro ⟨h1 | ⟨h1, h2⟩, _⟩
      · exact hmc h1
      · subst h1
        rw [hpc] at h2
        cases h2
    rw [if_neg hmc, if_neg hcond]
    exact h m hpc

theorem AtRest.startA {w : World} (h : AtRest w) (n : Nat) : AtRest (Start n w) := by
  obtain ⟨hF, hK, hS⟩ := h
  refine ⟨fun m => ?_, fun m p hs => ?_, fun m hpc hst => ?_⟩
  · obtain ⟨a, b, c⟩ := hF m
    rw [Start_mutex, Start_flag, Start_state]
    refine ⟨a, b, ?_⟩
    split
    · exact Or.inr rfl
    · exact c
  · rw [Start_server] at hs
    rw [Start_Clients]
    exact hK m p hs
  · rw [Start_isPC] at hpc
    rw [Start_state] at hst
    rw [Start_Clients]
    split at hst
    · exact absurd hst (by decide)
    · exact hS m hpc hst

theorem Tracks.startK {w : World} (h : Tracks w) {n : Nat}
    (hn : (w.nodes n).isPrincipallyClient = false) : Tracks (Start n w) := by
  intro m hpc
  rw [Start_isPC] at hpc
  rw [Start_server, Start_state]
  have hmn : ¬ (m = n ∧ (w.nodes n).state = STATE_STOPPED) := by
    rintro ⟨e, _⟩
    subst e
    rw [hpc] at hn
    cases hn
  rw [if_neg hmn]
  exact h m hpc

theorem Op.run_atRest (fuel : Nat) (op : Op) (w : World) (h : AtRest w) :
    (Op.run fuel op w).Ok (fun w2 => AtRest w2 ∧
      (∀ m, (w2.nodes m).isPrincipallyClient = (w.nodes m).isPrincipallyClient) ∧
      ((∀ n, op = Op.Start n → (w.nodes n).isPrincipallyClient = false) → Tracks w →
        Tracks w2)) := by
  cases op with
  | Start n =>
    exact Res.Ok.pureK ⟨h.startA n, fun m => Start_isPC n w m, fun hn ht => ht.startK (hn n rfl)⟩
  | Stop n =>
    intro w2 h2
    have t := (exec_tears fuel (Call.Stop n) w trivial (h.pre_stop n) w2 h2).1
    exact ⟨h.tearsA t, fun m => (t.1 m).1, fun _ ht => ht.tearsK t⟩
  | AddClient n c =>
    intro w2 h2
    exact ⟨h.addClientA h2, fun m => ((addClient_fields h2).2 m).1, fun _ ht => ht.addClientK h h2⟩
  | RemoveClient n c =>
    intro w2 h2
    have t := (exec_tears fuel (Call.RemoveClient n c) w trivial trivial w2 h2).1
    exact ⟨h.tearsA t, fun m => (t.1 m).1, fun _ ht => ht.tearsK t⟩
  | input n chunk =>
    have e := (input_sameLife n chunk w).tv
    exact Res.Ok.pureK ⟨h.congrA e, fun m => (Node.tv_fields (e m)).1, fun _ ht => ht.congrK e⟩
  | Output n chunk =>
    have e := (Output_sameLife n chunk w).tv
    exact Res.Ok.pureK ⟨h.congrA e, fun m => (Node.tv_fields (e m)).1, fun _ ht => ht.congrK e⟩
  | worker n o =>
    have e : ∀ m, ((((workerStep n o w).getD w)).nodes m).tv = (w.nodes m).tv := by
      cases hw : workerStep n o w with
      | none => intro m; rfl
      | some w1 => exact (workerStep_sameLife hw).tv
    exact Res.Ok.pureK ⟨h.congrA e, fun m => (Node.tv_fields (e m)).1, fun _ ht => ht.congrK e⟩

theorem runOps_atRest (fuel : Nat) (ops : List Op) (w : World) (h : AtRest w) :
    (runOps fuel ops w).Ok (fun w2 => AtRest w2 ∧
      (∀ m, (w2.nodes m).isPrincipallyClient = (w.nodes m).isPrincipallyClient) ∧
      ((∀ n, Op.Start n ∈ ops → (w.nodes n).isPrincipallyClient = false) → Tracks w →
        Tracks w2)) := by
  unfold runOps
  suffices hgen : ∀ (l done : List Op) (r : Res),
      r.Ok (fun w1 => AtRest w1 ∧
        (∀ m, (w1.nodes m).isPrincipallyClient = (w.nodes m).isPrincipallyClient) ∧
        ((∀ n, Op.Start n ∈ done → (w.nodes n).isPrincipallyClient = false) → Tracks w →
          Tracks w1)) →
      (l.foldl (fun acc op => acc.bind (Op.run fuel op)) r).Ok (fun w2 => AtRest w2 ∧
        (∀ m, (w2.nodes m).isPrincipallyClient = (w.nodes m).isPrincipallyClient) ∧
        ((∀ n, Op.Start n ∈ done ++ l → (w.nodes n).isPrincipallyClient = false) → Tracks w →
          Tracks w2)) by
    have := hgen ops [] (Res.ok w) (Res.Ok.pureK ⟨h, fun _ => rfl, fun _ ht => ht⟩)
    simpa using this
  intro l
  induction l with
  | nil => intro done r hr; simpa using hr
  | cons op t ih =>
    intro done r hr
    simp only [List.foldl_cons]
    have := ih (done ++ [op]) (r.bind (Op.run fuel op)) (hr.bindK (fun w1 h1 =>
      (Op.run_atRest fuel op w1 h1.1).monoK (fun w2 h2 =>
        ⟨h2.1, fun m => (h2.2.1 m).trans (h1.2.1 m), fun hs ht => ?_⟩)))
    · simpa using this
    · refine h2.2.2 (fun n hn => ?_) (h1.2.2 (fun n hn => hs n (List.mem_append_left _ hn)) ht)
      rw [h1.2.1 n]
      exact hs n (List.mem_append_right _ (by rw [hn]; exact List.mem_singleton_self _))

theorem Fresh.atRest {w : World} (h : Fresh w) : AtRest w ∧ Tracks w := by
  refine ⟨⟨fun m => ⟨(h m).2.2.2.1, (h m).2.2.2.2, Or.inl (h m).1⟩, fun m p hs => ?_,
    fun m _ _ => (h m).2.2.1⟩, fun m _ => ?_⟩
  · rw [(h m).2.1] at hs; cases hs
  · rw [(h m).1, (h m).2.1]
    simp [STATE_STOPPED, STATE_RUNNING]

theorem freshServers_fresh : Fresh freshServers := by
  intro m
  simp [freshServers, newTestServerNode, STATE_STOPPED]

theorem freshLeafClient_fresh : Fresh freshLeafClient := by
  intro m
  by_cases h : m = 2 <;> simp [freshLeafClient, h, newTestServerNode, newTestClientNode, STATE_STOPPED]

theorem freshClients_fresh : Fresh freshClients := by
  intro m
  simp [freshClients, newTestClientNode, STATE_STOPPED]


/-! ### The list of clients changes only under the node's mutex -/

theorem Held.reflH (w : World) : Held w w := fun _ h => ⟨rfl, h⟩

theorem Held.transH {w w2 w3 : World} (h1 : Held w w2) (h2 : Held w2 w3) : Held w w3 := by
  intro p hp
  obtain ⟨a, b⟩ := h1 p hp
  obtain ⟨c, d⟩ := h2 p b
  exact ⟨c.trans a, d⟩

theorem Held.of_tvH {w w2 : World} (h : ∀ m, (w2.nodes m).tv = (w.nodes m).tv) : Held w w2 := by
  intro p hp
  have f := Node.tv_fields (h p)
  exact ⟨f.2.2.2.1, by rw [f.2.2.2.2.2]; exact hp⟩

theorem Held.all_transH {r : Res} {w w1 : World} (h1 : Held w w1) (hr : r.All (Held w1)) :
    r.All (Held w) := hr.mono (fun _ h => h1.transH h)

theorem Held.at_free {w w2 : World} {n : Nat} (hn : (w.nodes n).clientAddRemoveMutex = false)
    (h : ∀ m, m ≠ n → (w2.nodes m).tv = (w.nodes m).tv) : Held w w2 := by
  intro p hp
  have hpn : p ≠ n := by
    intro e
    subst e
    rw [hn] at hp
    cases hp
  have f := Node.tv_fields (h p hpn)
  exact ⟨f.2.2.2.1, by rw [f.2.2.2.2.2]; exact hp⟩

theorem Held.modifyH (w : World) (n : Nat) (f : Node → Node)
    (h1 : (f (w.nodes n)).Clients = (w.nodes n).Clients)
    (h2 : (f (w.nodes n)).clientAddRemoveMutex = (w.nodes n).clientAddRemoveMutex) :
    Held w (w.modify n f) := by
  intro p hp
  by_cases hpn : p = n
  · subst hpn
    simp only [World.modify_nodes, if_true]
    exact ⟨h1, by rw [h2]; exact hp⟩
  · simp only [World.modify_nodes, if_neg hpn]
    exact ⟨trivial, hp⟩

theorem Held.unlockH {w w4 : World} {n : Nat} (hn : (w.nodes n).clientAddRemoveMutex = false)
    (h : Held w w4) (f : Node → Node) : Held w (unlock n (w4.modify n f)) := by
  intro p hp
  have hpn : p ≠ n := by
    intro e
    subst e
    rw [hn] at hp
    cases hp
  simp only [unlock_nodes, World.modify_nodes, if_neg hpn]
  exact h p hp

theorem Held.unlockH2 {w w4 : World} {n : Nat} (hn : (w.nodes n).clientAddRemoveMutex = false)
    (h : Held w w4) : Held w (unlock n w4) := by
  intro p hp
  have hpn : p ≠ n := by
    intro e
    subst e
    rw [hn] at hp
    cases hp
  simp only [unlock_nodes, if_neg hpn]
  exact h p hp

theorem Held.storeH (w : World) (n x : Nat) : Held w (store n x w) := by
  intro p hp
  by_cases hpn : p = n
  · subst hpn
    simp only [store_nodes, if_true]
    exact ⟨trivial, hp⟩
  · simp only [store_nodes, if_neg hpn]
    exact ⟨trivial, hp⟩

theorem Held.of_sameLifeH {w w2 : World} (h : SameLife w w2) : Held w w2 := Held.of_tvH h.tv

theorem exec_held (fuel : Nat) : ∀ (call : Call) (w : World), call.tears →
    (exec fuel call w).All (Held w) := by
  induction fuel with
  | zero => intro call w _; simp [exec, Res.All]
  | succ k ih =>
    intro call w hc
    cases call with
    | Stop n =>
      simp only [exec]
      split
      · have h1 : Held w (store n STATE_STOPPING w) := Held.storeH w n _
        refine Res.All.bind (P := Held (store n STATE_STOPPING w)) ?_
          (fun _ h => h1.transH h) ?_
        · refine Res.All.bind (P := Held (store n STATE_STOPPING w)) ?_ (fun _ h => h) ?_
          · refine Res.All.bind (P := Held (store n STATE_STOPPING w)) ?_ (fun _ h => h) ?_
            · split
              · split
                · exact Held.modifyH _ _ _ (by simp) (by simp)
                · exact Held.reflH _
              · exact Held.reflH _
            · intro w2 h2
              exact Held.all_transH h2
                ((flushQueues_sameLife k n w2).mono (fun _ h => Held.of_sameLifeH h))
          · intro w3 h3
            exact Held.all_transH h3 (ih _ w3 trivial)
        · intro w4 h4
          refine Res.All.bind (P := Held (store n STATE_STOPPING w)) ?_
            (fun _ h => h1.transH h) ?_
          · split
            · exact Held.all_transH h4 (ih (Call.RemoveClient _ n) w4 trivial)
            · exact h4
          · intro w5 h5
            exact (h1.transH h5).transH (Held.storeH w5 n _)
      · exact Held.reflH w
    | AddClient n c => exact absurd hc (by simp [Call.tears])
    | RemoveClient n c =>
      simp only [exec]
      split
      · unfold lock
        split
        · exact Held.reflH w
        · rename_i hmx
          have hmx2 : (w.nodes n).clientAddRemoveMutex = false := by simpa using hmx
          simp only [World.modify_nodes, if_true]
          have hB : Held w ((w.modify n (fun d => { d with clientAddRemoveMutex := true })).modify n
              (fun d => { d with Clients :=
                d.Clients.eraseIdx (List.indexOf c (w.nodes n).Clients) })) :=
            Held.at_free hmx2 (fun m hm => by simp [hm])
          split
          · refine Res.All.bind (P := Held w) ?_ (fun _ h => h) ?_
            · exact Held.all_transH hB (ih _ _ trivial)
            · intro w3 h3
              refine Res.All.bind (P := Held w) ?_ (fun _ h => h) ?_
              · split
                · exact Held.all_transH h3 (ih _ _ trivial)
                · exact h3
              · intro w4 h4
                exact Held.unlockH2 hmx2 h4
          · exact Held.at_free hmx2 (fun m hm => by simp [hm])
      · exact Held.reflH w
    | removeAllClients n =>
      simp only [exec]
      split
      · unfold lock
        split
        · rename_i hmx
          exact Held.modifyH _ _ _ rfl rfl
        · rename_i hmx
          have hmx2 : (w.nodes n).clientAddRemoveMutex = false := by simpa using hmx
          have hA : Held w ((w.modify n
              (fun d => { d with removeAllClientsInProgress := true })).modify n
              (fun d => { d with clientAddRemoveMutex := true })) :=
            Held.at_free hmx2 (fun m hm => by simp [hm])
          refine Res.All.bind (P := Held w) ?_ (fun _ h => h) ?_
          · refine Held.all_transH hA ?_
            exact foldl_bind_all (fun client => exec k (Call.setServer client none)) Held
              (fun _ _ _ => Held.transH) (fun a w0 => ih _ w0 trivial) _ (Res.ok _) _
              (Held.reflH _)
          · intro w3 h3
            have h4 : Held w (w3.modify n (fun d => { d with Clients := [] })) := by
              intro p hp
              have hpn : p ≠ n := by
                intro e
                subst e
                rw [hmx2] at hp
                cases hp
              simp only [World.modify_nodes, if_neg hpn]
              exact h3 p hp
            refine Res.All.bind (P := Held w) ?_ (fun _ h => h) ?_
            · split
              · exact Held.all_transH h4 (ih _ _ trivial)
              · exact h4
            · intro w5 h5
              exact Held.unlockH hmx2 h5 _
      · exact Held.reflH w
    | setServer n server =>
      cases server with
      | some s => exact absurd hc (by simp [Call.tears])
      | none =>
        simp only [exec]
        refine Res.All.bind (P := Held w) (ih _ _ trivial) (fun _ h => h) ?_
        intro w1 h1
        simp only [World.modify_nodes, if_true]
        exact Held.all_transH (h1.transH (Held.modifyH _ _ _ rfl rfl)) (ih _ _ trivial)


theorem unlock_lock {w : World} {n : Nat} (h : (w.nodes n).clientAddRemoveMutex = false) :
    unlock n (w.modify n (fun d => { d with clientAddRemoveMutex := true })) = w := by
  rw [World.ext_iff2]
  refine ⟨?_, rfl, rfl, rfl, rfl⟩
  funext m
  by_cases hm : m = n
  · subst hm
    simp only [unlock_nodes, World.modify_nodes, if_true]
    rw [← h]
  · simp [hm]

/-! ### Events triggered by a detach or a stop -/

theorem EventsOK.reflE (w : World) : EventsOK w w :=
  ⟨fun _ h => h, [], by simp, fun e he => by cases he⟩

theorem EventsOK.transE {w w2 w3 : World} (h1 : EventsOK w w2) (h2 : EventsOK w2 w3) :
    EventsOK w w3 := by
  obtain ⟨a1, l1, e1, b1⟩ := h1
  obtain ⟨a2, l2, e2, b2⟩ := h2
  refine ⟨fun m h => a1 m (a2 m h), l1 ++ l2, by rw [e2, e1, List.append_assoc], fun e he => ?_⟩
  rcases List.mem_append.1 he with h | h
  · exact b1 e h
  · exact ⟨(b2 e h).1, a1 _ (b2 e h).2⟩

theorem EventsOK.of_state {w w2 : World} (hs : ∀ m, (w2.nodes m).state = (w.nodes m).state)
    (he : w2.events = w.events) : EventsOK w w2 :=
  ⟨fun m h => by rw [← hs m]; exact h, [], by simp [he], fun e h => by cases h⟩

theorem EventsOK.of_sameLifeE {w w2 : World} (h : SameLife w w2) : EventsOK w w2 :=
  EventsOK.of_state (fun m => (Node.tv_fields (h.tv m)).2.2.1) h.2.1

theorem EventsOK.modifyE (w : World) (n : Nat) (f : Node → Node)
    (h : (f (w.nodes n)).state = (w.nodes n).state) : EventsOK w (w.modify n f) := by
  refine EventsOK.of_state (fun m => ?_) rfl
  by_cases hm : m = n
  · subst hm; simpa using h
  · simp [hm]

theorem EventsOK.all_transE {r : Res} {w w1 : World} (h1 : EventsOK w w1)
    (hr : r.All (EventsOK w1)) : r.All (EventsOK w) := hr.mono (fun _ h => h1.transE h)

theorem EventsOK.stopping {w : World} {n : Nat} (x : Nat) (hx : x ≠ STATE_RUNNING) :
    EventsOK w (store n x w) := by
  refine ⟨fun m h => ?_, [], by simp, fun e he => by cases he⟩
  by_cases hm : m = n
  · subst hm
    simp at h
    exact absurd h hx
  · simpa [hm] using h

theorem EventsOK.stop_final {w w5 : World} {n : Nat} (hrun : (w.nodes n).state = STATE_RUNNING)
    (h5 : EventsOK w w5) : EventsOK w (Trigger n Event.stop (store n STATE_STOPPED w5)) := by
  obtain ⟨a, l, e, b⟩ := h5
  refine ⟨fun m h => ?_, l ++ [(n, Event.stop)], by simp [e], fun x hx => ?_⟩
  · by_cases hm : m = n
    · subst hm
      simp at h
      exact absurd h (by decide)
    · exact a m (by simpa [hm] using h)
  · rcases List.mem_append.1 hx with h | h
    · exact b x h
    · rw [List.mem_singleton.1 h]
      exact ⟨rfl, hrun⟩

theorem exec_events (fuel : Nat) : ∀ (call : Call) (w : World), call.tears →
    (exec fuel call w).All (EventsOK w) := by
  induction fuel with
  | zero => intro call w _; simp [exec, Res.All]
  | succ k ih =>
    intro call w hc
    cases call with
    | Stop n =>
      simp only [exec]
      split
      · rename_i hr
        have hrun : (w.nodes n).state = STATE_RUNNING := by simpa [Node.IsRunning] using hr
        have h1 : EventsOK w (store n STATE_STOPPING w) := EventsOK.stopping _ (by decide)
        refine Res.All.bind (P := EventsOK w) ?_ (fun _ h => h) ?_
        · refine Res.All.bind (P := EventsOK w) ?_ (fun _ h => h) ?_
          · refine Res.All.bind (P := EventsOK w) ?_ (fun _ h => h) ?_
            · split
              · split
                · exact h1.transE (EventsOK.modifyE _ _ _ (by simp))
                · exact h1
              · exact h1
            · intro w2 h2
              exact EventsOK.all_transE h2
                ((flushQueues_sameLife k n w2).mono (fun _ h => EventsOK.of_sameLifeE h))
          · intro w3 h3
            exact EventsOK.all_transE h3 (ih _ w3 trivial)
        · intro w4 h4
          refine Res.All.bind (P := EventsOK w) ?_ (fun _ h => h) ?_
          · split
            · exact EventsOK.all_transE h4 (ih (Call.RemoveClient _ n) w4 trivial)
            · exact h4
          · intro w5 h5
            exact EventsOK.stop_final hrun h5
      · exact EventsOK.reflE w
    | AddClient n c => exact absurd hc (by simp [Call.tears])
    | RemoveClient n c =>
      simp only [exec]
      split
      · refine lock_all (EventsOK.reflE w) ?_
        have h1 : EventsOK w (w.modify n (fun d => { d with clientAddRemoveMutex := true })) :=
          EventsOK.modifyE _ _ _ rfl
        split
        · refine Res.All.bind (P := EventsOK w) ?_ (fun _ h => h) ?_
          · refine EventsOK.all_transE (h1.transE ?_) (ih _ _ trivial)
            exact EventsOK.modifyE _ _ _ rfl
          · intro w3 h3
            refine Res.All.bind (P := EventsOK w) ?_ (fun _ h => h) ?_
            · split
              · exact EventsOK.all_transE h3 (ih _ _ trivial)
              · exact h3
            · intro w4 h4
              exact h4.transE (EventsOK.modifyE _ _ _ rfl)
        · exact h1.transE (EventsOK.modifyE _ _ _ rfl)
      · exact EventsOK.reflE w
    | removeAllClients n =>
      simp only [exec]
      split
      · have h1 : EventsOK w (w.modify n (fun d => { d with removeAllClientsInProgress := true })) :=
          EventsOK.modifyE _ _ _ rfl
        refine lock_all h1 ?_
        have h2 := h1.transE (EventsOK.modifyE
          (w.modify n (fun d => { d with removeAllClientsInProgress := true }))
          n (fun d => { d with clientAddRemoveMutex := true }) rfl)
        refine Res.All.bind (P := EventsOK w) ?_ (fun _ h => h) ?_
        · refine EventsOK.all_transE h2 ?_
          exact foldl_bind_all (fun client => exec k (Call.setServer client none)) EventsOK
            (fun _ _ _ => EventsOK.transE) (fun a w0 => ih _ w0 trivial) _ (Res.ok _) _
            (EventsOK.reflE _)
        · intro w3 h3
          have h4 := h3.transE (EventsOK.modifyE w3 n (fun d => { d with Clients := [] }) rfl)
          refine Res.All.bind (P := EventsOK w) ?_ (fun _ h => h) ?_
          · split
            · exact EventsOK.all_transE h4 (ih _ _ trivial)
            · exact h4
          · intro w5 h5
            exact (h5.transE (EventsOK.modifyE _ _ _ rfl)).transE (EventsOK.modifyE _ _ _ rfl)
      · exact EventsOK.reflE w
    | setServer n server =>
      cases server with
      | some s => exact absurd hc (by simp [Call.tears])
      | none =>
        simp only [exec]
        refine Res.All.bind (P := EventsOK w) (ih _ _ trivial) (fun _ h => h) ?_
        intro w1 h1
        simp only [World.modify_nodes, if_true]
        exact EventsOK.all_transE (h1.transE (EventsOK.modifyE _ _ _ rfl)) (ih _ _ trivial)


theorem stop_events {fuel n : Nat} {w w2 : World} (hrun : (w.nodes n).state = STATE_RUNNING)
    (h : exec fuel (Call.Stop n) w = Res.ok w2) :
    ∃ w5 l, w2 = Trigger n Event.stop w5 ∧ (w5.nodes n).state = STATE_STOPPED ∧
      w5.events = w.events ++ l ∧ ∀ e ∈ l, e.2 = Event.stop ∧ e.1 ≠ n := by
  cases fuel with
  | zero => simp [exec] at h
  | succ k =>
    simp only [exec] at h
    rw [if_pos (by simp [Node.IsRunning, hrun])] at h
    obtain ⟨w4, h4, h5⟩ := Res.bind_eq_ok h
    obtain ⟨w3, h3, h4b⟩ := Res.bind_eq_ok h4
    obtain ⟨w2a, h2, h3b⟩ := Res.bind_eq_ok h3
    obtain ⟨w5, h5a, h5b⟩ := Res.bind_eq_ok h5
    cases h5b
    have e12 : EventsOK (store n STATE_STOPPING w) w2a := by
      split at h2
      · split at h2
        · cases h2
          exact EventsOK.modifyE _ _ _ (by simp)
        · cases h2
      · cases h2
        exact EventsOK.reflE _
    have e23 : EventsOK w2a w3 :=
      EventsOK.of_sameLifeE ((flushQueues_sameLife k n w2a).of_ok h3b)
    have e34 : EventsOK w3 w4 := (exec_events k (Call.removeAllClients n) w3 trivial).of_ok h4b
    have e45 : EventsOK w4 w5 := by
      split at h5a
      · rename_i s _
        exact (exec_events k (Call.RemoveClient s n) w4 trivial).of_ok h5a
      · cases h5a
        exact EventsOK.reflE _
    obtain ⟨_, l, hl, hb⟩ := ((e12.transE e23).transE e34).transE e45
    refine ⟨store n STATE_STOPPED w5, l, rfl, by simp, by simpa using hl, fun e he => ?_⟩
    refine ⟨(hb e he).1, fun hen => ?_⟩
    have := (hb e he).2
    rw [hen] at this
    simp at this
    exact absurd this (by decide)

/-! ### Queues of nodes that are not Running -/

theorem input_nodes_of_not_running (n : Nat) (chunk : Chunk) (w : World) {m : Nat}
    (h : (w.nodes m).state ≠ STATE_RUNNING) : (input n chunk w).nodes m = w.nodes m := by
  by_cases hm : m = n
  · subst hm
    have hr : (w.nodes m).IsRunning = false := by simpa [Node.IsRunning] using h
    unfold input
    simp [hr]
  · unfold input
    simp only []
    split
    · split <;> simp [hm]
    · rfl

theorem Output_nodes_of_not_running (n : Nat) (chunk : Chunk) (w : World) {m : Nat}
    (h : (w.nodes m).state ≠ STATE_RUNNING) : (Output n chunk w).nodes m = w.nodes m := by
  by_cases hm : m = n
  · subst hm
    have hr : (w.nodes m).IsRunning = false := by simpa [Node.IsRunning] using h
    unfold Output
    simp [hr]
  · unfold Output
    simp only []
    split
    · split <;> simp [hm]
    · rfl

theorem Handler.call_nodes_of_not_running (h : Handler) (chunk : Chunk) (w : World) {m : Nat}
    (hm : (w.nodes m).state ≠ STATE_RUNNING) : (h.call chunk w).nodes m = w.nodes m := by
  cases h with
  | output n => exact Output_nodes_of_not_running n chunk w hm
  | fanout n =>
    simp only [Handler.call]
    generalize (w.nodes n).Clients = l
    induction l generalizing w with
    | nil => rfl
    | cons a t ih =>
      simp only [List.foldl_cons]
      rw [ih (input a chunk w) (by rw [input_nodes_of_not_running a chunk w hm]; exact hm)]
      exact input_nodes_of_not_running a chunk w hm
  | custom k => rfl

theorem Node.getQ_setQ_ne {o o2 : Bool} (h : o2 ≠ o) (nd : Node) (q : Option QueueProcessor) :
    (nd.setQ o q).getQ o2 = nd.getQ o2 := by
  cases o <;> cases o2 <;> simp_all [Node.getQ, Node.setQ]

theorem Node.state_setQ (o : Bool) (nd : Node) (q : Option QueueProcessor) :
    (nd.setQ o q).state = nd.state := by
  cases o <;> rfl

theorem workerStep_flushed {X : Nat → Bool → Prop} {n : Nat} {o : Bool} {w w1 : World}
    (hF : Flushed X w) (h : workerStep n o w = some w1) : Flushed X w1 := by
  have hsl := workerStep_sameLife h
  intro m o2 hX hst
  have hst0 : (w.nodes m).state = STATE_STOPPED ∨ (w.nodes m).state = STATE_STOPPING := by
    rw [← (Node.tv_fields (hsl.tv m)).2.2.1]; exact hst
  have hnr : (w.nodes m).state ≠ STATE_RUNNING := by
    rcases hst0 with e | e <;> rw [e] <;> decide
  have h0 := hF m o2 hX hst0
  unfold workerStep at h
  split at h
  · cases h
  · rename_i q hq
    split at h
    · cases h
    · cases h
    · rename_i x rest hqq
      simp only [Option.some.injEq] at h
      subst h
      by_cases hm : m = n
      · subst hm
        by_cases ho : o2 = o
        · subst ho
          rw [h0] at hq
          cases hq
        · simp only [World.modify_nodes, if_true]
          rw [Node.getQ_setQ_ne ho]
          have e1 : ((w.modify m (fun nd => nd.setQ o
              (some { q with queue := some rest, isProcessing := true }))).nodes m).state ≠
              STATE_RUNNING := by
            simp only [World.modify_nodes, if_true, Node.state_setQ]
            exact hnr
          split
          · rename_i hh _
            rw [Handler.call_nodes_of_not_running _ _ _ e1]
            simp only [World.modify_nodes, if_true]
            rw [Node.getQ_setQ_ne ho]
            exact h0
          · simp only [World.modify_nodes, if_true]
            rw [Node.getQ_setQ_ne ho]
            exact h0
      · simp only [World.modify_nodes, if_neg hm]
        have e1 : ((w.modify n (fun nd => nd.setQ o
            (some { q with queue := some rest, isProcessing := true }))).nodes m).state ≠
            STATE_RUNNING := by
          simp only [World.modify_nodes, if_neg hm]
          exact hnr
        split
        · rw [Handler.call_nodes_of_not_running _ _ _ e1]
          simp only [World.modify_nodes, if_neg hm]
          exact h0
        · simp only [World.modify_nodes, if_neg hm]
          exact h0

theorem waitQ_flushed {X : Nat → Bool → Prop} (fuel n : Nat) (o : Bool) (w : World)
    (hF : Flushed X w) : (waitQ fuel n o w).Ok (Flushed X) := by
  induction fuel generalizing w with
  | zero => intro w2 h; simp [waitQ] at h
  | succ k ih =>
    unfold waitQ
    cases hw : workerStep n o w with
    | none => exact Res.Ok.pureK hF
    | some w1 => exact ih w1 (workerStep_flushed hF hw)

theorem Flushed.weaken {X Y : Nat → Bool → Prop} {w : World} (h : Flushed X w)
    (hXY : ∀ m o, X m o → Y m o) : Flushed Y w :=
  fun m o hY hs => h m o (fun hX => hY (hXY m o hX)) hs

theorem foldl_bind_ok {α : Type} (g : α → World → Res) (P : World → Prop)
    (hg : ∀ a w, P w → (g a w).Ok P) (l : List α) :
    ∀ r : Res, r.Ok P → (l.foldl (fun acc a => acc.bind (g a)) r).Ok P := by
  induction l with
  | nil => intro r hr; exact hr
  | cons a t ih =>
    intro r hr
    simp only [List.foldl_cons]
    exact ih _ (hr.bindK (fun w1 h1 => hg a w1 h1))

theorem Flushed.clearQ {X : Nat → Bool → Prop} {w : World} (h : Flushed X w) (n : Nat) (o : Bool) :
    Flushed (fun m o2 => X m o2 ∧ ¬ (m = n ∧ o2 = o))
      (w.modify n (fun nd => nd.setQ o none)) := by
  intro m o2 hX hs
  by_cases hm : m = n
  · subst hm
    simp only [World.modify_nodes, if_true, Node.state_setQ] at hs ⊢
    by_cases ho : o2 = o
    · subst ho
      cases o2 <;> simp [Node.getQ, Node.setQ]
    · rw [Node.getQ_setQ_ne ho]
      exact h m o2 (fun hx => hX ⟨hx, fun hc => ho hc.2⟩) hs
  · simp only [World.modify_nodes, if_neg hm] at hs ⊢
    exact h m o2 (fun hx => hX ⟨hx, fun hc => hm hc.1⟩) hs

theorem Flushed.of_none {X : Nat → Bool → Prop} {w : World} (h : Flushed X w) {n : Nat} {o : Bool}
    (hq : (w.nodes n).getQ o = none) :
    Flushed (fun m o2 => X m o2 ∧ ¬ (m = n ∧ o2 = o)) w := by
  intro m o2 hX hs
  by_cases hc : m = n ∧ o2 = o
  · obtain ⟨rfl, rfl⟩ := hc
    exact hq
  · exact h m o2 (fun hx => hX ⟨hx, hc⟩) hs

theorem flushQueues_flushed (fuel : Nat) : ∀ (n : Nat) (w : World) (X : Nat → Bool → Prop),
    Flushed X w → (flushQueues fuel n w).Ok (Flushed (fun m o => X m o ∧ m ≠ n)) := by
  induction fuel with
  | zero => intro n w X _ w2 h; simp [flushQueues] at h
  | succ k ih =>
    intro n w X hF
    unfold flushQueues
    simp only []
    refine Res.Ok.bindK (P := Flushed (fun m o => X m o ∧ m ≠ n)) ?_ ?_
    · refine Res.Ok.bindK (P := Flushed (fun m o => X m o ∧ ¬ (m = n ∧ o = false))) ?_ ?_
      · split
        · refine (waitQ_flushed k n false w hF).bindK (fun w1 h1 => Res.Ok.pureK ?_)
          exact h1.clearQ n false
        · rename_i hq
          exact Res.Ok.pureK (hF.of_none (o := false) hq)
      · intro w1 h1
        have hw : ∀ w2, Flushed (fun m o => (X m o ∧ ¬ (m = n ∧ o = false)) ∧
            ¬ (m = n ∧ o = true)) w2 → Flushed (fun m o => X m o ∧ m ≠ n) w2 := by
          intro w2 h2
          refine h2.weaken (fun m o hx => ⟨hx.1.1, fun hm => ?_⟩)
          cases o
          · exact hx.1.2 ⟨hm, rfl⟩
          · exact hx.2 ⟨hm, rfl⟩
        split
        · refine (waitQ_flushed k n true w1 h1).bindK (fun w2 h2 => Res.Ok.pureK ?_)
          exact hw _ (h2.clearQ n true)
        · rename_i hq
          exact Res.Ok.pureK (hw _ (h1.of_none (o := true) hq))
    · intro w2 h2
      refine foldl_bind_ok (fun cl => flushQueues k cl) _ (fun cl w3 h3 => ?_) _ _
        (Res.Ok.pureK h2)
      exact (ih cl w3 _ h3).monoK (fun w4 h4 => h4.weaken (fun m o hx => hx.1))

theorem Flushed.congrF {X : Nat → Bool → Prop} {w w2 : World} (h : Flushed X w)
    (hs : ∀ m, (w2.nodes m).state = (w.nodes m).state)
    (hq : ∀ m o, (w2.nodes m).getQ o = (w.nodes m).getQ o) : Flushed X w2 := by
  intro m o hX hst
  rw [hq]
  rw [hs] at hst
  exact h m o hX hst

theorem Flushed.modifyF {X : Nat → Bool → Prop} {w : World} (h : Flushed X w) (n : Nat)
    (f : Node → Node) (hs : (f (w.nodes n)).state = (w.nodes n).state)
    (hq : ∀ o, (f (w.nodes n)).getQ o = (w.nodes n).getQ o) : Flushed X (w.modify n f) := by
  refine h.congrF (fun m => ?_) (fun m o => ?_)
  · by_cases hm : m = n
    · subst hm; simpa using hs
    · simp [hm]
  · by_cases hm : m = n
    · subst hm; simpa using hq o
    · simp [hm]

theorem Flushed.storeF {X : Nat → Bool → Prop} {w : World} (h : Flushed X w) (n x : Nat) :
    Flushed (fun m o => X m o ∨ m = n) (store n x w) := by
  intro m o hX hst
  have hm : m ≠ n := fun e => hX (Or.inr e)
  simp only [store_nodes, if_neg hm] at hst ⊢
  exact h m o (fun hx => hX (Or.inl hx)) hst

theorem Flushed.stopped {X : Nat → Bool → Prop} {w : World} (h : Flushed X w) {n : Nat}
    (hn : (w.nodes n).state = STATE_STOPPING) : Flushed X (store n STATE_STOPPED w) := by
  intro m o hX hst
  by_cases hm : m = n
  · subst hm
    simp only [store_nodes, if_true]
    exact h m o hX (Or.inr hn)
  · simp only [store_nodes, if_neg hm] at hst ⊢
    exact h m o hX hst

theorem Flushed.startF {X : Nat → Bool → Prop} {w : World} (h : Flushed X w) (n : Nat) :
    Flushed X (Start n w) := by
  intro m o hX hst
  have hq : ((Start n w).nodes m).getQ o = (w.nodes m).getQ o := by
    unfold Start
    simp only []
    split
    · by_cases hm : m = n
      · subst hm
        split <;> cases o <;> simp [Node.getQ]
      · split <;> simp [hm]
    · rfl
  rw [hq]
  rw [Start_state] at hst
  split at hst
  · rcases hst with e | e <;> exact absurd e (by decide)
  · exact h m o hX hst

theorem exec_flushed (fuel : Nat) : ∀ (call : Call) (w : World),
    Flushed (fun _ _ => False) w → (exec fuel call w).Ok (Flushed (fun _ _ => False)) := by
  induction fuel with
  | zero => intro call w _ w2 h; simp [exec] at h
  | succ k ih =>
    intro call w hF
    cases call with
    | Stop n =>
      simp only [exec]
      split
      · refine Res.Ok.bindK (P := fun w4 => Flushed (fun _ _ => False) w4 ∧
            (w4.nodes n).state = STATE_STOPPING) ?_ ?_
        · refine Res.Ok.bindK (P := fun w3 => Flushed (fun _ _ => False) w3 ∧
              (w3.nodes n).state = STATE_STOPPING) ?_ ?_
          · refine Res.Ok.bindK (P := fun w2 => Flushed (fun m _ => False ∨ m = n) w2 ∧
                (w2.nodes n).state = STATE_STOPPING) ?_ ?_
            · have h1 := hF.storeF n STATE_STOPPING
              split
              · split
                · refine Res.Ok.pureK ⟨h1.modifyF n _ (by simp) (fun o => ?_), by simp⟩
                  cases o <;> simp [Node.getQ]
                · intro w2 h2; cases h2
              · exact Res.Ok.pureK ⟨h1, by simp⟩
            · intro w2 h2
              intro w3 h3
              have hsl := (flushQueues_sameLife k n w2).of_ok h3
              refine ⟨(flushQueues_flushed k n w2 _ h2.1 w3 h3).weaken
                (fun m o hx => ?_), ?_⟩
              · rcases hx.1 with e | e
                · exact e
                · exact hx.2 e
              · rw [(Node.tv_fields (hsl.tv n)).2.2.1]; exact h2.2
          · intro w3 h3 w4 h4
            exact ⟨ih _ w3 h3.1 w4 h4, ((exec_storesOK k _ w3).of_ok h4).2 n h3.2⟩
        · intro w4 h4
          refine Res.Ok.bindK (P := fun w5 => Flushed (fun _ _ => False) w5 ∧
            (w5.nodes n).state = STATE_STOPPING) ?_ ?_
          · split
            · intro w5 h5
              exact ⟨ih _ w4 h4.1 w5 h5, ((exec_storesOK k _ w4).of_ok h5).2 n h4.2⟩
            · exact Res.Ok.pureK h4
          · intro w5 h5
            exact Res.Ok.pureK (h5.1.stopped h5.2)
      · exact Res.Ok.pureK hF
    | AddClient n c =>
      simp only [exec, lock]
      split
      · intro w2 h; cases h
      · have h1 : Flushed (fun _ _ => False) ((w.modify n
            (fun d => { d with clientAddRemoveMutex := true })).modify n
            (fun d => { d with Clients := d.Clients ++ [c] })) :=
          (hF.modifyF n _ rfl (fun _ => rfl)).modifyF n _ rfl (fun _ => rfl)
        refine Res.Ok.bindK (P := Flushed (fun _ _ => False)) ?_ ?_
        · split
          · exact ih _ _ (h1.modifyF c _ rfl (fun _ => rfl))
          · exact ih _ _ h1
        · intro w4 h4
          refine Res.Ok.pureK (Flushed.modifyF ?_ n _ rfl (fun _ => rfl))
          split
          · exact h4.startF n
          · exact h4
    | RemoveClient n c =>
      simp only [exec, lock]
      split
      · split
        · intro w2 h; cases h
        · have h1 : Flushed (fun _ _ => False) (w.modify n
              (fun d => { d with clientAddRemoveMutex := true })) :=
            hF.modifyF n _ rfl (fun _ => rfl)
          split
          · refine Res.Ok.bindK (P := Flushed (fun _ _ => False)) ?_ ?_
            · exact ih _ _ (h1.modifyF n _ rfl (fun _ => rfl))
            · intro w3 h3
              refine Res.Ok.bindK (P := Flushed (fun _ _ => False)) ?_ ?_
              · split
                · exact ih _ _ h3
                · exact Res.Ok.pureK h3
              · intro w4 h4
                exact Res.Ok.pureK (h4.modifyF n _ rfl (fun _ => rfl))
          · exact Res.Ok.pureK (h1.modifyF n _ rfl (fun _ => rfl))
      · exact Res.Ok.pureK hF
    | removeAllClients n =>
      simp only [exec, lock]
      split
      · split
        · intro w2 h; cases h
        · have h1 : Flushed (fun _ _ => False) ((w.modify n
              (fun d => { d with removeAllClientsInProgress := true })).modify n
              (fun d => { d with clientAddRemoveMutex := true })) :=
            (hF.modifyF n _ rfl (fun _ => rfl)).modifyF n _ rfl (fun _ => rfl)
          refine Res.Ok.bindK (P := Flushed (fun _ _ => False)) ?_ ?_
          · exact foldl_bind_ok (fun client => exec k (Call.setServer client none)) _
              (fun a w0 h0 => ih _ w0 h0) _ _ (Res.Ok.pureK h1)
          · intro w3 h3
            refine Res.Ok.bindK (P := Flushed (fun _ _ => False)) ?_ ?_
            · split
              · exact ih _ _ (h3.modifyF n _ rfl (fun _ => rfl))
              · exact Res.Ok.pureK (h3.modifyF n _ rfl (fun _ => rfl))
            · intro w5 h5
              exact Res.Ok.pureK ((h5.modifyF n _ rfl (fun _ => rfl)).modifyF n _ rfl
                (fun _ => rfl))
      · exact Res.Ok.pureK hF
    | setServer n server =>
      simp only [exec]
      refine Res.Ok.bindK (P := Flushed (fun _ _ => False)) ?_ ?_
      · split
        · exact ih _ _ hF
        · exact Res.Ok.pureK hF
      · intro w1 h1
        have h2 := h1.modifyF n (fun d => { d with server := server }) rfl (fun _ => rfl)
        split
        · exact ih _ _ h2
        · exact Res.Ok.pureK (h2.startF n)

theorem Flushed.frozen {X : Nat → Bool → Prop} {w w2 : World} (h : Flushed X w)
    (hsl : SameLife w w2)
    (hn : ∀ m, (w.nodes m).state ≠ STATE_RUNNING → w2.nodes m = w.nodes m) : Flushed X w2 := by
  intro m o hX hst
  have hs : (w2.nodes m).state = (w.nodes m).state := (Node.tv_fields (hsl.tv m)).2.2.1
  rw [hs] at hst
  have hnr : (w.nodes m).state ≠ STATE_RUNNING := by
    rcases hst with e | e <;> rw [e] <;> decide
  rw [hn m hnr]
  exact h m o hX hst

theorem Op.run_flushed (fuel : Nat) (op : Op) (w : World) (h : Flushed (fun _ _ => False) w) :
    (Op.run fuel op w).Ok (Flushed (fun _ _ => False)) := by
  cases op with
  | Start n => exact Res.Ok.pureK (h.startF n)
  | Stop n => exact exec_flushed fuel _ w h
  | AddClient n c => exact exec_flushed fuel _ w h
  | RemoveClient n c => exact exec_flushed fuel _ w h
  | input n chunk =>
    exact Res.Ok.pureK (h.frozen (input_sameLife n chunk w)
      (fun m hm => input_nodes_of_not_running n chunk w hm))
  | Output n chunk =>
    exact Res.Ok.pureK (h.frozen (Output_sameLife n chunk w)
      (fun m hm => Output_nodes_of_not_running n chunk w hm))
  | worker n o =>
    simp only [Op.run]
    cases hw : workerStep n o w with
    | none => exact Res.Ok.pureK h
    | some w1 => exact Res.Ok.pureK (workerStep_flushed h hw)

theorem runOps_flushed (fuel : Nat) (ops : List Op) (w : World)
    (h : Flushed (fun _ _ => False) w) : (runOps fuel ops w).Ok (Flushed (fun _ _ => False)) :=
  foldl_bind_ok (fun op => Op.run fuel op) _ (fun op w0 h0 => Op.run_flushed fuel op w0 h0) ops _
    (Res.Ok.pureK h)

/-! ### The context at attach time -/

theorem Start_Ctx (n : Nat) (w : World) (m : Nat) :
    ((Start n w).nodes m).Ctx = (w.nodes m).Ctx := by
  unfold Start
  simp only []
  split
  · by_cases hm : m = n
    · subst hm
      split <;> simp
    · split <;> simp [hm]
  · rfl

theorem addClient_ctx {fuel n c : Nat} {w w2 : World}
    (h : exec fuel (Call.AddClient n c) w = Res.ok w2) (m : Nat) :
    (w2.nodes m).Ctx =
      if m = c ∧ (w.nodes n).Ctx ≠ none then (w.nodes n).Ctx else (w.nodes m).Ctx := by
  cases fuel with
  | zero => simp [exec] at h
  | succ k =>
    simp only [exec, lock] at h
    split at h
    · cases h
    · obtain ⟨w4, h4, h5⟩ := Res.bind_eq_ok h
      cases h5
      cases k with
      | zero => simp [exec] at h4
      | succ j =>
        simp only [exec, Res.bind_ok, World.modify_nodes, if_true] at h4
        cases h4
        have hu : ∀ X : World, ((unlock n X).nodes m).Ctx = (X.nodes m).Ctx := by
          intro X
          by_cases hmn : m = n
          · subst hmn; simp
          · simp [hmn]
        have hs : ∀ X : World, ((X.modify c (fun d => { d with server := some n })).nodes m).Ctx =
            (X.nodes m).Ctx := by
          intro X
          by_cases hmc : m = c
          · subst hmc; simp
          · simp [hmc]
        have ha : (((w.modify n (fun d => { d with clientAddRemoveMutex := true })).modify n
            (fun d => { d with Clients := d.Clients ++ [c] })).nodes m).Ctx = (w.nodes m).Ctx := by
          by_cases hmn : m = n
          · subst hmn; simp
          · simp [hmn]
        rw [hu]
        cases hctx : (w.nodes n).Ctx with
        | none =>
          simp only [hctx, ne_eq, not_true_eq_false, and_false, if_false]
          split <;> simp only [Start_Ctx, hs, ha]
        | some ctx =>
          simp only [hctx]
          have hb : ((SetContext c (some ctx) ((w.modify n
              (fun d => { d with clientAddRemoveMutex := true })).modify n
              (fun d => { d with Clients := d.Clients ++ [c] }))).nodes m).Ctx =
              if m = c then some ctx else (w.nodes m).Ctx := by
            by_cases hmc : m = c
            · subst hmc; simp
            · simp only [SetContext_nodes, if_neg hmc]
              exact ha
          split <;> simp only [Start_Ctx, hs, hb] <;> by_cases hmc : m = c <;> simp [hmc]


/-! ### Chunks travelling through a chain -/

theorem Node.pend_none {o : Bool} {nd : Node} (h : nd.getQ o = none) : nd.pend o = [] := by
  simp [Node.pend, h]

theorem input_handled (n : Nat) (x : Chunk) (w : World) : (input n x w).handled = w.handled := by
  unfold input
  simp only []
  split
  · split <;> rfl
  · rfl

theorem Output_handled (n : Nat) (x : Chunk) (w : World) : (Output n x w).handled = w.handled := by
  unfold Output
  simp only []
  split
  · split <;> rfl
  · rfl

theorem input_nodes_ne (n : Nat) (x : Chunk) (w : World) {m : Nat} (hm : m ≠ n) :
    (input n x w).nodes m = w.nodes m := by
  unfold input
  simp only []
  split
  · split <;> simp [hm]
  · rfl

theorem Output_nodes_ne (n : Nat) (x : Chunk) (w : World) {m : Nat} (hm : m ≠ n) :
    (Output n x w).nodes m = w.nodes m := by
  unfold Output
  simp only []
  split
  · split <;> simp [hm]
  · rfl

theorem PNode.inputP {n : Nat} {w : World} {oh : Handler} {pi po : List Chunk} (x : Chunk)
    (h : PNode n (w.nodes n) oh pi po) :
    PNode n ((input n x w).nodes n) oh (pi ++ [x]) po ∧
      ((input n x w).nodes n).life = (w.nodes n).life := by
  obtain ⟨hr, hi, hiq, ho, hoq, hpi, hpo⟩ := h
  have hrun : (w.nodes n).IsRunning = true := by simp [Node.IsRunning, hr]
  unfold input
  simp only [hrun, if_true]
  cases hq : (w.nodes n).iQueue with
  | none =>
    have hpi0 : pi = [] := by rw [← hpi]; simp [Node.pend, Node.getQ, hq]
    rcases hi with hi | hi
    · simp only [hi, World.set_nodes, if_true]
      refine ⟨⟨hr, Or.inr rfl, ?_, ho, hoq, ?_, ?_⟩, ?_⟩
      · intro q hq2
        simp only [Option.some.injEq] at hq2
        subst hq2
        simp [QueueProcessor.Put]
      · simp [Node.pend, Node.getQ, QueueProcessor.Put, QueueProcessor.pending, hpi0]
      · simpa [Node.pend, Node.getQ] using hpo
      · simp [Node.life]
    · simp only [hi, World.set_nodes, if_true]
      refine ⟨⟨hr, Or.inr rfl, ?_, ho, hoq, ?_, ?_⟩, ?_⟩
      · intro q hq2
        simp only [Option.some.injEq] at hq2
        subst hq2
        simp [QueueProcessor.Put, hi]
      · simp [Node.pend, Node.getQ, QueueProcessor.Put, QueueProcessor.pending, hpi0, hi]
      · simpa [Node.pend, Node.getQ] using hpo
      · simp [Node.life]
  | some q =>
    have hqh := hiq q hq
    simp only [hq, World.set_nodes, if_true]
    refine ⟨⟨hr, hi, ?_, ho, hoq, ?_, ?_⟩, ?_⟩
    · intro q2 hq2
      simp only [Option.some.injEq] at hq2
      subst hq2
      simp [QueueProcessor.Put, hqh]
    · rw [← hpi]
      simp [Node.pend, Node.getQ, QueueProcessor.Put, QueueProcessor.pending, hqh, hq]
    · simpa [Node.pend, Node.getQ] using hpo
    · simp [Node.life]

theorem PNode.outputP {n : Nat} {w : World} {oh : Handler} {pi po : List Chunk} (x : Chunk)
    (h : PNode n (w.nodes n) oh pi po) :
    PNode n ((Output n x w).nodes n) oh pi (po ++ [x]) ∧
      ((Output n x w).nodes n).life = (w.nodes n).life := by
  obtain ⟨hr, hi, hiq, ho, hoq, hpi, hpo⟩ := h
  have hrun : (w.nodes n).IsRunning = true := by simp [Node.IsRunning, hr]
  unfold Output
  simp only [hrun, if_true]
  cases hq : (w.nodes n).oQueue with
  | none =>
    have hpo0 : po = [] := by rw [← hpo]; simp [Node.pend, Node.getQ, hq]
    rcases ho with ⟨ho1, ho2, ho3⟩ | ho
    · subst ho3
      simp only [ho1, ho2, Option.isNone_none, Bool.not_false, Bool.true_or, Bool.and_self,
        if_true, World.set_nodes]
      refine ⟨⟨hr, hi, hiq, Or.inr rfl, ?_, ?_, ?_⟩, ?_⟩
      · intro q hq2
        simp only [Option.some.injEq] at hq2
        subst hq2
        simp [QueueProcessor.Put]
      · simpa [Node.pend, Node.getQ] using hpi
      · simp [Node.pend, Node.getQ, QueueProcessor.Put, QueueProcessor.pending, hpo0]
      · simp [Node.life, ho2]
    · simp only [ho, Option.isNone_none, Option.isSome_some, Bool.or_true, Bool.and_self,
        if_true, World.set_nodes]
      refine ⟨⟨hr, hi, hiq, Or.inr rfl, ?_, ?_, ?_⟩, ?_⟩
      · intro q hq2
        simp only [Option.some.injEq] at hq2
        subst hq2
        simp [QueueProcessor.Put]
      · simpa [Node.pend, Node.getQ] using hpi
      · simp [Node.pend, Node.getQ, QueueProcessor.Put, QueueProcessor.pending, hpo0]
      · simp [Node.life]
  | some q =>
    have hqh := hoq q hq
    simp only [hq, Option.isNone_some, Bool.false_and, Bool.false_eq_true, if_false,
      World.set_nodes, if_true]
    refine ⟨⟨hr, hi, hiq, ho, ?_, ?_, ?_⟩, ?_⟩
    · intro q2 hq2
      simp only [Option.some.injEq] at hq2
      subst hq2
      simp [QueueProcessor.Put, hqh]
    · simpa [Node.pend, Node.getQ] using hpi
    · rw [← hpo]
      simp [Node.pend, Node.getQ, QueueProcessor.Put, QueueProcessor.pending, hqh, hq]
    · simp [Node.life]

theorem Node.pend_cons {o : Bool} {nd : Node} {x : Chunk} {rest : List Chunk}
    (h : nd.pend o = x :: rest) : ∃ q, nd.getQ o = some q ∧ q.queue = some (x :: rest) := by
  unfold Node.pend at h
  cases hq : nd.getQ o with
  | none => simp [hq] at h
  | some q =>
    refine ⟨q, rfl, ?_⟩
    simp only [hq, QueueProcessor.pending] at h
    cases hqq : q.queue with
    | none => simp [hqq] at h
    | some l => simpa [hqq] using h

theorem PNode.takeP {n : Nat} {nd : Node} {oh : Handler} {pi po : List Chunk} {o : Bool}
    {q : QueueProcessor} {r : List Chunk} (h : PNode n nd oh pi po) (hq : nd.getQ o = some q) :
    PNode n (nd.setQ o (some { q with queue := some r, isProcessing := true })) oh
      (if o then pi else r) (if o then r else po) := by
  obtain ⟨hr, hi, hiq, ho, hoq, hpi, hpo⟩ := h
  cases o
  · simp only [Node.getQ, Bool.false_eq_true, if_false] at hq
    refine ⟨hr, hi, ?_, ho, hoq, ?_, ?_⟩
    · intro q2 hq2
      simp only [Node.setQ, Bool.false_eq_true, if_false, Option.some.injEq] at hq2
      subst hq2
      exact hiq q hq
    · simp [Node.pend, Node.getQ, Node.setQ, QueueProcessor.pending]
    · simpa [Node.pend, Node.getQ, Node.setQ] using hpo
  · simp only [Node.getQ, if_true] at hq
    refine ⟨hr, hi, hiq, ho, ?_, ?_, ?_⟩
    · intro q2 hq2
      simp only [Node.setQ, if_true, Option.some.injEq] at hq2
      subst hq2
      exact hoq q hq
    · simpa [Node.pend, Node.getQ, Node.setQ] using hpi
    · simp [Node.pend, Node.getQ, Node.setQ, QueueProcessor.pending]

theorem PNode.doneP {n : Nat} {nd : Node} {oh : Handler} {pi po : List Chunk} (o : Bool)
    (h : PNode n nd oh pi po) :
    PNode n (nd.setQ o ((nd.getQ o).map
      (fun q2 => { q2 with wg := q2.wg - 1, isProcessing := false }))) oh pi po := by
  obtain ⟨hr, hi, hiq, ho, hoq, hpi, hpo⟩ := h
  cases o
  · refine ⟨hr, hi, ?_, ho, hoq, ?_, ?_⟩
    · intro q2 hq2
      simp only [Node.setQ, Node.getQ, Bool.false_eq_true, if_false, Option.map_eq_some'] at hq2
      obtain ⟨q, hq, rfl⟩ := hq2
      exact hiq q hq
    · rw [← hpi]
      cases hq : nd.iQueue <;> simp [Node.pend, Node.getQ, Node.setQ, QueueProcessor.pending, hq]
    · simpa [Node.pend, Node.getQ, Node.setQ] using hpo
  · refine ⟨hr, hi, hiq, ho, ?_, ?_, ?_⟩
    · intro q2 hq2
      simp only [Node.setQ, Node.getQ, if_true, Option.map_eq_some'] at hq2
      obtain ⟨q, hq, rfl⟩ := hq2
      exact hoq q hq
    · simpa [Node.pend, Node.getQ, Node.setQ] using hpi
    · rw [← hpo]
      cases hq : nd.oQueue <;> simp [Node.pend, Node.getQ, Node.setQ, QueueProcessor.pending, hq]

theorem workerStep_eq {n : Nat} {o : Bool} {w : World} {q : QueueProcessor} {x : Chunk}
    {rest : List Chunk} {hh : Handler} (hq : (w.nodes n).getQ o = some q)
    (hqq : q.queue = some (x :: rest)) (hc : q.chunkHandler = some hh) :
    workerStep n o w = some ((hh.call x (w.modify n (fun nd => nd.setQ o
      (some { q with queue := some rest, isProcessing := true })))).modify n (fun nd =>
        nd.setQ o ((nd.getQ o).map (fun q2 => { q2 with wg := q2.wg - 1, isProcessing := false })))) := by
  simp [workerStep, hq, hqq, hc]

theorem workerStep_none_of_pend {n : Nat} {o : Bool} {w : World}
    (h : (w.nodes n).pend o = []) : workerStep n o w = none := by
  unfold workerStep
  cases hq : (w.nodes n).getQ o with
  | none => rfl
  | some q =>
    simp only []
    cases hqq : q.queue with
    | none => rfl
    | some l =>
      cases l with
      | nil => rfl
      | cons x t => simp [Node.pend, hq, QueueProcessor.pending, hqq] at h

theorem Node.setQ_Clients (o : Bool) (nd : Node) (q : Option QueueProcessor) :
    (nd.setQ o q).Clients = nd.Clients := by
  cases o <;> rfl

theorem PNode.workI {n : Nat} {w : World} {oh : Handler} {x : Chunk} {pi po : List Chunk}
    (h : PNode n (w.nodes n) oh (x :: pi) po) :
    ∃ w2, workerStep n false w = some w2 ∧ PNode n (w2.nodes n) oh pi (po ++ [x]) ∧
      (∀ m, m ≠ n → w2.nodes m = w.nodes m) ∧ w2.handled = w.handled := by
  obtain ⟨q, hq, hqq⟩ := Node.pend_cons h.2.2.2.2.2.1
  have hc : q.chunkHandler = some (Handler.output n) :=
    h.2.2.1 q (by simpa [Node.getQ] using hq)
  refine ⟨_, workerStep_eq hq hqq hc, ?_, fun m hm => ?_, ?_⟩
  · simp only [World.modify_nodes, if_true, Handler.call]
    refine PNode.doneP false ?_
    have h1 : PNode n ((w.modify n (fun nd => nd.setQ false
        (some { q with queue := some pi, isProcessing := true }))).nodes n) oh pi po := by
      simp only [World.modify_nodes, if_true]
      simpa using h.takeP (r := pi) hq
    exact (h1.outputP x).1
  · simp only [World.modify_nodes, if_neg hm, Handler.call]
    rw [Output_nodes_ne _ _ _ hm]
    simp [hm]
  · simp [Handler.call, Output_handled]

theorem PNode.workFanout {n t : Nat} {w : World} {oht : Handler} {x : Chunk}
    {pi po pit pot : List Chunk} (h : PNode n (w.nodes n) (Handler.fanout n) pi (x :: po))
    (hcl : (w.nodes n).Clients = [t]) (htn : t ≠ n) (ht : PNode t (w.nodes t) oht pit pot) :
    ∃ w2, workerStep n true w = some w2 ∧ PNode n (w2.nodes n) (Handler.fanout n) pi po ∧
      PNode t (w2.nodes t) oht (pit ++ [x]) pot ∧
      (∀ m, m ≠ n → m ≠ t → w2.nodes m = w.nodes m) ∧ w2.handled = w.handled := by
  obtain ⟨q, hq, hqq⟩ := Node.pend_cons h.2.2.2.2.2.2
  have hc : q.chunkHandler = some (Handler.fanout n) :=
    h.2.2.2.2.1 q (by simpa [Node.getQ] using hq)
  have hcall : (Handler.fanout n).call x (w.modify n (fun nd => nd.setQ true
      (some { q with queue := some po, isProcessing := true }))) =
      input t x (w.modify n (fun nd => nd.setQ true
        (some { q with queue := some po, isProcessing := true }))) := by
    simp [Handler.call, Node.setQ_Clients, hcl]
  refine ⟨_, workerStep_eq hq hqq hc, ?_, ?_, fun m hm hmt => ?_, ?_⟩
  · rw [hcall]
    simp only [World.modify_nodes, if_true]
    refine PNode.doneP true ?_
    rw [input_nodes_ne _ _ _ (Ne.symm htn)]
    simp only [World.modify_nodes, if_true]
    simpa using h.takeP (r := po) hq
  · rw [hcall]
    simp only [World.modify_nodes, if_neg htn]
    have h1 : PNode t ((w.modify n (fun nd => nd.setQ true
        (some { q with queue := some po, isProcessing := true }))).nodes t) oht pit pot := by
      simpa [htn] using ht
    exact (h1.inputP x).1
  · rw [hcall]
    simp only [World.modify_nodes, if_neg hm]
    rw [input_nodes_ne _ _ _ hmt]
    simp [hm]
  · rw [hcall]
    simp [input_handled]

theorem PNode.workCustom {n k : Nat} {w : World} {x : Chunk} {pi po : List Chunk}
    (h : PNode n (w.nodes n) (Handler.custom k) pi (x :: po)) :
    ∃ w2, workerStep n true w = some w2 ∧ PNode n (w2.nodes n) (Handler.custom k) pi po ∧
      (∀ m, m ≠ n → w2.nodes m = w.nodes m) ∧ w2.handled = w.handled ++ [(k, x)] := by
  obtain ⟨q, hq, hqq⟩ := Node.pend_cons h.2.2.2.2.2.2
  have hc : q.chunkHandler = some (Handler.custom k) :=
    h.2.2.2.2.1 q (by simpa [Node.getQ] using hq)
  refine ⟨_, workerStep_eq hq hqq hc, ?_, fun m hm => ?_, ?_⟩
  · simp only [World.modify_nodes, if_true, Handler.call]
    refine PNode.doneP true ?_
    simpa using h.takeP (r := po) hq
  · simp [Handler.call, hm]
  · simp [Handler.call]

theorem Pipe.update {s s2 c h : Nat} {f f2 : InFlight} {w w2 : World} (hp : Pipe s s2 c h f w)
    (hl : SameLife w w2)
    (hs : PNode s (w2.nodes s) (Handler.fanout s) f2.si f2.so)
    (hs2 : PNode s2 (w2.nodes s2) (Handler.fanout s2) f2.s2i f2.s2o)
    (hc : PNode c (w2.nodes c) (Handler.custom h) f2.ci f2.co)
    (ho : ∀ m, m ≠ s → m ≠ s2 → m ≠ c → w2.nodes m = w.nodes m) : Pipe s s2 c h f2 w2 := by
  obtain ⟨d1, d2, d3, _, c1, p1, _, c2, p2, _, p3, hq⟩ := hp
  have t := fun m => Node.tv_fields (hl.tv m)
  refine ⟨d1, d2, d3, hs, ?_, ?_, hs2, ?_, ?_, hc, ?_, fun m h1 h2 h3 o => ?_⟩
  · rw [(t s).2.2.2.1]; exact c1
  · rw [(t s).1]; exact p1
  · rw [(t s2).2.2.2.1]; exact c2
  · rw [(t s2).1]; exact p2
  · rw [(t c).1]; exact p3
  · rw [ho m h1 h2 h3]; exact hq m h1 h2 h3 o

theorem Op.run_worker_none {fuel n : Nat} {o : Bool} {w : World}
    (h : (w.nodes n).pend o = []) : Op.run fuel (Op.worker n o) w = Res.ok w := by
  simp [Op.run, workerStep_none_of_pend h]

theorem Op.run_worker_some {fuel n : Nat} {o : Bool} {w w2 : World}
    (h : workerStep n o w = some w2) : Op.run fuel (Op.worker n o) w = Res.ok w2 := by
  simp [Op.run, h]

theorem Pipe.step {s s2 c h : Nat} {f : InFlight} {w : World} (b : Bool)
    (hp : Pipe s s2 c h f w) (op : Op) (hop : op.feeds s b) (fuel : Nat) :
    ∃ w2, Op.run fuel op w = Res.ok w2 ∧ Pipe s s2 c h (f.step s s2 c op).1 w2 ∧
      w2.handled = w.handled ++ ((f.step s s2 c op).2).map (fun x => (h, x)) := by
  have hp0 := hp
  obtain ⟨d1, d2, d3, ns, c1, p1, ns2, c2, p2, nc, p3, hq⟩ := hp
  cases op with
  | Start n => exact absurd hop (by simp [Op.feeds])
  | Stop n => exact absurd hop (by simp [Op.feeds])
  | AddClient n k => exact absurd hop (by simp [Op.feeds])
  | RemoveClient n k => exact absurd hop (by simp [Op.feeds])
  | input n x =>
    obtain ⟨rfl, _⟩ := hop
    refine ⟨_, rfl, ?_, by simp [InFlight.step, input_handled]⟩
    refine hp0.update (input_sameLife n x w) (ns.inputP x).1 ?_ ?_
      (fun m h1 _ _ => input_nodes_ne n x w h1)
    · rw [input_nodes_ne n x w (Ne.symm d1)]; exact ns2
    · rw [input_nodes_ne n x w (Ne.symm d2)]; exact nc
  | Output n x =>
    obtain ⟨rfl, _⟩ := hop
    refine ⟨_, rfl, ?_, by simp [InFlight.step, Output_handled]⟩
    refine hp0.update (Output_sameLife n x w) (ns.outputP x).1 ?_ ?_
      (fun m h1 _ _ => Output_nodes_ne n x w h1)
    · rw [Output_nodes_ne n x w (Ne.symm d1)]; exact ns2
    · rw [Output_nodes_ne n x w (Ne.symm d2)]; exact nc
  | worker n o =>
    rcases eq_or_ne n s with rfl | hns
    · cases o
      · cases hsi : f.si with
        | nil =>
          refine ⟨w, Op.run_worker_none (by rw [ns.2.2.2.2.2.1, hsi]), ?_⟩
          simpa [InFlight.step, hsi] using hp0
        | cons x r =>
          rw [hsi] at ns
          obtain ⟨w2, e, a1, a2, a3⟩ := ns.workI
          refine ⟨w2, Op.run_worker_some e, ?_, by simp [InFlight.step, hsi, a3]⟩
          simp only [InFlight.step, if_true, hsi, Bool.false_eq_true, if_false]
          refine hp0.update (workerStep_sameLife e) a1 ?_ ?_ (fun m h1 _ _ => a2 m h1)
          · rw [a2 s2 (Ne.symm d1)]; exact ns2
          · rw [a2 c (Ne.symm d2)]; exact nc
      · cases hso : f.so with
        | nil =>
          refine ⟨w, Op.run_worker_none (by rw [ns.2.2.2.2.2.2, hso]), ?_⟩
          simpa [InFlight.step, hso] using hp0
        | cons x r =>
          rw [hso] at ns
          obtain ⟨w2, e, a1, a2, a3, a4⟩ := ns.workFanout c1 (Ne.symm d1) ns2
          refine ⟨w2, Op.run_worker_some e, ?_, by simp [InFlight.step, hso, a4]⟩
          simp only [InFlight.step, if_true, hso]
          refine hp0.update (workerStep_sameLife e) a1 a2 ?_ (fun m h1 h2 _ => a3 m h1 h2)
          rw [a3 c (Ne.symm d2) (Ne.symm d3)]; exact nc
    · rcases eq_or_ne n s2 with rfl | hns2
      · cases o
        · cases hsi : f.s2i with
          | nil =>
            refine ⟨w, Op.run_worker_none (by rw [ns2.2.2.2.2.2.1, hsi]), ?_⟩
            simpa [InFlight.step, hsi, hns] using hp0
          | cons x r =>
            rw [hsi] at ns2
            obtain ⟨w2, e, a1, a2, a3⟩ := ns2.workI
            refine ⟨w2, Op.run_worker_some e, ?_, by simp [InFlight.step, hsi, a3, hns]⟩
            simp only [InFlight.step, if_neg hns, if_true, hsi, Bool.false_eq_true, if_false]
            refine hp0.update (workerStep_sameLife e) ?_ a1 ?_ (fun m _ h2 _ => a2 m h2)
            · rw [a2 s d1]; exact ns
            · rw [a2 c (Ne.symm d3)]; exact nc
        · cases hso : f.s2o with
          | nil =>
            refine ⟨w, Op.run_worker_none (by rw [ns2.2.2.2.2.2.2, hso]), ?_⟩
            simpa [InFlight.step, hso, hns] using hp0
          | cons x r =>
            rw [hso] at ns2
            obtain ⟨w2, e, a1, a2, a3, a4⟩ := ns2.workFanout c2 (Ne.symm d3) nc
            refine ⟨w2, Op.run_worker_some e, ?_, by simp [InFlight.step, hso, a4, hns]⟩
            simp only [InFlight.step, if_neg hns, if_true, hso]
            refine hp0.update (workerStep_sameLife e) ?_ a1 a2 (fun m _ h2 h3 => a3 m h2 h3)
            rw [a3 s d1 d2]; exact ns
      · rcases eq_or_ne n c with rfl | hnc
        · cases o
          · cases hsi : f.ci with
            | nil =>
              refine ⟨w, Op.run_worker_none (by rw [nc.2.2.2.2.2.1, hsi]), ?_⟩
              simpa [InFlight.step, hsi, hns, hns2] using hp0
            | cons x r =>
              rw [hsi] at nc
              obtain ⟨w2, e, a1, a2, a3⟩ := nc.workI
              refine ⟨w2, Op.run_worker_some e, ?_, by simp [InFlight.step, hsi, a3, hns, hns2]⟩
              simp only [InFlight.step, if_neg hns, if_neg hns2, if_true, hsi, Bool.false_eq_true,
                if_false]
              refine hp0.update (workerStep_sameLife e) ?_ ?_ a1 (fun m _ _ h3 => a2 m h3)
              · rw [a2 s d2]; exact ns
              · rw [a2 s2 d3]; exact ns2
          · cases hso : f.co with
            | nil =>
              refine ⟨w, Op.run_worker_none (by rw [nc.2.2.2.2.2.2, hso]), ?_⟩
              simpa [InFlight.step, hso, hns, hns2] using hp0
            | cons x r =>
              rw [hso] at nc
              obtain ⟨w2, e, a1, a2, a3⟩ := nc.workCustom
              refine ⟨w2, Op.run_worker_some e, ?_, by simp [InFlight.step, hso, a3, hns, hns2]⟩
              simp only [InFlight.step, if_neg hns, if_neg hns2, if_true, hso]
              refine hp0.update (workerStep_sameLife e) ?_ ?_ a1 (fun m _ _ h3 => a2 m h3)
              · rw [a2 s d2]; exact ns
              · rw [a2 s2 d3]; exact ns2
        · refine ⟨w, Op.run_worker_none (hq n hns hns2 hnc o), ?_⟩
          simpa [InFlight.step, hns, hns2, hnc] using hp0

theorem InFlight.step_all (s s2 c : Nat) (b : Bool) (op : Op) (f : InFlight)
    (hop : op.feeds s b) (hsi : b = true → f.si = []) :
    (f.step s s2 c op).2 ++ (f.step s s2 c op).1.all = f.all ++ op.pushed.toList ∧
      (b = true → (f.step s s2 c op).1.si = []) := by
  cases op with
  | Start n => exact absurd hop (by simp [Op.feeds])
  | Stop n => exact absurd hop (by simp [Op.feeds])
  | AddClient n k => exact absurd hop (by simp [Op.feeds])
  | RemoveClient n k => exact absurd hop (by simp [Op.feeds])
  | input n x =>
    obtain ⟨_, hb⟩ := hop
    subst hb
    simp [InFlight.step, InFlight.all, Op.pushed]
  | Output n x =>
    obtain ⟨_, hb⟩ := hop
    subst hb
    simp [InFlight.step, InFlight.all, Op.pushed, hsi rfl]
  | worker n o =>
    simp only [InFlight.step, Op.pushed, Option.toList_none, List.append_nil]
    split
    · split
      · split
        · exact ⟨by simp, hsi⟩
        · rename_i x r hso
          exact ⟨by simp [InFlight.all, hso], hsi⟩
      · split
        · exact ⟨by simp, hsi⟩
        · rename_i x r hs
          refine ⟨by simp [InFlight.all, hs], fun hb => ?_⟩
          rw [hsi hb] at hs
          cases hs
    · split
      · split
        · split
          · exact ⟨by simp, hsi⟩
          · rename_i x r hso
            exact ⟨by simp [InFlight.all, hso], hsi⟩
        · split
          · exact ⟨by simp, hsi⟩
          · rename_i x r hs
            exact ⟨by simp [InFlight.all, hs], hsi⟩
      · split
        · split
          · split
            · exact ⟨by simp, hsi⟩
            · rename_i x r hso
              exact ⟨by simp [InFlight.all, hso], hsi⟩
          · split
            · exact ⟨by simp, hsi⟩
            · rename_i x r hs
              exact ⟨by simp [InFlight.all, hs], hsi⟩
        · exact ⟨by simp, hsi⟩

theorem runOps_cons (fuel : Nat) (op : Op) (t : List Op) (w : World) :
    runOps fuel (op :: t) w = (Op.run fuel op w).bind (runOps fuel t) := by
  unfold runOps
  simp only [List.foldl_cons, Res.bind_ok]
  exact foldl_bind_start _ _ _

theorem Pipe.run {s s2 c h : Nat} (b : Bool) (fuel : Nat) (ops : List Op) :
    ∀ (f : InFlight) (w : World), Pipe s s2 c h f w → (∀ op ∈ ops, op.feeds s b) →
      ∃ w2, runOps fuel ops w = Res.ok w2 ∧ Pipe s s2 c h (f.run s s2 c ops).1 w2 ∧
        w2.handled = w.handled ++ ((f.run s s2 c ops).2).map (fun x => (h, x)) := by
  induction ops with
  | nil =>
    intro f w hp _
    exact ⟨w, rfl, hp, by simp [InFlight.run]⟩
  | cons op t ih =>
    intro f w hp hops
    have hop := hops op (List.mem_cons_self _ _)
    obtain ⟨w1, e1, p1, h1⟩ := hp.step b op hop fuel
    obtain ⟨w2, e2, p2, h2⟩ := ih _ w1 p1 (fun o ho => hops o (List.mem_cons_of_mem _ ho))
    refine ⟨w2, ?_, p2, ?_⟩
    · rw [runOps_cons, e1]
      exact e2
    · rw [h2, h1]
      simp [InFlight.run]

theorem InFlight.run_all (s s2 c : Nat) (b : Bool) (ops : List Op) :
    ∀ f : InFlight, (∀ op ∈ ops, op.feeds s b) → (b = true → f.si = []) →
      (f.run s s2 c ops).2 ++ (f.run s s2 c ops).1.all = f.all ++ ops.filterMap Op.pushed := by
  induction ops with
  | nil => intro f _ _; simp [InFlight.run]
  | cons op t ih =>
    intro f hops hsi
    have hop := hops op (List.mem_cons_self _ _)
    obtain ⟨c1, s1⟩ := InFlight.step_all s s2 c b op f hop hsi
    have c2 := ih (f.step s s2 c op).1 (fun o ho => hops o (List.mem_cons_of_mem _ ho)) s1
    simp only [InFlight.run]
    rw [List.append_assoc, c2, ← List.append_assoc, c1]
    cases op <;> simp [Op.pushed, List.filterMap_cons]

theorem Node.pend_quiet {w : World} (hq : Quiet w) (m : Nat) (o : Bool) :
    (w.nodes m).pend o = [] := by
  unfold Node.pend
  cases h : (w.nodes m).getQ o with
  | none => rfl
  | some q => exact hq m o q h

theorem Pipe.all_nil {s s2 c h : Nat} {f : InFlight} {w : World} (hp : Pipe s s2 c h f w)
    (hq : Quiet w) : f.all = [] := by
  obtain ⟨_, _, _, ns, _, _, ns2, _, _, nc, _, _⟩ := hp
  have e1 := ns.2.2.2.2.2.1
  have e2 := ns.2.2.2.2.2.2
  have e3 := ns2.2.2.2.2.2.1
  have e4 := ns2.2.2.2.2.2.2
  have e5 := nc.2.2.2.2.2.1
  have e6 := nc.2.2.2.2.2.2
  rw [Node.pend_quiet hq] at e1 e2 e3 e4 e5 e6
  simp [InFlight.all, ← e1, ← e2, ← e3, ← e4, ← e5, ← e6]

theorem Pipe.quiet {s s2 c h : Nat} {f : InFlight} {w : World} (hp : Pipe s s2 c h f w)
    (hf : f.all = []) : Quiet w := by
  obtain ⟨_, _, _, ns, _, _, ns2, _, _, nc, _, ho⟩ := hp
  simp only [InFlight.all, List.append_eq_nil] at hf
  obtain ⟨⟨⟨⟨⟨f1, f2⟩, f3⟩, f4⟩, f5⟩, f6⟩ := hf
  have key : ∀ m o, (w.nodes m).pend o = [] := by
    intro m o
    rcases eq_or_ne m s with rfl | h1
    · cases o
      · rw [ns.2.2.2.2.2.1, f6]
      · rw [ns.2.2.2.2.2.2, f5]
    · rcases eq_or_ne m s2 with rfl | h2
      · cases o
        · rw [ns2.2.2.2.2.2.1, f4]
        · rw [ns2.2.2.2.2.2.2, f3]
      · rcases eq_or_ne m c with rfl | h3
        · cases o
          · rw [nc.2.2.2.2.2.1, f2]
          · rw [nc.2.2.2.2.2.2, f1]
        · exact ho m h1 h2 h3 o
  intro m o q hq
  have := key m o
  simpa [Node.pend, hq, QueueProcessor.pending] using this

theorem eagerFeed_feeds (s s2 c : Nat) (b : Bool) (xs : List Chunk) :
    ∀ op ∈ eagerFeed s s2 c b xs, op.feeds s b := by
  induction xs with
  | nil => intro op h; simp [eagerFeed] at h
  | cons x t ih =>
    intro op h
    simp only [eagerFeed, List.cons_append, List.nil_append, List.mem_cons] at h
    rcases h with h | h | h | h | h | h | h | h
    · subst h
      cases b <;> simp [Op.feeds]
    all_goals first
      | (subst h; simp [Op.feeds])
      | exact ih op h

theorem eagerFeed_pushed (s s2 c : Nat) (b : Bool) (xs : List Chunk) :
    (eagerFeed s s2 c b xs).filterMap Op.pushed = xs := by
  induction xs with
  | nil => rfl
  | cons x t ih =>
    cases b <;> simp [eagerFeed, List.filterMap_cons, Op.pushed, ih]

theorem eagerFeed_run (s s2 c : Nat) (b : Bool) (d1 : s ≠ s2) (d2 : s ≠ c) (d3 : s2 ≠ c)
    (xs : List Chunk) :
    InFlight.run s s2 c (eagerFeed s s2 c b xs) {} = ({}, xs) := by
  induction xs with
  | nil => rfl
  | cons x t ih =>
    cases b <;>
      simp [eagerFeed, InFlight.run, InFlight.step, d1.symm, d2.symm, d3.symm, ih]


theorem pipeChain_pipe : Pipe 0 1 2 0 {} pipeChain := by
  have n0 : pipeChain.nodes 0 = chainLeafClient.nodes 0 := by
    simp [pipeChain, SetOChunkHandler]
  have n1 : pipeChain.nodes 1 = chainLeafClient.nodes 1 := by
    simp [pipeChain, SetOChunkHandler]
  have n2 : pipeChain.nodes 2 =
      { isPrincipallyClient := true, state := 2, server := some 1, oChunkHandler := some (Handler.custom 0) } := by
    simp [pipeChain, SetOChunkHandler, chainLeafClient_nodes_2]
  refine ⟨by decide, by decide, by decide, ?_, ?_, ?_, ?_, ?_, ?_, ?_, ?_, ?_⟩
  · rw [n0, chainLeafClient_nodes_0]
    exact ⟨rfl, Or.inl rfl, fun q hq => (by cases hq), Or.inl ⟨rfl, rfl, rfl⟩,
      fun q hq => (by cases hq), rfl, rfl⟩
  · rw [n0, chainLeafClient_nodes_0]
  · rw [n0, chainLeafClient_nodes_0]
  · rw [n1, chainLeafClient_nodes_1]
    exact ⟨rfl, Or.inl rfl, fun q hq => (by cases hq), Or.inl ⟨rfl, rfl, rfl⟩,
      fun q hq => (by cases hq), rfl, rfl⟩
  · rw [n1, chainLeafClient_nodes_1]
  · rw [n1, chainLeafClient_nodes_1]
  · rw [n2]
    exact ⟨rfl, Or.inl rfl, fun q hq => (by cases hq), Or.inr rfl,
      fun q hq => (by cases hq), rfl, rfl⟩
  · rw [n2]
  · intro m h0 h1 h2 o
    match m with
    | 0 => exact absurd rfl h0
    | 1 => exact absurd rfl h1
    | 2 => exact absurd rfl h2
    | k + 3 =>
      have : pipeChain.nodes (k + 3) = { task := true } := by
        simp [pipeChain, SetOChunkHandler, chainLeafClient_nodes_ge]
      rw [this]
      cases o <;> rfl

/-! ### Lists of clients and server references agree -/

theorem Unlist.reflU (ex : Nat → Prop) (w : World) : Unlist ex w w :=
  ⟨fun _ => List.Sublist.refl _, fun _ => Or.inl rfl, fun y p _ h1 h2 => by
    rw [h1] at h2; cases h2⟩

theorem Unlist.transU {ex : Nat → Prop} {w w2 w3 : World} (h1 : Unlist ex w w2)
    (h2 : Unlist ex w2 w3) : Unlist ex w w3 := by
  refine ⟨fun p => (h2.1 p).trans (h1.1 p), fun m => ?_, fun y p hy hs hn => ?_⟩
  · rcases h2.2.1 m with e | e
    · rw [e]; exact h1.2.1 m
    · exact Or.inr e
  · rcases h1.2.1 y with e | e
    · exact h2.2.2 y p hy (by rw [e]; exact hs) hn
    · exact fun hm => h1.2.2 y p hy hs e ((h2.1 p).subset hm)

theorem Unlist.monoU {ex ex2 : Nat → Prop} {w w2 : World} (h : Unlist ex w w2)
    (he : ∀ y, ex y → ex2 y) : Unlist ex2 w w2 :=
  ⟨h.1, h.2.1, fun y p hy => h.2.2 y p (fun hx => hy (he y hx))⟩

theorem Unlist.of_fieldsU {ex : Nat → Prop} {w w2 : World}
    (hc : ∀ m, (w2.nodes m).Clients = (w.nodes m).Clients)
    (hs : ∀ m, (w2.nodes m).server = (w.nodes m).server) : Unlist ex w w2 :=
  ⟨fun p => by rw [hc], fun m => Or.inl (hs m), fun y p _ h1 h2 => by
    rw [hs, h1] at h2; cases h2⟩

theorem WeakListed.unlistW {ex : Nat → Prop} {w w2 : World} (h : WeakListed w)
    (u : Unlist ex w w2) : WeakListed w2 := by
  intro p x hx
  rcases u.2.1 x with e | e
  · rw [e]; exact h p x ((u.1 p).subset hx)
  · exact Or.inr e

theorem NodupAll.unlistN {ex : Nat → Prop} {w w2 : World} (h : NodupAll w)
    (u : Unlist ex w w2) : NodupAll w2 := fun p => (h p).sublist (u.1 p)

theorem foldl_bind_ok_mem {α : Type} (g : α → World → Res) (P : World → Prop) (l : List α)
    (hg : ∀ a ∈ l, ∀ w, P w → (g a w).Ok P) :
    ∀ r : Res, r.Ok P → (l.foldl (fun acc a => acc.bind (g a)) r).Ok P := by
  induction l with
  | nil => intro r hr; exact hr
  | cons a t ih =>
    intro r hr
    simp only [List.foldl_cons]
    exact ih (fun b hb => hg b (List.mem_cons_of_mem _ hb)) _
      (hr.bindK (fun w1 h1 => hg a (List.mem_cons_self _ _) w1 h1))

theorem Unlist.of_shrink {ex : Nat → Prop} {w w2 : World}
    (hc : ∀ p, (w2.nodes p).Clients.Sublist (w.nodes p).Clients)
    (hs : ∀ m, (w2.nodes m).server = (w.nodes m).server) : Unlist ex w w2 :=
  ⟨hc, fun m => Or.inl (hs m), fun y p _ h1 h2 => by rw [hs, h1] at h2; cases h2⟩

theorem Unlist.clear_server (w : World) (n : Nat) :
    Unlist (fun y => y = n) w (w.modify n (fun d => { d with server := none })) := by
  refine ⟨fun p => ?_, fun m => ?_, fun y p hy h1 h2 => ?_⟩
  · by_cases hp : p = n
    · subst hp; simp
    · simp [hp]
  · by_cases hm : m = n
    · subst hm; simp
    · simp [hm]
  · have hyn : y ≠ n := hy
    simp only [World.modify_nodes, if_neg hyn] at h2
    rw [h1] at h2
    cases h2

theorem Unlist.removeClient_wrapU {w wB w3 w4 : World} {n c : Nat}
    (hW : WeakListed w) (hN : NodupAll w) (hmem : c ∈ (w.nodes n).Clients)
    (hBc : ∀ m, (wB.nodes m).Clients =
      if m = n then (w.nodes n).Clients.erase c else (w.nodes m).Clients)
    (hBs : ∀ m, (wB.nodes m).server = (w.nodes m).server)
    (h3 : Unlist (fun y => y = c) wB w3) (h4 : Unlist (fun _ => False) w3 w4) :
    Unlist (fun _ => False) w w4 := by
  have hB : Unlist (fun y => y = c) w wB := by
    refine Unlist.of_shrink (fun p => ?_) hBs
    rw [hBc]
    split
    · rename_i hp
      subst hp
      exact List.erase_sublist _ _
    · exact List.Sublist.refl _
  have h34 := h3.transU (h4.monoU (fun _ hf => False.elim hf))
  have U := hB.transU h34
  refine ⟨U.1, U.2.1, fun y p _ hs hn => ?_⟩
  by_cases hy : y = c
  · subst hy
    have hpn : p = n := by
      rcases hW n y hmem with e | e
      · rw [hs] at e
        exact Option.some.inj e
      · rw [hs] at e
        cases e
    subst hpn
    intro hm
    have := (h34.1 p).subset hm
    rw [hBc, if_pos rfl] at this
    exact ((hN p).mem_erase_iff.1 this).1 rfl
  · exact U.2.2 y p hy hs hn

theorem Unlist.removeAll_wrapU {w w3 w5 : World} {n : Nat} (hW : WeakListed w)
    (h3 : Unlist (fun y => y ∈ (w.nodes n).Clients) w w3)
    (h35 : Unlist (fun _ => False) (w3.modify n (fun d => { d with Clients := [] })) w5) :
    Unlist (fun _ => False) w w5 := by
  have hS : Unlist (fun y => y ∈ (w.nodes n).Clients) w3
      (w3.modify n (fun d => { d with Clients := [] })) := by
    refine Unlist.of_shrink (fun p => ?_) (fun m => ?_)
    · by_cases hp : p = n
      · subst hp; simp
      · simp [hp]
    · by_cases hm : m = n
      · subst hm; simp
      · simp [hm]
  have h35b : Unlist (fun y => y ∈ (w.nodes n).Clients)
      (w3.modify n (fun d => { d with Clients := [] })) w5 :=
    h35.monoU (fun _ hf => False.elim hf)
  have U := (h3.transU hS).transU h35b
  refine ⟨U.1, U.2.1, fun y p _ hs hn => ?_⟩
  by_cases hy : y ∈ (w.nodes n).Clients
  · have hpn : p = n := by
      rcases hW n y hy with e | e
      · rw [hs] at e
        exact Option.some.inj e
      · rw [hs] at e
        cases e
    subst hpn
    intro hm
    have := (h35.1 p).subset hm
    simp at this
  · exact U.2.2 y p hy hs hn

theorem Unlist.setServer_wrapU {w w1 w3 : World} {n : Nat} (h1 : Unlist (fun _ => False) w w1)
    (h23 : Unlist (fun _ => False) (w1.modify n (fun d => { d with server := none })) w3) :
    Unlist (fun y => y = n) w w3 :=
  ((h1.monoU (fun _ hf => False.elim hf)).transU (Unlist.clear_server w1 n)).transU
    (h23.monoU (fun _ hf => False.elim hf))

theorem exec_unlist (fuel : Nat) : ∀ (call : Call) (w : World), call.tears →
    WeakListed w → NodupAll w → (exec fuel call w).Ok (Unlist call.exempt w) := by
  induction fuel with
  | zero => intro call w _ _ _ w2 h; simp [exec] at h
  | succ k ih =>
    intro call w hc hW hN
    cases call with
    | Stop n =>
      simp only [exec]
      split
      · intro w6 h
        obtain ⟨w4, h4, h5⟩ := Res.bind_eq_ok h
        obtain ⟨w3, h3, h4b⟩ := Res.bind_eq_ok h4
        obtain ⟨w2, h2, h3b⟩ := Res.bind_eq_ok h3
        obtain ⟨w5, h5a, h5b⟩ := Res.bind_eq_ok h5
        cases h5b
        have e2 := stop_handshake_tv h2
        have e3 : ∀ m, (w3.nodes m).tv = (w2.nodes m).tv := fun m =>
          (Res.Ok.of_all (flushQueues_sameLife k n w2) w3 h3b).tv m
        have eC : ∀ m, (w3.nodes m).Clients = (w.nodes m).Clients := by
          intro m
          rw [(Node.tv_fields (e3 m)).2.2.2.1, (Node.tv_fields (e2 m)).2.2.2.1]
          by_cases hm : m = n
          · subst hm; simp
          · simp [hm]
        have eS : ∀ m, (w3.nodes m).server = (w.nodes m).server := by
          intro m
          rw [(Node.tv_fields (e3 m)).2.1, (Node.tv_fields (e2 m)).2.1]
          by_cases hm : m = n
          · subst hm; simp
          · simp [hm]
        have u03 : Unlist (fun _ => False) w w3 := Unlist.of_fieldsU eC eS
        have u34 := ih (Call.removeAllClients n) w3 trivial (hW.unlistW u03) (hN.unlistN u03) w4 h4b
        have u04 := u03.transU u34
        have u45 : Unlist (fun _ => False) w4 w5 := by
          split at h5a
          · rename_i s _
            exact ih (Call.RemoveClient s n) w4 trivial (hW.unlistW u04) (hN.unlistN u04) w5 h5a
          · cases h5a; exact Unlist.reflU _ _
        refine (u04.transU u45).transU (Unlist.of_fieldsU (fun m => ?_) (fun m => ?_))
        · by_cases hm : m = n
          · subst hm; simp
          · simp [hm]
        · by_cases hm : m = n
          · subst hm; simp
          · simp [hm]
      · exact Res.Ok.pureK (Unlist.reflU _ _)
    | AddClient n c => exact absurd hc (by simp [Call.tears])
    | RemoveClient n c =>
      simp only [exec]
      split
      · unfold lock
        split
        · intro w2 h; cases h
        · simp only [World.modify_nodes, if_true]
          split
          · rename_i hidx
            have hmem : c ∈ (w.nodes n).Clients := List.indexOf_lt_length.1 hidx
            intro w5 h
            obtain ⟨w3, h3, h4⟩ := Res.bind_eq_ok h
            obtain ⟨w4, h4a, h4b⟩ := Res.bind_eq_ok h4
            cases h4b
            have hBc : ∀ m, (((w.modify n (fun d => { d with clientAddRemoveMutex := true })).modify n
                (fun d => { d with Clients :=
                  d.Clients.eraseIdx (List.indexOf c (w.nodes n).Clients) })).nodes m).Clients =
                if m = n then (w.nodes n).Clients.erase c else (w.nodes m).Clients := by
              intro m
              by_cases hm : m = n
              · subst hm; simp [List.eraseIdx_indexOf_eq_erase]
              · simp [hm]
            have hBs : ∀ m, (((w.modify n (fun d => { d with clientAddRemoveMutex := true })).modify n
                (fun d => { d with Clients :=
                  d.Clients.eraseIdx (List.indexOf c (w.nodes n).Clients) })).nodes m).server =
                (w.nodes m).server := by
              intro m
              by_cases hm : m = n
              · subst hm; simp
              · simp [hm]
            have uB : Unlist (fun _ => False) w ((w.modify n
                (fun d => { d with clientAddRemoveMutex := true })).modify n
                (fun d => { d with Clients :=
                  d.Clients.eraseIdx (List.indexOf c (w.nodes n).Clients) })) := by
              refine Unlist.of_shrink (fun p => ?_) hBs
              rw [hBc]
              split
              · rename_i hp
                subst hp
                exact List.erase_sublist _ _
              · exact List.Sublist.refl _
            have u3 := ih (Call.setServer c none) _ trivial (hW.unlistW uB) (hN.unlistN uB) w3 h3
            have uB3 := (uB.monoU (fun _ hf => False.elim hf)).transU u3
            have u34 : Unlist (fun _ => False) w3 w4 := by
              split at h4a
              · exact ih (Call.Stop n) w3 trivial (hW.unlistW uB3) (hN.unlistN uB3) w4 h4a
              · cases h4a; exact Unlist.reflU _ _
            refine (Unlist.removeClient_wrapU hW hN hmem hBc hBs u3 u34).transU
              (Unlist.of_fieldsU (fun m => ?_) (fun m => ?_))
            · by_cases hm : m = n
              · subst hm; simp
              · simp [hm]
            · by_cases hm : m = n
              · subst hm; simp
              · simp [hm]
          · refine Res.Ok.pureK (Unlist.of_fieldsU (fun m => ?_) (fun m => ?_))
            · by_cases hm : m = n
              · subst hm; simp
              · simp [hm]
            · by_cases hm : m = n
              · subst hm; simp
              · simp [hm]
      · exact Res.Ok.pureK (Unlist.reflU _ _)
    | removeAllClients n =>
      simp only [exec]
      split
      · unfold lock
        split
        · intro w2 h; cases h
        · intro w6 h
          obtain ⟨w3, h3, h4⟩ := Res.bind_eq_ok h
          obtain ⟨w5, h5a, h5b⟩ := Res.bind_eq_ok h4
          cases h5b
          have hAc : ∀ m, (((w.modify n
              (fun d => { d with removeAllClientsInProgress := true })).modify n
              (fun d => { d with clientAddRemoveMutex := true })).nodes m).Clients =
              (w.nodes m).Clients := by
            intro m
            by_cases hm : m = n
            · subst hm; simp
            · simp [hm]
          have hAs : ∀ m, (((w.modify n
              (fun d => { d with removeAllClientsInProgress := true })).modify n
              (fun d => { d with clientAddRemoveMutex := true })).nodes m).server =
              (w.nodes m).server := by
            intro m
            by_cases hm : m = n
            · subst hm; simp
            · simp [hm]
          have uA : Unlist (fun y => y ∈ (w.nodes n).Clients) w ((w.modify n
              (fun d => { d with removeAllClientsInProgress := true })).modify n
              (fun d => { d with clientAddRemoveMutex := true })) := Unlist.of_fieldsU hAc hAs
          rw [hAc n] at h3
          have u3 := foldl_bind_ok_mem (fun x => exec k (Call.setServer x none))
            (Unlist (fun y => y ∈ (w.nodes n).Clients) w) (w.nodes n).Clients
            (fun x hx w0 h0 => (ih (Call.setServer x none) w0 trivial (hW.unlistW h0)
              (hN.unlistN h0)).monoK (fun w1 h1 => h0.transU (h1.monoU (fun y hy => by
                have : y = x := hy
                rw [this]; exact hx)))) _ (Res.Ok.pureK uA) w3 h3
          have u35 : Unlist (fun _ => False) (w3.modify n (fun d => { d with Clients := [] }))
              w5 := by
            have uS : Unlist (fun y => y ∈ (w.nodes n).Clients) w3
                (w3.modify n (fun d => { d with Clients := [] })) := by
              refine Unlist.of_shrink (fun p => ?_) (fun m => ?_)
              · by_cases hp : p = n
                · subst hp; simp
                · simp [hp]
              · by_cases hm : m = n
                · subst hm; simp
                · simp [hm]
            have u03 := u3.transU uS
            split at h5a
            · exact ih (Call.Stop n) _ trivial (hW.unlistW u03) (hN.unlistN u03) w5 h5a
            · cases h5a; exact Unlist.reflU _ _
          refine (Unlist.removeAll_wrapU hW u3 u35).transU
            (Unlist.of_fieldsU (fun m => ?_) (fun m => ?_))
          · by_cases hm : m = n
            · subst hm; simp
            · simp [hm]
          · by_cases hm : m = n
            · subst hm; simp
            · simp [hm]
      · exact Res.Ok.pureK (Unlist.reflU _ _)
    | setServer n server =>
      cases server with
      | some s => exact absurd hc (by simp [Call.tears])
      | none =>
        simp only [exec]
        intro w3 h
        obtain ⟨w1, h1, h2⟩ := Res.bind_eq_ok h
        have u1 := ih (Call.removeAllClients n) w trivial hW hN w1 h1
        simp only [World.modify_nodes, if_true] at h2
        have u12 := (u1.monoU (fun _ hf => False.elim hf)).transU (Unlist.clear_server w1 n)
        have u2 := ih (Call.Stop n) _ trivial (hW.unlistW u12) (hN.unlistN u12) w3 h2
        exact Unlist.setServer_wrapU u1 u2

theorem Listed.weak {w : World} (h : Listed w) : WeakListed w := fun p x hx => Or.inl (h p x hx)

theorem Listed.unlistL {w w2 : World} (h : Listed w) (u : Unlist (fun _ => False) w w2) :
    Listed w2 := by
  intro p x hx
  have h1 := h p x ((u.1 p).subset hx)
  rcases u.2.1 x with e | e
  · rw [e]; exact h1
  · exact absurd hx (u.2.2 x p (fun hf => hf) h1 e)

theorem Listed.of_fields {w w2 : World} (h : Listed w ∧ NodupAll w)
    (hc : ∀ m, (w2.nodes m).Clients = (w.nodes m).Clients)
    (hs : ∀ m, (w2.nodes m).server = (w.nodes m).server) : Listed w2 ∧ NodupAll w2 :=
  ⟨fun p x hx => by rw [hs]; rw [hc] at hx; exact h.1 p x hx, fun p => by rw [hc]; exact h.2 p⟩

theorem Listed.addClientL {fuel n c : Nat} {w w2 : World} (h : Listed w ∧ NodupAll w)
    (hc : (w.nodes c).server = none) (he : exec fuel (Call.AddClient n c) w = Res.ok w2) :
    Listed w2 ∧ NodupAll w2 := by
  obtain ⟨_, hf⟩ := addClient_fields he
  have hnot : ∀ p, c ∉ (w.nodes p).Clients := by
    intro p hm
    have := h.1 p c hm
    rw [hc] at this
    cases this
  refine ⟨fun p x hx => ?_, fun p => ?_⟩
  · rw [(hf x).2.2.2.1]
    rw [(hf p).2.2.2.2.1] at hx
    by_cases hp : p = n
    · subst hp
      rw [if_pos rfl] at hx
      rcases List.mem_append.1 hx with hx | hx
      · have hxc : x ≠ c := fun e => hnot p (e ▸ hx)
        rw [if_neg hxc]
        exact h.1 p x hx
      · rw [List.mem_singleton.1 hx]
        simp
    · rw [if_neg hp] at hx
      have hxc : x ≠ c := fun e => hnot p (e ▸ hx)
      rw [if_neg hxc]
      exact h.1 p x hx
  · rw [(hf p).2.2.2.2.1]
    split
    · rename_i hp
      subst hp
      exact List.Nodup.append (h.2 p) (List.nodup_singleton c)
        (by intro a ha hs; rw [List.mem_singleton.1 hs] at ha; exact hnot p ha)
    · exact h.2 p

theorem Op.run_listed (fuel : Nat) (op : Op) (w : World) (h : Listed w ∧ NodupAll w)
    (hg : ∀ n c, op = Op.AddClient n c → (w.nodes c).server = none) :
    (Op.run fuel op w).Ok (fun w2 => Listed w2 ∧ NodupAll w2) := by
  cases op with
  | Start n =>
    exact Res.Ok.pureK (Listed.of_fields h (fun m => Start_Clients n w m)
      (fun m => Start_server n w m))
  | Stop n =>
    intro w2 h2
    have u := exec_unlist fuel (Call.Stop n) w trivial h.1.weak h.2 w2 h2
    exact ⟨h.1.unlistL u, h.2.unlistN u⟩
  | AddClient n c =>
    intro w2 h2
    exact Listed.addClientL h (hg n c rfl) h2
  | RemoveClient n c =>
    intro w2 h2
    have u := exec_unlist fuel (Call.RemoveClient n c) w trivial h.1.weak h.2 w2 h2
    exact ⟨h.1.unlistL u, h.2.unlistN u⟩
  | input n chunk =>
    have e := (input_sameLife n chunk w).tv
    exact Res.Ok.pureK (Listed.of_fields h (fun m => (Node.tv_fields (e m)).2.2.2.1)
      (fun m => (Node.tv_fields (e m)).2.1))
  | Output n chunk =>
    have e := (Output_sameLife n chunk w).tv
    exact Res.Ok.pureK (Listed.of_fields h (fun m => (Node.tv_fields (e m)).2.2.2.1)
      (fun m => (Node.tv_fields (e m)).2.1))
  | worker n o =>
    have e : ∀ m, ((((workerStep n o w).getD w)).nodes m).tv = (w.nodes m).tv := by
      cases hw : workerStep n o w with
      | none => intro m; rfl
      | some w1 => exact (workerStep_sameLife hw).tv
    exact Res.Ok.pureK (Listed.of_fields h (fun m => (Node.tv_fields (e m)).2.2.2.1)
      (fun m => (Node.tv_fields (e m)).2.1))

theorem runOps_listed (fuel : Nat) (ops : List Op) :
    ∀ w : World, Listed w ∧ NodupAll w → AttachesDetached fuel ops w →
      (runOps fuel ops w).Ok (fun w2 => Listed w2 ∧ NodupAll w2) := by
  induction ops with
  | nil => intro w h _; exact Res.Ok.pureK h
  | cons op t ih =>
    intro w h ha w2 h2
    rw [runOps_cons] at h2
    obtain ⟨w1, e1, e2⟩ := Res.bind_eq_ok h2
    exact ih w1 (Op.run_listed fuel op w h ha.1 w1 e1) (ha.2 w1 e1) w2 e2

theorem Fresh.listed {w : World} (h : Fresh w) : Listed w ∧ NodupAll w := by
  refine ⟨fun p x hx => ?_, fun p => ?_⟩
  · rw [(h p).2.2.1] at hx; cases hx
  · rw [(h p).2.2.1]; exact List.nodup_nil

theorem reattachRun_attaches :
    AttachesDetached 8 [Op.AddClient 0 1, Op.AddClient 1 2, Op.RemoveClient 1 2, Op.AddClient 0 2]
      freshServers := by
  refine ⟨fun n c h => ?_, fun w1 h1 => ?_⟩
  · cases h; rfl
  · have r1 : Op.run 8 (Op.AddClient 0 1) freshServers =
        Res.ok ((runOps 8 [Op.AddClient 0 1] freshServers).getD freshServers) := rfl
    rw [r1] at h1
    cases h1
    refine ⟨fun n c h => ?_, fun w2 h2 => ?_⟩
    · cases h; rfl
    · have r2 : Op.run 8 (Op.AddClient 1 2)
          ((runOps 8 [Op.AddClient 0 1] freshServers).getD freshServers) =
          Res.ok ((runOps 8 [Op.AddClient 0 1, Op.AddClient 1 2] freshServers).getD
            freshServers) := rfl
      rw [r2] at h2
      cases h2
      refine ⟨fun n c h => (by cases h), fun w3 h3 => ?_⟩
      have r3 : Op.run 8 (Op.RemoveClient 1 2)
          ((runOps 8 [Op.AddClient 0 1, Op.AddClient 1 2] freshServers).getD freshServers) =
          Res.ok ((runOps 8 [Op.AddClient 0 1, Op.AddClient 1 2, Op.RemoveClient 1 2]
            freshServers).getD freshServers) := rfl
      rw [r3] at h3
      cases h3
      refine ⟨fun n c h => ?_, fun _ _ => trivial⟩
      cases h
      rfl

/-! ### The chain whose leaf got a new handler after its first chunk -/

theorem quiet_of_pend (w : World) (h : ∀ m o, (w.nodes m).pend o = []) : Quiet w := by
  intro m o q hq
  have := h m o
  simp only [Node.pend, hq] at this
  exact this

theorem staleChain_quiet : Quiet staleChain := by
  refine quiet_of_pend _ (fun m o => ?_)
  match m with
  | 0 => cases o <;> rfl
  | 1 => cases o <;> rfl
  | 2 => cases o <;> rfl
  | k + 3 => cases o <;> rfl

theorem staleChain_fed_quiet :
    Quiet ((runOps 0 (eagerFeed 0 1 2 false [7, 8]) staleChain).getD staleChain) := by
  refine quiet_of_pend _ (fun m o => ?_)
  match m with
  | 0 => cases o <;> rfl
  | 1 => cases o <;> rfl
  | 2 => cases o <;> rfl
  | k + 3 => cases o <;> rfl

/-! ## Main theorems -/

theorem chainABC_shape :
    ((chainABC.nodes 0).state, (chainABC.nodes 0).server, (chainABC.nodes 0).Clients) =
      (STATE_RUNNING, none, [1]) ∧
    ((chainABC.nodes 1).state, (chainABC.nodes 1).server, (chainABC.nodes 1).Clients) =
      (STATE_RUNNING, some 0, [2]) ∧
    ((chainABC.nodes 2).state, (chainABC.nodes 2).server, (chainABC.nodes 2).Clients) =
      (STATE_RUNNING, some 1, []) := by
  refine ⟨rfl, rfl, rfl⟩

/-- C1: the claim says that `A.RemoveClient(B)` on the chain A → B → C of
running test server nodes returns with B and C Stopped.  On the code the call
never returns, whatever the bound on nesting: `B.setServer(nil)` stops B while
B still refers to A, and B's `Stop` calls `A.RemoveClient(B)` again, which
blocks in `Lock` on the mutex the outer `RemoveClient` holds. -/
theorem C1_removeClient_of_inner_node_never_returns :
    ∀ fuel, (exec fuel (Call.RemoveClient 0 1) chainABC).returns = false ∧
      ∃ w, exec (fuel + 7) (Call.RemoveClient 0 1) chainABC = Res.deadlock 0 w := by
  intro fuel
  refine ⟨?_, _, rfl⟩
  match fuel with
  | 0 => rfl
  | 1 => rfl
  | 2 => rfl
  | 3 => rfl
  | 4 => rfl
  | 5 => rfl
  | 6 => rfl
  | k + 7 => rfl

/-- C2: the claim says that no call chain locks a structural mutex it already
holds.  On the well-formed chain 0 → 1 → 2 with a client-only leaf, the chain
started by `RemoveClient` on node 0 reaches `Lock` on the mutex of node 0 while
that mutex is held and `removeAllClientsInProgress` of node 0 is false: the
guard does not skip the nested `RemoveClient`. -/
theorem C2_nested_removeClient_locks_held_mutex :
    ∀ k, ∃ w, exec (k + 7) (Call.RemoveClient 0 1) chainLeafClient = Res.deadlock 0 w ∧
      (w.nodes 0).clientAddRemoveMutex = true ∧
      (w.nodes 0).removeAllClientsInProgress = false ∧
      (w.nodes 1).server = some 0 ∧ (w.nodes 1).state = STATE_STOPPING := by
  intro k
  exact ⟨_, rfl, rfl, rfl, rfl, rfl⟩

/-- C7: over every run of node operations each `state.Store` replaces Stopped
by Starting, Starting by Running, Running by Stopping or Stopping by Stopped;
chunk routing and queue workers store nothing; `Start` changes nothing when the
state is not Stopped and `Stop` changes nothing when the state is not Running. -/
theorem C7_state_machine (fuel : Nat) (ops : List Op) (w : World) :
    (runOps fuel ops w).All
        (fun w2 => ∃ l, w2.stores = w.stores ++ l ∧ ∀ t ∈ l, allowedStore t) ∧
      (∀ n chunk o, (input n chunk w).stores = w.stores ∧ (Output n chunk w).stores = w.stores ∧
        ((workerStep n o w).getD w).stores = w.stores) ∧
      (∀ n, (w.nodes n).state ≠ STATE_STOPPED → Start n w = w) ∧
      (∀ n, (w.nodes n).state ≠ STATE_RUNNING →
        exec (fuel + 1) (Call.Stop n) w = Res.ok w) := by
  refine ⟨(runOps_storesOK fuel ops w).mono (fun _ h => h.1), ?_,
    fun n h => Start_of_not_stopped h, fun n h => Stop_of_not_running fuel h⟩
  intro n chunk o
  refine ⟨(input_sameLife n chunk w).2.2.2, (Output_sameLife n chunk w).2.2.2, ?_⟩
  cases h : workerStep n o w with
  | none => rfl
  | some w1 => exact (workerStep_sameLife h).2.2.2

/-- C7, at the run `AddClient(0, 1); Stop(0)` on fresh test server nodes: the
run returns, and it made eight stores, all of them allowed. -/
theorem C7_state_machine_witness :
    (runOps 6 [Op.AddClient 0 1, Op.Stop 0] freshServers).returns = true ∧
    (((runOps 6 [Op.AddClient 0 1, Op.Stop 0] freshServers).getD freshServers).stores.length = 8) ∧
    (runOps 6 [Op.AddClient 0 1, Op.Stop 0] freshServers).All
      (fun w2 => ∃ l, w2.stores = freshServers.stores ++ l ∧ ∀ t ∈ l, allowedStore t) :=
  ⟨rfl, rfl, (C7_state_machine 6 [Op.AddClient 0 1, Op.Stop 0] freshServers).1⟩

/-- C8: `Start` on a Running node and `Stop` on a Stopped node return the
world they were given (every node record, the events triggered and the tasks
spawned are the same); `Start; Start` ends in the same world as `Start`, and a
second `Stop` after a `Stop` that returned changes nothing. -/
theorem C8_idempotence (fuel n : Nat) (w : World) :
    ((w.nodes n).state = STATE_RUNNING → Start n w = w) ∧
      ((w.nodes n).state = STATE_STOPPED → exec (fuel + 1) (Call.Stop n) w = Res.ok w) ∧
      Start n (Start n w) = Start n w ∧
      (∀ w1, exec fuel (Call.Stop n) w = Res.ok w1 → exec fuel (Call.Stop n) w1 = Res.ok w1) := by
  refine ⟨fun h => Start_of_not_stopped (by rw [h]; decide),
    fun h => Stop_of_not_running fuel (by rw [h]; decide), ?_, ?_⟩
  · by_cases h : (w.nodes n).state = STATE_STOPPED
    · exact Start_of_not_stopped (by rw [Start_state_of_stopped h]; decide)
    · rw [Start_of_not_stopped h, Start_of_not_stopped h]
  · intro w1 h1
    have hne := Stop_state_ne_running h1
    cases fuel with
    | zero => simp [exec] at h1
    | succ k => exact Stop_of_not_running k hne

/-- C8, on the chain 0 → 1 → 2: `Start` on the running node 0 changes nothing,
`Stop` on the stopped node 5 changes nothing, and `Stop(0)` returns, after
which a second `Stop(0)` changes nothing. -/
theorem C8_idempotence_witness :
    Start 0 chainABC = chainABC ∧
    exec 8 (Call.Stop 5) chainABC = Res.ok chainABC ∧
    (exec 7 (Call.Stop 0) chainABC).returns = true ∧
    exec 7 (Call.Stop 0) ((exec 7 (Call.Stop 0) chainABC).getD chainABC) =
      Res.ok ((exec 7 (Call.Stop 0) chainABC).getD chainABC) :=
  ⟨(C8_idempotence 7 0 chainABC).1 rfl, (C8_idempotence 7 5 chainABC).2.1 rfl, rfl,
    (C8_idempotence 7 0 chainABC).2.2.2 _ rfl⟩

/-- C10: for a queue processor with a handler whose caller performs
`Put x1; ...; Put xn; Wait`, in every interleaving of the caller with the
workers, once `Wait` has returned the handler has been invoked on exactly
`x1, ..., xn`, once each and in that order, and the wait-group counter is zero
(so a summing handler holds `x1 + ... + xn`); and there is an interleaving in
which `Wait` does return. -/
theorem C10_queue_processor_fifo (h : Handler) (xs : List Chunk) :
    (∀ sched s, qpRun sched (qpInit h xs) = some s → s.main = MainPC.returned →
        s.handled = xs ∧ s.handled.length = xs.length ∧ s.q.wg = 0 ∧
          s.handled.sum = xs.sum) ∧
      (∃ s, qpRun (qpEager xs.length) (qpInit h xs) = some s ∧ s.main = MainPC.returned) := by
  constructor
  · intro sched s hs hm
    obtain ⟨h1, h2, _⟩ := (qpRun_inv sched (qpInit_inv h xs) hs).returned hm
    exact ⟨h1, by rw [h1], h2, by rw [h1]⟩
  · rcases qpEager_returns h none rfl [] xs with h1 | h1
    · exact ⟨_, h1, rfl⟩
    · exact ⟨_, h1, rfl⟩

/-- C10, on the puts of `TestQP`: in the interleaving in which the caller has
put 5, 2 and 1 before the first worker runs, and the remaining four chunks
while that worker is draining, `Wait` returns, the handler has seen the seven
chunks in order and their sum is 12. -/
theorem C10_queue_processor_fifo_witness :
    qpRun qpTestSchedule (qpInit (Handler.custom 0) [5, 2, 1, 1, 1, 1, 1]) = some qpTestFinal ∧
      qpTestFinal.main = MainPC.returned ∧
      qpTestFinal.handled = [5, 2, 1, 1, 1, 1, 1] ∧ qpTestFinal.q.wg = 0 ∧
      qpTestFinal.handled.sum = 12 :=
  ⟨rfl, rfl,
    ((C10_queue_processor_fifo (Handler.custom 0) [5, 2, 1, 1, 1, 1, 1]).1
      qpTestSchedule qpTestFinal rfl rfl).1,
    ((C10_queue_processor_fifo (Handler.custom 0) [5, 2, 1, 1, 1, 1, 1]).1
      qpTestSchedule qpTestFinal rfl rfl).2.2.1,
    ((C10_queue_processor_fifo (Handler.custom 0) [5, 2, 1, 1, 1, 1, 1]).1
      qpTestSchedule qpTestFinal rfl rfl).2.2.2⟩

/-- C3: for a server-like node `n` of a well-formed forest at rest, whatever
its state: `n.AddClient(c)` returns with `n` Running; `n.RemoveClient(c)` of an
attached client `c` without clients of its own never blocks and returns, and
when it returns `c` is erased from the clients of `n`, the state of `n` is
unchanged if a client remains, and `n` is Stopped if none remains. -/
theorem C3_server_follows_client_count (rk : Nat → Nat) (R n : Nat) (w : World)
    (hwf : WF w rk) (hR : ∀ m, rk m ≤ R) (hpc : (w.nodes n).isPrincipallyClient = false) :
    (∀ c fuel, ∃ w2, exec (fuel + 2) (Call.AddClient n c) w = Res.ok w2 ∧
        (w2.nodes n).state = STATE_RUNNING ∧
        (w2.nodes n).Clients = (w.nodes n).Clients ++ [c]) ∧
      (∀ c, c ∈ (w.nodes n).Clients → (w.nodes c).Clients = [] →
        (∀ fuel w2, exec fuel (Call.RemoveClient n c) w = Res.ok w2 →
          (w2.nodes n).Clients = (w.nodes n).Clients.erase c ∧
          ((w.nodes n).Clients.erase c ≠ [] → (w2.nodes n).state = (w.nodes n).state) ∧
          ((w.nodes n).Clients.erase c = [] → (w2.nodes n).state = STATE_STOPPED)) ∧
        (∀ fuel x w2, exec fuel (Call.RemoveClient n c) w ≠ Res.deadlock x w2 ∧
          exec fuel (Call.RemoveClient n c) w ≠ Res.hang x w2) ∧
        (Quiet w → ∀ fuel, 2 * R + 5 ≤ fuel →
          (exec fuel (Call.RemoveClient n c) w).returns = true)) := by
  refine ⟨fun c fuel => ?_, fun c hmem hcc => ?_⟩
  · obtain ⟨w2, h1, h2, h3, _⟩ := addClient_returns fuel n c w (hwf.2 n).1 hpc
    exact ⟨w2, h1, h2, h3⟩
  · have hs : (w.nodes c).server = some n := (hwf.2 n).2.2.1 c hmem
    have hrk : rk c < rk n := hwf.1 n c hmem
    have hne : n ≠ c := fun e => by rw [e] at hrk; exact lt_irrefl _ hrk
    have hUc : UpCalm w rk R c := hwf.upCalm hR c
    obtain ⟨l, hC⟩ := cascade_exists w rk R (R - rk c) c (le_refl _) hUc
    have hll := hC.length_le hUc
    have hS := fun fuel => (detach_up rk R l fuel n c w hs hmem hrk hcc
      (hwf.2 c).1.2.2.2 (hwf.upCalm hR n) hC).elim
    refine ⟨fun fuel w2 h2 => ?_, fun fuel x w2 => (hS fuel).2.1 x w2,
      fun hq fuel hf => (hS fuel).2.2 ⟨hq, by omega⟩⟩
    obtain ⟨_, hL, hO, _⟩ := (hS fuel).1 w2 h2
    cases hC with
    | stop hno =>
      obtain ⟨k1, _⟩ := hO n hne (List.not_mem_nil _)
      have hf := Node.life_ext_fields (k1 (by simpa using hs))
      refine ⟨hf.2.2.1, fun _ => hf.1, fun he => ?_⟩
      have hnr : (w.nodes n).state ≠ STATE_RUNNING := fun h => hno n ⟨hs, he, hpc, h⟩
      exact hf.1.trans ((hwf.2 n).1.2.2.1.resolve_right hnr)
    | @step _ q t he _ =>
      have e : n = q := by
        have h1 := he.1
        rw [hs] at h1
        simpa using h1
      subst e
      have hf := Node.life_ext_fields (hL n (List.mem_cons_self _ _))
      refine ⟨?_, fun h => absurd he.2.1 h, fun _ => hf.1⟩
      rw [hf.2.2.1, he.2.1]
      rfl

/-- C3, on node 0 with the clients 1 and 2 (`TestBasicHierarchy`): attaching a
third client leaves 0 Running; `RemoveClient(0, 2)` returns with 0 still
Running and 1 its only client; and in the chain 0 → 1 → 2, `RemoveClient(1, 2)`
returns with 1 Stopped. -/
theorem C3_server_follows_client_count_witness :
    (∃ w2, exec 2 (Call.AddClient 0 5) twoClients = Res.ok w2 ∧
      (w2.nodes 0).state = STATE_RUNNING ∧ (w2.nodes 0).Clients = [1, 2, 5]) ∧
    (exec 7 (Call.RemoveClient 0 2) twoClients).returns = true ∧
    (∀ w2, exec 7 (Call.RemoveClient 0 2) twoClients = Res.ok w2 →
      (w2.nodes 0).Clients = [1] ∧ (w2.nodes 0).state = STATE_RUNNING) ∧
    (exec 9 (Call.RemoveClient 1 2) chainABC).returns = true ∧
    (∀ w2, exec 9 (Call.RemoveClient 1 2) chainABC = Res.ok w2 →
      (w2.nodes 1).state = STATE_STOPPED) :=
  ⟨(C3_server_follows_client_count starRank 1 0 twoClients twoClients_wf starRank_le rfl).1 5 0,
    ((C3_server_follows_client_count starRank 1 0 twoClients twoClients_wf starRank_le rfl).2 2
      (by rw [twoClients_nodes_0]; simp) rfl).2.2 twoClients_quiet 7 (by decide),
    fun w2 h2 =>
      have h := ((C3_server_follows_client_count starRank 1 0 twoClients twoClients_wf
        starRank_le rfl).2 2 (by rw [twoClients_nodes_0]; simp) rfl).1 7 w2 h2
      ⟨h.1, h.2.1 (by rw [twoClients_nodes_0]; decide)⟩,
    ((C3_server_follows_client_count chainRank 2 1 chainABC chainABC_wf chainRank_le rfl).2 2
      (by rw [chainABC_nodes_1]; simp) rfl).2.2 chainABC_quiet 9 (by decide),
    fun w2 h2 =>
      (((C3_server_follows_client_count chainRank 2 1 chainABC chainABC_wf chainRank_le rfl).2 2
        (by rw [chainABC_nodes_1]; simp) rfl).1 9 w2 h2).2.2 (by rw [chainABC_nodes_1]; decide)⟩

/-- C5: in a well-formed forest at rest, `n.Stop()` on a Running node never
blocks; when it returns, `n` is Stopped without clients and every former
descendant of `n` is Stopped, has no server and no clients; and it does return
(with no chunk waiting in a queue, for every bound on nesting from `2 * R + 6`
on, `R` bounding the ranks). -/
theorem C5_stop_tears_down_subtree (rk : Nat → Nat) (R n : Nat) (w : World) (hwf : WF w rk)
    (hR : ∀ m, rk m ≤ R) (hrun : (w.nodes n).state = STATE_RUNNING) :
    (∀ fuel w2, exec fuel (Call.Stop n) w = Res.ok w2 →
        (w2.nodes n).state = STATE_STOPPED ∧ (w2.nodes n).Clients = [] ∧
        ∀ m, Sub w n m → m ≠ n →
          (w2.nodes m).state = STATE_STOPPED ∧ (w2.nodes m).server = none ∧
            (w2.nodes m).Clients = []) ∧
      (∀ fuel x w2, exec fuel (Call.Stop n) w ≠ Res.deadlock x w2 ∧
        exec fuel (Call.Stop n) w ≠ Res.hang x w2) ∧
      (Quiet w → ∀ fuel, 2 * R + 6 ≤ fuel → (exec fuel (Call.Stop n) w).returns = true) := by
  obtain ⟨l, hC⟩ := cascade_exists w rk R (R - rk n) n (le_refl _) (hwf.upCalm hR n)
  have hS := fun fuel => (stop_top rk R n l w hwf hR hrun hC fuel).elim
  refine ⟨fun fuel w2 h2 => ?_, fun fuel x w2 => (hS fuel).2.1 x w2,
    fun hq fuel hf => (hS fuel).2.2 ⟨hq, hf⟩⟩
  have hT := ((hS fuel).1 w2 h2).1
  have hn := Node.life_ext_fields (hT n Sub.self)
  refine ⟨hn.1, hn.2.2.1, fun m hm _ => ?_⟩
  have hm2 := Node.life_ext_fields (hT m hm)
  exact ⟨hm2.1, hm2.2.1, hm2.2.2.1⟩

/-- C5, on the chain 0 → 1 → 2 of running test server nodes: `Stop(0)` returns
and leaves the three nodes Stopped, 1 and 2 without server and clients. -/
theorem C5_stop_tears_down_subtree_witness :
    (exec 10 (Call.Stop 0) chainABC).returns = true ∧
    ∀ w2, exec 10 (Call.Stop 0) chainABC = Res.ok w2 →
      (w2.nodes 0).state = STATE_STOPPED ∧ (w2.nodes 0).Clients = [] ∧
      ((w2.nodes 1).state = STATE_STOPPED ∧ (w2.nodes 1).server = none ∧
        (w2.nodes 1).Clients = []) ∧
      ((w2.nodes 2).state = STATE_STOPPED ∧ (w2.nodes 2).server = none ∧
        (w2.nodes 2).Clients = []) :=
  ⟨(C5_stop_tears_down_subtree chainRank 2 0 chainABC chainABC_wf chainRank_le rfl).2.2
      chainABC_quiet 10 (by decide),
    fun w2 h2 =>
      have h := (C5_stop_tears_down_subtree chainRank 2 0 chainABC chainABC_wf chainRank_le rfl).1
        10 w2 h2
      ⟨h.1, h.2.1,
        h.2.2 1 (Sub.child (p := 0) Sub.self (by rw [chainABC_nodes_0]; simp)) (by decide),
        h.2.2 2 (Sub.child (p := 1) (Sub.child (p := 0) Sub.self (by rw [chainABC_nodes_0]; simp))
          (by rw [chainABC_nodes_1]; simp)) (by decide)⟩⟩

/-- C6, as stated, fails for a client that was attached twice: on fresh test
server nodes, after `AddClient(0, 1); AddClient(0, 1)` node 1 is Running with
server 0, the only node in the list `[1, 1]` of the server-like node 0.
`Stop(1)` then returns with node 1 Stopped and without server, but node 1 is
still in the list of clients of node 0 and node 0 is still Running. -/
theorem C6_stop_of_client_attached_twice :
    (attachedTwice.nodes 1).state = STATE_RUNNING ∧ (attachedTwice.nodes 1).server = some 0 ∧
    (attachedTwice.nodes 0).Clients = [1, 1] ∧
    (attachedTwice.nodes 0).isPrincipallyClient = false ∧
    (attachedTwice.nodes 0).state = STATE_RUNNING ∧
    (exec 5 (Call.Stop 1) attachedTwice).returns = true ∧
    (((exec 5 (Call.Stop 1) attachedTwice).getD attachedTwice).nodes 1).state = STATE_STOPPED ∧
    (((exec 5 (Call.Stop 1) attachedTwice).getD attachedTwice).nodes 1).server = none ∧
    1 ∈ (((exec 5 (Call.Stop 1) attachedTwice).getD attachedTwice).nodes 0).Clients ∧
    (((exec 5 (Call.Stop 1) attachedTwice).getD attachedTwice).nodes 0).state = STATE_RUNNING :=
  ⟨rfl, rfl, rfl, rfl, rfl, rfl, rfl, rfl, by decide, rfl⟩

/-- C6, amended: in a well-formed forest at rest (`WF`: every node has its mutex
free, no bulk detach in progress, is Stopped or Running and, when Running with a
task, has its task goroutine live; no node lists a client twice; every node is
the server of each of its clients and is listed by its server; ranks bounded by
`R` decrease from parent to child, so the lists have no cycle), `c.Stop()` on a
Running node `c` attached to `p` never blocks; when it returns, `c` is Stopped,
has no server and is no client of `p`; `p` is Stopped if it is server-like and
`c` was its only client, and then the same holds for the server of `p` (the
cascade `l`); otherwise the state of `p` is unchanged, like that of every node
outside the cascade and the subtree of `c`; and with no chunk waiting in any
queue the call does return. -/
theorem C6_stop_detaches_upward (rk : Nat → Nat) (R c p : Nat) (w : World) (hwf : WF w rk)
    (hR : ∀ m, rk m ≤ R) (hrun : (w.nodes c).state = STATE_RUNNING)
    (hs : (w.nodes c).server = some p) :
    ∃ l, CascadeOf w c l ∧
      (∀ fuel w2, exec fuel (Call.Stop c) w = Res.ok w2 →
        (w2.nodes c).state = STATE_STOPPED ∧ c ∉ (w2.nodes p).Clients ∧
        (w2.nodes c).server = none ∧
        ((w.nodes p).Clients = [c] ∧ (w.nodes p).isPrincipallyClient = false →
          (w2.nodes p).state = STATE_STOPPED) ∧
        (¬ ((w.nodes p).Clients = [c] ∧ (w.nodes p).isPrincipallyClient = false) →
          (w2.nodes p).state = (w.nodes p).state) ∧
        (∀ a ∈ l, (w2.nodes a).state = STATE_STOPPED) ∧
        (∀ m, ¬ Sub w c m → m ∉ l → (w2.nodes m).state = (w.nodes m).state)) ∧
      (∀ fuel x w2, exec fuel (Call.Stop c) w ≠ Res.deadlock x w2 ∧
        exec fuel (Call.Stop c) w ≠ Res.hang x w2) ∧
      (Quiet w → ∀ fuel, 2 * R + 6 ≤ fuel → (exec fuel (Call.Stop c) w).returns = true) := by
  obtain ⟨l, hC⟩ := cascade_exists w rk R (R - rk c) c (le_refl _) (hwf.upCalm hR c)
  have hS := fun fuel => (stop_top rk R c l w hwf hR hrun hC fuel).elim
  refine ⟨l, hC, fun fuel w2 h2 => ?_, fun fuel x w2 => (hS fuel).2.1 x w2,
    fun hq fuel hf => (hS fuel).2.2 ⟨hq, hf⟩⟩
  obtain ⟨hT, hL, hO, _⟩ := (hS fuel).1 w2 h2
  have hcp : c ∈ (w.nodes p).Clients := (hwf.2 c).2.2.2 p hs
  have hrk : rk c < rk p := hwf.1 p c hcp
  have hpsub : ¬ Sub w c p := fun h => by have := h.rank hwf.1; omega
  have hnd : (w.nodes p).Clients.Nodup := (hwf.2 p).2.1
  have hstate : ∀ m, ¬ Sub w c m → m ∉ l → (w2.nodes m).state = (w.nodes m).state := by
    intro m hm hml
    obtain ⟨k1, k2⟩ := hO m hm hml
    by_cases hsv : (w.nodes (l.getLastD c)).server = some m
    · exact (Node.life_ext_fields (k1 hsv)).1
    · exact Node.state_of_life (k2 hsv)
  have hc := Node.life_ext_fields (hT c Sub.self)
  have hone : (w.nodes p).Clients.erase c = [] ↔ (w.nodes p).Clients = [c] := by
    constructor
    · intro h
      rcases List.erase_eq_nil.1 h with h | h
      · rw [h] at hcp; simp at hcp
      · exact h
    · intro h; rw [h]; simp
  refine ⟨hc.1, ?_, hc.2.1, ?_, ?_, fun a ha => (Node.life_ext_fields (hL a ha)).1, hstate⟩
  · cases hC with
    | stop hno =>
      obtain ⟨k1, _⟩ := hO p hpsub (List.not_mem_nil _)
      have := (Node.life_ext_fields (k1 (by simpa using hs))).2.2.1
      rw [this]
      simp only [Node.without, List.getLastD_nil]
      exact hnd.not_mem_erase
    | @step _ q t he _ =>
      have e : p = q := by
        have h1 := he.1
        rw [hs] at h1
        simpa using h1
      subst e
      rw [(Node.life_ext_fields (hL p (List.mem_cons_self _ _))).2.2.1]
      simp [Node.torn]
  · intro hcond
    cases hC with
    | stop hno =>
      have hnr : (w.nodes p).state ≠ STATE_RUNNING :=
        fun h => hno p ⟨hs, hone.2 hcond.1, hcond.2, h⟩
      rw [hstate p hpsub (List.not_mem_nil _)]
      exact (hwf.2 p).1.2.2.1.resolve_right hnr
    | @step _ q t he _ =>
      have e : p = q := by
        have h1 := he.1
        rw [hs] at h1
        simpa using h1
      subst e
      exact (Node.life_ext_fields (hL p (List.mem_cons_self _ _))).1
  · intro hcond
    cases hC with
    | stop hno => exact hstate p hpsub (List.not_mem_nil _)
    | @step _ q t he _ =>
      have e : p = q := by
        have h1 := he.1
        rw [hs] at h1
        simpa using h1
      subst e
      exact absurd ⟨hone.1 he.2.1, he.2.2.1⟩ hcond

/-- C6, amended, on the chain 0 → 1 → 2 with a client-only leaf (`TestBasicHierarchy`):
`Stop(1)` returns; node 1 is then Stopped, detached from node 0, and node 0,
server-like with 1 as its only client, is Stopped too. -/
theorem C6_stop_detaches_upward_witness :
    (exec 10 (Call.Stop 1) chainLeafClient).returns = true ∧
    ∀ w2, exec 10 (Call.Stop 1) chainLeafClient = Res.ok w2 →
      (w2.nodes 1).state = STATE_STOPPED ∧ 1 ∉ (w2.nodes 0).Clients ∧
      (w2.nodes 1).server = none ∧ (w2.nodes 0).state = STATE_STOPPED := by
  obtain ⟨l, _, h1, _, h3⟩ :=
    C6_stop_detaches_upward chainRank 2 1 0 chainLeafClient chainLeafClient_wf chainRank_le rfl rfl
  refine ⟨h3 chainLeafClient_quiet 10 (by decide), fun w2 h2 => ?_⟩
  obtain ⟨a1, a2, a3, a4, _⟩ := h1 10 w2 h2
  exact ⟨a1, a2, a3, a4 ⟨rfl, rfl⟩⟩

/-- C4, as stated, fails on fresh test client nodes: after `Start(0)` the
client-only node 0 is Running without a server; and after `AddClient(0, 1)` the
client-only node 1 is Running with server 0 while node 0 is Stopped. -/
theorem C4_running_client_without_running_parent :
    Fresh freshClients ∧
    (runOps 3 [Op.Start 0] freshClients).returns = true ∧
    (((runOps 3 [Op.Start 0] freshClients).getD freshClients).nodes 0).isPrincipallyClient = true ∧
    (((runOps 3 [Op.Start 0] freshClients).getD freshClients).nodes 0).state = STATE_RUNNING ∧
    (((runOps 3 [Op.Start 0] freshClients).getD freshClients).nodes 0).server = none ∧
    (runOps 3 [Op.AddClient 0 1] freshClients).returns = true ∧
    (((runOps 3 [Op.AddClient 0 1] freshClients).getD freshClients).nodes 1).isPrincipallyClient
      = true ∧
    (((runOps 3 [Op.AddClient 0 1] freshClients).getD freshClients).nodes 1).state
      = STATE_RUNNING ∧
    (((runOps 3 [Op.AddClient 0 1] freshClients).getD freshClients).nodes 1).server = some 0 ∧
    (((runOps 3 [Op.AddClient 0 1] freshClients).getD freshClients).nodes 0).state
      = STATE_STOPPED :=
  ⟨freshClients_fresh, rfl, rfl, rfl, rfl, rfl, rfl, rfl, rfl, rfl⟩

/-- C4, amended: in every run from fresh nodes that never calls `Start` on a
client-only node, after the run has returned every client-only node is Running
exactly when it has a server, that server lists it, and a server-like server is
Running. -/
theorem C4_client_only_running_iff_attached (fuel : Nat) (ops : List Op) (w w2 : World)
    (hf : Fresh w) (hs : ∀ n, Op.Start n ∈ ops → (w.nodes n).isPrincipallyClient = false)
    (h : runOps fuel ops w = Res.ok w2) :
    ∀ c, (w2.nodes c).isPrincipallyClient = true →
      ((w2.nodes c).state = STATE_RUNNING ↔
        ∃ p, (w2.nodes c).server = some p ∧ c ∈ (w2.nodes p).Clients) ∧
      (∀ p, (w2.nodes c).server = some p → (w2.nodes p).isPrincipallyClient = false →
        (w2.nodes p).state = STATE_RUNNING) := by
  obtain ⟨hA, _, hT⟩ := runOps_atRest fuel ops w hf.atRest.1 w2 h
  have hT2 := hT hs hf.atRest.2
  intro c hc
  refine ⟨⟨fun hr => ?_, fun hp => ?_⟩, fun p hp hpc => ?_⟩
  · cases hsv : (w2.nodes c).server with
    | none => exact absurd hsv ((hT2 c hc).1 hr)
    | some p => exact ⟨p, rfl, hA.2.1 c p hsv⟩
  · obtain ⟨p, hp, _⟩ := hp
    exact (hT2 c hc).2 (by rw [hp]; simp)
  · refine (hA.1 p).2.2.resolve_left (fun hst => ?_)
    have := hA.2.1 c p hp
    rw [hA.2.2 p hpc hst] at this
    cases this

/-- C4, amended, at the run `AddClient(0, 1); AddClient(1, 2)` on fresh nodes
of which node 2 is client-only: the run returns and node 2 is Running with
server 1, which lists it and is Running. -/
theorem C4_client_only_running_iff_attached_witness :
    (((runOps 3 [Op.AddClient 0 1, Op.AddClient 1 2] freshLeafClient).getD
        freshLeafClient).nodes 2).state = STATE_RUNNING ∧
    ∀ c, (((runOps 3 [Op.AddClient 0 1, Op.AddClient 1 2] freshLeafClient).getD
        freshLeafClient).nodes c).isPrincipallyClient = true →
      ((((runOps 3 [Op.AddClient 0 1, Op.AddClient 1 2] freshLeafClient).getD
          freshLeafClient).nodes c).state = STATE_RUNNING ↔
        ∃ p, (((runOps 3 [Op.AddClient 0 1, Op.AddClient 1 2] freshLeafClient).getD
          freshLeafClient).nodes c).server = some p ∧
          c ∈ (((runOps 3 [Op.AddClient 0 1, Op.AddClient 1 2] freshLeafClient).getD
            freshLeafClient).nodes p).Clients) ∧
      (∀ p, (((runOps 3 [Op.AddClient 0 1, Op.AddClient 1 2] freshLeafClient).getD
          freshLeafClient).nodes c).server = some p →
        (((runOps 3 [Op.AddClient 0 1, Op.AddClient 1 2] freshLeafClient).getD
          freshLeafClient).nodes p).isPrincipallyClient = false →
        (((runOps 3 [Op.AddClient 0 1, Op.AddClient 1 2] freshLeafClient).getD
          freshLeafClient).nodes p).state = STATE_RUNNING) :=
  ⟨rfl, C4_client_only_running_iff_attached 3 [Op.AddClient 0 1, Op.AddClient 1 2]
    freshLeafClient _ freshLeafClient_fresh (by simp) rfl⟩

/-- C19: in every run from fresh nodes, after the run has returned every
server-like node that is Stopped has an empty list of clients, and every
server-like node with a client is Running. -/
theorem C19_stopped_server_has_no_clients (fuel : Nat) (ops : List Op) (w w2 : World)
    (hf : Fresh w) (h : runOps fuel ops w = Res.ok w2) :
    ∀ n, (w2.nodes n).isPrincipallyClient = false →
      ((w2.nodes n).state = STATE_STOPPED → (w2.nodes n).Clients = []) ∧
      ((w2.nodes n).Clients ≠ [] → (w2.nodes n).state = STATE_RUNNING) := by
  obtain ⟨hA, _, _⟩ := runOps_atRest fuel ops w hf.atRest.1 w2 h
  intro n hn
  exact ⟨hA.2.2 n hn, fun hc => (hA.1 n).2.2.resolve_left (fun hst => hc (hA.2.2 n hn hst))⟩

/-- C19, at the run `AddClient(0, 1); AddClient(0, 2); RemoveClient(0, 1);
Stop(0)` on fresh test server nodes: the run returns, node 0 is Stopped, and
every Stopped node has no clients. -/
theorem C19_stopped_server_has_no_clients_witness :
    (((runOps 6 [Op.AddClient 0 1, Op.AddClient 0 2, Op.RemoveClient 0 1, Op.Stop 0]
        freshServers).getD freshServers).nodes 0).state = STATE_STOPPED ∧
    ∀ n, (((runOps 6 [Op.AddClient 0 1, Op.AddClient 0 2, Op.RemoveClient 0 1, Op.Stop 0]
        freshServers).getD freshServers).nodes n).isPrincipallyClient = false →
      ((((runOps 6 [Op.AddClient 0 1, Op.AddClient 0 2, Op.RemoveClient 0 1, Op.Stop 0]
          freshServers).getD freshServers).nodes n).state = STATE_STOPPED →
        (((runOps 6 [Op.AddClient 0 1, Op.AddClient 0 2, Op.RemoveClient 0 1, Op.Stop 0]
          freshServers).getD freshServers).nodes n).Clients = []) ∧
      ((((runOps 6 [Op.AddClient 0 1, Op.AddClient 0 2, Op.RemoveClient 0 1, Op.Stop 0]
          freshServers).getD freshServers).nodes n).Clients ≠ [] →
        (((runOps 6 [Op.AddClient 0 1, Op.AddClient 0 2, Op.RemoveClient 0 1, Op.Stop 0]
          freshServers).getD freshServers).nodes n).state = STATE_RUNNING) :=
  ⟨rfl, C19_stopped_server_has_no_clients 6
    [Op.AddClient 0 1, Op.AddClient 0 2, Op.RemoveClient 0 1, Op.Stop 0] freshServers _
    freshServers_fresh rfl⟩

/-- C11: on a node whose state is not Running (Stopped, Starting or Stopping),
`input(chunk)` and `Output(chunk)` return the world they were given: no queue is
created, no handler is installed or invoked, nothing is enqueued. -/
theorem C11_chunk_to_node_not_running_is_dropped (n : Nat) (chunk : Chunk) (w : World)
    (h : (w.nodes n).state ≠ STATE_RUNNING) :
    input n chunk w = w ∧ Output n chunk w = w := by
  have hr : (w.nodes n).IsRunning = false := by simpa [Node.IsRunning] using h
  constructor
  · unfold input
    simp [hr]
  · unfold Output
    simp [hr]

/-- C11, at node 0 of fresh test server nodes, which is Stopped: `input(5)` and
`Output(5)` change nothing. -/
theorem C11_chunk_to_node_not_running_is_dropped_witness :
    (freshServers.nodes 0).state ≠ STATE_RUNNING ∧
    input 0 5 freshServers = freshServers ∧ Output 0 5 freshServers = freshServers :=
  ⟨by decide, C11_chunk_to_node_not_running_is_dropped 0 5 freshServers (by decide)⟩

/-- C12, as stated, fails once a handler is changed after the output queue was
created.  Node 0 of `rehandledServer` is Running, server-like, with the custom
output handler 7, yet `Output(6)` enqueues on the queue bound to the fan-out
handler, and handler 7 is not invoked when the queue drains.  Node 0 of
`unhandledClient` is Running, client-only, without output handler, yet
`Output(6)` enqueues the chunk and handler 7 receives it. -/
theorem C12_output_uses_queue_created_earlier :
    (rehandledServer.nodes 0).state = STATE_RUNNING ∧
    (rehandledServer.nodes 0).isPrincipallyClient = false ∧
    (rehandledServer.nodes 0).oChunkHandler = some (Handler.custom 7) ∧
    ((Output 0 6 rehandledServer).nodes 0).oQueue =
      some { queue := some [5, 6], chunkHandler := some (Handler.fanout 0), wg := 2 } ∧
    (((runOps 1 [Op.worker 0 true, Op.worker 0 true] (Output 0 6 rehandledServer)).getD
      rehandledServer).handled = []) ∧
    (unhandledClient.nodes 0).state = STATE_RUNNING ∧
    (unhandledClient.nodes 0).isPrincipallyClient = true ∧
    (unhandledClient.nodes 0).oChunkHandler = none ∧
    ((Output 0 6 unhandledClient).nodes 0).oQueue =
      some { queue := some [5, 6], chunkHandler := some (Handler.custom 7), wg := 2 } ∧
    (((runOps 1 [Op.worker 0 true, Op.worker 0 true] (Output 0 6 unhandledClient)).getD
      unhandledClient).handled = [(7, 5), (7, 6)]) :=
  ⟨rfl, rfl, rfl, rfl, rfl, rfl, rfl, rfl, rfl, rfl⟩

/-- C12, amended: on a Running node without output queue, `Output(chunk)`
returns the world it was given if the node is client-only without output
handler, whatever its clients; otherwise it installs the fan-out handler if no
handler is set, creates the output queue bound to the node's handler and
enqueues the chunk.  On a Running node with an output queue it enqueues the chunk
on that queue and changes nothing else. -/
theorem C12_output_on_running_node (n : Nat) (chunk : Chunk) (w : World)
    (hr : (w.nodes n).state = STATE_RUNNING) :
    ((w.nodes n).oQueue = none → (w.nodes n).isPrincipallyClient = true →
      (w.nodes n).oChunkHandler = none → Output n chunk w = w) ∧
    ((w.nodes n).oQueue = none →
      (w.nodes n).isPrincipallyClient = false ∨ (w.nodes n).oChunkHandler ≠ none →
      Output n chunk w = w.set n
        ((w.nodes n).firstOutput ((w.nodes n).oChunkHandler.getD (Handler.fanout n)) chunk)) ∧
    (∀ q, (w.nodes n).oQueue = some q →
      Output n chunk w = w.set n { w.nodes n with oQueue := some (q.Put chunk) }) := by
  have hrun : (w.nodes n).IsRunning = true := by simp [Node.IsRunning, hr]
  refine ⟨fun hq hpc hh => ?_, fun hq hc => ?_, fun q hq => ?_⟩
  · unfold Output
    simp [hrun, hq, hpc, hh, World.set_self]
  · unfold Output
    cases hh : (w.nodes n).oChunkHandler with
    | none =>
      have hpc : (w.nodes n).isPrincipallyClient = false := by
        rcases hc with h | h
        · exact h
        · exact absurd hh h
      simp [hrun, hq, hpc, hh, QueueProcessor.Put, Node.firstOutput]
    | some h => simp [hrun, hq, hh, QueueProcessor.Put, Node.firstOutput]
  · unfold Output
    simp [hrun, hq]

/-- C12, amended, at node 0 of started fresh test server nodes: `Output(5)`
installs the fan-out handler and creates the output queue holding chunk 5. -/
theorem C12_output_on_running_node_witness :
    ((Start 0 freshServers).nodes 0).state = STATE_RUNNING ∧
    ((Output 0 5 (Start 0 freshServers)).nodes 0).oChunkHandler = some (Handler.fanout 0) ∧
    ((Output 0 5 (Start 0 freshServers)).nodes 0).oQueue =
      some { queue := some [5], wg := 1, chunkHandler := some (Handler.fanout 0) } ∧
    (((Start 0 freshServers).nodes 0).oQueue = none →
      ((Start 0 freshServers).nodes 0).isPrincipallyClient = false ∨
        ((Start 0 freshServers).nodes 0).oChunkHandler ≠ none →
      Output 0 5 (Start 0 freshServers) = (Start 0 freshServers).set 0
        (((Start 0 freshServers).nodes 0).firstOutput
          (((Start 0 freshServers).nodes 0).oChunkHandler.getD (Handler.fanout 0)) 5)) :=
  ⟨rfl, rfl, rfl, (C12_output_on_running_node 0 5 (Start 0 freshServers) rfl).2.1⟩

/-- C13, as stated, fails while a bulk detach is in progress: in the world in
which `removeAllClients` of node 0, whose clients are 1 and 2, has set its flag
and locked the mutex, `RemoveClient(0, 1)` returns the world it was given, and
node 1 is still the first entry of the list of clients of node 0. -/
theorem C13_removeClient_during_bulk_detach :
    (bulkDetaching.nodes 0).Clients = [1, 2] ∧
    (bulkDetaching.nodes 0).removeAllClientsInProgress = true ∧
    exec 5 (Call.RemoveClient 0 1) bulkDetaching = Res.ok bulkDetaching ∧
    (((exec 5 (Call.RemoveClient 0 1) bulkDetaching).getD bulkDetaching).nodes 0).Clients =
      [1, 2] :=
  ⟨rfl, rfl, rfl, rfl⟩

/-- C13, amended: `n.RemoveClient(c)` for a node `c` that is not in the list of
clients of `n` leaves the whole world as it was (every node record, no event),
also when the call blocks, and returns when the mutex of `n` is free.  While a
bulk detach of `n` is in progress (`removeAllClientsInProgress` set) the call
returns the world it was given, whether `c` is in the list or not.  Outside a
bulk detach, a call made while the mutex of `n` is held blocks in `Lock` with
the world as it was.  For `c` in the list, outside a bulk detach and with the
mutex free, the list of clients of `n` is the old list without the first
occurrence of `c`, the others in their order, from the removal on and when the
call returns. -/
theorem C13_removeClient_of_absent_and_present_client (fuel n c : Nat) (w : World) :
    (c ∉ (w.nodes n).Clients →
      (exec fuel (Call.RemoveClient n c) w).All (fun w2 => w2 = w) ∧
      ((w.nodes n).clientAddRemoveMutex = false →
        exec (fuel + 1) (Call.RemoveClient n c) w = Res.ok w)) ∧
    ((w.nodes n).removeAllClientsInProgress = true →
      exec (fuel + 1) (Call.RemoveClient n c) w = Res.ok w) ∧
    ((w.nodes n).removeAllClientsInProgress = false →
      (w.nodes n).clientAddRemoveMutex = true →
      exec (fuel + 1) (Call.RemoveClient n c) w = Res.deadlock n w) ∧
    (c ∈ (w.nodes n).Clients → (w.nodes n).removeAllClientsInProgress = false →
      (w.nodes n).clientAddRemoveMutex = false →
      (exec fuel (Call.RemoveClient n c) w).All
        (fun w2 => (w2.nodes n).Clients = (w.nodes n).Clients.erase c)) := by
  refine ⟨?_, fun hfl => by simp [exec, hfl], fun hfl hmx => by simp [exec, lock, hfl, hmx], ?_⟩
  · intro hc
    have hidx : ¬ List.indexOf c (w.nodes n).Clients < (w.nodes n).Clients.length :=
      fun h => hc (List.indexOf_lt_length.1 h)
    constructor
    · cases fuel with
      | zero => simp [exec, Res.All]
      | succ k =>
        simp only [exec, lock]
        split
        · split
          · rfl
          · rename_i hmx
            simp only [World.modify_nodes, if_true, hidx, if_false]
            exact unlock_lock (by simpa using hmx)
        · rfl
    · intro hmx
      simp only [exec, lock, hmx, Bool.false_eq_true, if_false, World.modify_nodes, if_true, hidx]
      split
      · rw [unlock_lock hmx]
      · rfl
  · intro hc hfl hmx
    have hidx : List.indexOf c (w.nodes n).Clients < (w.nodes n).Clients.length :=
      List.indexOf_lt_length.2 hc
    cases fuel with
    | zero => simp [exec, Res.All]
    | succ k =>
      simp only [exec, lock, hfl, hmx, Bool.not_false, Bool.false_eq_true, if_false, if_true,
        World.modify_nodes, hidx]
      have hB : ∀ w3, Held ((w.modify n (fun d => { d with clientAddRemoveMutex := true })).modify n
          (fun d => { d with Clients :=
            d.Clients.eraseIdx (List.indexOf c (w.nodes n).Clients) })) w3 →
          (w3.nodes n).Clients = (w.nodes n).Clients.erase c ∧
            (w3.nodes n).clientAddRemoveMutex = true := by
        intro w3 h3
        have := h3 n (by simp)
        simpa [List.eraseIdx_indexOf_eq_erase] using this
      refine Res.All.bind (P := fun w3 => (w3.nodes n).Clients = (w.nodes n).Clients.erase c ∧
          (w3.nodes n).clientAddRemoveMutex = true) ?_ (fun _ h => h.1) ?_
      · exact (exec_held k (Call.setServer c none) _ trivial).mono hB
      · intro w3 h3
        refine Res.All.bind (P := fun w4 => (w4.nodes n).Clients = (w.nodes n).Clients.erase c)
          ?_ (fun _ h => h) ?_
        · split
          · refine (exec_held k (Call.Stop n) w3 trivial).mono (fun w4 h4 => ?_)
            rw [(h4 n h3.2).1]
            exact h3.1
          · exact h3.1
        · intro w4 h4
          simpa [Res.All] using h4

/-- C13, amended, at node 0 with the clients 1 and 2: `RemoveClient(3)` returns
the world it was given, and `RemoveClient(1)` returns and leaves the list `[2]`;
during a bulk detach of node 0 `RemoveClient(1)` returns the world it was given;
and with the mutex of node 0 held it blocks. -/
theorem C13_removeClient_of_absent_and_present_client_witness :
    (twoClients.nodes 0).Clients = [1, 2] ∧
    exec 6 (Call.RemoveClient 0 3) twoClients = Res.ok twoClients ∧
    (exec 5 (Call.RemoveClient 0 1) twoClients).returns = true ∧
    (exec 5 (Call.RemoveClient 0 1) twoClients).All
      (fun w2 => (w2.nodes 0).Clients = (twoClients.nodes 0).Clients.erase 1) ∧
    exec 6 (Call.RemoveClient 0 1) bulkDetaching = Res.ok bulkDetaching ∧
    exec 6 (Call.RemoveClient 0 1) lockedTwoClients = Res.deadlock 0 lockedTwoClients :=
  ⟨rfl,
    ((C13_removeClient_of_absent_and_present_client 5 0 3 twoClients).1 (by decide)).2 rfl,
    rfl,
    (C13_removeClient_of_absent_and_present_client 5 0 1 twoClients).2.2.2 (by decide) rfl rfl,
    (C13_removeClient_of_absent_and_present_client 5 0 1 bulkDetaching).2.1 rfl,
    (C13_removeClient_of_absent_and_present_client 5 0 1 lockedTwoClients).2.2.1 rfl rfl⟩

/-- C14: `Start` on a Stopped node ends with the node Running and triggers one
event, "start", after the state became Running.  `Stop` on a Running node, when
it returns, has left the node Stopped and triggered "stop" for that node once,
as the last event and after the state became Stopped; the other events of the
call are "stop" events of other nodes.  There are no event names but "start"
and "stop".  On a Stopped node without task, clients, server and queues,
`Start` followed by `Stop` returns with the node Stopped, and `IsRunning` is
true exactly between the two calls. -/
theorem C14_start_and_stop_events (fuel n : Nat) (w : World) :
    ((w.nodes n).state = STATE_STOPPED →
      ((Start n w).nodes n).state = STATE_RUNNING ∧
      ∃ w3, Start n w = Trigger n Event.start w3 ∧ (w3.nodes n).state = STATE_RUNNING ∧
        w3.events = w.events) ∧
    ((w.nodes n).state = STATE_RUNNING → ∀ w2, exec fuel (Call.Stop n) w = Res.ok w2 →
      (w2.nodes n).state = STATE_STOPPED ∧
      ∃ w5 l, w2 = Trigger n Event.stop w5 ∧ (w5.nodes n).state = STATE_STOPPED ∧
        w5.events = w.events ++ l ∧ ∀ e ∈ l, e.2 = Event.stop ∧ e.1 ≠ n) ∧
    (∀ e : Event, e = Event.start ∨ e = Event.stop) ∧
    ((w.nodes n).state = STATE_STOPPED → (w.nodes n).task = false → (w.nodes n).Clients = [] →
      (w.nodes n).server = none → (w.nodes n).iQueue = none → (w.nodes n).oQueue = none →
      ∃ w2, exec (fuel + 2) (Call.Stop n) (Start n w) = Res.ok w2 ∧
        (w2.nodes n).state = STATE_STOPPED ∧
        w2.events = w.events ++ [(n, Event.start), (n, Event.stop)] ∧
        (w.nodes n).IsRunning = false ∧ ((Start n w).nodes n).IsRunning = true ∧
        (w2.nodes n).IsRunning = false) := by
  refine ⟨fun hs => ?_, fun hr w2 h2 => ?_, fun e => by cases e <;> simp, ?_⟩
  · have hst : (w.nodes n).isStopped = true := by simp [Node.isStopped, hs]
    unfold Start
    simp only [hst, if_true]
    refine ⟨by simp, _, rfl, by simp, ?_⟩
    split <;> simp
  · obtain ⟨w5, l, e1, e2, e3, e4⟩ := stop_events hr h2
    refine ⟨?_, w5, l, e1, e2, e3, e4⟩
    rw [e1]
    exact e2
  · intro hs ht hc hsv hi ho
    have hst : (w.nodes n).isStopped = true := by simp [Node.isStopped, hs]
    have hnr : (w.nodes n).IsRunning = false := by simp [Node.IsRunning, hs, STATE_STOPPED, STATE_RUNNING]
    have hS : Start n w = Trigger n Event.start (store n STATE_RUNNING (store n STATE_STARTING w)) := by
      unfold Start
      simp [hst, ht]
    rw [hS]
    simp only [exec, Trigger_nodes, store_nodes, if_true, Node.IsRunning, beq_self_eq_true, ht,
      Bool.false_eq_true, if_false, Res.bind_ok, flushQueues, World.modify_nodes, hi, ho, hc,
      List.foldl_nil, List.length_nil, lt_self_iff_false, hsv]
    refine ⟨_, rfl, by simp, by simp, ?_, trivial, by simp [STATE_STOPPED, STATE_RUNNING]⟩
    simpa [Node.IsRunning] using hnr

/-- C14, at node 0 of fresh test client nodes (no task): `Start` then `Stop`
returns with node 0 Stopped, and the events are "start" and "stop" of node 0. -/
theorem C14_start_and_stop_events_witness :
    (freshClients.nodes 0).state = STATE_STOPPED ∧
    ((Start 0 freshClients).nodes 0).state = STATE_RUNNING ∧
    (Start 0 freshClients).events = [(0, Event.start)] ∧
    ∃ w2, exec 2 (Call.Stop 0) (Start 0 freshClients) = Res.ok w2 ∧
      (w2.nodes 0).state = STATE_STOPPED ∧
      w2.events = freshClients.events ++ [(0, Event.start), (0, Event.stop)] ∧
      (freshClients.nodes 0).IsRunning = false ∧
      ((Start 0 freshClients).nodes 0).IsRunning = true ∧ (w2.nodes 0).IsRunning = false :=
  ⟨rfl, rfl, rfl,
    (C14_start_and_stop_events 0 0 freshClients).2.2.2 rfl rfl rfl rfl rfl rfl⟩

/-- C15: in every run of node operations (`Start`, `Stop`, `AddClient`,
`RemoveClient`, `input`, `Output`, and the steps of the queue workers) from
nodes without queues, as `NewNode` makes them, after the run has returned every
node that is Stopped has neither input nor output queue. -/
theorem C15_stopped_node_has_no_queues (fuel : Nat) (ops : List Op) (w w2 : World)
    (hq : ∀ m, (w.nodes m).iQueue = none ∧ (w.nodes m).oQueue = none)
    (h : runOps fuel ops w = Res.ok w2) :
    ∀ m, (w2.nodes m).state = STATE_STOPPED →
      (w2.nodes m).iQueue = none ∧ (w2.nodes m).oQueue = none := by
  have h0 : Flushed (fun _ _ => False) w := by
    intro m o _ _
    cases o
    · exact (hq m).1
    · exact (hq m).2
  have h2 := runOps_flushed fuel ops w h0 w2 h
  intro m hm
  exact ⟨h2 m false (fun hf => hf) (Or.inl hm), h2 m true (fun hf => hf) (Or.inl hm)⟩

/-- C15, at the run `AddClient(0, 1); Output(0, 5); Stop(0)` on fresh test
server nodes: `Output` creates the output queue of node 0, the run returns with
node 0 Stopped, and no Stopped node has a queue. -/
theorem C15_stopped_node_has_no_queues_witness :
    (((runOps 6 [Op.AddClient 0 1, Op.Output 0 5] freshServers).getD freshServers).nodes 0).oQueue
      ≠ none ∧
    (((runOps 6 [Op.AddClient 0 1, Op.Output 0 5, Op.Stop 0] freshServers).getD
      freshServers).nodes 0).state = STATE_STOPPED ∧
    ∀ m, (((runOps 6 [Op.AddClient 0 1, Op.Output 0 5, Op.Stop 0] freshServers).getD
        freshServers).nodes m).state = STATE_STOPPED →
      (((runOps 6 [Op.AddClient 0 1, Op.Output 0 5, Op.Stop 0] freshServers).getD
        freshServers).nodes m).iQueue = none ∧
      (((runOps 6 [Op.AddClient 0 1, Op.Output 0 5, Op.Stop 0] freshServers).getD
        freshServers).nodes m).oQueue = none :=
  ⟨by decide, rfl, C15_stopped_node_has_no_queues 6
    [Op.AddClient 0 1, Op.Output 0 5, Op.Stop 0] freshServers _ (fun _ => ⟨rfl, rfl⟩) rfl⟩

/-- C16 fails: for every handler and chunks `x`, `y` the interleaving
`qpStrandSchedule` of `Put x; Put y; Wait` with the worker ends in a state in
which `y` waits in the buffer unhandled, no worker exists and none is spawned,
the caller is blocked in `Wait`, and no thread can take a step. -/
theorem C16_put_while_worker_leaves_is_stranded (h : Handler) (x y : Chunk) :
    qpRun qpStrandSchedule (qpInit h [x, y]) = some (qpStranded h x y) ∧
    (qpStranded h x y).q.queue = some [y] ∧ (qpStranded h x y).handled = [x] ∧
    (qpStranded h x y).q.wg = 1 ∧ (qpStranded h x y).m = none ∧
    (qpStranded h x y).spawned = 0 ∧ (qpStranded h x y).main = MainPC.waiting ∧
    (∀ a, qpStep a (qpStranded h x y) = none) ∧
    (∀ sched, sched ≠ [] → qpRun sched (qpStranded h x y) = none) := by
  have hstep : ∀ a, qpStep a (qpStranded h x y) = none := by
    intro a
    cases a <;> rfl
  refine ⟨rfl, rfl, rfl, rfl, rfl, rfl, rfl, hstep, fun sched hs => ?_⟩
  cases sched with
  | nil => exact absurd rfl hs
  | cons a t =>
    simp only [qpRun, List.foldl_cons, Option.some_bind, hstep]
    induction t with
    | nil => rfl
    | cons b u ih => simpa using ih

/-- C17, as stated, fails for clients the child already had: node 0 holds the
context 7; after `AddClient(1, 2)` and then `AddClient(0, 1)` node 1 holds it,
node 2, a client of node 1, holds none. -/
theorem C17_context_not_passed_to_grandchildren :
    (ctxRoot.nodes 0).Ctx = some 7 ∧
    (runOps 3 [Op.AddClient 1 2, Op.AddClient 0 1] ctxRoot).returns = true ∧
    (((runOps 3 [Op.AddClient 1 2, Op.AddClient 0 1] ctxRoot).getD ctxRoot).nodes 1).Ctx
      = some 7 ∧
    (((runOps 3 [Op.AddClient 1 2, Op.AddClient 0 1] ctxRoot).getD ctxRoot).nodes 1).Clients
      = [2] ∧
    (((runOps 3 [Op.AddClient 1 2, Op.AddClient 0 1] ctxRoot).getD ctxRoot).nodes 2).server
      = some 1 ∧
    (((runOps 3 [Op.AddClient 1 2, Op.AddClient 0 1] ctxRoot).getD ctxRoot).nodes 2).Ctx
      = none :=
  ⟨rfl, rfl, rfl, rfl, rfl, rfl⟩

/-- C17, amended: when `A.AddClient(B)` returns, `B` holds the context of `A`
if `A` holds one and its own context otherwise, and every other node, the
clients of `B` included, holds the context it held before. -/
theorem C17_addClient_passes_context_to_child (fuel a b : Nat) (w w2 : World)
    (h : exec fuel (Call.AddClient a b) w = Res.ok w2) :
    (∀ ctx, (w.nodes a).Ctx = some ctx → (w2.nodes b).Ctx = some ctx) ∧
    ((w.nodes a).Ctx = none → (w2.nodes b).Ctx = (w.nodes b).Ctx) ∧
    (∀ m, m ≠ b → (w2.nodes m).Ctx = (w.nodes m).Ctx) := by
  refine ⟨fun ctx hctx => ?_, fun hctx => ?_, fun m hm => ?_⟩
  · rw [addClient_ctx h b, hctx]
    simp
  · rw [addClient_ctx h b, hctx]
    simp
  · rw [addClient_ctx h m]
    simp [hm]

/-- C17, amended, at `AddClient(0, 1)` on `ctxRoot`: the call returns and node
1 holds the context 7 of node 0. -/
theorem C17_addClient_passes_context_to_child_witness :
    (ctxRoot.nodes 0).Ctx = some 7 ∧
    (((exec 3 (Call.AddClient 0 1) ctxRoot).getD ctxRoot).nodes 1).Ctx = some 7 ∧
    (∀ m, m ≠ 1 → (((exec 3 (Call.AddClient 0 1) ctxRoot).getD ctxRoot).nodes m).Ctx =
      (ctxRoot.nodes m).Ctx) :=
  ⟨rfl, (C17_addClient_passes_context_to_child 3 0 1 ctxRoot _ rfl).1 7 rfl,
    (C17_addClient_passes_context_to_child 3 0 1 ctxRoot _ rfl).2.2⟩

/-- C9, as stated, fails when the output handler of `C` was set after its
output queue had been made: in `staleChain` the nodes 0 → 1 → 2 are Running, 0
and 1 server-like with the handlers the code installs by default, 2 client-only
with the caller's output handler 3, and no chunk waits in any queue.  Pushing 7
and then 8 into `input` of node 0 and letting each travel down the chain drains
all queues, yet the handler 3 is never invoked: the invocations recorded after
`(0, 5)` are those of the handler 0, to which the output queue of node 2 was
bound when the chunk 5 came through. -/
theorem C9_handler_set_after_first_chunk :
    (staleChain.nodes 0).state = STATE_RUNNING ∧ (staleChain.nodes 1).state = STATE_RUNNING ∧
    (staleChain.nodes 2).state = STATE_RUNNING ∧
    (staleChain.nodes 0).Clients = [1] ∧ (staleChain.nodes 1).Clients = [2] ∧
    (staleChain.nodes 0).isPrincipallyClient = false ∧
    (staleChain.nodes 1).isPrincipallyClient = false ∧
    (staleChain.nodes 2).isPrincipallyClient = true ∧
    (staleChain.nodes 0).iChunkHandler = some (Handler.output 0) ∧
    (staleChain.nodes 0).oChunkHandler = some (Handler.fanout 0) ∧
    (staleChain.nodes 1).iChunkHandler = some (Handler.output 1) ∧
    (staleChain.nodes 1).oChunkHandler = some (Handler.fanout 1) ∧
    (staleChain.nodes 2).iChunkHandler = some (Handler.output 2) ∧
    (staleChain.nodes 2).oChunkHandler = some (Handler.custom 3) ∧
    Quiet staleChain ∧
    (∀ op ∈ eagerFeed 0 1 2 false [7, 8], op.feeds 0 false) ∧
    (eagerFeed 0 1 2 false [7, 8]).filterMap Op.pushed = [7, 8] ∧
    (runOps 0 (eagerFeed 0 1 2 false [7, 8]) staleChain).returns = true ∧
    Quiet ((runOps 0 (eagerFeed 0 1 2 false [7, 8]) staleChain).getD staleChain) ∧
    staleChain.handled = [(0, 5)] ∧
    ((runOps 0 (eagerFeed 0 1 2 false [7, 8]) staleChain).getD staleChain).handled =
      [(0, 5), (0, 7), (0, 8)] :=
  ⟨rfl, rfl, rfl, rfl, rfl, rfl, rfl, rfl, rfl, rfl, rfl, rfl, rfl, rfl, staleChain_quiet,
    eagerFeed_feeds 0 1 2 false [7, 8], rfl, rfl, staleChain_fed_quiet, rfl, rfl⟩

/-- C9, amended: let `s` → `s2` → `c` be a chain of three distinct Running
nodes, `s2` the only client of `s` and `c` the only client of `s2`, `s` and `s2`
server-like with default handlers, `c` client-only with default input handler
and the caller's output handler `h`; let every queue that exists on the three
be bound to the present handler of its side of its node (`Pipe`: no handler was
set after the queue was made), and let no chunk wait in any queue.  In every
run that pushes chunks into `input` of `s` (or all of them into `Output` of
`s`) while the queue workers take steps in any order, once all queues are
drained the handler `h` has been invoked on exactly the chunks pushed, each
once and in the order pushed, and no other handler of the caller was invoked.
For every list of chunks there is such a run that ends with all queues drained. -/
theorem C9_chain_delivers_chunks_in_order (s s2 c h : Nat) (b : Bool) (w0 : World)
    (hp : Pipe s s2 c h {} w0) (fuel : Nat) :
    (∀ ops, (∀ op ∈ ops, op.feeds s b) →
      ∃ w, runOps fuel ops w0 = Res.ok w ∧
        (Quiet w →
          w.handled = w0.handled ++ (ops.filterMap Op.pushed).map (fun x => (h, x)))) ∧
    (∀ xs, (∀ op ∈ eagerFeed s s2 c b xs, op.feeds s b) ∧
      (eagerFeed s s2 c b xs).filterMap Op.pushed = xs ∧
      ∃ w, runOps fuel (eagerFeed s s2 c b xs) w0 = Res.ok w ∧ Quiet w ∧
        w.handled = w0.handled ++ xs.map (fun x => (h, x))) := by
  constructor
  · intro ops hops
    obtain ⟨w, e, p, hh⟩ := Pipe.run b fuel ops {} w0 hp hops
    refine ⟨w, e, fun hq => ?_⟩
    have h1 := InFlight.run_all s s2 c b ops {} hops (fun _ => rfl)
    rw [p.all_nil hq] at h1
    rw [hh]
    simp only [List.append_nil] at h1
    rw [h1]
    simp [InFlight.all]
  · intro xs
    refine ⟨eagerFeed_feeds s s2 c b xs, eagerFeed_pushed s s2 c b xs, ?_⟩
    obtain ⟨w, e, p, hh⟩ := Pipe.run b fuel (eagerFeed s s2 c b xs) {} w0 hp
      (eagerFeed_feeds s s2 c b xs)
    rw [eagerFeed_run s s2 c b hp.1 hp.2.1 hp.2.2.1] at p hh
    exact ⟨w, e, p.quiet rfl, hh⟩

/-- C9, amended, at the chain of `Test3LevelChunkPassFromServerToClient`: pushing 7 and
then 8 into `input` of node 0 and letting each travel down the chain ends with
all queues drained and the handler invoked on 7, then on 8; and with the one
chunk 7 the handler is invoked once. -/
theorem C9_chain_delivers_chunks_in_order_witness :
    Pipe 0 1 2 0 {} pipeChain ∧
    (∃ w, runOps 0 (eagerFeed 0 1 2 false [7, 8]) pipeChain = Res.ok w ∧ Quiet w ∧
      w.handled = pipeChain.handled ++ [(0, 7), (0, 8)]) ∧
    ((runOps 0 (eagerFeed 0 1 2 false [7]) pipeChain).getD pipeChain).handled = [(0, 7)] :=
  ⟨pipeChain_pipe,
    ((C9_chain_delivers_chunks_in_order 0 1 2 0 false pipeChain pipeChain_pipe 0).2 [7, 8]).2.2,
    rfl⟩

/-- C18, as stated, fails when a node that has a server is attached again: on
fresh test server nodes, after `AddClient(0, 1); AddClient(0, 1)` node 0 lists
node 1 twice, and after `AddClient(0, 2); AddClient(1, 2)` node 0 lists node 2,
whose server is node 1. -/
theorem C18_attaching_an_attached_node :
    Fresh freshServers ∧
    (runOps 3 [Op.AddClient 0 1, Op.AddClient 0 1] freshServers).returns = true ∧
    (((runOps 3 [Op.AddClient 0 1, Op.AddClient 0 1] freshServers).getD freshServers).nodes
      0).Clients = [1, 1] ∧
    (runOps 3 [Op.AddClient 0 2, Op.AddClient 1 2] freshServers).returns = true ∧
    (((runOps 3 [Op.AddClient 0 2, Op.AddClient 1 2] freshServers).getD freshServers).nodes
      0).Clients = [2] ∧
    (((runOps 3 [Op.AddClient 0 2, Op.AddClient 1 2] freshServers).getD freshServers).nodes
      2).server = some 1 :=
  ⟨freshServers_fresh, rfl, rfl, rfl, rfl, rfl⟩

/-- C18, amended: in every run from fresh nodes in which `AddClient(n, c)` is
called only when `c` has no server, after the run has returned a node `c` is in
the list of clients of `p` exactly when the server of `c` is `p`, and no list of
clients holds a node twice. -/
theorem C18_clients_and_servers_agree (fuel : Nat) (ops : List Op) (w w2 : World)
    (hf : Fresh w) (ha : AttachesDetached fuel ops w) (h : runOps fuel ops w = Res.ok w2) :
    (∀ p c, c ∈ (w2.nodes p).Clients ↔ (w2.nodes c).server = some p) ∧
    (∀ p, (w2.nodes p).Clients.Nodup) := by
  obtain ⟨hA, _, _⟩ := runOps_atRest fuel ops w hf.atRest.1 w2 h
  obtain ⟨hL, hN⟩ := runOps_listed fuel ops w hf.listed ha w2 h
  exact ⟨fun p c => ⟨hL p c, hA.2.1 c p⟩, hN⟩

/-- C18, amended, at the run `AddClient(0, 1); AddClient(1, 2);
RemoveClient(1, 2); AddClient(0, 2)` on fresh test server nodes, which attaches
node 2 a second time after it was detached: the run returns, node 0 lists node
2 only, and lists and server references agree. -/
theorem C18_clients_and_servers_agree_witness :
    (((runOps 8 [Op.AddClient 0 1, Op.AddClient 1 2, Op.RemoveClient 1 2, Op.AddClient 0 2]
      freshServers).getD freshServers).nodes 0).Clients = [2] ∧
    (∀ p c, c ∈ (((runOps 8
          [Op.AddClient 0 1, Op.AddClient 1 2, Op.RemoveClient 1 2, Op.AddClient 0 2]
          freshServers).getD freshServers).nodes p).Clients ↔
        (((runOps 8 [Op.AddClient 0 1, Op.AddClient 1 2, Op.RemoveClient 1 2, Op.AddClient 0 2]
          freshServers).getD freshServers).nodes c).server = some p) ∧
    (∀ p, (((runOps 8 [Op.AddClient 0 1, Op.AddClient 1 2, Op.RemoveClient 1 2, Op.AddClient 0 2]
      freshServers).getD freshServers).nodes p).Clients.Nodup) :=
  ⟨rfl, C18_clients_and_servers_agree 8
    [Op.AddClient 0 1, Op.AddClient 1 2, Op.RemoveClient 1 2, Op.AddClient 0 2] freshServers _
    freshServers_fresh reattachRun_attaches rfl⟩

end SCH
